import Mathlib

/-!
# A shallow embedding of the `data` storage engine

This file embeds the core of the `data` crate (a single-file, page-based
B+-tree-like key value store) into Lean, and settles the frozen claims about
it.  The embedding follows `src/data/src` function by function:

* `src/data/src/database.rs`   : `Database`, the block allocator and header.
* `src/data/src/page/leaf_page.rs` : `LeafPage`, the slotted leaf pages.
* `src/data/src/page/internal_page.rs` : `InternalPage`.
* `src/data/src/page/btree.rs` : `BTree` insert / lookup / delete / keys.
* `src/data/src/tree.rs`       : the nested `TreeEntry` API.

Machine integers (`u64`, `u128`) are modelled as `Nat`; the operations of the
engine only compare keys and add or subtract offsets inside a page, and the
places where a Rust `u64` subtraction could underflow are the exact places the
claims talk about, so those spots are noted explicitly.  Byte strings are
`List Nat`.  The disk is modelled at page granularity: a store mapping a page
offset to the parsed page content plus, for leaf pages, the raw byte region of
the page (the blob area) as a function.  In-memory page structs are separate
from the store, exactly as in the source: a mutation is visible on the store
only once the corresponding `persist` runs, and blob writes go straight to the
store as `disk.write_all` does.

Rust panics (failed `assert!`, `unwrap`, out-of-bounds indexing, `unreachable!`)
are modelled as errors of an `Except` monad, and the recursions of the source
that are not structurally terminating (`upsert_value` / `defragment`, and the
tree walks, which recurse through disk offsets) take an explicit fuel
parameter; running out of fuel is its own error value, distinct from a failed
assertion, which matters for the claims about the capacity assertion.
-/

namespace TreeData

/-- Failure modes of the engine: a failed `assert!`, any other panic
(`unwrap`, `unreachable!`, out-of-bounds indexing), an I/O failure, and
exhaustion of the fuel that models non-structural recursion. -/
inductive EngineErr where
  | assertFail : EngineErr
  | panicked : EngineErr
  | ioErr : EngineErr
  | outOfFuel : EngineErr
  deriving DecidableEq, Repr

/-- Result type of every fallible engine operation. -/
abbrev ER (α : Type) : Type := Except EngineErr α

instance {ε α : Type} [DecidableEq ε] [DecidableEq α] : DecidableEq (Except ε α) := fun a b =>
  match a, b with
  | .ok x, .ok y =>
    if h : x = y then .isTrue (by rw [h]) else .isFalse (by simp [h])
  | .error x, .error y =>
    if h : x = y then .isTrue (by rw [h]) else .isFalse (by simp [h])
  | .ok _, .error _ => .isFalse (by simp)
  | .error _, .ok _ => .isFalse (by simp)

/-- A byte region of the disk, addressed relative to its page base, as a
sparse map from position to byte; a position never written reads as 0,
matching the zero-filled buffer a fresh leaf page writes to its block.
The map is first-order data (rather than a function) so that disk states
are printable, decidable values. -/
abbrev Blob : Type := List (Nat × Nat)

/-- Read one byte. -/
def readByte (f : Blob) (i : Nat) : Nat :=
  match f.find? (fun e => e.1 = i) with
  | some e => e.2
  | none => 0

/-- Write one byte (later writes shadow earlier ones). -/
def setByte (f : Blob) (i v : Nat) : Blob := (i, v) :: f

/-- `disk.write_all(data)` starting at position `i` (page relative). -/
def writeBytes : Blob → Nat → List Nat → Blob
  | f, _, [] => f
  | f, i, b :: bs => writeBytes (setByte f i b) (i + 1) bs

/-- Read `n` bytes starting at position `i` (page relative). -/
def readBytes (f : Blob) (i n : Nat) : List Nat :=
  (List.range n).map fun j => readByte f (i + j)

/-- A slot of the leaf directory: `src/data/src/page/leaf_page.rs`,
`LeafPageEntry { key, offset, value_len }`. `offset` is measured from the
page base. -/
structure LeafPageEntry where
  key : Nat
  offset : Nat
  value_len : Nat
  deriving DecidableEq, Repr

/-- `LeafPageEntry::size_of_entry()`: 16 (key) + 8 + 8 bytes. -/
def LeafPageEntry.size_of_entry : Nat := 32

/-- The parsed content of one on-disk page.  A leaf page carries its slot
directory as persisted plus the raw bytes of the page (the blob region);
an internal page carries its keys and child pointers. -/
inductive PageData where
  | leafData (entries : List LeafPageEntry) (blob : Blob) : PageData
  | internalData (keys : List Nat) (pointers : List Nat) : PageData
  deriving DecidableEq, Repr

/-- The disk, at page granularity: page base offset to page content, again
as a first-order sparse map. -/
abbrev Store : Type := List (Nat × PageData)

/-- Read the page at an offset. -/
def Store.get (s : Store) (off : Nat) : Option PageData :=
  match s.find? (fun e => e.1 = off) with
  | some e => some e.2
  | none => none

/-- Update the store at one page offset. -/
def Store.put (s : Store) (off : Nat) (p : PageData) : Store := (off, p) :: s

/-- The file header of `src/data/src/database.rs`: `DatabaseMeta`. -/
structure DatabaseMeta where
  block_size_exp : Nat
  num_blocks_allocated : Nat
  root_btree_offset : Nat
  deriving DecidableEq, Repr

/-- `DatabaseMeta::block_size`. -/
def DatabaseMeta.block_size (m : DatabaseMeta) : Nat := 2 ^ m.block_size_exp

/-- `Database<D>`: the disk plus the in-memory header.  `DatabaseMeta::persist`
writes the three header words at offset 0; in this page-level model the
header is kept structurally, so persisting it is the identity and reopening
the file (`Database::from_existing`) reads back exactly `meta`. -/
structure DB where
  store : Store
  meta : DatabaseMeta
  deriving DecidableEq, Repr

/-- `Database::block_size`. -/
def DB.block_size (db : DB) : Nat := db.meta.block_size

/-- `Database::initialize`: block size exponent 13, one block allocated (the
header block), no root tree yet. -/
def DB.initDb : DB :=
  { store := []
    meta := { block_size_exp := 13, num_blocks_allocated := 1, root_btree_offset := 0 } }

/-- `Database::from_existing` on a disk whose header holds `m` and whose pages
form `s`: the header is read back verbatim. -/
def DB.fromExisting (s : Store) (m : DatabaseMeta) : DB := { store := s, meta := m }

/-- `BlockAllocator::allocate_block` for `Database`: hands out
`block_size * num_blocks_allocated` and bumps the counter (the header persist
is structural). -/
def DB.allocate_block (db : DB) : Nat × DB :=
  (db.block_size * db.meta.num_blocks_allocated,
    { db with meta := { db.meta with
        num_blocks_allocated := db.meta.num_blocks_allocated + 1 } })

/-! ## Leaf pages (`src/data/src/page/leaf_page.rs`) -/

/-- The in-memory `LeafPage` struct: its page offset and the slot directory. -/
structure LeafPage where
  offset : Nat
  keys : List LeafPageEntry
  deriving DecidableEq, Repr

/-- `LeafPage::header_len`: directory plus the tag byte and the length word. -/
def LeafPage.header_len (p : LeafPage) : Nat :=
  LeafPageEntry.size_of_entry * p.keys.length + 8 + 1

/-- Sum of `value_len` over the slot directory
(`self.keys.iter().map(|entry| entry.value_len).sum()`). -/
def entriesValueSum (l : List LeafPageEntry) : Nat :=
  (l.map (·.value_len)).sum

/-- `LeafPage::can_accommodate`.  An empty page accommodates anything.  The
`u64` subtractions of the source are `Nat` subtractions here; on the states
the engine actually reaches they do not underflow (see the capacity claims). -/
def LeafPage.can_accommodate (p : LeafPage) (data_len page_size : Nat) : Bool :=
  if p.keys.isEmpty then true
  else
    let space_taken_up := entriesValueSum p.keys
    let space_in_page_for_data := page_size - p.header_len
    let space_available := space_in_page_for_data - space_taken_up
    decide (space_available ≥ data_len + LeafPageEntry.size_of_entry)

/-- Minimum of the slot data offsets, `None` on an empty directory
(`self.keys.iter().map(|entry| entry.offset).min()`). -/
def minEntryOffset : List LeafPageEntry → Option Nat
  | [] => none
  | e :: es =>
    match minEntryOffset es with
    | none => some e.offset
    | some m => some (min e.offset m)

/-- Index the slot directory position a new key is inserted at: the number of
entries with a smaller key.  On a sorted directory this is exactly what
`binary_search_by_key` of the source reports in its `Err` branch, and an `Ok`
branch is taken exactly when some entry has this key. -/
def entryInsertIdx (l : List LeafPageEntry) (key : Nat) : Nat :=
  l.countP fun e => decide (e.key < key)

/-- Likewise for an internal page's key list (`keys.binary_search(&key)`,
where both the `Ok` and the `Err` index are used the same way). -/
def keyInsertIdx (l : List Nat) (key : Nat) : Nat :=
  l.countP fun k => decide (k < key)

/-- Insert into a `Vec` at an index (`Vec::insert`; when the index equals the
length this is a push, which is also what the `safe_insert` helper of
`internal_page.rs` special-cases). -/
def listInsertAt : Nat → α → List α → List α
  | 0, a, l => a :: l
  | _ + 1, a, [] => [a]
  | n + 1, a, b :: l => b :: listInsertAt n a l

/-- `LeafPage::persist_header`: rewrite the slot directory of the page on
disk; the blob region of the page is untouched.  Writing a leaf header over
a region that does not hold a leaf page does not occur in any execution the
claims are about and is modelled as an I/O failure. -/
def LeafPage.persist_header (p : LeafPage) (db : DB) : ER DB :=
  match db.store.get p.offset with
  | some (.leafData _ blob) =>
      .ok { db with store := db.store.put p.offset (.leafData p.keys blob) }
  | _ => .error .ioErr

/-- `LeafPage::lookup_value_alloc` (and `lookup_value`, which fills a caller
buffer with exactly the same bytes): find the slot, read `value_len` bytes at
`page base + slot offset`. -/
def LeafPage.lookup_value_alloc (p : LeafPage) (key : Nat) (db : DB) :
    ER (Option (List Nat)) :=
  match p.keys.find? (fun e => e.key = key) with
  | none => .ok none
  | some e =>
    match db.store.get p.offset with
    | some (.leafData _ blob) => .ok (some (readBytes blob e.offset e.value_len))
    | _ => .error .ioErr

/-- The index scan of `LeafPage::delete_value`: the first directory index
holding the key, if any. -/
def firstKeyIdx : List LeafPageEntry → Nat → Option Nat
  | [], _ => none
  | e :: es, k => if e.key = k then some 0 else (firstKeyIdx es k).map (· + 1)

/-- `LeafPage::delete_value`: linear scan for the key, remove the slot,
rewrite the header; reports whether a slot was removed. -/
def LeafPage.delete_value (p : LeafPage) (key : Nat) (db : DB) :
    ER (LeafPage × DB × Bool) :=
  if p.keys.isEmpty then .ok (p, db, false)
  else
    match firstKeyIdx p.keys key with
    | none => .ok (p, db, false)
    | some i => do
      let p' : LeafPage := { p with keys := p.keys.eraseIdx i }
      let db' ← p'.persist_header db
      .ok (p', db', true)

/-- `disk.write_all(data)` at `page base + start`: the blob region of the page
at `base` absorbs the bytes. -/
def DB.writeBlob (db : DB) (base start : Nat) (data : List Nat) : ER DB :=
  match db.store.get base with
  | some (.leafData es blob) =>
      .ok { db with store := db.store.put base (.leafData es (writeBytes blob start data)) }
  | _ => .error .ioErr

/-- `LeafPage::quick_insert`: place the blob at `end_offset - len`, write the
bytes, insert the slot at its sorted position (the `Ok` branch of the
`binary_search` is `unreachable!`), persist the header. -/
def LeafPage.quick_insert (p : LeafPage) (key : Nat) (data : List Nat) (db : DB)
    (end_offset : Option Nat) : ER (LeafPage × DB) := do
  let page_size := db.block_size
  let endOff := end_offset.getD ((minEntryOffset p.keys).getD page_size)
  let entry : LeafPageEntry :=
    { offset := endOff - data.length, key := key, value_len := data.length }
  let db ← db.writeBlob p.offset entry.offset data
  if p.keys.any (fun e => e.key = key) then .error .panicked
  else do
    let p' : LeafPage := { p with keys := listInsertAt (entryInsertIdx p.keys key) entry p.keys }
    let db ← p'.persist_header db
    .ok (p', db)

/-- `LeafPage::init`: allocate a block, write a zeroed page with the leaf tag. -/
def LeafPage.init (db : DB) : LeafPage × DB :=
  let (offset, db) := db.allocate_block
  let db := { db with store := db.store.put offset (.leafData [] []) }
  ({ offset := offset, keys := [] }, db)

mutual

/-- `LeafPage::upsert_value`.  The source recursion (delete-then-retry, and
defragment-then-retry) is driven by fuel; the `assert!(can_accommodate)` is
the `assertFail` outcome. -/
def LeafPage.upsert_value : Nat → LeafPage → Nat → List Nat → DB → ER (LeafPage × DB)
  | 0, _, _, _, _ => .error .outOfFuel
  | fuel + 1, p, key, data, db =>
    if p.keys.any (fun e => e.key = key) then do
      let (p', db', _) ← p.delete_value key db
      LeafPage.upsert_value fuel p' key data db'
    else
      let page_size := db.block_size
      if ¬ p.can_accommodate data.length page_size then .error .assertFail
      else
        let end_offset := (minEntryOffset p.keys).getD page_size
        let start_offset := p.header_len + LeafPageEntry.size_of_entry
        if start_offset > end_offset ∨ end_offset - start_offset < data.length then do
          let (p', db') ← LeafPage.defragment fuel p db
          LeafPage.upsert_value fuel p' key data db'
        else
          p.quick_insert key data db (some end_offset)

/-- `LeafPage::defragment`: read every live pair into memory, clear the
directory, re-upsert the pairs in directory order. -/
def LeafPage.defragment : Nat → LeafPage → DB → ER (LeafPage × DB)
  | 0, _, _ => .error .outOfFuel
  | fuel + 1, p, db => do
    let pairs ← p.keys.mapM (fun e => do
      match ← p.lookup_value_alloc e.key db with
      | some v => pure (e.key, v)
      | none => throw EngineErr.panicked)
    let cleared : LeafPage := { p with keys := [] }
    pairs.foldlM
      (fun (acc : LeafPage × DB) kv => LeafPage.upsert_value fuel acc.1 kv.1 kv.2 acc.2)
      (cleared, db)

end

/-- One round of the move loop of `split_in_half`: read the entry's value
from the source page (`expect`ing it to be there), upsert it into the page
being filled. -/
def moveStep (fuel : Nat) (src : LeafPage) (acc : LeafPage × DB) (e : LeafPageEntry) :
    ER (LeafPage × DB) := do
  match ← src.lookup_value_alloc e.key acc.2 with
  | none => throw EngineErr.panicked
  | some v => LeafPage.upsert_value fuel acc.1 e.key v acc.2

/-- `LeafPage::split_in_half`: allocate a fresh leaf, move the upper half of
the slot directory (all slots from index `len / 2` on) into it through
`upsert_value`, truncate this leaf to the lower half and persist its header.
Returns the truncated left page and the new right sibling. -/
def LeafPage.split_in_half (fuel : Nat) (p : LeafPage) (db : DB) :
    ER (LeafPage × LeafPage × DB) := do
  let split_idx := p.keys.length / 2
  let (sibling, db) := LeafPage.init db
  let (right, db) ← (p.keys.drop split_idx).foldlM (moveStep fuel p) (sibling, db)
  let left : LeafPage := { p with keys := p.keys.take split_idx }
  let db ← left.persist_header db
  .ok (left, right, db)

/-! ## Internal pages (`src/data/src/page/internal_page.rs`) -/

/-- The in-memory `InternalPage` struct. -/
structure InternalPage where
  offset : Nat
  keys : List Nat
  pointers : List Nat
  deriving DecidableEq, Repr

/-- `InternalPage::header_size`: tag byte plus length word. -/
def InternalPage.header_size : Nat := 9

/-- `InternalPage::max_children_capacity`. -/
def InternalPage.max_children_capacity (page_size : Nat) : Nat :=
  (page_size + 16 - InternalPage.header_size) / (8 + 16)

/-- `InternalPage::is_full`. -/
def InternalPage.is_full (p : InternalPage) (page_size : Nat) : Bool :=
  decide (p.pointers.length ≥ InternalPage.max_children_capacity page_size)

/-- `InternalPage::persist`: the two assertions of the source (capacity, and
`pointers.len() == keys.len() + 1`) and the full-page rewrite. -/
def InternalPage.persist (p : InternalPage) (db : DB) : ER DB :=
  if ¬ (InternalPage.max_children_capacity db.block_size ≥ p.pointers.length) then
    .error .assertFail
  else if p.pointers.length ≠ p.keys.length + 1 then .error .assertFail
  else .ok { db with store := db.store.put p.offset (.internalData p.keys p.pointers) }

/-- `InternalPage::init`: allocate a block, start with no keys and the one
given child pointer, persist. -/
def InternalPage.init (db : DB) (pointer : Nat) : ER (InternalPage × DB) := do
  let (offset, db) := db.allocate_block
  let page : InternalPage := { offset := offset, keys := [], pointers := [pointer] }
  let db ← page.persist db
  .ok (page, db)

/-- `InternalPage::safe_insert`: key at index `i`, pointer at index `i + 1`
(`push` when the index equals the length, which `listInsertAt` covers),
then persist. -/
def InternalPage.safe_insert (p : InternalPage) (i key pointer : Nat) (db : DB) :
    ER (InternalPage × DB) := do
  let p' : InternalPage := { p with
    keys := listInsertAt i key p.keys
    pointers := listInsertAt (i + 1) pointer p.pointers }
  let db ← p'.persist db
  .ok (p', db)

/-- `InternalPage::safe_remove`: drop the key at `i` and the pointer at
`i + 1`, then persist. -/
def InternalPage.safe_remove (p : InternalPage) (i : Nat) (db : DB) :
    ER (InternalPage × DB) := do
  let p' : InternalPage := { p with
    keys := p.keys.eraseIdx i
    pointers := p.pointers.eraseIdx (i + 1) }
  let db ← p'.persist db
  .ok (p', db)

/-- `InternalPage::split_in_half`: move the keys and pointers from index
`keys.len() / 2` on into a freshly allocated right sibling, pop the last key
remaining on the left as the separator, persist both pages.  Returns the
shrunk left page, the new right sibling and the separator. -/
def InternalPage.split_in_half (p : InternalPage) (db : DB) :
    ER (InternalPage × InternalPage × Nat × DB) := do
  let split_idx := p.keys.length / 2
  let (offset, db) := db.allocate_block
  let right : InternalPage :=
    { offset := offset, keys := p.keys.drop split_idx, pointers := p.pointers.drop split_idx }
  let leftKeys := p.keys.take split_idx
  match leftKeys.getLast? with
  | none => .error .panicked
  | some key => do
    let left : InternalPage :=
      { p with keys := leftKeys.dropLast, pointers := p.pointers.take split_idx }
    let db ← right.persist db
    let db ← left.persist db
    .ok (left, right, key, db)

/-! ## Pages and the B-tree engine (`src/data/src/page/mod.rs`, `btree.rs`) -/

/-- The tagged page union of `page/mod.rs`. -/
inductive Page where
  | leaf (p : LeafPage) : Page
  | internal (p : InternalPage) : Page

/-- `Page::load`: read the page at an offset.  A region that holds no page is
an I/O failure (the source would read garbage and panic on the tag). -/
def Page.load (offset : Nat) (db : DB) : ER Page :=
  match db.store.get offset with
  | some (.leafData es _) => .ok (.leaf { offset := offset, keys := es })
  | some (.internalData ks ps) => .ok (.internal { offset := offset, keys := ks, pointers := ps })
  | none => .error .ioErr

/-- Modelled from the spec: `InternalPage::can_accommodate(page_size)` is
called by `Page::can_accommodate` in `page/mod.rs` but is absent from the
source tree; per the spec (§4.2) the internal-page capacity notion is
`is_full`, i.e. an internal page can take an insert exactly when it is not
full. -/
def InternalPage.can_accommodate (p : InternalPage) (page_size : Nat) : Bool :=
  ¬ p.is_full page_size

/-- `Page::can_accommodate`. -/
def Page.can_accommodate (p : Page) (data_len page_size : Nat) : Bool :=
  match p with
  | .internal q => q.can_accommodate page_size
  | .leaf q => q.can_accommodate data_len page_size

/-- The `BTree` handle: the offset of its root page. -/
structure BTree where
  root : Nat
  deriving DecidableEq, Repr

/-- `BTree::from_offset`. -/
def BTree.from_offset (offset : Nat) : BTree := { root := offset }

/-- `BTree::init`: a fresh tree is a fresh empty leaf. -/
def BTree.init (db : DB) : BTree × DB :=
  let (l, db) := LeafPage.init db
  ({ root := l.offset }, db)

/-- `BTree::btree_split_child`: split the child at `insert_idx` of `node`,
install the separator and the new sibling pointer in `node`.  For a leaf
child the separator is the last key remaining on the (truncated) left page. -/
def BTree.btree_split_child (fuel : Nat) (node : InternalPage) (insert_idx : Nat)
    (db : DB) : ER (Page × Page × InternalPage × DB) := do
  match node.pointers.get? insert_idx with
  | none => .error .panicked
  | some off =>
    match ← Page.load off db with
    | .leaf left_sibling => do
      let (left, right, db) ← left_sibling.split_in_half fuel db
      match left.keys.getLast? with
      | none => .error .panicked
      | some last => do
        let (node', db) ← node.safe_insert insert_idx last.key right.offset db
        .ok (.leaf left, .leaf right, node', db)
    | .internal left_sibling => do
      let (left, right, key, db) ← left_sibling.split_in_half db
      let (node', db) ← node.safe_insert insert_idx key right.offset db
      .ok (.internal left, .internal right, node', db)

/-- `BTree::btree_insert_nonfull`. -/
def BTree.btree_insert_nonfull : Nat → Page → Nat → List Nat → DB → ER DB
  | 0, _, _, _, _ => .error .outOfFuel
  | fuel + 1, page, key, data, db =>
    match page with
    | .leaf p => do
      let (_, db) ← LeafPage.upsert_value fuel p key data db
      .ok db
    | .internal p => do
      let i := keyInsertIdx p.keys key
      match p.pointers.get? i with
      | none => .error .panicked
      | some off => do
        let child ← Page.load off db
        if child.can_accommodate data.length db.block_size then
          BTree.btree_insert_nonfull fuel child key data db
        else do
          let (left_child, right_child, p', db) ← BTree.btree_split_child fuel p i db
          match p'.keys.get? i with
          | none => .error .panicked
          | some sep =>
            let chosen := if sep < key then right_child else left_child
            BTree.btree_insert_nonfull fuel chosen key data db

/-- `BTree::insert`: split the root first when it cannot accommodate the
insert, making the tree one level deeper; note that the new root offset only
lives in the returned `BTree` value. -/
def BTree.insert (fuel : Nat) (t : BTree) (key : Nat) (data : List Nat) (db : DB) :
    ER (BTree × DB) := do
  let root ← Page.load t.root db
  if root.can_accommodate data.length db.block_size then do
    let db ← BTree.btree_insert_nonfull fuel root key data db
    .ok (t, db)
  else do
    let (page, db) ← InternalPage.init db t.root
    let t' : BTree := { root := page.offset }
    let (_, _, page, db) ← BTree.btree_split_child fuel page 0 db
    let db ← BTree.btree_insert_nonfull fuel (.internal page) key data db
    .ok (t', db)

/-- `BTree::btree_search`. -/
def BTree.btree_search : Nat → Page → Nat → DB → ER (Option (List Nat))
  | 0, _, _, _ => .error .outOfFuel
  | fuel + 1, page, key, db =>
    match page with
    | .internal p =>
      match p.pointers.get? (keyInsertIdx p.keys key) with
      | none => .error .panicked
      | some off => do
        let child ← Page.load off db
        BTree.btree_search fuel child key db
    | .leaf p => p.lookup_value_alloc key db

/-- `BTree::lookup`. -/
def BTree.lookup (fuel : Nat) (t : BTree) (key : Nat) (db : DB) :
    ER (Option (List Nat)) := do
  let page ← Page.load t.root db
  BTree.btree_search fuel page key db

/-- `InternalPage::delete_value`: descend to the child chosen exactly as in
`lookup`; on return, an emptied leaf child drops the parent slot at
`max(i-1, 0)` through `safe_remove`, and an emptied internal child is
collapsed into its sole pointer. -/
def InternalPage.delete_value : Nat → InternalPage → Nat → DB → ER (InternalPage × DB)
  | 0, _, _, _ => .error .outOfFuel
  | fuel + 1, p, key, db => do
    let i := keyInsertIdx p.keys key
    match p.pointers.get? i with
    | none => .error .panicked
    | some off =>
      match ← Page.load off db with
      | .leaf leafChild => do
        let (leafChild, db, _) ← leafChild.delete_value key db
        if leafChild.keys.isEmpty then
          let idx_to_remove := if i = 0 then 0 else i - 1
          p.safe_remove idx_to_remove db
        else .ok (p, db)
      | .internal internalChild => do
        let (internalChild, db) ← InternalPage.delete_value fuel internalChild key db
        if internalChild.keys.isEmpty then
          match internalChild.pointers.get? 0 with
          | none => .error .panicked
          | some q => do
            let p' : InternalPage := { p with pointers := p.pointers.set i q }
            let db ← p'.persist db
            .ok (p', db)
        else .ok (p, db)

/-- `BTree::delete`: delete at a leaf root directly; through an internal root
recurse, and when the root ends up with no keys replace the tree root by its
pointer 0. -/
def BTree.delete (fuel : Nat) (t : BTree) (key : Nat) (db : DB) : ER (BTree × DB) := do
  match ← Page.load t.root db with
  | .leaf l => do
    let (_, db, _) ← l.delete_value key db
    .ok (t, db)
  | .internal p => do
    let (p, db) ← InternalPage.delete_value fuel p key db
    if p.keys.isEmpty then
      match p.pointers.get? 0 with
      | none => .error .panicked
      | some q => .ok ({ root := q }, db)
    else .ok (t, db)

/-- Modelled from the spec: the in-order sequence of leaf pages under an
offset.  `BTree::keys` starts at the leftmost leaf and then repeatedly calls
`LeafPage::next_leaf`, which is absent from the source (the spec flags it as
an open question and requires a stack-based in-order traversal through the
internal pages); under that reading the leaves visited are exactly the
in-order leaves of the tree. -/
def leavesOf : Nat → Nat → DB → ER (List LeafPage)
  | 0, _, _ => .error .outOfFuel
  | fuel + 1, offset, db => do
    match ← Page.load offset db with
    | .leaf l => .ok [l]
    | .internal p => do
      let ls ← p.pointers.mapM (fun o => leavesOf fuel o db)
      .ok ls.flatten

/-- The `KeyIter::next` loop of `BTree::keys`, run to exhaustion over the
in-order leaf sequence: when the cursor reaches the end of the current page
it moves to the next leaf and immediately indexes slot 0 of it (indexing an
empty page would panic), otherwise it yields the key under the cursor and
advances. -/
def keyIterRun : Nat → LeafPage → List LeafPage → Nat → ER (List Nat)
  | 0, _, _, _ => .error .outOfFuel
  | fuel + 1, cur, rest, pos =>
    if pos = cur.keys.length then
      match rest with
      | [] => .ok []
      | next :: rest' =>
        match next.keys.get? 0 with
        | none => .error .panicked
        | some e => do
          let ks ← keyIterRun fuel next rest' 1
          .ok (e.key :: ks)
    else
      match cur.keys.get? pos with
      | none => .error .panicked
      | some e => do
        let ks ← keyIterRun fuel cur rest (pos + 1)
        .ok (e.key :: ks)

/-- `BTree::keys`, with `next_leaf` modelled from the spec as above: navigate
to the leftmost leaf, then run the iterator. -/
def BTree.keys (fuel : Nat) (t : BTree) (db : DB) : ER (List Nat) := do
  let ls ← leavesOf fuel t.root db
  match ls with
  | [] => .error .panicked
  | first :: rest => keyIterRun fuel first rest 0

/-! ## The nested tree (`src/data/src/tree.rs`) and `Database` -/

/-- Big-endian byte decoding (`read_be_u64` on the first 8 bytes). -/
def beToNat (l : List Nat) : Nat :=
  l.foldl (fun a b => a * 256 + b) 0

/-- Big-endian 8-byte encoding (`u64::to_be_bytes`). -/
def natToBe8 (n : Nat) : List Nat :=
  (List.range 8).map fun i => n / 256 ^ (7 - i) % 256

/-- `TreeEntryValue`: the decoded payload of a nested-tree leaf value.
`child_offset = 0` plays `None` of the source's `Option<NonZeroU64>`. -/
structure TreeEntryValue where
  child_offset : Nat
  data : Option (List Nat)
  deriving DecidableEq, Repr

/-- `TreeEntryValue::from_data`: pad to at least 8 bytes, split: the first
8 bytes big-endian are the child offset, the rest is the inline value when
non-empty. -/
def TreeEntryValue.from_data (d : List Nat) : TreeEntryValue :=
  let padded := if d.length < 8 then d ++ List.replicate (8 - d.length) 0 else d
  let rest := padded.drop 8
  { child_offset := beToNat (padded.take 8)
    data := if rest.length > 0 then some rest else none }

/-- `TreeEntryValue::new`. -/
def TreeEntryValue.new : TreeEntryValue := { child_offset := 0, data := none }

/-- `TreeEntryValue::into_buf`: 8 bytes of child offset (0 for none) followed
by the inline bytes when present. -/
def TreeEntryValue.into_buf (v : TreeEntryValue) : List Nat :=
  natToBe8 v.child_offset ++ v.data.getD []

/-- A `TreeEntry` is the pair of a database and a tree-root offset; since the
database is threaded explicitly here, the entry is just the offset. -/
structure TreeEntry where
  offset : Nat
  deriving DecidableEq, Repr

/-- `TreeEntry::insert_child_tree`: allocate a fresh tree, merge its offset
into whatever payload the key already had, upsert the payload.  The `BTree`
value mutated by `insert` is dropped by the source, so a root change of the
tree at `self.offset` is not propagated anywhere. -/
def TreeEntry.insert_child_tree (fuel : Nat) (t : TreeEntry) (key : Nat) (db : DB) :
    ER (Nat × DB) := do
  let (child, db) := BTree.init db
  let tree := BTree.from_offset t.offset
  let existing ← tree.lookup fuel key db
  let entry := match existing with
    | some d => TreeEntryValue.from_data d
    | none => TreeEntryValue.new
  let entry := { entry with child_offset := child.root }
  let (_, db) ← tree.insert fuel key entry.into_buf db
  .ok (child.root, db)

/-- `TreeEntry::get`: follow the stored child offset when the payload has a
non-zero one, otherwise materialize a child tree. -/
def TreeEntry.get (fuel : Nat) (t : TreeEntry) (key : Nat) (db : DB) :
    ER (TreeEntry × DB) := do
  let tree := BTree.from_offset t.offset
  match ← tree.lookup fuel key db with
  | some buf =>
    let v := TreeEntryValue.from_data buf
    if v.child_offset ≠ 0 then .ok ({ offset := v.child_offset }, db)
    else do
      let (o, db) ← t.insert_child_tree fuel key db
      .ok ({ offset := o }, db)
  | none => do
    let (o, db) ← t.insert_child_tree fuel key db
    .ok ({ offset := o }, db)

/-- `TreeEntry::set_value`: read the existing payload, overwrite its inline
half, preserve the child-offset half, upsert.  The root of the local `BTree`
value is dropped on return, exactly as in the source. -/
def TreeEntry.set_value (fuel : Nat) (t : TreeEntry) (key : Nat) (data : List Nat)
    (db : DB) : ER DB := do
  let tree := BTree.from_offset t.offset
  let entry := match ← tree.lookup fuel key db with
    | some d => TreeEntryValue.from_data d
    | none => TreeEntryValue.new
  let entry := { entry with data := some data }
  let (_, db) ← tree.insert fuel key entry.into_buf db
  .ok db

/-- `TreeEntry::value`: the inline half of the payload, when present. -/
def TreeEntry.value (fuel : Nat) (t : TreeEntry) (key : Nat) (db : DB) :
    ER (Option (List Nat)) := do
  let v ← (BTree.from_offset t.offset).lookup fuel key db
  .ok (v.bind fun d => (TreeEntryValue.from_data d).data)

/-- `Database::lookup` (the `root()` operation of the spec): lazily allocate
the root tree, record its offset in the header, hand out the entry. -/
def DB.rootEntry (db : DB) : TreeEntry × DB :=
  if db.meta.root_btree_offset = 0 then
    let (t, db) := BTree.init db
    let db := { db with meta := { db.meta with root_btree_offset := t.root } }
    ({ offset := t.root }, db)
  else
    ({ offset := db.meta.root_btree_offset }, db)


/-! ## Concrete executions used by the claims

The fixtures below run the engine on a small database: a file opened through
`Database::from_existing` whose header holds `block_size_exp = 7`
(128-byte pages), one allocated block and no root tree.  Small pages keep the
executions small; nothing in the engine depends on the page size beyond the
arithmetic that is exercised here. -/

/-- A disk holding no pages. -/
def emptyStore : Store := []

/-- A freshly opened database with 128-byte blocks. -/
def db7 : DB := DB.fromExisting emptyStore { block_size_exp := 7, num_blocks_allocated := 1, root_btree_offset := 0 }

/-- The run of claim C1: insert keys 1, 2, 3, 4 (unique keys, one-byte
values), then delete key 1.  The fourth insert splits the root leaf, giving
an internal root with separator key 1 over the leaves `[1]` and `[2, 3, 4]`;
deleting key 1 then empties the leftmost leaf.  Returns the lookups of key 2
before the delete and of keys 1 and 2 after it. -/
def c1Run : ER (Option (List Nat) × Option (List Nat) × Option (List Nat)) := do
  let (t, db) := BTree.init db7
  let (t, db) ← t.insert 20 1 [1] db
  let (t, db) ← t.insert 20 2 [2] db
  let (t, db) ← t.insert 20 3 [3] db
  let (t, db) ← t.insert 20 4 [4] db
  let beforeDelete ← t.lookup 20 2 db
  let (t, db) ← t.delete 20 1 db
  let after1 ← t.lookup 20 1 db
  let after2 ← t.lookup 20 2 db
  .ok (beforeDelete, after1, after2)

/-- C1: the reference-model property fails on the code.  Key 2 is live (it
was inserted with value `[2]` and never deleted) and is found before the
delete, but after `delete 1` empties the leftmost leaf of the internal root,
`InternalPage::delete_value` removes `keys[0]` together with `pointers[1]` —
unlinking the live right sibling instead of the emptied leftmost leaf — and
the root then collapses onto the empty leaf, so `lookup 2` returns none
instead of `[2]`. -/
theorem c1_live_key_lost_after_leftmost_leaf_delete :
    c1Run = .ok (some [2], none, none) := by decide

/-- The run of claim C6: insert keys 1..5 (empty values), then delete key 1
twice.  After the five inserts the root is internal with keys `[1, 2]` over
leaves `[1]`, `[2]`, `[3, 4, 5]`; the first `delete 1` empties the leftmost
leaf (and, by the `safe_remove(0)` slip, already unlinks the live leaf
`[2]`); the second `delete 1` finds the retained empty leftmost leaf,
removes nothing from it, but still triggers the empty-leaf unlinking and the
root collapse.  Returns the lookups of keys 3 and 4 between the two deletes
and the lookups of keys 2, 3, 4 after the second delete. -/
def c6Run : ER ((Option (List Nat) × Option (List Nat)) ×
    (Option (List Nat) × Option (List Nat) × Option (List Nat))) := do
  let (t, db) := BTree.init db7
  let (t, db) ← t.insert 20 1 [] db
  let (t, db) ← t.insert 20 2 [] db
  let (t, db) ← t.insert 20 3 [] db
  let (t, db) ← t.insert 20 4 [] db
  let (t, db) ← t.insert 20 5 [] db
  let (t, db) ← t.delete 20 1 db
  let mid3 ← t.lookup 20 3 db
  let mid4 ← t.lookup 20 4 db
  let (t, db) ← t.delete 20 1 db
  let after2 ← t.lookup 20 2 db
  let after3 ← t.lookup 20 3 db
  let after4 ← t.lookup 20 4 db
  .ok ((mid3, mid4), (after2, after3, after4))

/-- C6: the second `delete 1` completes without error (the run is `ok`), but
it does not leave the stored pairs unchanged: keys 3 and 4 are stored before
it and gone after it.  (`delete 1` followed by `lookup 1` does return none,
but the no-op half of the claim fails: an absent-key delete that lands on a
leaf that is already empty — reachable because `safe_remove(0)` keeps the
emptied leftmost leaf — unlinks live data and collapses the root.) -/
theorem c6_second_delete_changes_stored_pairs :
    c6Run = .ok ((some [], some []), (none, none, none)) := by decide

/-- The run of claim C3, through the public API only: lazily create the root
tree (`Database::lookup`), then `set_value` keys 1, 2, 3 with two-byte
values.  The payload of a `set_value` is 8 bytes of child offset plus the
value, so the third `set_value` forces the root leaf (offset 128) to split
and the tree root moves to a fresh internal page — but the `BTree` value
holding the new root offset is dropped by `TreeEntry::set_value`.  Returns
the stored `root_btree_offset` before and after the splitting operation and
the lookups of key 2 before and after it (reopening the file re-reads the
same header, so these are also the values seen after close and reopen). -/
def c3Run : ER (Nat × Nat × Option (List Nat) × Option (List Nat)) := do
  let db := db7
  let (r, db) := db.rootEntry
  let db ← r.set_value 20 1 [9, 1] db
  let (r, db) := db.rootEntry
  let db ← r.set_value 20 2 [9, 2] db
  let (r, db) := db.rootEntry
  let offBefore := db.meta.root_btree_offset
  let preSplit ← r.value 20 2 db
  let db ← r.set_value 20 3 [9, 3] db
  let offAfter := db.meta.root_btree_offset
  let (r, db) := db.rootEntry
  let postSplit ← r.value 20 2 db
  .ok (offBefore, offAfter, preSplit, postSplit)

/-- C3: the owner of the root tree is not updated when its root splits.  The
stored `root_btree_offset` is 128 before the splitting `set_value` and still
128 after it (the only header update ever made is the lazy initialization),
so after reopening it does not differ from its pre-split value; and key 2,
whose value `[9, 2]` was set earlier and still readable right before the
split, is no longer retrievable through the public API afterwards: the
header still points at the old root leaf, which after the split holds only
the lower half of the keys. -/
theorem c3_root_split_not_propagated_to_header :
    c3Run = .ok (128, 128, some [9, 2], none) := by decide

/-- A database holding one empty leaf page at offset 128 (128-byte pages). -/
def dbEmptyLeaf : DB :=
  DB.fromExisting [(128, .leafData [] [])]
    { block_size_exp := 7, num_blocks_allocated := 2, root_btree_offset := 0 }

/-- C8 counterexample: on the empty leaf the capacity assertion does not
fail for an oversized insert.  `can_accommodate` returns `true` on an empty
page no matter the data length (so `assert!(can_accommodate(..))` passes),
and `upsert_value` with a 100-byte value on a 128-byte page (capacity
128 − 41 = 87) never stores the value and never fails the assertion: it
bounces between the no-space check and the no-op `defragment` until the
fuel — which models the source's unbounded recursion — runs out. -/
theorem c8_empty_leaf_no_assert :
    LeafPage.can_accommodate { offset := 128, keys := [] } 100 128 = true ∧
    LeafPage.upsert_value 50 { offset := 128, keys := [] } 5 (List.replicate 100 7)
      dbEmptyLeaf = .error .outOfFuel := by decide

/-- A 3-slot leaf page used by the C5 counterexample, on 256-byte pages. -/
def dbThreeSlots : DB :=
  DB.fromExisting
    [(256, .leafData [{ key := 1, offset := 226, value_len := 10 },
                      { key := 2, offset := 216, value_len := 10 },
                      { key := 3, offset := 206, value_len := 10 }] [])]
    { block_size_exp := 8, num_blocks_allocated := 2, root_btree_offset := 0 }

/-- C5 counterexample: splitting a leaf with 3 slots keeps only
`floor(3/2) = 1` slot on the left and moves `ceil(3/2) = 2` slots to the new
right sibling — the extra slot of an odd count goes to the right, not to the
left as the claim states (`split_idx = keys_len / 2` rounds down and
everything from that index on moves right). -/
theorem c5_odd_split_extra_slot_goes_right :
    (LeafPage.split_in_half 10
        { offset := 256, keys := [{ key := 1, offset := 226, value_len := 10 },
                                  { key := 2, offset := 216, value_len := 10 },
                                  { key := 3, offset := 206, value_len := 10 }] }
        dbThreeSlots).map
      (fun r => ((r.1.keys.map fun e => e.key), (r.2.1.keys.map fun e => e.key))) =
    .ok ([1], [2, 3]) := by decide

/-- On a leaf with an empty directory, `defragment` is the identity: there
are no pairs to collect and nothing to re-insert. -/
theorem defragment_empty_keys (fuel : Nat) (off : Nat) (db : DB) :
    LeafPage.defragment (fuel + 1) { offset := off, keys := [] } db =
      .ok ({ offset := off, keys := [] }, db) := by
  simp only [LeafPage.defragment, List.mapM, List.mapM.loop, List.foldlM]
  rfl

/-- On a leaf with an empty directory and data that does not fit the free
region of an empty page (`page_size - 41` bytes), `upsert_value` makes no
progress: every round passes the capacity assertion (an empty page
"accommodates" anything), fails the free-space check, runs the no-op
`defragment` and retries on the identical state, so any amount of fuel runs
out. -/
theorem upsert_empty_leaf_oversized_loops (off key : Nat) (data : List Nat) (db : DB)
    (h : db.block_size < data.length + 41) :
    ∀ fuel, LeafPage.upsert_value fuel { offset := off, keys := [] } key data db =
      .error .outOfFuel := by
  intro fuel
  induction fuel with
  | zero => rfl
  | succ f ih =>
    have hcond : LeafPage.header_len { offset := off, keys := [] } +
        LeafPageEntry.size_of_entry > db.block_size ∨
        db.block_size - (LeafPage.header_len { offset := off, keys := [] } +
          LeafPageEntry.size_of_entry) < data.length := by
      simp only [LeafPage.header_len, LeafPageEntry.size_of_entry, List.length_nil]
      omega
    cases f with
    | zero =>
      simp only [LeafPage.upsert_value, LeafPage.can_accommodate, minEntryOffset, hcond,
        List.any_nil, Bool.false_eq_true, if_false, List.isEmpty_nil, if_true, not_true,
        Option.getD_none]
      rfl
    | succ g =>
      rw [LeafPage.upsert_value]
      simp only [List.any_nil, Bool.false_eq_true, if_false, LeafPage.can_accommodate,
        List.isEmpty_nil, if_true, not_true, minEntryOffset, Option.getD_none]
      rw [if_pos (by simpa [LeafPage.header_len, LeafPageEntry.size_of_entry] using hcond)]
      rw [defragment_empty_keys]
      simpa using ih

/-- C8 (amended): on a leaf whose directory does not contain the inserted
key, an insert whose data length makes `can_accommodate` false fails the
capacity assertion in `upsert_value` immediately — the value is not stored
and the blob-offset arithmetic (which only runs on the quick-insert path) is
never reached.  On the EMPTY leaf, however, `can_accommodate` returns true
unconditionally, so for data larger than the free region of an empty page
(`page_size - 41` bytes) the assertion passes and `upsert_value` loops
through the no-op defragment-retry cycle without ever storing the value:
any amount of fuel runs out. -/
theorem c8_oversized_insert_assert_or_loop :
    (∀ (p : LeafPage) (key : Nat) (data : List Nat) (db : DB) (fuel : Nat),
        p.keys.any (fun e => e.key = key) = false →
        p.can_accommodate data.length db.block_size = false →
        LeafPage.upsert_value (fuel + 1) p key data db = .error .assertFail) ∧
    (∀ (off key : Nat) (data : List Nat) (db : DB) (fuel : Nat),
        db.block_size < data.length + 41 →
        LeafPage.upsert_value fuel { offset := off, keys := [] } key data db =
          .error .outOfFuel) := by
  constructor
  · intro p key data db fuel h1 h2
    rw [LeafPage.upsert_value]
    simp [h1, h2]
  · intro off key data db fuel h
    exact upsert_empty_leaf_oversized_loops off key data db h fuel

/-- Witness for the amended C8 at concrete inputs: a one-slot 128-byte-page
leaf rejects a 60-byte insert through the assertion, and the empty leaf
spins on a 100-byte insert. -/
theorem c8_oversized_insert_assert_or_loop_witness :
    LeafPage.upsert_value (4 + 1)
        { offset := 128, keys := [{ key := 1, offset := 96, value_len := 32 }] }
        2 (List.replicate 60 0) dbEmptyLeaf = .error .assertFail ∧
    LeafPage.upsert_value 7 { offset := 128, keys := [] } 5 (List.replicate 100 7)
        dbEmptyLeaf = .error .outOfFuel := by
  constructor
  · exact c8_oversized_insert_assert_or_loop.1 _ 2 _ dbEmptyLeaf 4 (by decide) (by decide)
  · exact c8_oversized_insert_assert_or_loop.2 128 5 _ dbEmptyLeaf 7 (by decide)

/-! ## Byte-store lemmas -/

theorem readByte_setByte (f : Blob) (i v j : Nat) :
    readByte (setByte f i v) j = if j = i then v else readByte f j := by
  by_cases h : j = i <;>
    simp [readByte, setByte, List.find?, h, decide_eq_true_eq, (by omega : i = j ↔ j = i)]

theorem readByte_writeBytes_lt (f : Blob) (d : List Nat) (i j : Nat) (h : j < i) :
    readByte (writeBytes f i d) j = readByte f j := by
  induction d generalizing f i with
  | nil => rfl
  | cons b bs ih =>
    rw [writeBytes, ih _ _ (by omega), readByte_setByte, if_neg (by omega)]

theorem readByte_writeBytes_ge (f : Blob) (d : List Nat) (i j : Nat)
    (h : i + d.length ≤ j) :
    readByte (writeBytes f i d) j = readByte f j := by
  induction d generalizing f i with
  | nil => rfl
  | cons b bs ih =>
    rw [List.length_cons] at h
    rw [writeBytes, ih _ _ (by omega), readByte_setByte, if_neg (by omega)]

theorem readByte_writeBytes_in (f : Blob) (d : List Nat) (i k : Nat) (h : k < d.length) :
    readByte (writeBytes f i d) (i + k) = d.getD k 0 := by
  induction d generalizing f i k with
  | nil => simp at h
  | cons b bs ih =>
    cases k with
    | zero =>
      rw [writeBytes, readByte_writeBytes_lt _ _ _ _ (by omega), readByte_setByte]
      simp
    | succ k =>
      rw [writeBytes]
      have : i + (k + 1) = (i + 1) + k := by omega
      rw [this, ih _ _ _ (by simpa using h)]
      rfl

theorem getD_range_map (d : List Nat) :
    (List.range d.length).map (fun k => d.getD k 0) = d := by
  induction d with
  | nil => rfl
  | cons b bs ih =>
    rw [List.length_cons, List.range_succ_eq_map, List.map_cons, List.map_map]
    refine congrArg (b :: ·) ?x
    calc List.map ((fun k => (b :: bs).getD k 0) ∘ Nat.succ) (List.range bs.length)
        = List.map (fun k => bs.getD k 0) (List.range bs.length) := by
          apply List.map_congr_left
          intro j hj
          simp [Function.comp]
      _ = bs := ih

theorem readBytes_writeBytes (f : Blob) (d : List Nat) (i : Nat) :
    readBytes (writeBytes f i d) i d.length = d := by
  unfold readBytes
  calc (List.range d.length).map (fun j => readByte (writeBytes f i d) (i + j))
      = (List.range d.length).map (fun j => d.getD j 0) := by
        apply List.map_congr_left
        intro j hj
        exact readByte_writeBytes_in f d i j (List.mem_range.mp hj)
    _ = d := getD_range_map d

theorem readBytes_writeBytes_disjoint (f : Blob) (d : List Nat) (i j n : Nat)
    (h : j + n ≤ i ∨ i + d.length ≤ j) :
    readBytes (writeBytes f i d) j n = readBytes f j n := by
  unfold readBytes
  apply List.map_congr_left
  intro k hk
  have hk' := List.mem_range.mp hk
  rcases h with h | h
  · exact readByte_writeBytes_lt f d i _ (by omega)
  · exact readByte_writeBytes_ge f d i _ (by omega)

/-! ## Directory and store lemmas -/

/-- The key column of a slot directory. -/
def entryKeys (l : List LeafPageEntry) : List Nat := l.map (·.key)

/-- A leaf directory sorted strictly by key — the invariant the source
maintains through its `binary_search_by_key`-based insertion. -/
def leafSorted (p : LeafPage) : Prop := (entryKeys p.keys).Sorted (· < ·)

instance (p : LeafPage) : Decidable (leafSorted p) := by
  unfold leafSorted
  infer_instance

theorem Store.get_put_self (s : Store) (off : Nat) (p : PageData) :
    (s.put off p).get off = some p := by
  simp [Store.get, Store.put, List.find?]

theorem Store.get_put_ne (s : Store) (off : Nat) (p : PageData) (o : Nat) (h : o ≠ off) :
    (s.put off p).get o = s.get o := by
  unfold Store.get Store.put
  rw [List.find?_cons_of_neg _ (by simp [Ne.symm h])]

theorem mem_listInsertAt {α : Type} (l : List α) (i : Nat) (e x : α) :
    x ∈ listInsertAt i e l ↔ x = e ∨ x ∈ l := by
  induction l generalizing i with
  | nil => cases i <;> simp [listInsertAt]
  | cons b l ih =>
    cases i with
    | zero => simp [listInsertAt]
    | succ i => simp [listInsertAt, ih, or_comm, or_assoc, or_left_comm]

theorem length_listInsertAt {α : Type} (l : List α) (i : Nat) (e : α) :
    (listInsertAt i e l).length = l.length + 1 := by
  induction l generalizing i with
  | nil => cases i <;> rfl
  | cons b l ih =>
    cases i with
    | zero => rfl
    | succ i => simp [listInsertAt, ih]

theorem find?_listInsertAt_ne (l : List LeafPageEntry) (i : Nat) (e : LeafPageEntry)
    (k : Nat) (hne : e.key ≠ k) :
    (listInsertAt i e l).find? (fun x => x.key = k) = l.find? (fun x => x.key = k) := by
  induction l generalizing i with
  | nil => cases i <;> simp [listInsertAt, List.find?, hne]
  | cons b l ih =>
    cases i with
    | zero =>
      show List.find? _ (e :: b :: l) = _
      rw [List.find?_cons_of_neg _ (by simp [hne])]
    | succ i =>
      show List.find? _ (b :: listInsertAt i e l) = List.find? _ (b :: l)
      by_cases hb : b.key = k
      · rw [List.find?_cons_of_pos _ (by simp [hb]), List.find?_cons_of_pos _ (by simp [hb])]
      · rw [List.find?_cons_of_neg _ (by simp [hb]), List.find?_cons_of_neg _ (by simp [hb])]
        exact ih i

theorem find?_listInsertAt_self (l : List LeafPageEntry) (i : Nat) (e : LeafPageEntry)
    (habs : ∀ x ∈ l, x.key ≠ e.key) :
    (listInsertAt i e l).find? (fun x => x.key = e.key) = some e := by
  induction l generalizing i with
  | nil => cases i <;> simp [listInsertAt, List.find?]
  | cons b l ih =>
    cases i with
    | zero =>
      show List.find? _ (e :: b :: l) = _
      rw [List.find?_cons_of_pos _ (by simp)]
    | succ i =>
      show List.find? _ (b :: listInsertAt i e l) = some e
      rw [List.find?_cons_of_neg _ (by simp [habs b (by simp)])]
      exact ih i (fun x hx => habs x (List.mem_cons_of_mem _ hx))

/-- `entryInsertIdx` against the key column. -/
theorem entryInsertIdx_eq_countP (l : List LeafPageEntry) (k : Nat) :
    entryInsertIdx l k = (entryKeys l).countP (fun x => decide (x < k)) := by
  unfold entryInsertIdx entryKeys
  rw [List.countP_map]
  rfl

/-- Inserting an absent key at `entryInsertIdx` realizes sorted insertion on
the key column. -/
theorem entryKeys_listInsertAt_sorted (l : List LeafPageEntry) (e : LeafPageEntry)
    (hsort : (entryKeys l).Sorted (· < ·))
    (habs : ∀ x ∈ l, x.key ≠ e.key) :
    entryKeys (listInsertAt (entryInsertIdx l e.key) e l) =
      ((entryKeys l).filter (fun x => decide (x < e.key))) ++
        e.key :: ((entryKeys l).filter (fun x => decide (e.key < x))) := by
  induction l with
  | nil => simp [entryKeys, entryInsertIdx, listInsertAt]
  | cons b l ih =>
    have hb : b.key ≠ e.key := habs b (by simp)
    have hsort' : (entryKeys l).Sorted (· < ·) := (List.sorted_cons.mp hsort).2
    have hbl : ∀ x ∈ entryKeys l, b.key < x := (List.sorted_cons.mp hsort).1
    by_cases hlt : b.key < e.key
    · have : entryInsertIdx (b :: l) e.key = entryInsertIdx l e.key + 1 := by
        simp [entryInsertIdx, List.countP_cons, hlt]
      rw [this]
      show entryKeys (b :: listInsertAt (entryInsertIdx l e.key) e l) = _
      have heq := ih hsort' (fun x hx => habs x (by simp [hx]))
      simp only [entryKeys, List.map_cons] at heq ⊢
      rw [heq]
      have h1 : (b.key :: List.map (fun x => x.key) l).filter (fun x => decide (x < e.key)) =
          b.key :: (List.map (fun x => x.key) l).filter (fun x => decide (x < e.key)) := by
        rw [List.filter_cons_of_pos (by simp [hlt])]
      have h2 : (b.key :: List.map (fun x => x.key) l).filter (fun x => decide (e.key < x)) =
          (List.map (fun x => x.key) l).filter (fun x => decide (e.key < x)) := by
        rw [List.filter_cons_of_neg (by simp; omega)]
      rw [h1, h2]
      rfl
    · have hgt : e.key < b.key := by
        rcases Nat.lt_trichotomy b.key e.key with h | h | h
        · exact absurd h hlt
        · exact absurd h hb
        · exact h
      have hcount : entryInsertIdx (b :: l) e.key = 0 := by
        simp only [entryInsertIdx, List.countP_cons]
        have h0 : l.countP (fun x => decide (x.key < e.key)) = 0 := by
          rw [List.countP_eq_zero]
          intro x hx
          have hx' : b.key < x.key := hbl x.key (by
            simp only [entryKeys, List.mem_map]
            exact ⟨x, hx, rfl⟩)
          simp only [decide_eq_true_eq]
          omega
        rw [h0]
        simp only [decide_eq_true_eq]
        rw [if_neg (by omega)]
      rw [hcount]
      show entryKeys (e :: b :: l) = _
      have h1 : (entryKeys (b :: l)).filter (fun x => decide (x < e.key)) = [] := by
        rw [List.filter_eq_nil_iff]
        intro x hx
        simp only [entryKeys, List.map_cons, List.mem_cons] at hx
        rcases hx with rfl | hx
        · simp; omega
        · have := hbl x hx
          simp; omega
      have h2 : (entryKeys (b :: l)).filter (fun x => decide (e.key < x)) = entryKeys (b :: l) := by
        rw [List.filter_eq_self]
        intro x hx
        simp only [entryKeys, List.map_cons, List.mem_cons] at hx
        rcases hx with rfl | hx
        · simp [hgt]
        · have := hbl x hx
          simp; omega
      rw [h1, h2]
      rfl

/-- Sorted insertion stays sorted. -/
theorem insertKeySorted_sorted (ks : List Nat) (k : Nat) (h : ks.Sorted (· < ·)) :
    ((ks.filter (fun x => decide (x < k))) ++
      k :: (ks.filter (fun x => decide (k < x)))).Sorted (· < ·) := by
  refine List.pairwise_append.mpr ⟨h.filter _, ?s2, ?s3⟩
  case s2 =>
    rw [List.pairwise_cons]
    refine ⟨?a, h.filter _⟩
    intro b hb
    have := List.of_mem_filter hb
    simpa using this
  case s3 =>
    intro a ha b hb
    have ha' := List.of_mem_filter ha
    simp only [decide_eq_true_eq] at ha'
    rcases List.mem_cons.mp hb with rfl | hb
    · exact ha'
    · have hb' := List.of_mem_filter hb
      simp only [decide_eq_true_eq] at hb'
      omega

/-- `delete_value`'s directory update: removing the first (for a nodup key
column: the only) entry with the key is filtering it out. -/
theorem erase_first_key_eq_filter (l : List LeafPageEntry) (k : Nat)
    (hnd : (entryKeys l).Nodup) :
    (match firstKeyIdx l k with
      | none => l
      | some i => l.eraseIdx i) = l.filter (fun e => ¬ e.key = k) := by
  induction l with
  | nil => rfl
  | cons b l ih =>
    by_cases hb : b.key = k
    · have hk : k ∉ entryKeys l := by
        rw [← hb]
        exact (List.nodup_cons.mp hnd).1
      rw [show firstKeyIdx (b :: l) k = some 0 from by rw [firstKeyIdx, if_pos hb]]
      show l = _
      rw [List.filter_cons_of_neg (by simp [hb]), List.filter_eq_self.mpr]
      intro x hx
      have hmem : x.key ∈ entryKeys l := by
        simp only [entryKeys, List.mem_map]
        exact ⟨x, hx, rfl⟩
      simp only [decide_not, Bool.not_eq_true', decide_eq_false_iff_not]
      intro hxk
      exact hk (hxk ▸ hmem)
    · rw [show firstKeyIdx (b :: l) k = (firstKeyIdx l k).map (· + 1) from by
        rw [firstKeyIdx, if_neg hb]]
      rw [List.filter_cons_of_pos (by simp [hb])]
      have ih' := ih (List.nodup_cons.mp hnd).2
      cases hfi : firstKeyIdx l k with
      | none =>
        rw [hfi] at ih'
        simp only [Option.map_none']
        exact congrArg (b :: ·) ih'
      | some i =>
        rw [hfi] at ih'
        simp only [Option.map_some']
        exact congrArg (b :: ·) ih'

theorem minEntryOffset_le (l : List LeafPageEntry) (e : LeafPageEntry) (he : e ∈ l) :
    ∃ m, minEntryOffset l = some m ∧ m ≤ e.offset := by
  induction l with
  | nil => cases he
  | cons b l ih =>
    rcases List.mem_cons.mp he with rfl | he'
    · cases hm : minEntryOffset l with
      | none => exact ⟨e.offset, by simp [minEntryOffset, hm], le_refl _⟩
      | some m => exact ⟨min e.offset m, by simp [minEntryOffset, hm], Nat.min_le_left _ _⟩
    · rcases ih he' with ⟨m, hm, hle⟩
      exact ⟨min b.offset m, by simp [minEntryOffset, hm], le_trans (Nat.min_le_right _ _) hle⟩

theorem firstKeyIdx_eq_none_iff (l : List LeafPageEntry) (k : Nat) :
    firstKeyIdx l k = none ↔ ∀ x ∈ l, x.key ≠ k := by
  induction l with
  | nil => simp [firstKeyIdx]
  | cons b l ih =>
    rw [firstKeyIdx]
    by_cases hb : b.key = k
    · simp [hb]
    · simp [hb, ih]

theorem entryKeys_filter_ne (l : List LeafPageEntry) (k : Nat) :
    entryKeys (l.filter (fun e => ¬ e.key = k)) =
      (entryKeys l).filter (fun x => ¬ x = k) := by
  induction l with
  | nil => rfl
  | cons b l ih =>
    by_cases hb : b.key = k
    · rw [List.filter_cons_of_neg (by simp [hb])]
      show entryKeys (List.filter _ l) = List.filter _ (b.key :: entryKeys l)
      rw [List.filter_cons_of_neg (by simp [hb]), ih]
    · rw [List.filter_cons_of_pos (by simp [hb])]
      show entryKeys (b :: List.filter _ l) = List.filter _ (b.key :: entryKeys l)
      rw [List.filter_cons_of_pos (by simp [hb])]
      show b.key :: entryKeys (List.filter _ l) = _
      rw [ih]

theorem find?_filter_key_ne (l : List LeafPageEntry) (key k' : Nat) (h : k' ≠ key) :
    (l.filter (fun e => ¬ e.key = key)).find? (fun e => e.key = k') =
      l.find? (fun e => e.key = k') := by
  induction l with
  | nil => rfl
  | cons b l ih =>
    by_cases hb : b.key = key
    · rw [List.filter_cons_of_neg (by simp [hb]),
        List.find?_cons_of_neg _ (by simp [hb]; omega), ih]
    · rw [List.filter_cons_of_pos (by simp [hb])]
      by_cases hb' : b.key = k'
      · rw [List.find?_cons_of_pos _ (by simp [hb']), List.find?_cons_of_pos _ (by simp [hb'])]
      · rw [List.find?_cons_of_neg _ (by simp [hb']), List.find?_cons_of_neg _ (by simp [hb']),
          ih]

/-- Dropping the filtered key from a key column commutes with the range
filters of sorted insertion (`x < k` or `k < x` already excludes `x = k`). -/
theorem filter_lt_filter_ne (ks : List Nat) (k : Nat) :
    (ks.filter (fun x => ¬ x = k)).filter (fun x => decide (x < k)) =
      ks.filter (fun x => decide (x < k)) := by
  induction ks with
  | nil => rfl
  | cons b l ih =>
    by_cases hb : b = k
    · rw [List.filter_cons_of_neg (by simp [hb]), List.filter_cons_of_neg (by simp [hb]), ih]
    · rw [List.filter_cons_of_pos (by simp [hb])]
      by_cases hlt : b < k
      · rw [List.filter_cons_of_pos (by simp [hlt]), List.filter_cons_of_pos (by simp [hlt]), ih]
      · rw [List.filter_cons_of_neg (by simp [hlt]), List.filter_cons_of_neg (by simp [hlt]), ih]

theorem filter_gt_filter_ne (ks : List Nat) (k : Nat) :
    (ks.filter (fun x => ¬ x = k)).filter (fun x => decide (k < x)) =
      ks.filter (fun x => decide (k < x)) := by
  induction ks with
  | nil => rfl
  | cons b l ih =>
    by_cases hb : b = k
    · rw [List.filter_cons_of_neg (by simp [hb]), List.filter_cons_of_neg (by simp [hb]), ih]
    · rw [List.filter_cons_of_pos (by simp [hb])]
      by_cases hlt : k < b
      · rw [List.filter_cons_of_pos (by simp [hlt]), List.filter_cons_of_pos (by simp [hlt]), ih]
      · rw [List.filter_cons_of_neg (by simp [hlt]), List.filter_cons_of_neg (by simp [hlt]), ih]

theorem persist_header_ok (p : LeafPage) (db : DB) (es : List LeafPageEntry) (blob : Blob)
    (hs : db.store.get p.offset = some (.leafData es blob)) :
    p.persist_header db =
      .ok { db with store := db.store.put p.offset (.leafData p.keys blob) } := by
  unfold LeafPage.persist_header
  rw [hs]

theorem writeBlob_ok (db : DB) (base start : Nat) (data : List Nat)
    (es : List LeafPageEntry) (blob : Blob)
    (hs : db.store.get base = some (.leafData es blob)) :
    db.writeBlob base start data =
      .ok { db with store := db.store.put base (.leafData es (writeBytes blob start data)) } := by
  unfold DB.writeBlob
  rw [hs]

/-- `delete_value` on a sorted page that does hold the key: removes exactly
that slot and persists. -/
theorem delete_value_present (p : LeafPage) (key : Nat) (db : DB)
    (es : List LeafPageEntry) (blob : Blob)
    (hs : db.store.get p.offset = some (.leafData es blob))
    (hnd : (entryKeys p.keys).Nodup)
    (hkey : ¬ ∀ x ∈ p.keys, x.key ≠ key) :
    p.delete_value key db = .ok
      ({ offset := p.offset, keys := p.keys.filter (fun e => ¬ e.key = key) },
       { db with store := (db.store.put p.offset
           (.leafData (p.keys.filter (fun e => ¬ e.key = key)) blob)) },
       true) := by
  unfold LeafPage.delete_value
  have hne : p.keys ≠ [] := by
    intro h
    exact hkey (by simp [h])
  rw [if_neg (by simpa using hne)]
  obtain ⟨i, hfi⟩ : ∃ i, firstKeyIdx p.keys key = some i := by
    cases h : firstKeyIdx p.keys key with
    | none => exact absurd ((firstKeyIdx_eq_none_iff _ _).mp h) hkey
    | some j => exact ⟨j, rfl⟩
  have herase : p.keys.eraseIdx i = p.keys.filter (fun e => ¬ e.key = key) := by
    have h0 := erase_first_key_eq_filter p.keys key hnd
    rw [hfi] at h0
    exact h0
  simp only [hfi]
  rw [herase, persist_header_ok { p with keys := p.keys.filter (fun e => ¬ e.key = key) }
    db es blob hs]
  rfl

theorem bind_ok_er {α β : Type} (a : α) (f : α → ER β) :
    (Bind.bind (Except.ok a) f : ER β) = f a := rfl

theorem lookup_value_alloc_of_find_none (p : LeafPage) (k : Nat) (db : DB)
    (h : p.keys.find? (fun e => e.key = k) = none) :
    p.lookup_value_alloc k db = .ok none := by
  unfold LeafPage.lookup_value_alloc
  rw [h]

theorem lookup_value_alloc_of_find_some (p : LeafPage) (k : Nat) (db : DB)
    (e : LeafPageEntry) (es : List LeafPageEntry) (blob : Blob)
    (hf : p.keys.find? (fun x => x.key = k) = some e)
    (hs : db.store.get p.offset = some (.leafData es blob)) :
    p.lookup_value_alloc k db = .ok (some (readBytes blob e.offset e.value_len)) := by
  unfold LeafPage.lookup_value_alloc
  rw [hf, hs]

/-- What a successful `upsert_value` observably does to the page and the
database: the key column gains the key at its sorted position (replacing any
previous slot for it), the header meta is untouched, only this page of the
store changes and its persisted directory is the final in-memory one, the
new key reads back as exactly the written bytes, and every other key reads
back as before. -/
def UpsertOut (p : LeafPage) (key : Nat) (data : List Nat) (db : DB)
    (p' : LeafPage) (db' : DB) : Prop :=
  p'.offset = p.offset ∧
  entryKeys p'.keys =
    ((entryKeys p.keys).filter (fun x => decide (x < key))) ++
      key :: ((entryKeys p.keys).filter (fun x => decide (key < x))) ∧
  leafSorted p' ∧
  db'.meta = db.meta ∧
  (∃ blob2, db'.store.get p.offset = some (.leafData p'.keys blob2)) ∧
  (∀ o, o ≠ p.offset → db'.store.get o = db.store.get o) ∧
  p'.lookup_value_alloc key db' = .ok (some data) ∧
  (∀ k', k' ≠ key → p'.lookup_value_alloc k' db' = p.lookup_value_alloc k' db)

/-- What a successful `defragment` observably does: same directory keys,
same reads for every key, same meta, only this page of the store changes. -/
def DefragOut (p : LeafPage) (db : DB) (p' : LeafPage) (db' : DB) : Prop :=
  p'.offset = p.offset ∧
  entryKeys p'.keys = entryKeys p.keys ∧
  db'.meta = db.meta ∧
  (∃ es2 blob2, db'.store.get p.offset = some (.leafData es2 blob2)) ∧
  (∀ o, o ≠ p.offset → db'.store.get o = db.store.get o) ∧
  (∀ k', p'.lookup_value_alloc k' db' = p.lookup_value_alloc k' db)

/-- The quick-insert path, fully characterized, under the guards the caller
(`upsert_value`) has checked. -/
theorem quick_insert_spec (p : LeafPage) (key : Nat) (data : List Nat) (db : DB)
    (es : List LeafPageEntry) (blob : Blob)
    (hs : db.store.get p.offset = some (.leafData es blob))
    (hsort : leafSorted p)
    (habs : ∀ x ∈ p.keys, x.key ≠ key)
    (hg1 : p.header_len + LeafPageEntry.size_of_entry ≤
      (minEntryOffset p.keys).getD db.block_size)
    (hg2 : data.length ≤ (minEntryOffset p.keys).getD db.block_size -
      (p.header_len + LeafPageEntry.size_of_entry)) :
    ∃ p' db',
      p.quick_insert key data db (some ((minEntryOffset p.keys).getD db.block_size)) =
        .ok (p', db') ∧ UpsertOut p key data db p' db' := by
  set eo := (minEntryOffset p.keys).getD db.block_size with heo
  have hlen : data.length ≤ eo := by
    have h32 : (32 : Nat) ≤ p.header_len + LeafPageEntry.size_of_entry := by
      unfold LeafPage.header_len LeafPageEntry.size_of_entry
      omega
    omega
  set entry : LeafPageEntry :=
    { key := key, offset := eo - data.length, value_len := data.length } with hentry
  set p' : LeafPage :=
    { offset := p.offset, keys := listInsertAt (entryInsertIdx p.keys key) entry p.keys }
    with hp'
  set blob2 := writeBytes blob (eo - data.length) data with hblob2
  set db1 : DB := { db with store := db.store.put p.offset (.leafData es blob2) } with hdb1
  set db' : DB := { db1 with store := db1.store.put p.offset (.leafData p'.keys blob2) }
    with hdb'
  have hany : p.keys.any (fun e => e.key = key) = false := by
    rw [List.any_eq_false]
    intro x hx
    simpa using habs x hx
  have hrun : p.quick_insert key data db (some eo) = .ok (p', db') := by
    unfold LeafPage.quick_insert
    simp only [Option.getD_some]
    rw [writeBlob_ok db p.offset (eo - data.length) data es blob hs, bind_ok_er]
    rw [if_neg (by simp [hany])]
    rw [persist_header_ok p' db1 es blob2 (by
      show db1.store.get p.offset = _
      rw [hdb1]
      exact Store.get_put_self _ _ _), bind_ok_er]
  refine ⟨p', db', hrun, rfl, ?keysEq, ?sorted, rfl, ?stor, ?frame, ?lookNew, ?lookOld⟩
  case keysEq =>
    exact entryKeys_listInsertAt_sorted p.keys entry hsort habs
  case sorted =>
    show (entryKeys p'.keys).Sorted (· < ·)
    rw [entryKeys_listInsertAt_sorted p.keys entry hsort habs]
    exact insertKeySorted_sorted _ _ hsort
  case stor =>
    refine ⟨blob2, ?x⟩
    show (db1.store.put p.offset (.leafData p'.keys blob2)).get p.offset = _
    rw [Store.get_put_self]
  case frame =>
    intro o ho
    show (db1.store.put p.offset (.leafData p'.keys blob2)).get o = db.store.get o
    rw [Store.get_put_ne _ _ _ _ ho]
    exact Store.get_put_ne _ _ _ _ ho
  case lookNew =>
    have hf : p'.keys.find? (fun x => x.key = key) = some entry := by
      show (listInsertAt (entryInsertIdx p.keys key) entry p.keys).find? _ = _
      exact find?_listInsertAt_self p.keys _ entry habs
    rw [lookup_value_alloc_of_find_some p' key db' entry p'.keys blob2 hf (by
      show (db1.store.put p.offset (.leafData p'.keys blob2)).get p'.offset = _
      show (db1.store.put p.offset (.leafData p'.keys blob2)).get p.offset = _
      rw [Store.get_put_self])]
    show Except.ok (some (readBytes blob2 (eo - data.length) data.length)) = _
    rw [hblob2, readBytes_writeBytes]
  case lookOld =>
    intro k' hk'
    have hf : p'.keys.find? (fun x => x.key = k') = p.keys.find? (fun x => x.key = k') := by
      show (listInsertAt (entryInsertIdx p.keys key) entry p.keys).find? _ = _
      exact find?_listInsertAt_ne p.keys _ entry k' (by simpa [hentry] using hk'.symm)
    cases hfp : p.keys.find? (fun x => x.key = k') with
    | none =>
      rw [lookup_value_alloc_of_find_none p' k' db' (hf.trans hfp),
        lookup_value_alloc_of_find_none p k' db hfp]
    | some e' =>
      have he'mem : e' ∈ p.keys := List.mem_of_find?_eq_some hfp
      obtain ⟨m, hm, hmle⟩ := minEntryOffset_le p.keys e' he'mem
      have heom : eo = m := by
        rw [heo, hm]
        rfl
      rw [lookup_value_alloc_of_find_some p' k' db' e' p'.keys blob2 (hf.trans hfp) (by
        show (db1.store.put p.offset (.leafData p'.keys blob2)).get p'.offset = _
        show (db1.store.put p.offset (.leafData p'.keys blob2)).get p.offset = _
        rw [Store.get_put_self]),
        lookup_value_alloc_of_find_some p k' db e' es blob hfp hs]
      rw [hblob2, readBytes_writeBytes_disjoint]
      right
      omega


theorem find?_self_of_nodup (l : List LeafPageEntry) (e : LeafPageEntry)
    (hnd : (entryKeys l).Nodup) (he : e ∈ l) :
    l.find? (fun x => x.key = e.key) = some e := by
  induction l with
  | nil => cases he
  | cons b l ih =>
    rcases List.mem_cons.mp he with rfl | he'
    · rw [List.find?_cons_of_pos _ (by simp)]
    · have hbne : b.key ≠ e.key := by
        intro hcontra
        have : e.key ∈ entryKeys l := by
          simp only [entryKeys, List.mem_map]
          exact ⟨e, he', rfl⟩
        apply (List.nodup_cons.mp hnd).1
        show b.key ∈ entryKeys l
        rw [hcontra]
        exact this
      rw [List.find?_cons_of_neg _ (by simp [hbne])]
      exact ih (List.nodup_cons.mp hnd).2 he'

theorem mapM_ok {α β : Type} (l : List α) (f : α → ER β) (g : α → β)
    (h : ∀ x ∈ l, f x = .ok (g x)) :
    l.mapM f = .ok (l.map g) := by
  induction l with
  | nil => rfl
  | cons b l ih =>
    rw [List.mapM_cons, h b (by simp), List.map_cons]
    have ih' := ih (fun x hx => h x (by simp [hx]))
    rw [show (l.mapM f : ER (List β)) = .ok (l.map g) from ih']
    rfl

/-- Folding `upsert_value` over an ascending run of keys that all lie above
the page's current directory — the shape of both `defragment`'s re-insertion
loop and `split_in_half`'s move into the fresh right sibling. -/
theorem fold_upsert_spec (f : Nat)
    (IH : ∀ (p : LeafPage) (key : Nat) (data : List Nat) (db : DB) (p' : LeafPage) (db' : DB)
      (es : List LeafPageEntry) (blob : Blob),
      db.store.get p.offset = some (.leafData es blob) →
      leafSorted p →
      LeafPage.upsert_value f p key data db = .ok (p', db') →
      UpsertOut p key data db p' db') :
    ∀ (pairs : List (Nat × List Nat)) (q : LeafPage) (db : DB),
      (∃ es blob, db.store.get q.offset = some (.leafData es blob)) →
      (entryKeys q.keys ++ pairs.map (·.1)).Sorted (· < ·) →
      ∀ (p' : LeafPage) (db' : DB),
        pairs.foldlM (fun acc kv => LeafPage.upsert_value f acc.1 kv.1 kv.2 acc.2) (q, db) =
          .ok (p', db') →
        p'.offset = q.offset ∧
        entryKeys p'.keys = entryKeys q.keys ++ pairs.map (·.1) ∧
        db'.meta = db.meta ∧
        (∃ es2 blob2, db'.store.get q.offset = some (.leafData es2 blob2)) ∧
        (∀ o, o ≠ q.offset → db'.store.get o = db.store.get o) ∧
        (∀ kv ∈ pairs, p'.lookup_value_alloc kv.1 db' = .ok (some kv.2)) ∧
        (∀ k, k ∉ pairs.map (·.1) →
          p'.lookup_value_alloc k db' = q.lookup_value_alloc k db) := by
  intro pairs
  induction pairs with
  | nil =>
    intro q db hsl hasc p' db' hrun
    rw [List.foldlM_nil] at hrun
    obtain ⟨hq, hdb⟩ : q = p' ∧ db = db' := by
      have h0 := Except.ok.inj hrun
      exact ⟨congrArg Prod.fst h0, congrArg Prod.snd h0⟩
    subst hq
    subst hdb
    exact ⟨rfl, by simp, rfl, by simpa using hsl, fun o _ => rfl, by simp, fun k _ => rfl⟩
  | cons kv rest ih =>
    intro q db hsl hasc p' db' hrun
    rw [List.foldlM_cons] at hrun
    obtain ⟨es, blob, hs⟩ := hsl
    rw [List.map_cons] at hasc
    have hsplit := List.pairwise_append.mp hasc
    have hqsorted : leafSorted q := hsplit.1
    have hcross : ∀ a ∈ entryKeys q.keys, a < kv.1 := by
      intro a ha
      exact hsplit.2.2 a ha kv.1 (by simp)
    have htail : ∀ b ∈ rest.map (·.1), kv.1 < b := by
      intro b hb
      exact (List.pairwise_cons.mp hsplit.2.1).1 b hb
    cases hstep : LeafPage.upsert_value f q kv.1 kv.2 db with
    | error e =>
      rw [hstep] at hrun
      exact absurd hrun (by simp [Bind.bind, Except.bind])
    | ok r =>
      obtain ⟨q1, db1⟩ := r
      rw [hstep, bind_ok_er] at hrun
      have hout := IH q kv.1 kv.2 db q1 db1 es blob hs hqsorted hstep
      obtain ⟨ho1, ho2, ho3, ho4, ho5, ho6, ho7, ho8⟩ := hout
      have hq1keys : entryKeys q1.keys = entryKeys q.keys ++ [kv.1] := by
        rw [ho2, List.filter_eq_self.mpr (fun a ha => by simpa using hcross a ha),
          List.filter_eq_nil_iff.mpr (fun a ha => by
            have := hcross a ha
            simp
            omega)]
      have hsl1 : ∃ es2 blob2, db1.store.get q1.offset = some (.leafData es2 blob2) := by
        obtain ⟨b2, hb2⟩ := ho5
        exact ⟨q1.keys, b2, by rw [ho1]; exact hb2⟩
      have hasc1 : (entryKeys q1.keys ++ rest.map (·.1)).Sorted (· < ·) := by
        rw [hq1keys]
        have : entryKeys q.keys ++ [kv.1] ++ rest.map (·.1) =
            entryKeys q.keys ++ kv.1 :: rest.map (·.1) := by
          rw [List.append_assoc]
          rfl
        rw [this]
        exact hasc
      have hfold := ih q1 db1 hsl1 hasc1 p' db' hrun
      obtain ⟨hf1, hf2, hf3, hf4, hf5, hf6, hf7⟩ := hfold
      have hoff : p'.offset = q.offset := by rw [hf1, ho1]
      refine ⟨hoff, ?keys, by rw [hf3, ho4], ?stor, ?frame, ?pairsMem, ?others⟩
      case keys =>
        rw [hf2, hq1keys, List.append_assoc]
        rfl
      case stor =>
        obtain ⟨es2, b2, hb2⟩ := hf4
        exact ⟨es2, b2, by rw [← ho1]; exact hb2⟩
      case frame =>
        intro o ho
        rw [hf5 o (by rw [ho1]; exact ho)]
        exact ho6 o ho
      case pairsMem =>
        intro kv' hkv'
        rcases List.mem_cons.mp hkv' with rfl | hmem
        · have hnotin : kv'.1 ∉ rest.map (·.1) := by
            intro hmem'
            have := htail kv'.1 hmem'
            omega
          rw [hf7 kv'.1 hnotin]
          rw [show q1.lookup_value_alloc kv'.1 db1 = .ok (some kv'.2) from ho7]
        · exact hf6 kv' hmem
      case others =>
        intro k hk
        rw [List.map_cons, List.mem_cons] at hk
        push_neg at hk
        rw [hf7 k hk.2]
        exact ho8 k hk.1

/-- The central characterization of `upsert_value` and `defragment` on a
sorted leaf whose page is present on disk, by simultaneous induction on the
fuel that drives their mutual recursion. -/
theorem upsert_defrag_spec : ∀ fuel : Nat,
    (∀ (p : LeafPage) (key : Nat) (data : List Nat) (db : DB) (p' : LeafPage) (db' : DB)
      (es : List LeafPageEntry) (blob : Blob),
      db.store.get p.offset = some (.leafData es blob) →
      leafSorted p →
      LeafPage.upsert_value fuel p key data db = .ok (p', db') →
      UpsertOut p key data db p' db') ∧
    (∀ (p : LeafPage) (db : DB) (p' : LeafPage) (db' : DB)
      (es : List LeafPageEntry) (blob : Blob),
      db.store.get p.offset = some (.leafData es blob) →
      leafSorted p →
      LeafPage.defragment fuel p db = .ok (p', db') →
      DefragOut p db p' db') := by
  intro fuel
  induction fuel with
  | zero =>
    constructor
    · intro p key data db p' db' es blob _ _ hrun
      exact absurd hrun (by simp [LeafPage.upsert_value])
    · intro p db p' db' es blob _ _ hrun
      exact absurd hrun (by simp [LeafPage.defragment])
  | succ f ih =>
    obtain ⟨ihU, ihD⟩ := ih
    constructor
    · -- upsert_value (f + 1)
      intro p key data db p' db' es blob hs hsort hrun
      have hnd : (entryKeys p.keys).Nodup := hsort.imp Nat.ne_of_lt
      simp only [LeafPage.upsert_value] at hrun
      by_cases hpres : p.keys.any (fun e => e.key = key) = true
      · -- the key is present: delete, then re-upsert
        rw [if_pos hpres] at hrun
        have hkey : ¬ ∀ x ∈ p.keys, x.key ≠ key := by
          rw [List.any_eq_true] at hpres
          obtain ⟨x, hx, hxk⟩ := hpres
          intro hall
          exact hall x hx (by simpa using hxk)
        rw [delete_value_present p key db es blob hs hnd hkey, bind_ok_er] at hrun
        have hout := ihU { offset := p.offset, keys := p.keys.filter (fun e => ¬ e.key = key) }
          key data
          { db with store := (db.store.put p.offset
              (.leafData (p.keys.filter (fun e => ¬ e.key = key)) blob)) }
          p' db' (p.keys.filter (fun e => ¬ e.key = key)) blob
          (Store.get_put_self _ _ _)
          (by
            show (entryKeys (p.keys.filter (fun e => ¬ e.key = key))).Sorted (· < ·)
            rw [entryKeys_filter_ne]
            exact hsort.filter _)
          hrun
        obtain ⟨ho1, ho2, ho3, ho4, ho5, ho6, ho7, ho8⟩ := hout
        have hkeysEq : entryKeys p'.keys =
            ((entryKeys p.keys).filter (fun x => decide (x < key))) ++
              key :: ((entryKeys p.keys).filter (fun x => decide (key < x))) := by
          rw [ho2]
          show (entryKeys (p.keys.filter (fun e => ¬ e.key = key))).filter _ ++
            key :: (entryKeys (p.keys.filter (fun e => ¬ e.key = key))).filter _ = _
          rw [entryKeys_filter_ne, filter_lt_filter_ne, filter_gt_filter_ne]
        refine ⟨ho1, hkeysEq, ho3, ho4, ho5, ?frame, ho7, ?old⟩
        case frame =>
          intro o ho
          exact (ho6 o ho).trans (Store.get_put_ne _ _ _ _ ho)
        case old =>
          intro k' hk'
          rw [ho8 k' hk']
          have hf := find?_filter_key_ne p.keys key k' hk'
          cases hfp : p.keys.find? (fun e => e.key = k') with
          | none =>
            rw [lookup_value_alloc_of_find_none _ k' _ (by rw [← hfp]; exact hf),
              lookup_value_alloc_of_find_none p k' db hfp]
          | some e' =>
            rw [lookup_value_alloc_of_find_some _ k' _ e'
                (p.keys.filter (fun e => ¬ e.key = key)) blob (by rw [← hfp]; exact hf)
                (Store.get_put_self _ _ _),
              lookup_value_alloc_of_find_some p k' db e' es blob hfp hs]
      · -- the key is absent
        rw [if_neg hpres] at hrun
        by_cases hcap : p.can_accommodate data.length db.block_size = true
        · rw [if_neg (by simp [hcap])] at hrun
          by_cases hg : p.header_len + LeafPageEntry.size_of_entry >
              (minEntryOffset p.keys).getD db.block_size ∨
              (minEntryOffset p.keys).getD db.block_size -
                (p.header_len + LeafPageEntry.size_of_entry) < data.length
          · -- defragment, then retry
            rw [if_pos hg] at hrun
            cases hdef : LeafPage.defragment f p db with
            | error e =>
              rw [hdef] at hrun
              exact absurd hrun (by simp [Bind.bind, Except.bind])
            | ok r =>
              obtain ⟨p1, db1⟩ := r
              rw [hdef, bind_ok_er] at hrun
              have hdout := ihD p db p1 db1 es blob hs hsort hdef
              obtain ⟨hd1, hd2, hd3, hd4, hd5, hd6⟩ := hdout
              obtain ⟨es2, blob2, hleaf1⟩ := hd4
              have hout := ihU p1 key data db1 p' db' es2 blob2
                (by rw [hd1]; exact hleaf1)
                (by
                  show (entryKeys p1.keys).Sorted (· < ·)
                  rw [hd2]
                  exact hsort)
                hrun
              obtain ⟨ho1, ho2, ho3, ho4, ho5, ho6, ho7, ho8⟩ := hout
              refine ⟨ho1.trans hd1, ?keys, ho3, ho4.trans hd3, ?stor, ?frame, ho7, ?old⟩
              case keys =>
                rw [ho2, hd2]
              case stor =>
                obtain ⟨b2, hb2⟩ := ho5
                exact ⟨b2, by rw [← hd1]; exact hb2⟩
              case frame =>
                intro o ho
                exact (ho6 o (by rw [hd1]; exact ho)).trans (hd5 o ho)
              case old =>
                intro k' hk'
                exact (ho8 k' hk').trans (hd6 k')
          · -- the quick path
            rw [if_neg hg] at hrun
            push_neg at hg
            have habs : ∀ x ∈ p.keys, x.key ≠ key := by
              intro x hx hxk
              exact hpres (List.any_eq_true.mpr ⟨x, hx, by simpa using hxk⟩)
            obtain ⟨p2, db2, hq, hout⟩ :=
              quick_insert_spec p key data db es blob hs hsort habs hg.1 (by omega)
            rw [hq] at hrun
            have h0 := Except.ok.inj hrun
            injection h0 with hp hd
            rw [← hp, ← hd]
            exact hout
        · rw [if_pos (by simp [hcap])] at hrun
          exact absurd hrun (by simp)
    · -- defragment (f + 1)
      intro p db p' db' es blob hs hsort hrun
      have hnd : (entryKeys p.keys).Nodup := hsort.imp Nat.ne_of_lt
      simp only [LeafPage.defragment] at hrun
      have hmap : p.keys.mapM (fun e => do
          match ← p.lookup_value_alloc e.key db with
          | some v => pure (e.key, v)
          | none => throw EngineErr.panicked) =
          .ok (p.keys.map (fun e => (e.key, readBytes blob e.offset e.value_len))) := by
        apply mapM_ok
        intro e he
        rw [lookup_value_alloc_of_find_some p e.key db e es blob
          (find?_self_of_nodup p.keys e hnd he) hs]
        rfl
      rw [hmap, bind_ok_er] at hrun
      have hpairsKeys : (p.keys.map (fun e => (e.key, readBytes blob e.offset e.value_len))).map
          (·.1) = entryKeys p.keys := by
        rw [List.map_map]
        rfl
      have hfold := fold_upsert_spec f ihU
        (p.keys.map (fun e => (e.key, readBytes blob e.offset e.value_len)))
        { p with keys := [] } db ⟨es, blob, hs⟩
        (by
          show (entryKeys ([] : List LeafPageEntry) ++ _).Sorted (· < ·)
          rw [hpairsKeys]
          exact hsort)
        p' db' hrun
      obtain ⟨hf1, hf2, hf3, hf4, hf5, hf6, hf7⟩ := hfold
      rw [hpairsKeys] at hf2 hf7
      refine ⟨hf1, by rw [hf2]; rfl, hf3, hf4, hf5, ?looks⟩
      case looks =>
        intro k'
        by_cases hmem : k' ∈ entryKeys p.keys
        · obtain ⟨e, he, hek⟩ := List.mem_map.mp hmem
          have hpair : (e.key, readBytes blob e.offset e.value_len) ∈
              p.keys.map (fun e => (e.key, readBytes blob e.offset e.value_len)) :=
            List.mem_map.mpr ⟨e, he, rfl⟩
          have h1 := hf6 _ hpair
          rw [← hek]
          rw [h1, lookup_value_alloc_of_find_some p e.key db e es blob
            (find?_self_of_nodup p.keys e hnd he) hs]
        · rw [hf7 k' hmem]
          rw [lookup_value_alloc_of_find_none _ k' db (by
              show (([] : List LeafPageEntry)).find? _ = none
              rfl),
            lookup_value_alloc_of_find_none p k' db (by
              rw [List.find?_eq_none]
              intro x hx
              simp only [decide_eq_true_eq]
              intro hxk
              exact hmem (by
                rw [← hxk]
                exact List.mem_map.mpr ⟨x, hx, rfl⟩))]

theorem filter_lt_gt_partition (l : List Nat) (k : Nat) (h : k ∉ l) :
    (l.filter (fun x => decide (x < k))).length +
      (l.filter (fun x => decide (k < x))).length = l.length := by
  induction l with
  | nil => rfl
  | cons b l ih =>
    have hb : b ≠ k := fun hc => h (by simp [hc])
    have ih' := ih (fun hc => h (by simp [hc]))
    rcases Nat.lt_trichotomy b k with hlt | heq | hgt
    · rw [List.filter_cons_of_pos (by simp [hlt]), List.filter_cons_of_neg (by simp; omega)]
      simp only [List.length_cons]
      omega
    · exact absurd heq hb
    · rw [List.filter_cons_of_neg (by simp; omega), List.filter_cons_of_pos (by simp [hgt])]
      simp only [List.length_cons]
      omega

theorem length_insert_present (ks : List Nat) (k : Nat) (hnd : ks.Nodup) (hk : k ∈ ks) :
    (ks.filter (fun x => decide (x < k))).length + 1 +
      (ks.filter (fun x => decide (k < x))).length = ks.length := by
  induction ks with
  | nil => cases hk
  | cons b l ih =>
    by_cases hb : b = k
    · subst hb
      have hout : b ∉ l := (List.nodup_cons.mp hnd).1
      rw [List.filter_cons_of_neg (by simp), List.filter_cons_of_neg (by simp)]
      have := filter_lt_gt_partition l b hout
      simp only [List.length_cons]
      omega
    · have hk' : k ∈ l := by
        rcases List.mem_cons.mp hk with rfl | hmem
        · exact absurd rfl hb
        · exact hmem
      have ih' := ih (List.nodup_cons.mp hnd).2 hk'
      rcases Nat.lt_trichotomy b k with hlt | heq | hgt
      · rw [List.filter_cons_of_pos (by simp [hlt]), List.filter_cons_of_neg (by simp; omega)]
        simp only [List.length_cons]
        omega
      · exact absurd heq hb
      · rw [List.filter_cons_of_neg (by simp; omega), List.filter_cons_of_pos (by simp [hgt])]
        simp only [List.length_cons]
        omega

/-- C7: on a (sorted, on-disk) leaf page that already holds a slot for the
key, a successful `upsert_value` is an update: the key afterwards reads back
as exactly the new bytes, every other key reads back unchanged, and the
directory holds exactly as many slots as before. -/
theorem c7_upsert_existing_key_is_update (fuel : Nat) (p : LeafPage) (key : Nat)
    (data : List Nat) (db : DB) (p' : LeafPage) (db' : DB)
    (es : List LeafPageEntry) (blob : Blob)
    (hs : db.store.get p.offset = some (.leafData es blob))
    (hsort : leafSorted p)
    (hkey : key ∈ entryKeys p.keys)
    (hrun : LeafPage.upsert_value fuel p key data db = .ok (p', db')) :
    p'.lookup_value_alloc key db' = .ok (some data) ∧
    (∀ k', k' ≠ key → p'.lookup_value_alloc k' db' = p.lookup_value_alloc k' db) ∧
    p'.keys.length = p.keys.length := by
  have hout := (upsert_defrag_spec fuel).1 p key data db p' db' es blob hs hsort hrun
  obtain ⟨_, ho2, _, _, _, _, ho7, ho8⟩ := hout
  refine ⟨ho7, ho8, ?count⟩
  have hnd : (entryKeys p.keys).Nodup := hsort.imp Nat.ne_of_lt
  have hlen : (entryKeys p'.keys).length = (entryKeys p.keys).length := by
    rw [ho2]
    rw [List.length_append, List.length_cons]
    have := length_insert_present (entryKeys p.keys) key hnd hkey
    omega
  simpa [entryKeys] using hlen

/-- The two-slot leaf used by the C7 witness, on disk at offset 128. -/
def c7wPage : LeafPage :=
  { offset := 128, keys := [{ key := 1, offset := 120, value_len := 8 },
                            { key := 2, offset := 110, value_len := 10 }] }

/-- Its database (128-byte pages). -/
def c7wDb : DB :=
  DB.fromExisting [(128, .leafData c7wPage.keys [])]
    { block_size_exp := 7, num_blocks_allocated := 2, root_btree_offset := 0 }

/-- The state after upserting key 2 with new bytes `[5, 5]`. -/
def c7wAfter : LeafPage × DB :=
  (LeafPage.upsert_value 5 c7wPage 2 [5, 5] c7wDb).toOption.getD (c7wPage, c7wDb)

/-- Witness for C7 at a concrete input: updating key 2 of a two-slot leaf
leaves the looked-up bytes of key 2 at the new value, key 1 unchanged, and
the slot count at 2. -/
theorem c7_upsert_existing_key_is_update_witness :
    (c7wAfter.1.lookup_value_alloc 2 c7wAfter.2 = .ok (some [5, 5])) ∧
    (c7wAfter.1.lookup_value_alloc 1 c7wAfter.2 = c7wPage.lookup_value_alloc 1 c7wDb) ∧
    c7wAfter.1.keys.length = c7wPage.keys.length := by
  have hrun : LeafPage.upsert_value 5 c7wPage 2 [5, 5] c7wDb =
      .ok (c7wAfter.1, c7wAfter.2) := by decide
  obtain ⟨h1, h2, h3⟩ := c7_upsert_existing_key_is_update 5 c7wPage 2 [5, 5] c7wDb
    c7wAfter.1 c7wAfter.2 c7wPage.keys [] (by decide) (by decide) (by decide) hrun
  exact ⟨h1, h2 1 (by decide), h3⟩

/-- The move loop of `split_in_half`: look each entry's value up on the
source page, upsert it into the (distinct) destination page.  The source
page is never written, so every value read comes from the original blob. -/
theorem fold_move_spec (f : Nat)
    (IH : ∀ (p : LeafPage) (key : Nat) (data : List Nat) (db : DB) (p' : LeafPage) (db' : DB)
      (es : List LeafPageEntry) (blob : Blob),
      db.store.get p.offset = some (.leafData es blob) →
      leafSorted p →
      LeafPage.upsert_value f p key data db = .ok (p', db') →
      UpsertOut p key data db p' db')
    (src : LeafPage) (es0 : List LeafPageEntry) (blob : Blob)
    (hsrcnd : (entryKeys src.keys).Nodup) :
    ∀ (entries : List LeafPageEntry) (q : LeafPage) (db : DB),
      db.store.get src.offset = some (.leafData es0 blob) →
      q.offset ≠ src.offset →
      (∃ blob2, db.store.get q.offset = some (.leafData q.keys blob2)) →
      (∀ e ∈ entries, e ∈ src.keys) →
      (entryKeys q.keys ++ entries.map (·.key)).Sorted (· < ·) →
      ∀ (p' : LeafPage) (db' : DB),
        entries.foldlM (moveStep f src) (q, db) = .ok (p', db') →
        p'.offset = q.offset ∧
        entryKeys p'.keys = entryKeys q.keys ++ entries.map (·.key) ∧
        db'.meta = db.meta ∧
        (∃ blob2, db'.store.get q.offset = some (.leafData p'.keys blob2)) ∧
        (∀ o, o ≠ q.offset → db'.store.get o = db.store.get o) ∧
        (∀ e ∈ entries, p'.lookup_value_alloc e.key db' =
          .ok (some (readBytes blob e.offset e.value_len))) ∧
        (∀ k, k ∉ entries.map (·.key) →
          p'.lookup_value_alloc k db' = q.lookup_value_alloc k db) := by
  intro entries
  induction entries with
  | nil =>
    intro q db _ _ hql _ _ p' db' hrun
    rw [List.foldlM_nil] at hrun
    have h0 := Except.ok.inj hrun
    obtain ⟨hq, hdb⟩ : q = p' ∧ db = db' :=
      ⟨congrArg Prod.fst h0, congrArg Prod.snd h0⟩
    subst hq
    subst hdb
    exact ⟨rfl, by simp, rfl, hql, fun o _ => rfl, by simp, fun k _ => rfl⟩
  | cons e rest ih =>
    intro q db hsrc hne hql hments hasc p' db' hrun
    rw [List.foldlM_cons] at hrun
    obtain ⟨blobq, hq⟩ := hql
    rw [List.map_cons] at hasc
    have hsplit := List.pairwise_append.mp hasc
    have hqsorted : leafSorted q := hsplit.1
    have hcross : ∀ a ∈ entryKeys q.keys, a < e.key := by
      intro a ha
      exact hsplit.2.2 a ha e.key (by simp)
    have htail : ∀ b ∈ rest.map (·.key), e.key < b := by
      intro b hb
      exact (List.pairwise_cons.mp hsplit.2.1).1 b hb
    have hstepEq : moveStep f src (q, db) e =
        LeafPage.upsert_value f q e.key (readBytes blob e.offset e.value_len) db := by
      unfold moveStep
      rw [lookup_value_alloc_of_find_some src e.key db e es0 blob
        (find?_self_of_nodup src.keys e hsrcnd (hments e (by simp))) hsrc]
      rfl
    rw [hstepEq] at hrun
    cases hstep : LeafPage.upsert_value f q e.key (readBytes blob e.offset e.value_len) db with
    | error err =>
      rw [hstep] at hrun
      exact absurd hrun (by simp [Bind.bind, Except.bind])
    | ok r =>
      obtain ⟨q1, db1⟩ := r
      rw [hstep, bind_ok_er] at hrun
      have hout := IH q e.key (readBytes blob e.offset e.value_len) db q1 db1 q.keys blobq hq
        hqsorted hstep
      obtain ⟨ho1, ho2, ho3, ho4, ho5, ho6, ho7, ho8⟩ := hout
      have hq1keys : entryKeys q1.keys = entryKeys q.keys ++ [e.key] := by
        rw [ho2, List.filter_eq_self.mpr (fun a ha => by simpa using hcross a ha),
          List.filter_eq_nil_iff.mpr (fun a ha => by
            have := hcross a ha
            simp
            omega)]
      have hsrc1 : db1.store.get src.offset = some (.leafData es0 blob) := by
        rw [ho6 src.offset (by
          intro hcontra
          exact hne (by rw [← hcontra]))]
        exact hsrc
      have hql1 : ∃ blob2, db1.store.get q1.offset = some (.leafData q1.keys blob2) := by
        obtain ⟨b2, hb2⟩ := ho5
        exact ⟨b2, by rw [ho1]; exact hb2⟩
      have hne1 : q1.offset ≠ src.offset := by rw [ho1]; exact hne
      have hasc1 : (entryKeys q1.keys ++ rest.map (·.key)).Sorted (· < ·) := by
        rw [hq1keys]
        have harr : entryKeys q.keys ++ [e.key] ++ rest.map (·.key) =
            entryKeys q.keys ++ e.key :: rest.map (·.key) := by
          rw [List.append_assoc]
          rfl
        rw [harr]
        exact hasc
      have hfold := ih q1 db1 hsrc1 hne1 hql1 (fun x hx => hments x (by simp [hx])) hasc1
        p' db' hrun
      obtain ⟨hf1, hf2, hf3, hf4, hf5, hf6, hf7⟩ := hfold
      have hoff : p'.offset = q.offset := by rw [hf1, ho1]
      refine ⟨hoff, ?keys, by rw [hf3, ho4], ?stor, ?frame, ?entriesMem, ?others⟩
      case keys =>
        rw [hf2, hq1keys, List.append_assoc]
        rfl
      case stor =>
        obtain ⟨b2, hb2⟩ := hf4
        exact ⟨b2, by rw [← ho1]; exact hb2⟩
      case frame =>
        intro o ho
        rw [hf5 o (by rw [ho1]; exact ho)]
        exact ho6 o ho
      case entriesMem =>
        intro e' he'
        rcases List.mem_cons.mp he' with rfl | hmem
        · have hnotin : e'.key ∉ rest.map (·.key) := by
            intro hmem'
            have := htail e'.key hmem'
            omega
          rw [hf7 e'.key hnotin]
          exact ho7
        · exact hf6 e' hmem
      case others =>
        intro k hk
        rw [List.map_cons, List.mem_cons] at hk
        push_neg at hk
        rw [hf7 k hk.2]
        exact ho8 k hk.1

theorem lookup_value_alloc_store_invariant (p : LeafPage) (k : Nat) (db1 db2 : DB)
    (h : db2.store.get p.offset = db1.store.get p.offset) :
    p.lookup_value_alloc k db2 = p.lookup_value_alloc k db1 := by
  unfold LeafPage.lookup_value_alloc
  rw [h]

/-- `LeafPage::split_in_half`, fully characterized: the original page is
truncated (and persisted) to the lower half of its sorted slots, the upper
half moves into a freshly allocated right sibling (values read from the
original page's blob), and nothing else of the store changes. -/
theorem split_in_half_spec (fuel : Nat) (p : LeafPage) (db : DB)
    (es : List LeafPageEntry) (blob : Blob) (left right : LeafPage) (db' : DB)
    (hs : db.store.get p.offset = some (.leafData es blob))
    (hsort : leafSorted p)
    (hfresh : p.offset ≠ db.block_size * db.meta.num_blocks_allocated)
    (hrun : LeafPage.split_in_half fuel p db = .ok (left, right, db')) :
    left = { offset := p.offset, keys := p.keys.take (p.keys.length / 2) } ∧
    entryKeys right.keys = entryKeys (p.keys.drop (p.keys.length / 2)) ∧
    right.offset = db.block_size * db.meta.num_blocks_allocated ∧
    (∀ e ∈ p.keys.drop (p.keys.length / 2),
      right.lookup_value_alloc e.key db' =
        .ok (some (readBytes blob e.offset e.value_len))) ∧
    (∃ blob2, db'.store.get p.offset = some (.leafData left.keys blob2)) ∧
    (∃ blob3, db'.store.get right.offset = some (.leafData right.keys blob3)) ∧
    (∀ o, o ≠ p.offset → o ≠ right.offset → db'.store.get o = db.store.get o) ∧
    db'.meta = { db.meta with
      num_blocks_allocated := db.meta.num_blocks_allocated + 1 } := by
  have hnd : (entryKeys p.keys).Nodup := hsort.imp Nat.ne_of_lt
  set off0 := db.block_size * db.meta.num_blocks_allocated with hoff0
  set db1 : DB := { store := db.store.put off0 (.leafData [] [])
                    meta := { db.meta with
                      num_blocks_allocated := db.meta.num_blocks_allocated + 1 } } with hdb1
  have hinit : LeafPage.init db = ({ offset := off0, keys := [] }, db1) := rfl
  simp only [LeafPage.split_in_half, hinit] at hrun
  cases hfold : (p.keys.drop (p.keys.length / 2)).foldlM (moveStep fuel p)
      ({ offset := off0, keys := [] }, db1) with
  | error e =>
    rw [hfold] at hrun
    exact absurd hrun (by simp [Bind.bind, Except.bind])
  | ok r =>
    obtain ⟨r0, db2⟩ := r
    rw [hfold, bind_ok_er] at hrun
    have hmove := fold_move_spec fuel (upsert_defrag_spec fuel).1 p es blob hnd
      (p.keys.drop (p.keys.length / 2)) { offset := off0, keys := [] } db1
      (by
        show db1.store.get p.offset = _
        rw [hdb1]
        show (db.store.put off0 (.leafData [] [])).get p.offset = _
        rw [Store.get_put_ne _ _ _ _ hfresh]
        exact hs)
      (by
        show off0 ≠ p.offset
        exact fun hc => hfresh hc.symm)
      ⟨[], by
        show (db.store.put off0 (.leafData [] [])).get off0 = _
        rw [Store.get_put_self]⟩
      (fun e he => List.drop_subset _ _ he)
      (by
        show (entryKeys ([] : List LeafPageEntry) ++ _).Sorted (· < ·)
        have hmapdrop : (p.keys.drop (p.keys.length / 2)).map (·.key) =
            (entryKeys p.keys).drop (p.keys.length / 2) := by
          rw [entryKeys, List.map_drop]
        show List.Sorted (· < ·) ([] ++ (p.keys.drop (p.keys.length / 2)).map (·.key))
        rw [List.nil_append, hmapdrop]
        exact hsort.sublist (List.drop_sublist _ _))
      r0 db2 hfold
    obtain ⟨hm1, hm2, hm3, hm4, hm5, hm6, hm7⟩ := hmove
    have hp2 : db2.store.get p.offset = some (.leafData es blob) := by
      rw [hm5 p.offset (fun hc => hfresh hc)]
      show db1.store.get p.offset = _
      rw [hdb1]
      show (db.store.put off0 (.leafData [] [])).get p.offset = _
      rw [Store.get_put_ne _ _ _ _ hfresh]
      exact hs
    rw [persist_header_ok { p with keys := p.keys.take (p.keys.length / 2) } db2 es blob hp2,
      bind_ok_er] at hrun
    have h0 := Except.ok.inj hrun
    injection h0 with hLeft h1
    injection h1 with hRight hDb
    have hleft : left = { offset := p.offset, keys := p.keys.take (p.keys.length / 2) } :=
      hLeft.symm
    have hright : right = r0 := hRight.symm
    have hdb' : db' = { db2 with store := (db2.store.put p.offset
        (.leafData (p.keys.take (p.keys.length / 2)) blob)) } := hDb.symm
    have hrightOff : right.offset = off0 := by rw [hright, hm1]
    have hrkeys : entryKeys right.keys = entryKeys (p.keys.drop (p.keys.length / 2)) := by
      rw [hright, hm2]
      show [] ++ _ = _
      rw [List.nil_append]
      rfl
    refine ⟨hleft, hrkeys, hrightOff, ?vals, ?persisted, ?rstore, ?frame, ?metaEq⟩
    case vals =>
      intro e he
      have hinv : right.lookup_value_alloc e.key db' = right.lookup_value_alloc e.key db2 := by
        apply lookup_value_alloc_store_invariant
        rw [hdb']
        show (db2.store.put p.offset _).get right.offset = _
        rw [Store.get_put_ne _ _ _ _ (by rw [hrightOff]; exact fun hc => hfresh hc.symm)]
      rw [hinv, hright]
      exact hm6 e he
    case persisted =>
      refine ⟨blob, ?x⟩
      rw [hdb', hleft]
      show (db2.store.put p.offset _).get p.offset = _
      rw [Store.get_put_self]
    case rstore =>
      obtain ⟨b4, hb4⟩ := hm4
      refine ⟨b4, ?y⟩
      rw [hdb']
      show (db2.store.put p.offset _).get right.offset = _
      rw [Store.get_put_ne _ _ _ _ (by rw [hrightOff]; exact fun hc => hfresh hc.symm)]
      rw [hrightOff, hright]
      exact hb4
    case frame =>
      intro o ho1 ho2
      have ho2' : o ≠ off0 := by rw [← hrightOff]; exact ho2
      rw [hdb']
      show (db2.store.put p.offset _).get o = _
      rw [Store.get_put_ne _ _ _ _ ho1, hm5 o ho2']
      show (db.store.put off0 (.leafData [] [])).get o = _
      rw [Store.get_put_ne _ _ _ _ ho2']
    case metaEq =>
      rw [hdb']
      show db2.meta = _
      rw [hm3]

/-- C5 (amended): splitting a leaf with `n ≥ 2` sorted slots moves the upper
half of the slots by sort order — slots `n / 2` onward, values read from the
original page and all — into a freshly allocated right sibling, and
truncates (and persists) the original leaf to the lower half; when `n` is
odd the extra slot goes to the RIGHT sibling: the left leaf keeps
`floor(n / 2)` slots and the right sibling receives `ceil(n / 2)`. -/
theorem c5_split_in_half_amended (fuel : Nat) (p : LeafPage) (db : DB)
    (es : List LeafPageEntry) (blob : Blob) (left right : LeafPage) (db' : DB)
    (hs : db.store.get p.offset = some (.leafData es blob))
    (hsort : leafSorted p)
    (hn : 2 ≤ p.keys.length)
    (hfresh : p.offset ≠ db.block_size * db.meta.num_blocks_allocated)
    (hrun : LeafPage.split_in_half fuel p db = .ok (left, right, db')) :
    left = { offset := p.offset, keys := p.keys.take (p.keys.length / 2) } ∧
    entryKeys right.keys = entryKeys (p.keys.drop (p.keys.length / 2)) ∧
    right.offset = db.block_size * db.meta.num_blocks_allocated ∧
    left.keys.length = p.keys.length / 2 ∧
    right.keys.length = p.keys.length - p.keys.length / 2 ∧
    (∀ e ∈ p.keys.drop (p.keys.length / 2),
      right.lookup_value_alloc e.key db' =
        .ok (some (readBytes blob e.offset e.value_len))) ∧
    (∃ blob2, db'.store.get p.offset = some (.leafData left.keys blob2)) := by
  obtain ⟨h1, h2, h3, h6, h7, _, _, _⟩ :=
    split_in_half_spec fuel p db es blob left right db' hs hsort hfresh hrun
  refine ⟨h1, h2, h3, ?lenL, ?lenR, h6, h7⟩
  case lenL =>
    rw [h1]
    show (p.keys.take (p.keys.length / 2)).length = _
    rw [List.length_take]
    omega
  case lenR =>
    have hlen : (entryKeys right.keys).length =
        (entryKeys (p.keys.drop (p.keys.length / 2))).length := by rw [h2]
    rw [entryKeys, entryKeys, List.length_map, List.length_map, List.length_drop] at hlen
    exact hlen

/-- The three-slot leaf of `dbThreeSlots`, as a named page. -/
def c5wPage : LeafPage :=
  { offset := 256, keys := [{ key := 1, offset := 226, value_len := 10 },
                            { key := 2, offset := 216, value_len := 10 },
                            { key := 3, offset := 206, value_len := 10 }] }

/-- The outcome of splitting it. -/
def c5wRes : LeafPage × LeafPage × DB :=
  (LeafPage.split_in_half 10 c5wPage dbThreeSlots).toOption.getD
    (c5wPage, c5wPage, dbThreeSlots)

/-- Witness for the amended C5 at a concrete input: the three-slot leaf
splits into a 1-slot left and a 2-slot right, the left truncated to the
lower half and the right holding the upper half by sort order. -/
theorem c5_split_in_half_amended_witness :
    c5wRes.1 = { offset := c5wPage.offset,
                 keys := c5wPage.keys.take (c5wPage.keys.length / 2) } ∧
    entryKeys c5wRes.2.1.keys = entryKeys (c5wPage.keys.drop (c5wPage.keys.length / 2)) ∧
    c5wRes.1.keys.length = c5wPage.keys.length / 2 ∧
    c5wRes.2.1.keys.length = c5wPage.keys.length - c5wPage.keys.length / 2 := by
  have hrun : LeafPage.split_in_half 10 c5wPage dbThreeSlots =
      .ok (c5wRes.1, c5wRes.2.1, c5wRes.2.2) := by decide
  obtain ⟨h1, h2, _, h4, h5, _, _⟩ := c5_split_in_half_amended 10 c5wPage dbThreeSlots
    c5wPage.keys [] c5wRes.1 c5wRes.2.1 c5wRes.2.2
    (by decide) (by decide) (by decide) (by decide) hrun
  exact ⟨h1, h2, h4, h5⟩

/-! ## Payload encoding and leaf-rooted nested-tree operations -/

theorem natToBe8_length (n : Nat) : (natToBe8 n).length = 8 := by
  simp [natToBe8]

theorem into_buf_some (co : Nat) (d : List Nat) :
    TreeEntryValue.into_buf { child_offset := co, data := some d } = natToBe8 co ++ d := rfl

theorem into_buf_none (co : Nat) :
    TreeEntryValue.into_buf { child_offset := co, data := none } = natToBe8 co := by
  simp [TreeEntryValue.into_buf]

/-- A payload of at most 8 bytes decodes to "no inline value". -/
theorem from_data_short (d : List Nat) (h : d.length ≤ 8) :
    (TreeEntryValue.from_data d).data = none := by
  unfold TreeEntryValue.from_data
  by_cases hlt : d.length < 8
  · rw [if_pos hlt]
    have : ((d ++ List.replicate (8 - d.length) 0).drop 8).length = 0 := by
      rw [List.length_drop, List.length_append, List.length_replicate]
      omega
    simp [this]
  · rw [if_neg hlt]
    have : (d.drop 8).length = 0 := by
      rw [List.length_drop]
      omega
    simp [this]

/-- Decoding an 8-byte child prefix followed by inline bytes. -/
theorem from_data_append (co : Nat) (d : List Nat) :
    TreeEntryValue.from_data (natToBe8 co ++ d) =
      { child_offset := beToNat (natToBe8 co)
        data := if d.length > 0 then some d else none } := by
  unfold TreeEntryValue.from_data
  have hlen : (natToBe8 co ++ d).length = 8 + d.length := by
    rw [List.length_append, natToBe8_length]
  rw [if_neg (by omega)]
  have htake : (natToBe8 co ++ d).take 8 = natToBe8 co := by
    rw [List.take_append_of_le_length (by rw [natToBe8_length]),
      List.take_of_length_le (by rw [natToBe8_length])]
  have hdrop : (natToBe8 co ++ d).drop 8 = d := by
    rw [List.drop_append_of_le_length (by rw [natToBe8_length])]
    rw [List.drop_of_length_le (by rw [natToBe8_length]), List.nil_append]
  simp only [htake, hdrop]

/-- The child-offset half carried by an optional stored payload. -/
def childOffsetOfPayload : Option (List Nat) → Nat
  | none => 0
  | some d => (TreeEntryValue.from_data d).child_offset

theorem page_load_leaf (off : Nat) (db : DB) (es : List LeafPageEntry) (blob : Blob)
    (hs : db.store.get off = some (.leafData es blob)) :
    Page.load off db = .ok (.leaf { offset := off, keys := es }) := by
  unfold Page.load
  rw [hs]

theorem page_load_internal (off : Nat) (db : DB) (ks ps : List Nat)
    (hs : db.store.get off = some (.internalData ks ps)) :
    Page.load off db = .ok (.internal { offset := off, keys := ks, pointers := ps }) := by
  unfold Page.load
  rw [hs]

/-- Looking a key up in a tree whose root page is a leaf is exactly the leaf
lookup. -/
theorem btree_lookup_leaf (g : Nat) (off k : Nat) (db : DB)
    (es : List LeafPageEntry) (blob : Blob)
    (hs : db.store.get off = some (.leafData es blob)) :
    BTree.lookup (g + 1) (BTree.from_offset off) k db =
      LeafPage.lookup_value_alloc { offset := off, keys := es } k db := by
  unfold BTree.lookup
  show (do
    let page ← Page.load off db
    BTree.btree_search (g + 1) page k db) = _
  rw [page_load_leaf off db es blob hs, bind_ok_er]
  rfl

theorem insert_nonfull_leaf (g : Nat) (p : LeafPage) (k : Nat) (data : List Nat) (db : DB) :
    BTree.btree_insert_nonfull (g + 1) (.leaf p) k data db =
      (LeafPage.upsert_value g p k data db).map (fun r => r.2) := by
  show (do
    let r ← LeafPage.upsert_value g p k data db
    (.ok r.2 : ER DB)) = _
  cases hup : LeafPage.upsert_value g p k data db with
  | error e => rfl
  | ok r => rfl

/-- Inserting through a tree whose root page is a leaf that can accommodate
the data is exactly the leaf upsert (the tree handle is unchanged). -/
theorem btree_insert_leaf_root (g : Nat) (off k : Nat) (data : List Nat) (db : DB)
    (es : List LeafPageEntry) (blob : Blob)
    (hs : db.store.get off = some (.leafData es blob))
    (hcap : LeafPage.can_accommodate { offset := off, keys := es } data.length
      db.block_size = true) :
    BTree.insert (g + 1) (BTree.from_offset off) k data db =
      (LeafPage.upsert_value g { offset := off, keys := es } k data db).map
        (fun r => (BTree.from_offset off, r.2)) := by
  unfold BTree.insert
  simp only [BTree.from_offset]
  rw [page_load_leaf off db es blob hs, bind_ok_er]
  rw [if_pos (show (Page.leaf { offset := off, keys := es }).can_accommodate data.length
    db.block_size = true from hcap)]
  rw [insert_nonfull_leaf]
  cases hup : LeafPage.upsert_value g { offset := off, keys := es } k data db with
  | error e => rfl
  | ok r => rfl

/-- `TreeEntry::value` on a tree whose root page is a leaf: decode the leaf
lookup. -/
theorem value_leaf (g : Nat) (off key : Nat) (db : DB)
    (es : List LeafPageEntry) (blob : Blob)
    (hs : db.store.get off = some (.leafData es blob)) :
    TreeEntry.value (g + 1) { offset := off } key db =
      (LeafPage.lookup_value_alloc { offset := off, keys := es } key db).map
        (fun v => v.bind fun d => (TreeEntryValue.from_data d).data) := by
  unfold TreeEntry.value
  show (do
    let v ← BTree.lookup (g + 1) (BTree.from_offset off) key db
    (.ok (v.bind fun d => (TreeEntryValue.from_data d).data) : ER _)) = _
  rw [btree_lookup_leaf g off key db es blob hs]
  cases h : LeafPage.lookup_value_alloc { offset := off, keys := es } key db <;> rfl

/-- `TreeEntry::set_value` on a tree whose root page is a leaf that can take
the payload: it reads the prior payload and upserts the 8-byte child prefix
it carried (0 when absent) followed by the new bytes. -/
theorem set_value_leaf_spec (g : Nat) (off key : Nat) (data : List Nat) (db : DB)
    (es : List LeafPageEntry) (blob : Blob) (db' : DB)
    (hs : db.store.get off = some (.leafData es blob))
    (hsort : leafSorted { offset := off, keys := es })
    (hcap : LeafPage.can_accommodate { offset := off, keys := es } (8 + data.length)
      db.block_size = true)
    (hrun : TreeEntry.set_value (g + 1) { offset := off } key data db = .ok db') :
    ∃ p' prior,
      LeafPage.lookup_value_alloc { offset := off, keys := es } key db = .ok prior ∧
      UpsertOut { offset := off, keys := es } key
        (natToBe8 (childOffsetOfPayload prior) ++ data) db p' db' := by
  unfold TreeEntry.set_value at hrun
  simp only [] at hrun
  have hlookup : BTree.lookup (g + 1) (BTree.from_offset ({ offset := off } : TreeEntry).offset)
      key db = LeafPage.lookup_value_alloc { offset := off, keys := es } key db :=
    btree_lookup_leaf g off key db es blob hs
  rw [hlookup] at hrun
  cases hlook : LeafPage.lookup_value_alloc { offset := off, keys := es } key db with
  | error e =>
    rw [hlook] at hrun
    exact absurd hrun (by simp [Bind.bind, Except.bind])
  | ok prior =>
    rw [hlook, bind_ok_er] at hrun
    have hcap' : ∀ co : Nat, LeafPage.can_accommodate { offset := off, keys := es }
        (natToBe8 co ++ data).length db.block_size = true := by
      intro co
      rw [show (natToBe8 co ++ data).length = 8 + data.length from by
        rw [List.length_append, natToBe8_length]]
      exact hcap
    cases prior with
    | none =>
      rw [show (match (none : Option (List Nat)) with
          | some d => TreeEntryValue.from_data d
          | none => TreeEntryValue.new) = TreeEntryValue.new from rfl] at hrun
      rw [show TreeEntryValue.into_buf { TreeEntryValue.new with data := some data } =
        natToBe8 0 ++ data from rfl] at hrun
      rw [btree_insert_leaf_root g off key (natToBe8 0 ++ data) db es blob hs (hcap' 0)] at hrun
      cases hup : LeafPage.upsert_value g { offset := off, keys := es } key
          (natToBe8 0 ++ data) db with
      | error e =>
        rw [hup] at hrun
        exact absurd hrun (by simp [Except.map, Bind.bind, Except.bind])
      | ok r =>
        obtain ⟨p2, db2⟩ := r
        rw [hup] at hrun
        have hdb : db2 = db' := by
          have h0 : (Except.ok (BTree.from_offset off, db2) : ER (BTree × DB)).bind
              (fun r => .ok r.2) = .ok db' := hrun
          exact Except.ok.inj h0
        subst hdb
        exact ⟨p2, none, rfl,
          (upsert_defrag_spec g).1 _ key _ db p2 db2 es blob hs hsort hup⟩
    | some d =>
      rw [show (match (some d : Option (List Nat)) with
          | some d => TreeEntryValue.from_data d
          | none => TreeEntryValue.new) = TreeEntryValue.from_data d from rfl] at hrun
      rw [show TreeEntryValue.into_buf { TreeEntryValue.from_data d with data := some data } =
        natToBe8 (TreeEntryValue.from_data d).child_offset ++ data from rfl] at hrun
      rw [btree_insert_leaf_root g off key
        (natToBe8 (TreeEntryValue.from_data d).child_offset ++ data) db es blob hs
        (hcap' _)] at hrun
      cases hup : LeafPage.upsert_value g { offset := off, keys := es } key
          (natToBe8 (TreeEntryValue.from_data d).child_offset ++ data) db with
      | error e =>
        rw [hup] at hrun
        exact absurd hrun (by simp [Except.map, Bind.bind, Except.bind])
      | ok r =>
        obtain ⟨p2, db2⟩ := r
        rw [hup] at hrun
        have hdb : db2 = db' := by
          have h0 : (Except.ok (BTree.from_offset off, db2) : ER (BTree × DB)).bind
              (fun r => .ok r.2) = .ok db' := hrun
          exact Except.ok.inj h0
        subst hdb
        exact ⟨p2, some d, rfl,
          (upsert_defrag_spec g).1 _ key _ db p2 db2 es blob hs hsort hup⟩

/-- C10: `set_value` with the empty byte string stores a payload that is
exactly the 8-byte child-offset prefix — byte-for-byte the same buffer as a
payload whose inline value was never set — a payload of at most 8 bytes
decodes to "no inline value", and consequently on a leaf-rooted tree a
successful `set_value(k, [])` followed by `value(k)` returns none, not an
empty byte string. -/
theorem c10_empty_inline_value_indistinguishable :
    (∀ v : TreeEntryValue,
      TreeEntryValue.into_buf { v with data := some [] } = natToBe8 v.child_offset ∧
      TreeEntryValue.into_buf { v with data := some [] } =
        TreeEntryValue.into_buf { v with data := none }) ∧
    (∀ d : List Nat, d.length ≤ 8 → (TreeEntryValue.from_data d).data = none) ∧
    (∀ (g off key : Nat) (db db' : DB) (es : List LeafPageEntry) (blob : Blob),
      db.store.get off = some (.leafData es blob) →
      leafSorted { offset := off, keys := es } →
      LeafPage.can_accommodate { offset := off, keys := es } 8 db.block_size = true →
      TreeEntry.set_value (g + 1) { offset := off } key [] db = .ok db' →
      TreeEntry.value (g + 1) { offset := off } key db' = .ok none) := by
  refine ⟨?enc, from_data_short, ?run⟩
  case enc =>
    intro v
    constructor
    · rw [show ({ v with data := some [] } : TreeEntryValue) =
        { child_offset := v.child_offset, data := some [] } from rfl, into_buf_some,
        List.append_nil]
    · rw [show ({ v with data := some [] } : TreeEntryValue) =
        { child_offset := v.child_offset, data := some [] } from rfl, into_buf_some,
        List.append_nil,
        show ({ v with data := none } : TreeEntryValue) =
          { child_offset := v.child_offset, data := none } from rfl, into_buf_none]
  case run =>
    intro g off key db db' es blob hs hsort hcap hrun
    obtain ⟨p', prior, hlook, hout⟩ := set_value_leaf_spec g off key [] db es blob db'
      hs hsort hcap hrun
    obtain ⟨ho1, _, _, _, ho5, _, ho7, _⟩ := hout
    obtain ⟨blob2, hleaf'⟩ := ho5
    have hpp : ({ offset := off, keys := p'.keys } : LeafPage) = p' := by
      cases p' with
      | mk o ks =>
        have : o = off := ho1
        rw [this]
    rw [value_leaf g off key db' p'.keys blob2 hleaf', hpp]
    rw [show LeafPage.lookup_value_alloc p' key db' =
      .ok (some (natToBe8 (childOffsetOfPayload prior) ++ [])) from ho7]
    rw [List.append_nil]
    show Except.ok ((TreeEntryValue.from_data (natToBe8 (childOffsetOfPayload prior))).data) = _
    rw [from_data_short _ (by rw [natToBe8_length])]

/-- The database after setting key 77 of the empty leaf to the empty byte
string. -/
def c10wDb : DB :=
  (TreeEntry.set_value 10 { offset := 128 } 77 [] dbEmptyLeaf).toOption.getD dbEmptyLeaf

/-- Witness for C10 at concrete inputs: the encoding facts at a concrete
payload, and the end-to-end read-back of key 77 after storing an empty value
on the empty leaf. -/
theorem c10_empty_inline_value_indistinguishable_witness :
    (TreeEntryValue.into_buf { child_offset := 5, data := some [] } = natToBe8 5) ∧
    ((TreeEntryValue.from_data [1, 2, 3]).data = none) ∧
    (TreeEntry.value 10 { offset := 128 } 77 c10wDb = .ok none) := by
  refine ⟨(c10_empty_inline_value_indistinguishable.1 { child_offset := 5, data := some [] }).1,
    c10_empty_inline_value_indistinguishable.2.1 [1, 2, 3] (by decide), ?run⟩
  case run =>
    exact c10_empty_inline_value_indistinguishable.2.2 9 128 77 dbEmptyLeaf c10wDb [] []
      (by decide) (by decide) (by decide) (by decide)

/-- `T.get(A).set_value(B, w)` with `A = 10`, `B = 40`, `w = [9, 9]`. -/
def c2stepBw (t : TreeEntry) (db : DB) : ER DB := do
  let (ta, db) ← t.get 20 10 db
  ta.set_value 20 40 [9, 9] db

/-- `T.get(A).get(B).set_value(C, v)` with `A = 10`, `B = 40`, `C = 77`,
`v = [1, 2, 3]`. -/
def c2stepCv (t : TreeEntry) (db : DB) : ER DB := do
  let (ta, db) ← t.get 20 10 db
  let (tb, db) ← ta.get 20 40 db
  tb.set_value 20 77 [1, 2, 3] db

/-- `(T.get(A).get(B).value(C), T.get(A).value(B))`. -/
def c2reads (t : TreeEntry) (db : DB) : ER (Option (List Nat) × Option (List Nat)) := do
  let (ta, db) ← t.get 20 10 db
  let (tb, db) ← ta.get 20 40 db
  let vC ← tb.value 20 77 db
  let (ta2, db) ← t.get 20 10 db
  let vB ← ta2.value 20 40 db
  .ok (vC, vB)

/-- Both nested `set_value` calls, inline-value first, from a freshly
initialized database, then both reads. -/
def c2Order1 : ER (Option (List Nat) × Option (List Nat)) := do
  let (t, db) := DB.rootEntry DB.initDb
  let db ← c2stepBw t db
  let db ← c2stepCv t db
  c2reads t db

/-- Both nested `set_value` calls, grandchild-tree first, from a freshly
initialized database, then both reads. -/
def c2Order2 : ER (Option (List Nat) × Option (List Nat)) := do
  let (t, db) := DB.rootEntry DB.initDb
  let db ← c2stepCv t db
  let db ← c2stepBw t db
  c2reads t db

/-- The same scenario as `c2Order1`, but on 128-byte pages (`db7`) and with
A's child tree pre-filled with keys 1 and 2 (two-byte values, 10-byte
payloads) through the public API, so that its root leaf — at offset 256,
which is what A's payload stores — is full when `T.get(A).set_value(B, w)`
runs: that call then splits the child tree's root. -/
def c2xRun : ER (Option (List Nat) × Option (List Nat)) := do
  let (t, db) := db7.rootEntry
  let (ta, db) ← t.get 20 10 db
  let db ← ta.set_value 20 1 [7, 7] db
  let (ta2, db) ← t.get 20 10 db
  let db ← ta2.set_value 20 2 [7, 7] db
  let db ← c2stepBw t db
  let db ← c2stepCv t db
  c2reads t db

/-- Decoding the 8-byte big-endian encoding gives back the value modulo
`2^64` (`u64::from_be_bytes ∘ u64::to_be_bytes`). -/
theorem beToNat_natToBe8 (n : Nat) : beToNat (natToBe8 n) = n % 2 ^ 64 := by
  show ((((((((0 * 256 + n / 256 ^ 7 % 256) * 256 + n / 256 ^ 6 % 256) * 256 +
    n / 256 ^ 5 % 256) * 256 + n / 256 ^ 4 % 256) * 256 + n / 256 ^ 3 % 256) * 256 +
    n / 256 ^ 2 % 256) * 256 + n / 256 ^ 1 % 256) * 256 + n / 256 ^ 0 % 256) = n % 2 ^ 64
  norm_num
  omega

/-- A decoded payload's inline half is never the empty byte string. -/
theorem from_data_data_pos (d rest : List Nat)
    (h : (TreeEntryValue.from_data d).data = some rest) : 0 < rest.length := by
  unfold TreeEntryValue.from_data at h
  simp only [] at h
  by_cases hl :
    ((if d.length < 8 then d ++ List.replicate (8 - d.length) 0 else d).drop 8).length > 0
  · rw [if_pos hl] at h
    cases h
    exact hl
  · rw [if_neg hl] at h
    cases h

/-- The inline half of a stored payload (`None` when the key was absent). -/
def inlineOfPayload : Option (List Nat) → Option (List Nat)
  | none => none
  | some d => (TreeEntryValue.from_data d).data

/-- The decoded entry of a stored payload, as built by `get`/`set_value`. -/
theorem entry_of_payload_data (prior : Option (List Nat)) :
    (match prior with
      | some d => TreeEntryValue.from_data d
      | none => TreeEntryValue.new).data = inlineOfPayload prior := by
  cases prior <;> rfl

/-- The database after `BTree::init` inside `insert_child_tree`: one fresh
block allocated and initialized as an empty leaf. -/
def DB.afterAlloc (db : DB) : DB :=
  { store := db.store.put (db.block_size * db.meta.num_blocks_allocated) (.leafData [] [])
    meta := { db.meta with num_blocks_allocated := db.meta.num_blocks_allocated + 1 } }

/-- `lookup_value_alloc` reads the database only through this page's stored
bytes. -/
theorem lookup_value_alloc_congr (p : LeafPage) (key : Nat) (db db2 : DB)
    (h : db2.store.get p.offset = db.store.get p.offset) :
    LeafPage.lookup_value_alloc p key db2 = LeafPage.lookup_value_alloc p key db := by
  unfold LeafPage.lookup_value_alloc
  rw [h]

/-- `TreeEntry::insert_child_tree` on a tree whose root page is a leaf with
room for the re-encoded payload: it allocates one fresh block for the child
tree and upserts the fresh offset with the prior inline bytes appended. -/
theorem insert_child_tree_spec (g off key : Nat) (db : DB) (es : List LeafPageEntry)
    (blob : Blob) (prior : Option (List Nat)) (o : Nat) (db' : DB)
    (hs : db.store.get off = some (.leafData es blob))
    (hsort : leafSorted { offset := off, keys := es })
    (hfresh : db.block_size * db.meta.num_blocks_allocated ≠ off)
    (hlook : LeafPage.lookup_value_alloc { offset := off, keys := es } key db = .ok prior)
    (hcap : LeafPage.can_accommodate { offset := off, keys := es }
      (8 + ((inlineOfPayload prior).getD []).length) db.block_size = true)
    (hrun : TreeEntry.insert_child_tree (g + 1) { offset := off } key db = .ok (o, db')) :
    o = db.block_size * db.meta.num_blocks_allocated ∧
    ∃ p', UpsertOut { offset := off, keys := es } key
      (natToBe8 (db.block_size * db.meta.num_blocks_allocated) ++
        (inlineOfPayload prior).getD [])
      (DB.afterAlloc db) p' db' := by
  have hs2 : (DB.afterAlloc db).store.get off = some (.leafData es blob) := by
    show (db.store.put _ _).get off = _
    rw [Store.get_put_ne _ _ _ _ (Ne.symm hfresh)]
    exact hs
  have hlook2 : LeafPage.lookup_value_alloc { offset := off, keys := es } key
      (DB.afterAlloc db) = .ok prior := by
    rw [lookup_value_alloc_congr _ _ db _ (hs2.trans hs.symm)]
    exact hlook
  have hcap2 : LeafPage.can_accommodate { offset := off, keys := es }
      (natToBe8 (db.block_size * db.meta.num_blocks_allocated) ++
        (inlineOfPayload prior).getD []).length (DB.afterAlloc db).block_size = true := by
    rw [List.length_append, natToBe8_length]
    exact hcap
  have hinit : BTree.init db =
      ({ root := db.block_size * db.meta.num_blocks_allocated }, DB.afterAlloc db) := rfl
  unfold TreeEntry.insert_child_tree at hrun
  rw [hinit] at hrun
  simp only [] at hrun
  rw [btree_lookup_leaf g off key (DB.afterAlloc db) es blob hs2, hlook2, bind_ok_er] at hrun
  cases prior with
  | none =>
    replace hrun : (do
        let r ← BTree.insert (g + 1) (BTree.from_offset off) key
          (natToBe8 (db.block_size * db.meta.num_blocks_allocated) ++
            (inlineOfPayload none).getD []) (DB.afterAlloc db)
        (Except.ok (db.block_size * db.meta.num_blocks_allocated, r.2) : ER (Nat × DB))) =
        Except.ok (o, db') := hrun
    rw [btree_insert_leaf_root g off key _ (DB.afterAlloc db) es blob hs2 hcap2] at hrun
    cases hup : LeafPage.upsert_value g { offset := off, keys := es } key
        (natToBe8 (db.block_size * db.meta.num_blocks_allocated) ++
          (inlineOfPayload none).getD []) (DB.afterAlloc db) with
    | error e =>
      rw [hup] at hrun
      cases hrun
    | ok r =>
      rw [hup] at hrun
      replace hrun : Except.ok (ε := EngineErr)
          (db.block_size * db.meta.num_blocks_allocated, r.2) = Except.ok (o, db') := hrun
      injection hrun with h2
      refine ⟨(congrArg Prod.fst h2).symm, r.1, ?_⟩
      rw [show db' = r.2 from (congrArg Prod.snd h2).symm]
      exact (upsert_defrag_spec g).1 { offset := off, keys := es } key _ (DB.afterAlloc db)
        r.1 r.2 es blob hs2 hsort hup
  | some d =>
    replace hrun : (do
        let r ← BTree.insert (g + 1) (BTree.from_offset off) key
          (natToBe8 (db.block_size * db.meta.num_blocks_allocated) ++
            (inlineOfPayload (some d)).getD []) (DB.afterAlloc db)
        (Except.ok (db.block_size * db.meta.num_blocks_allocated, r.2) : ER (Nat × DB))) =
        Except.ok (o, db') := hrun
    rw [btree_insert_leaf_root g off key _ (DB.afterAlloc db) es blob hs2 hcap2] at hrun
    cases hup : LeafPage.upsert_value g { offset := off, keys := es } key
        (natToBe8 (db.block_size * db.meta.num_blocks_allocated) ++
          (inlineOfPayload (some d)).getD []) (DB.afterAlloc db) with
    | error e =>
      rw [hup] at hrun
      cases hrun
    | ok r =>
      rw [hup] at hrun
      replace hrun : Except.ok (ε := EngineErr)
          (db.block_size * db.meta.num_blocks_allocated, r.2) = Except.ok (o, db') := hrun
      injection hrun with h2
      refine ⟨(congrArg Prod.fst h2).symm, r.1, ?_⟩
      rw [show db' = r.2 from (congrArg Prod.snd h2).symm]
      exact (upsert_defrag_spec g).1 { offset := off, keys := es } key _ (DB.afterAlloc db)
        r.1 r.2 es blob hs2 hsort hup

/-- `set_value` on a leaf-rooted tree overwrites only the inline half of the
payload: the stored buffer keeps the prior child offset as its 8-byte prefix,
`value` reads the new bytes, and `get` still resolves to the prior child tree
without touching the database. -/
theorem set_value_preserves_child (g off key : Nat) (data : List Nat) (db : DB)
    (es : List LeafPageEntry) (blob : Blob) (db' : DB) (prior : Option (List Nat))
    (hs : db.store.get off = some (.leafData es blob))
    (hsort : leafSorted { offset := off, keys := es })
    (hcap : LeafPage.can_accommodate { offset := off, keys := es } (8 + data.length)
      db.block_size = true)
    (hlook : LeafPage.lookup_value_alloc { offset := off, keys := es } key db = .ok prior)
    (hrun : TreeEntry.set_value (g + 1) { offset := off } key data db = .ok db') :
    BTree.lookup (g + 1) (BTree.from_offset off) key db' =
      .ok (some (natToBe8 (childOffsetOfPayload prior) ++ data)) ∧
    (0 < data.length →
      TreeEntry.value (g + 1) { offset := off } key db' = .ok (some data)) ∧
    (childOffsetOfPayload prior ≠ 0 → childOffsetOfPayload prior < 2 ^ 64 →
      TreeEntry.get (g + 1) { offset := off } key db' =
        .ok ({ offset := childOffsetOfPayload prior }, db')) := by
  obtain ⟨p', prior2, hlook2, hout⟩ :=
    set_value_leaf_spec g off key data db es blob db' hs hsort hcap hrun
  have hp2 : prior2 = prior := Except.ok.inj (hlook2.symm.trans hlook)
  rw [hp2] at hout
  obtain ⟨ho1, _, _, _, ho5, _, ho7, _⟩ := hout
  obtain ⟨blob2, hleaf'⟩ := ho5
  have hpp : ({ offset := off, keys := p'.keys } : LeafPage) = p' := by
    cases p' with
    | mk o ks => rw [show o = off from ho1]
  have hlk : BTree.lookup (g + 1) (BTree.from_offset off) key db' =
      .ok (some (natToBe8 (childOffsetOfPayload prior) ++ data)) := by
    rw [btree_lookup_leaf g off key db' p'.keys blob2 hleaf', hpp]
    exact ho7
  refine ⟨hlk, ?_, ?_⟩
  · intro hdata
    rw [value_leaf g off key db' p'.keys blob2 hleaf', hpp]
    rw [show LeafPage.lookup_value_alloc p' key db' =
      .ok (some (natToBe8 (childOffsetOfPayload prior) ++ data)) from ho7]
    show Except.ok
      ((TreeEntryValue.from_data (natToBe8 (childOffsetOfPayload prior) ++ data)).data) = _
    rw [from_data_append]
    show Except.ok (if data.length > 0 then some data else none) = _
    rw [if_pos hdata]
  · intro hco hco64
    have hvco : (TreeEntryValue.from_data
        (natToBe8 (childOffsetOfPayload prior) ++ data)).child_offset =
        childOffsetOfPayload prior := by
      rw [from_data_append]
      show beToNat (natToBe8 (childOffsetOfPayload prior)) = _
      rw [beToNat_natToBe8]
      exact Nat.mod_eq_of_lt hco64
    show (do
      match ← BTree.lookup (g + 1) (BTree.from_offset off) key db' with
      | some buf =>
        let v := TreeEntryValue.from_data buf
        if v.child_offset ≠ 0 then
          (.ok ({ offset := v.child_offset }, db') : ER (TreeEntry × DB))
        else do
          let r ← TreeEntry.insert_child_tree (g + 1) { offset := off } key db'
          .ok ({ offset := r.1 }, r.2)
      | none => do
        let r ← TreeEntry.insert_child_tree (g + 1) { offset := off } key db'
        .ok ({ offset := r.1 }, r.2)) = _
    rw [hlk, bind_ok_er]
    simp only []
    rw [hvco, if_pos hco]

/-- `get` on a key with no child tree materializes a fresh one while
preserving the key's inline value. -/
theorem get_preserves_inline (g off key : Nat) (db : DB) (es : List LeafPageEntry)
    (blob : Blob) (prior : Option (List Nat)) (t' : TreeEntry) (db' : DB)
    (hs : db.store.get off = some (.leafData es blob))
    (hsort : leafSorted { offset := off, keys := es })
    (hfresh : db.block_size * db.meta.num_blocks_allocated ≠ off)
    (hlook : LeafPage.lookup_value_alloc { offset := off, keys := es } key db = .ok prior)
    (hzero : childOffsetOfPayload prior = 0)
    (hcap : LeafPage.can_accommodate { offset := off, keys := es }
      (8 + ((inlineOfPayload prior).getD []).length) db.block_size = true)
    (hrun : TreeEntry.get (g + 1) { offset := off } key db = .ok (t', db')) :
    t' = { offset := db.block_size * db.meta.num_blocks_allocated } ∧
    TreeEntry.value (g + 1) { offset := off } key db' = .ok (inlineOfPayload prior) := by
  have hlk : BTree.lookup (g + 1) (BTree.from_offset off) key db = .ok prior := by
    rw [btree_lookup_leaf g off key db es blob hs]
    exact hlook
  replace hrun : (do
      match ← BTree.lookup (g + 1) (BTree.from_offset off) key db with
      | some buf =>
        let v := TreeEntryValue.from_data buf
        if v.child_offset ≠ 0 then
          (.ok ({ offset := v.child_offset }, db) : ER (TreeEntry × DB))
        else do
          let r ← TreeEntry.insert_child_tree (g + 1) { offset := off } key db
          .ok ({ offset := r.1 }, r.2)
      | none => do
        let r ← TreeEntry.insert_child_tree (g + 1) { offset := off } key db
        .ok ({ offset := r.1 }, r.2)) = .ok (t', db') := hrun
  rw [hlk, bind_ok_er] at hrun
  have hrun2 : (do
      let r ← TreeEntry.insert_child_tree (g + 1) { offset := off } key db
      (.ok ({ offset := r.1 }, r.2) : ER (TreeEntry × DB))) = .ok (t', db') := by
    cases prior with
    | none => exact hrun
    | some d =>
      have hz : (TreeEntryValue.from_data d).child_offset = 0 := hzero
      simp only [] at hrun
      rw [if_neg (fun hne => hne hz)] at hrun
      exact hrun
  cases hic : TreeEntry.insert_child_tree (g + 1) { offset := off } key db with
  | error e =>
    rw [hic] at hrun2
    cases hrun2
  | ok r =>
    rw [hic] at hrun2
    replace hrun2 : Except.ok (ε := EngineErr) (({ offset := r.1 } : TreeEntry), r.2) =
      .ok (t', db') := hrun2
    injection hrun2 with h2
    obtain ⟨hspec1, p', hout⟩ := insert_child_tree_spec g off key db es blob prior r.1 r.2
      hs hsort hfresh hlook hcap hic
    obtain ⟨ho1, _, _, _, ho5, _, ho7, _⟩ := hout
    obtain ⟨blob2, hleaf'⟩ := ho5
    have hdb' : db' = r.2 := (congrArg Prod.snd h2).symm
    have ht' : t' = ({ offset := r.1 } : TreeEntry) := (congrArg Prod.fst h2).symm
    refine ⟨by rw [ht', hspec1], ?_⟩
    rw [hdb']
    have hpp : ({ offset := off, keys := p'.keys } : LeafPage) = p' := by
      cases p' with
      | mk o ks => rw [show o = off from ho1]
    rw [value_leaf g off key r.2 p'.keys blob2 hleaf', hpp]
    rw [show LeafPage.lookup_value_alloc p' key r.2 =
      .ok (some (natToBe8 (db.block_size * db.meta.num_blocks_allocated) ++
        (inlineOfPayload prior).getD [])) from ho7]
    show Except.ok ((TreeEntryValue.from_data
      (natToBe8 (db.block_size * db.meta.num_blocks_allocated) ++
        (inlineOfPayload prior).getD [])).data) = Except.ok (inlineOfPayload prior)
    cases hdata : inlineOfPayload prior with
    | none =>
      rw [show ((none : Option (List Nat)).getD []) = [] from rfl, List.append_nil,
        from_data_short _ (le_of_eq (natToBe8_length _))]
    | some rest =>
      show Except.ok ((TreeEntryValue.from_data
        (natToBe8 (db.block_size * db.meta.num_blocks_allocated) ++ rest)).data) = _
      rw [from_data_append]
      show Except.ok (if rest.length > 0 then some rest else none) = _
      have hpos : 0 < rest.length := by
        cases prior with
        | none => simp [inlineOfPayload] at hdata
        | some d => exact from_data_data_pos d rest hdata
      rw [if_pos hpos]

/-- The empty leaf at offset 128 after `set_value(40, [7, 7])`: key 40 holds
the payload `natToBe8 0 ++ [7, 7]` and no child tree. -/
def c2wDb : DB :=
  (TreeEntry.set_value 10 { offset := 128 } 40 [7, 7] dbEmptyLeaf).toOption.getD dbEmptyLeaf

/-- The entry and database returned by `get(40)` on `c2wDb`: the child tree
is materialized at the fresh block 256. -/
def c2wGet : TreeEntry × DB :=
  (TreeEntry.get 10 { offset := 128 } 40 c2wDb).toOption.getD ({ offset := 0 }, c2wDb)

/-- C2 (amended): an inline value and a child tree coexist on the same key
as long as no sub-tree root split occurs during the scenario (the
unrestricted claim fails on the split path, see the counterexample).  On a
leaf-rooted tree with capacity, (i) a successful `set_value` stores the
prior child offset as the payload's 8-byte prefix followed by the new bytes,
so `value` reads the new bytes and `get` still resolves to the same child
tree without touching the database; (ii) a successful `get` on a key with no
child tree materializes one at the freshly allocated block while `value`
still reads the key's prior inline bytes; and (iii) the claim's two-order
scenario end-to-end from a freshly initialized database: after
`T.get(A).set_value(B, w)` and `T.get(A).get(B).set_value(C, v)` in either
order, `T.get(A).get(B).value(C)` returns `v` and `T.get(A).value(B)`
returns `w`. -/
theorem c2_inline_value_and_child_tree_coexist :
    (∀ (g off key : Nat) (data : List Nat) (db : DB) (es : List LeafPageEntry)
      (blob : Blob) (db' : DB) (prior : Option (List Nat)),
      db.store.get off = some (.leafData es blob) →
      leafSorted { offset := off, keys := es } →
      LeafPage.can_accommodate { offset := off, keys := es } (8 + data.length)
        db.block_size = true →
      LeafPage.lookup_value_alloc { offset := off, keys := es } key db = .ok prior →
      TreeEntry.set_value (g + 1) { offset := off } key data db = .ok db' →
      BTree.lookup (g + 1) (BTree.from_offset off) key db' =
        .ok (some (natToBe8 (childOffsetOfPayload prior) ++ data)) ∧
      (0 < data.length →
        TreeEntry.value (g + 1) { offset := off } key db' = .ok (some data)) ∧
      (childOffsetOfPayload prior ≠ 0 → childOffsetOfPayload prior < 2 ^ 64 →
        TreeEntry.get (g + 1) { offset := off } key db' =
          .ok ({ offset := childOffsetOfPayload prior }, db'))) ∧
    (∀ (g off key : Nat) (db : DB) (es : List LeafPageEntry) (blob : Blob)
      (prior : Option (List Nat)) (t' : TreeEntry) (db' : DB),
      db.store.get off = some (.leafData es blob) →
      leafSorted { offset := off, keys := es } →
      db.block_size * db.meta.num_blocks_allocated ≠ off →
      LeafPage.lookup_value_alloc { offset := off, keys := es } key db = .ok prior →
      childOffsetOfPayload prior = 0 →
      LeafPage.can_accommodate { offset := off, keys := es }
        (8 + ((inlineOfPayload prior).getD []).length) db.block_size = true →
      TreeEntry.get (g + 1) { offset := off } key db = .ok (t', db') →
      t' = { offset := db.block_size * db.meta.num_blocks_allocated } ∧
      TreeEntry.value (g + 1) { offset := off } key db' = .ok (inlineOfPayload prior)) ∧
    (c2Order1 = .ok (some [1, 2, 3], some [9, 9]) ∧
     c2Order2 = .ok (some [1, 2, 3], some [9, 9])) := by
  refine ⟨?_, ?_, by decide, by decide⟩
  · intro g off key data db es blob db' prior hs hsort hcap hlook hrun
    exact set_value_preserves_child g off key data db es blob db' prior
      hs hsort hcap hlook hrun
  · intro g off key db es blob prior t' db' hs hsort hfresh hlook hzero hcap hrun
    exact get_preserves_inline g off key db es blob prior t' db'
      hs hsort hfresh hlook hzero hcap hrun

/-- Witness for C2 at concrete inputs: on the one-leaf database, after
`set_value(40, [7, 7])` the payload carries child offset 0 and the inline
bytes read back; after the subsequent `get(40)` the child tree sits at the
fresh block 256 and the inline bytes still read back. -/
theorem c2_inline_value_and_child_tree_coexist_witness :
    (BTree.lookup 10 (BTree.from_offset 128) 40 c2wDb =
      .ok (some (natToBe8 0 ++ [7, 7])) ∧
     TreeEntry.value 10 { offset := 128 } 40 c2wDb = .ok (some [7, 7])) ∧
    (c2wGet.1 = { offset := 256 } ∧
     TreeEntry.value 10 { offset := 128 } 40 c2wGet.2 = .ok (some [7, 7])) := by
  constructor
  · have h := c2_inline_value_and_child_tree_coexist.1 9 128 40 [7, 7] dbEmptyLeaf [] []
      c2wDb none (by decide) (by decide) (by decide) (by decide) (by decide)
    exact ⟨h.1, h.2.1 (by decide)⟩
  · have h := c2_inline_value_and_child_tree_coexist.2.1 9 128 40 c2wDb
      [{ key := 40, offset := 118, value_len := 10 }]
      [(127, 7), (126, 7), (125, 0), (124, 0), (123, 0), (122, 0), (121, 0), (120, 0),
        (119, 0), (118, 0)]
      (some (natToBe8 0 ++ [7, 7])) c2wGet.1 c2wGet.2
      (by decide) (by decide) (by decide) (by decide) (by decide) (by decide) (by decide)
    exact ⟨h.1, h.2⟩

/-- C2 (counterexample to the unrestricted claim): when
`T.get(A).set_value(B, w)` splits the root of A's child tree — reachable
through the public API on 128-byte pages once the child root leaf holds two
slots — every operation of the claim's scenario still returns `ok` and
`T.get(A).get(B).value(C)` does return `v = [1, 2, 3]`, but
`T.get(A).value(B)` returns `none`, not `w = [9, 9]`: the split's new root
is dropped by `TreeEntry::set_value` (the C3 defect), the stale offset
stored in A's payload keeps pointing at the truncated left leaf where B no
longer lives, and the later `get(B)` silently re-inserts B there with a
child-offset-only payload carrying no inline bytes. -/
theorem c2_subtree_root_split_loses_inline_value :
    c2xRun = .ok (some [1, 2, 3], none) := by decide

/-! ## Well-formed trees and insert-then-lookup (C4) -/

theorem countP_listInsertAt {α : Type} (l : List α) (i : Nat) (a : α) (p : α → Bool) :
    (listInsertAt i a l).countP p = l.countP p + if p a then 1 else 0 := by
  induction l generalizing i with
  | nil =>
    cases i <;> cases hpa : p a <;>
      simp [listInsertAt, List.countP_cons, List.countP_nil, hpa]
  | cons b l ih =>
    cases i with
    | zero =>
      cases hpa : p a <;> cases hpb : p b <;>
        simp [listInsertAt, List.countP_cons, hpa, hpb] <;> omega
    | succ i =>
      cases hpa : p a <;> cases hpb : p b <;>
        simp [listInsertAt, List.countP_cons, hpa, hpb, ih] <;> omega

theorem get?_listInsertAt_self {α : Type} (l : List α) (i : Nat) (a : α)
    (h : i ≤ l.length) : (listInsertAt i a l).get? i = some a := by
  induction l generalizing i with
  | nil =>
    cases i with
    | zero => rfl
    | succ i => simp at h
  | cons b l ih =>
    cases i with
    | zero => rfl
    | succ i =>
      show (listInsertAt i a l).get? i = some a
      exact ih i (by simpa using h)

theorem get?_listInsertAt_lt {α : Type} (l : List α) (i j : Nat) (a : α)
    (hi : i ≤ l.length) (hj : j < i) : (listInsertAt i a l).get? j = l.get? j := by
  induction l generalizing i j with
  | nil =>
    cases i with
    | zero => omega
    | succ i => simp at hi
  | cons b l ih =>
    cases i with
    | zero => omega
    | succ i =>
      cases j with
      | zero => rfl
      | succ j =>
        show (listInsertAt i a l).get? j = l.get? j
        exact ih i j (by simpa using hi) (by omega)

/-- The offsets of the pages of the subtree rooted at `off`, to the given
depth. -/
def subOffsets : Nat → Nat → DB → List Nat
  | 0, _, _ => []
  | fuel + 1, off, db =>
    match db.store.get off with
    | some (.internalData _ ps) => off :: (ps.map fun o => subOffsets fuel o db).flatten
    | _ => [off]

/-- Structural well-formedness of the tree rooted at `off`, to the given
depth: every page decodes, leaf directories are sorted by key, internal pages
carry one more pointer than keys, and every page offset lies inside the
allocated region of the file. -/
def WFb : Nat → Nat → DB → Bool
  | 0, _, _ => false
  | fuel + 1, off, db =>
    decide (off < db.block_size * db.meta.num_blocks_allocated) &&
    match db.store.get off with
    | some (.leafData es _) => decide (leafSorted { offset := off, keys := es })
    | some (.internalData ks ps) =>
      decide (ps.length = ks.length + 1) && ps.all fun o => WFb fuel o db
    | none => false

theorem WFb_succ_leaf (fuel off : Nat) (db : DB) (es : List LeafPageEntry) (blob : Blob)
    (h : WFb (fuel + 1) off db = true)
    (hs : db.store.get off = some (.leafData es blob)) :
    off < db.block_size * db.meta.num_blocks_allocated ∧
    leafSorted { offset := off, keys := es } := by
  unfold WFb at h
  rw [hs] at h
  simpa using h

theorem WFb_succ_internal (fuel off : Nat) (db : DB) (ks ps : List Nat)
    (h : WFb (fuel + 1) off db = true)
    (hs : db.store.get off = some (.internalData ks ps)) :
    off < db.block_size * db.meta.num_blocks_allocated ∧
    ps.length = ks.length + 1 ∧
    ∀ o ∈ ps, WFb fuel o db = true := by
  unfold WFb at h
  rw [hs] at h
  simp only [Bool.and_eq_true, decide_eq_true_eq, List.all_eq_true] at h
  exact ⟨h.1, h.2.1, h.2.2⟩

theorem subOffsets_of_leaf (fuel off : Nat) (db : DB) (es : List LeafPageEntry)
    (blob : Blob) (hs : db.store.get off = some (.leafData es blob)) :
    subOffsets (fuel + 1) off db = [off] := by
  unfold subOffsets
  rw [hs]

theorem subOffsets_of_internal (fuel off : Nat) (db : DB) (ks ps : List Nat)
    (hs : db.store.get off = some (.internalData ks ps)) :
    subOffsets (fuel + 1) off db = off :: (ps.map fun o => subOffsets fuel o db).flatten := by
  show (match db.store.get off with
    | some (.internalData _ ps) => off :: (ps.map fun o => subOffsets fuel o db).flatten
    | _ => [off]) = _
  rw [hs]

theorem self_mem_subOffsets (fuel off : Nat) (db : DB) :
    off ∈ subOffsets (fuel + 1) off db := by
  unfold subOffsets
  cases h : db.store.get off with
  | none => simp
  | some pd => cases pd <;> simp

theorem child_subOffsets_subset (fuel off : Nat) (db : DB) (ks ps : List Nat) (o : Nat)
    (hs : db.store.get off = some (.internalData ks ps)) (ho : o ∈ ps) :
    ∀ x ∈ subOffsets fuel o db, x ∈ subOffsets (fuel + 1) off db := by
  intro x hx
  rw [subOffsets_of_internal fuel off db ks ps hs]
  refine List.mem_cons.mpr (Or.inr ?_)
  exact List.mem_flatten.mpr ⟨subOffsets fuel o db, List.mem_map.mpr ⟨o, ho, rfl⟩, hx⟩

theorem nodup_of_mem_flatten {α : Type} (L : List (List α)) (l : List α)
    (h : L.flatten.Nodup) (hl : l ∈ L) : l.Nodup := by
  induction L with
  | nil => cases hl
  | cons l0 L ih =>
    rw [List.flatten_cons] at h
    rcases List.mem_cons.mp hl with rfl | hmem
    · exact h.of_append_left
    · exact ih h.of_append_right hmem

theorem nodup_subOffsets_internal (fuel off : Nat) (db : DB) (ks ps : List Nat)
    (hs : db.store.get off = some (.internalData ks ps))
    (h : (subOffsets (fuel + 1) off db).Nodup) :
    off ∉ (ps.map fun o => subOffsets fuel o db).flatten ∧
    ∀ o ∈ ps, (subOffsets fuel o db).Nodup := by
  rw [subOffsets_of_internal fuel off db ks ps hs, List.nodup_cons] at h
  refine ⟨h.1, fun o ho => ?_⟩
  exact nodup_of_mem_flatten _ _ h.2 (List.mem_map.mpr ⟨o, ho, rfl⟩)

theorem subOffsets_lt_of_WFb : ∀ (fuel off : Nat) (db : DB),
    WFb fuel off db = true →
    ∀ o ∈ subOffsets fuel off db, o < db.block_size * db.meta.num_blocks_allocated := by
  intro fuel
  induction fuel with
  | zero =>
    intro off db _ o ho
    cases ho
  | succ fuel ih =>
    intro off db hwf o ho
    cases hs : db.store.get off with
    | none =>
      unfold WFb at hwf
      rw [hs] at hwf
      simp at hwf
    | some pd =>
      cases pd with
      | leafData es blob =>
        rw [subOffsets_of_leaf fuel off db es blob hs] at ho
        have ho' : o = off := by simpa using ho
        rw [ho']
        exact (WFb_succ_leaf fuel off db es blob hwf hs).1
      | internalData ks ps =>
        obtain ⟨hoff, _, hch⟩ := WFb_succ_internal fuel off db ks ps hwf hs
        rw [subOffsets_of_internal fuel off db ks ps hs] at ho
        rcases List.mem_cons.mp ho with rfl | hmem
        · exact hoff
        · obtain ⟨l, hl, hol⟩ := List.mem_flatten.mp hmem
          obtain ⟨c, hc, rfl⟩ := List.mem_map.mp hl
          exact ih c db (hch c hc) o hol

theorem subOffsets_congr : ∀ (fuel off : Nat) (db db2 : DB),
    (∀ o ∈ subOffsets fuel off db, db2.store.get o = db.store.get o) →
    subOffsets fuel off db2 = subOffsets fuel off db := by
  intro fuel
  induction fuel with
  | zero => intro off db db2 _; rfl
  | succ fuel ih =>
    intro off db db2 h
    have hself : db2.store.get off = db.store.get off :=
      h off (self_mem_subOffsets fuel off db)
    cases hs : db.store.get off with
    | none =>
      show (match db2.store.get off with
        | some (.internalData _ ps) => off :: (ps.map fun o => subOffsets fuel o db2).flatten
        | _ => [off]) =
        (match db.store.get off with
        | some (.internalData _ ps) => off :: (ps.map fun o => subOffsets fuel o db).flatten
        | _ => [off])
      rw [hself, hs]
    | some pd =>
      cases pd with
      | leafData es blob =>
        show (match db2.store.get off with
          | some (.internalData _ ps) => off :: (ps.map fun o => subOffsets fuel o db2).flatten
          | _ => [off]) =
          (match db.store.get off with
          | some (.internalData _ ps) => off :: (ps.map fun o => subOffsets fuel o db).flatten
          | _ => [off])
        rw [hself, hs]
      | internalData ks ps =>
        have hmap : ps.map (fun o => subOffsets fuel o db2) =
            ps.map (fun o => subOffsets fuel o db) := by
          apply List.map_congr_left
          intro c hc
          exact ih c db db2 (fun o ho =>
            h o (child_subOffsets_subset fuel off db ks ps c hs hc o ho))
        rw [subOffsets_of_internal fuel off db ks ps hs,
          subOffsets_of_internal fuel off db2 ks ps (hself.trans hs), hmap]

theorem WFb_congr : ∀ (fuel off : Nat) (db db2 : DB),
    (∀ o ∈ subOffsets fuel off db, db2.store.get o = db.store.get o) →
    db.block_size * db.meta.num_blocks_allocated ≤
      db2.block_size * db2.meta.num_blocks_allocated →
    WFb fuel off db = true → WFb fuel off db2 = true := by
  intro fuel
  induction fuel with
  | zero => intro off db db2 _ _ h; cases h
  | succ fuel ih =>
    intro off db db2 h hle hwf
    have hself : db2.store.get off = db.store.get off :=
      h off (self_mem_subOffsets fuel off db)
    unfold WFb
    rw [hself]
    cases hs : db.store.get off with
    | none =>
      unfold WFb at hwf
      rw [hs] at hwf
      simp at hwf
    | some pd =>
      cases pd with
      | leafData es blob =>
        obtain ⟨hoff, hsort⟩ := WFb_succ_leaf fuel off db es blob hwf hs
        simp only [Bool.and_eq_true, decide_eq_true_eq]
        exact ⟨lt_of_lt_of_le hoff hle, hsort⟩
      | internalData ks ps =>
        obtain ⟨hoff, har, hch⟩ := WFb_succ_internal fuel off db ks ps hwf hs
        simp only [Bool.and_eq_true, decide_eq_true_eq, List.all_eq_true]
        refine ⟨lt_of_lt_of_le hoff hle, har, fun c hc => ?_⟩
        exact ih c db db2 (fun o ho =>
          h o (child_subOffsets_subset fuel off db ks ps c hs hc o ho)) hle (hch c hc)

theorem internal_persist_spec (p : InternalPage) (db db' : DB)
    (hrun : InternalPage.persist p db = .ok db') :
    db' = { db with store := db.store.put p.offset (.internalData p.keys p.pointers) } ∧
    p.pointers.length = p.keys.length + 1 := by
  unfold InternalPage.persist at hrun
  by_cases h1 : ¬ (InternalPage.max_children_capacity db.block_size ≥ p.pointers.length)
  · rw [if_pos h1] at hrun
    cases hrun
  · rw [if_neg h1] at hrun
    by_cases h2 : p.pointers.length ≠ p.keys.length + 1
    · rw [if_pos h2] at hrun
      cases hrun
    · rw [if_neg h2] at hrun
      exact ⟨(Except.ok.inj hrun).symm, not_not.mp h2⟩

theorem safe_insert_spec (p : InternalPage) (i key pointer : Nat) (db : DB)
    (p' : InternalPage) (db' : DB)
    (hrun : InternalPage.safe_insert p i key pointer db = .ok (p', db')) :
    p' = { p with keys := listInsertAt i key p.keys, pointers := listInsertAt (i + 1) pointer p.pointers } ∧
    db' = { db with store := db.store.put p.offset (.internalData p'.keys p'.pointers) } ∧
    p'.pointers.length = p'.keys.length + 1 := by
  unfold InternalPage.safe_insert at hrun
  simp only [] at hrun
  cases hp : InternalPage.persist { p with keys := listInsertAt i key p.keys, pointers := listInsertAt (i + 1) pointer p.pointers } db with
  | error e =>
    rw [hp] at hrun
    cases hrun
  | ok d2 =>
    rw [hp, bind_ok_er] at hrun
    replace hrun : Except.ok (ε := EngineErr)
        (({ p with keys := listInsertAt i key p.keys, pointers := listInsertAt (i + 1) pointer p.pointers } : InternalPage), d2) =
        .ok (p', db') := hrun
    injection hrun with h2
    have hp' : p' = { p with keys := listInsertAt i key p.keys, pointers := listInsertAt (i + 1) pointer p.pointers } := (congrArg Prod.fst h2).symm
    have hdb : db' = d2 := (congrArg Prod.snd h2).symm
    obtain ⟨hd2, harity⟩ := internal_persist_spec _ db d2 hp
    refine ⟨hp', ?_, ?_⟩
    · rw [hdb, hd2, hp']
    · rw [hp']
      exact harity

theorem internal_split_spec (p : InternalPage) (db : DB)
    (l r : InternalPage) (sep : Nat) (db' : DB)
    (hfresh : p.offset ≠ db.block_size * db.meta.num_blocks_allocated)
    (hrun : InternalPage.split_in_half p db = .ok (l, r, sep, db')) :
    r = { offset := db.block_size * db.meta.num_blocks_allocated,
          keys := p.keys.drop (p.keys.length / 2),
          pointers := p.pointers.drop (p.keys.length / 2) } ∧
    l = { offset := p.offset,
          keys := (p.keys.take (p.keys.length / 2)).dropLast,
          pointers := p.pointers.take (p.keys.length / 2) } ∧
    (p.keys.take (p.keys.length / 2)).getLast? = some sep ∧
    db'.store.get p.offset = some (.internalData l.keys l.pointers) ∧
    db'.store.get r.offset = some (.internalData r.keys r.pointers) ∧
    (∀ o, o ≠ p.offset → o ≠ r.offset → db'.store.get o = db.store.get o) ∧
    db'.meta = { db.meta with num_blocks_allocated := db.meta.num_blocks_allocated + 1 } ∧
    l.pointers.length = l.keys.length + 1 ∧
    r.pointers.length = r.keys.length + 1 := by
  have halloc : db.allocate_block = (db.block_size * db.meta.num_blocks_allocated,
      { db with meta := { db.meta with
          num_blocks_allocated := db.meta.num_blocks_allocated + 1 } }) := rfl
  unfold InternalPage.split_in_half at hrun
  rw [halloc] at hrun
  simp only [] at hrun
  cases hlast : (p.keys.take (p.keys.length / 2)).getLast? with
  | none =>
    rw [hlast] at hrun
    cases hrun
  | some key0 =>
    rw [hlast] at hrun
    simp only [] at hrun
    cases hp1 : InternalPage.persist
        { offset := db.block_size * db.meta.num_blocks_allocated, keys := p.keys.drop (p.keys.length / 2), pointers := p.pointers.drop (p.keys.length / 2) }
        { db with meta := { db.meta with num_blocks_allocated := db.meta.num_blocks_allocated + 1 } } with
    | error e =>
      rw [hp1] at hrun
      cases hrun
    | ok dbB =>
      rw [hp1, bind_ok_er] at hrun
      cases hp2 : InternalPage.persist
          { p with keys := (p.keys.take (p.keys.length / 2)).dropLast, pointers := p.pointers.take (p.keys.length / 2) } dbB with
      | error e =>
        rw [hp2] at hrun
        cases hrun
      | ok dbC =>
        rw [hp2, bind_ok_er] at hrun
        replace hrun : Except.ok (ε := EngineErr)
            (({ p with keys := (p.keys.take (p.keys.length / 2)).dropLast, pointers := p.pointers.take (p.keys.length / 2) } : InternalPage),
              ({ offset := db.block_size * db.meta.num_blocks_allocated, keys := p.keys.drop (p.keys.length / 2), pointers := p.pointers.drop (p.keys.length / 2) } : InternalPage),
              key0, dbC) = .ok (l, r, sep, db') := hrun
        injection hrun with h2
        have hl : l = { p with keys := (p.keys.take (p.keys.length / 2)).dropLast, pointers := p.pointers.take (p.keys.length / 2) } := (congrArg Prod.fst h2).symm
        have h3 := congrArg Prod.snd h2
        have hr : r = { offset := db.block_size * db.meta.num_blocks_allocated, keys := p.keys.drop (p.keys.length / 2), pointers := p.pointers.drop (p.keys.length / 2) } := (congrArg Prod.fst h3).symm
        have h4 := congrArg Prod.snd h3
        have hsep : sep = key0 := (congrArg Prod.fst h4).symm
        have hdb : db' = dbC := (congrArg Prod.snd h4).symm
        obtain ⟨hB, harR⟩ := internal_persist_spec _ _ dbB hp1
        obtain ⟨hC, harL⟩ := internal_persist_spec _ dbB dbC hp2
        have hroff : r.offset = db.block_size * db.meta.num_blocks_allocated := by rw [hr]
        refine ⟨hr, hl, congrArg Option.some hsep.symm, ?storL, ?storR, ?frame, ?metaEq,
          by rw [hl]; exact harL, by rw [hr]; exact harR⟩
        case storL =>
          rw [hdb, hC, hl]
          show (dbB.store.put p.offset _).get p.offset = _
          rw [Store.get_put_self]
        case storR =>
          rw [hdb, hC, hB, hr]
          show ((db.store.put (db.block_size * db.meta.num_blocks_allocated) _).put
            p.offset _).get (db.block_size * db.meta.num_blocks_allocated) = _
          rw [Store.get_put_ne _ _ _ _ (fun hc => hfresh hc.symm), Store.get_put_self]
        case frame =>
          intro o ho1 ho2
          have ho2' : o ≠ db.block_size * db.meta.num_blocks_allocated := by
            rw [← hroff]
            exact ho2
          rw [hdb, hC, hB]
          show ((db.store.put (db.block_size * db.meta.num_blocks_allocated) _).put
            p.offset _).get o = _
          rw [Store.get_put_ne _ _ _ _ ho1, Store.get_put_ne _ _ _ _ ho2']
        case metaEq =>
          rw [hdb, hC, hB]

/-- `btree_split_child` on a leaf child: the child is split in half, the
separator (the last key remaining on the truncated left child) and the fresh
right sibling's offset are installed in the parent at the insert index, and
all three pages are persisted. -/
theorem split_child_leaf_spec (fuel : Nat) (node : InternalPage) (i : Nat) (db : DB)
    (co : Nat) (es : List LeafPageEntry) (blob : Blob)
    (pl pr : Page) (node' : InternalPage) (db2 : DB)
    (hptr : node.pointers.get? i = some co)
    (hld : db.store.get co = some (.leafData es blob))
    (hsort : leafSorted { offset := co, keys := es })
    (hcofresh : co ≠ db.block_size * db.meta.num_blocks_allocated)
    (hnodeco : node.offset ≠ co)
    (hnodefresh : node.offset ≠ db.block_size * db.meta.num_blocks_allocated)
    (hrun : BTree.btree_split_child fuel node i db = .ok (pl, pr, node', db2)) :
    ∃ (lastE : LeafPageEntry) (rkeys : List LeafPageEntry),
      (es.take (es.length / 2)).getLast? = some lastE ∧
      pl = .leaf { offset := co, keys := es.take (es.length / 2) } ∧
      pr = .leaf { offset := db.block_size * db.meta.num_blocks_allocated, keys := rkeys } ∧
      entryKeys rkeys = entryKeys (es.drop (es.length / 2)) ∧
      node' = { node with keys := listInsertAt i lastE.key node.keys, pointers := listInsertAt (i + 1) (db.block_size * db.meta.num_blocks_allocated) node.pointers } ∧
      db2.store.get node.offset = some (.internalData node'.keys node'.pointers) ∧
      (∃ blob2, db2.store.get co = some (.leafData (es.take (es.length / 2)) blob2)) ∧
      (∃ blob3, db2.store.get (db.block_size * db.meta.num_blocks_allocated) =
        some (.leafData rkeys blob3)) ∧
      (∀ o, o ≠ node.offset → o ≠ co →
        o ≠ db.block_size * db.meta.num_blocks_allocated →
        db2.store.get o = db.store.get o) ∧
      db2.meta = { db.meta with num_blocks_allocated := db.meta.num_blocks_allocated + 1 } ∧
      node'.pointers.length = node'.keys.length + 1 := by
  unfold BTree.btree_split_child at hrun
  rw [hptr] at hrun
  simp only [] at hrun
  rw [page_load_leaf co db es blob hld, bind_ok_er] at hrun
  simp only [] at hrun
  cases hsp : LeafPage.split_in_half fuel { offset := co, keys := es } db with
  | error e =>
    rw [hsp] at hrun
    cases hrun
  | ok r3 =>
    obtain ⟨lf, rt, dbA⟩ := r3
    rw [hsp, bind_ok_er] at hrun
    obtain ⟨hlf, hrk, hroff, _, hlstore, hrstore, hframeA, hmetaA⟩ :=
      split_in_half_spec fuel { offset := co, keys := es } db es blob lf rt dbA
        hld hsort hcofresh hsp
    rw [hlf] at hrun
    simp only [] at hrun
    cases hgl : (es.take (es.length / 2)).getLast? with
    | none =>
      rw [hgl] at hrun
      cases hrun
    | some lastE =>
      rw [hgl] at hrun
      simp only [] at hrun
      cases hsi : node.safe_insert i lastE.key rt.offset dbA with
      | error e =>
        rw [hsi] at hrun
        cases hrun
      | ok r4 =>
        obtain ⟨nd, dbF⟩ := r4
        rw [hsi, bind_ok_er] at hrun
        obtain ⟨hnd, hdbF, harity⟩ := safe_insert_spec node i lastE.key rt.offset dbA nd dbF hsi
        replace hrun : Except.ok (ε := EngineErr)
            ((Page.leaf { offset := co, keys := es.take (es.length / 2) } : Page),
              (Page.leaf rt : Page), nd, dbF) = .ok (pl, pr, node', db2) := hrun
        injection hrun with h2
        have hpl : pl = Page.leaf { offset := co, keys := es.take (es.length / 2) } :=
          (congrArg Prod.fst h2).symm
        have h3 := congrArg Prod.snd h2
        have hpr : pr = Page.leaf rt := (congrArg Prod.fst h3).symm
        have h4 := congrArg Prod.snd h3
        have hnode' : node' = nd := (congrArg Prod.fst h4).symm
        have hdb2 : db2 = dbF := (congrArg Prod.snd h4).symm
        refine ⟨lastE, rt.keys, rfl, hpl, ?_, hrk, ?_, ?_, ?_, ?_, ?_, ?_, ?_⟩
        · rw [hpr]
          have : rt = { offset := db.block_size * db.meta.num_blocks_allocated, keys := rt.keys } := by
            cases rt with
            | mk o ks => rw [show o = db.block_size * db.meta.num_blocks_allocated from hroff]
          rw [← this]
        · rw [hnode', hnd, hroff]
        · rw [hdb2, hdbF, hnode', hnd]
          show (dbA.store.put node.offset _).get node.offset = _
          rw [Store.get_put_self]
        · obtain ⟨b2, hb2⟩ := hlstore
          refine ⟨b2, ?_⟩
          rw [hdb2, hdbF]
          show (dbA.store.put node.offset _).get co = _
          rw [Store.get_put_ne _ _ _ _ (fun hc => hnodeco hc.symm)]
          have hb2' := hb2
          rw [hlf] at hb2'
          exact hb2'
        · obtain ⟨b3, hb3⟩ := hrstore
          refine ⟨b3, ?_⟩
          rw [hdb2, hdbF]
          show (dbA.store.put node.offset _).get
            (db.block_size * db.meta.num_blocks_allocated) = _
          rw [Store.get_put_ne _ _ _ _ (fun hc => hnodefresh hc.symm)]
          rw [← hroff]
          exact hb3
        · intro o ho1 ho2 ho3
          rw [hdb2, hdbF]
          show (dbA.store.put node.offset _).get o = _
          rw [Store.get_put_ne _ _ _ _ ho1]
          exact hframeA o ho2 (by rw [hroff]; exact ho3)
        · rw [hdb2, hdbF]
          show dbA.meta = _
          exact hmetaA
        · rw [hnode']
          exact harity

/-- `btree_split_child` on an internal child: the child's upper half of keys
and pointers moves to a fresh right sibling, the key popped off the truncated
left half becomes the separator installed in the parent at the insert index,
and all three pages are persisted. -/
theorem split_child_internal_spec (fuel : Nat) (node : InternalPage) (i : Nat) (db : DB)
    (co : Nat) (cks cps : List Nat)
    (pl pr : Page) (node' : InternalPage) (db2 : DB)
    (hptr : node.pointers.get? i = some co)
    (hld : db.store.get co = some (.internalData cks cps))
    (hcofresh : co ≠ db.block_size * db.meta.num_blocks_allocated)
    (hnodeco : node.offset ≠ co)
    (hnodefresh : node.offset ≠ db.block_size * db.meta.num_blocks_allocated)
    (hrun : BTree.btree_split_child fuel node i db = .ok (pl, pr, node', db2)) :
    ∃ sep : Nat,
      (cks.take (cks.length / 2)).getLast? = some sep ∧
      pl = .internal { offset := co, keys := (cks.take (cks.length / 2)).dropLast, pointers := cps.take (cks.length / 2) } ∧
      pr = .internal { offset := db.block_size * db.meta.num_blocks_allocated, keys := cks.drop (cks.length / 2), pointers := cps.drop (cks.length / 2) } ∧
      node' = { node with keys := listInsertAt i sep node.keys, pointers := listInsertAt (i + 1) (db.block_size * db.meta.num_blocks_allocated) node.pointers } ∧
      db2.store.get node.offset = some (.internalData node'.keys node'.pointers) ∧
      db2.store.get co = some (.internalData ((cks.take (cks.length / 2)).dropLast) (cps.take (cks.length / 2))) ∧
      db2.store.get (db.block_size * db.meta.num_blocks_allocated) =
        some (.internalData (cks.drop (cks.length / 2)) (cps.drop (cks.length / 2))) ∧
      (∀ o, o ≠ node.offset → o ≠ co →
        o ≠ db.block_size * db.meta.num_blocks_allocated →
        db2.store.get o = db.store.get o) ∧
      db2.meta = { db.meta with num_blocks_allocated := db.meta.num_blocks_allocated + 1 } ∧
      node'.pointers.length = node'.keys.length + 1 ∧
      (cps.take (cks.length / 2)).length = ((cks.take (cks.length / 2)).dropLast).length + 1 ∧
      (cps.drop (cks.length / 2)).length = (cks.drop (cks.length / 2)).length + 1 := by
  unfold BTree.btree_split_child at hrun
  rw [hptr] at hrun
  simp only [] at hrun
  rw [page_load_internal co db cks cps hld, bind_ok_er] at hrun
  simp only [] at hrun
  cases hsp : InternalPage.split_in_half { offset := co, keys := cks, pointers := cps } db with
  | error e =>
    rw [hsp] at hrun
    cases hrun
  | ok r3 =>
    obtain ⟨lf, rt, sep0, dbA⟩ := r3
    rw [hsp, bind_ok_er] at hrun
    obtain ⟨hrt, hlf, hgl, hlstore, hrstore, hframeA, hmetaA, harL, harR⟩ :=
      internal_split_spec { offset := co, keys := cks, pointers := cps } db lf rt sep0 dbA
        hcofresh hsp
    cases hsi : node.safe_insert i sep0 rt.offset dbA with
    | error e =>
      rw [hsi] at hrun
      cases hrun
    | ok r4 =>
      obtain ⟨nd, dbF⟩ := r4
      rw [hsi, bind_ok_er] at hrun
      obtain ⟨hnd, hdbF, harity⟩ := safe_insert_spec node i sep0 rt.offset dbA nd dbF hsi
      replace hrun : Except.ok (ε := EngineErr)
          ((Page.internal lf : Page), (Page.internal rt : Page), nd, dbF) =
          .ok (pl, pr, node', db2) := hrun
      injection hrun with h2
      have hpl : pl = Page.internal lf := (congrArg Prod.fst h2).symm
      have h3 := congrArg Prod.snd h2
      have hpr : pr = Page.internal rt := (congrArg Prod.fst h3).symm
      have h4 := congrArg Prod.snd h3
      have hnode' : node' = nd := (congrArg Prod.fst h4).symm
      have hdb2 : db2 = dbF := (congrArg Prod.snd h4).symm
      have hroff : rt.offset = db.block_size * db.meta.num_blocks_allocated := by rw [hrt]
      refine ⟨sep0, hgl, ?_, ?_, ?_, ?_, ?_, ?_, ?_, ?_, ?_, ?_, ?_⟩
      · rw [hpl, hlf]
      · rw [hpr, hrt]
      · rw [hnode', hnd, hroff]
      · rw [hdb2, hdbF, hnode', hnd]
        show (dbA.store.put node.offset _).get node.offset = _
        rw [Store.get_put_self]
      · rw [hdb2, hdbF]
        show (dbA.store.put node.offset _).get co = _
        rw [Store.get_put_ne _ _ _ _ (fun hc => hnodeco hc.symm)]
        rw [show ({ offset := co, keys := cks, pointers := cps } : InternalPage).offset = co from rfl] at hlstore
        rw [hlf] at hlstore
        exact hlstore
      · rw [hdb2, hdbF]
        show (dbA.store.put node.offset _).get
          (db.block_size * db.meta.num_blocks_allocated) = _
        rw [Store.get_put_ne _ _ _ _ (fun hc => hnodefresh hc.symm)]
        rw [hroff] at hrstore
        rw [hrt] at hrstore
        exact hrstore
      · intro o ho1 ho2 ho3
        rw [hdb2, hdbF]
        show (dbA.store.put node.offset _).get o = _
        rw [Store.get_put_ne _ _ _ _ ho1]
        exact hframeA o ho2 (by rw [hroff]; exact ho3)
      · rw [hdb2, hdbF]
        show dbA.meta = _
        exact hmetaA
      · rw [hnode']
        exact harity
      · rw [hlf] at harL
        exact harL
      · rw [hrt] at harR
        exact harR

theorem leafSorted_take (off off2 n : Nat) (es : List LeafPageEntry)
    (h : leafSorted { offset := off, keys := es }) :
    leafSorted { offset := off2, keys := es.take n } := by
  show (entryKeys (es.take n)).Sorted (· < ·)
  show ((es.take n).map (·.key)).Sorted (· < ·)
  rw [List.map_take]
  exact h.sublist (List.take_sublist n _)

theorem leafSorted_drop (off off2 n : Nat) (es : List LeafPageEntry)
    (h : leafSorted { offset := off, keys := es }) :
    leafSorted { offset := off2, keys := es.drop n } := by
  show (entryKeys (es.drop n)).Sorted (· < ·)
  show ((es.drop n).map (·.key)).Sorted (· < ·)
  rw [List.map_drop]
  exact h.sublist (List.drop_sublist n _)

/-- The leaf case of `btree_insert_nonfull`: the upsert stores the value in
this page and it reads back, with every other page untouched. -/
theorem ins_leaf_spec (fuel : Nat) (off key : Nat) (data : List Nat) (db db' : DB)
    (es : List LeafPageEntry) (blob : Blob)
    (hs : db.store.get off = some (.leafData es blob))
    (hsort : leafSorted { offset := off, keys := es })
    (hrun : BTree.btree_insert_nonfull (fuel + 1) (.leaf { offset := off, keys := es })
      key data db = .ok db') :
    BTree.lookup (fuel + 1) (BTree.from_offset off) key db' = .ok (some data) ∧
    (∀ o, o ≠ off → db'.store.get o = db.store.get o) ∧
    db'.meta = db.meta := by
  rw [insert_nonfull_leaf] at hrun
  cases hup : LeafPage.upsert_value fuel { offset := off, keys := es } key data db with
  | error e =>
    rw [hup] at hrun
    cases hrun
  | ok r =>
    rw [hup] at hrun
    replace hrun : Except.ok (ε := EngineErr) r.2 = .ok db' := hrun
    have hdb' : db' = r.2 := (Except.ok.inj hrun).symm
    have hout := (upsert_defrag_spec fuel).1 { offset := off, keys := es } key data db
      r.1 r.2 es blob hs hsort hup
    obtain ⟨ho1, _, _, ho4, ho5, ho6, ho7, _⟩ := hout
    obtain ⟨blob2, hleaf'⟩ := ho5
    have hpp : ({ offset := off, keys := r.1.keys } : LeafPage) = r.1 := by
      cases hr1 : r.1 with
      | mk o ks =>
        have h5 : o = off := by
          have h6 := ho1
          rw [hr1] at h6
          exact h6
        rw [h5]
    refine ⟨?_, ?_, by rw [hdb']; exact ho4⟩
    · rw [hdb']
      unfold BTree.lookup
      show (do
        let page ← Page.load off r.2
        BTree.btree_search (fuel + 1) page key r.2) = _
      rw [page_load_leaf off r.2 r.1.keys blob2 hleaf', bind_ok_er]
      show LeafPage.lookup_value_alloc { offset := off, keys := r.1.keys } key r.2 = _
      rw [hpp]
      exact ho7
    · intro o ho
      rw [hdb']
      exact ho6 o ho

theorem db_block_size_of_meta (db2 db : DB)
    (hm : db2.meta = { db.meta with
      num_blocks_allocated := db.meta.num_blocks_allocated + 1 }) :
    db2.block_size = db.block_size := by
  show 2 ^ db2.meta.block_size_exp = 2 ^ db.meta.block_size_exp
  rw [hm]

theorem limit_le_of_meta (db2 db : DB)
    (hm : db2.meta = { db.meta with
      num_blocks_allocated := db.meta.num_blocks_allocated + 1 }) :
    db.block_size * db.meta.num_blocks_allocated ≤
      db2.block_size * db2.meta.num_blocks_allocated := by
  rw [db_block_size_of_meta db2 db hm, hm]
  show db.block_size * db.meta.num_blocks_allocated ≤
    db.block_size * (db.meta.num_blocks_allocated + 1)
  exact Nat.mul_le_mul_left _ (Nat.le_succ _)

/-- After splitting a leaf child, both halves are loadable, well formed and
single-page subtrees in the post-split database. -/
theorem split_child_leaf_ready (g : Nat) (node : InternalPage) (i : Nat) (db : DB)
    (co : Nat) (es : List LeafPageEntry) (blob : Blob)
    (pl pr : Page) (node' : InternalPage) (db2 : DB)
    (hptr : node.pointers.get? i = some co)
    (hld : db.store.get co = some (.leafData es blob))
    (hsort : leafSorted { offset := co, keys := es })
    (hcolt : co < db.block_size * db.meta.num_blocks_allocated)
    (hnodelt : node.offset < db.block_size * db.meta.num_blocks_allocated)
    (hnodeco : node.offset ≠ co)
    (hrun : BTree.btree_split_child g node i db = .ok (pl, pr, node', db2)) :
    ∃ (lastE : LeafPageEntry),
      node' = { node with keys := listInsertAt i lastE.key node.keys, pointers := listInsertAt (i + 1) (db.block_size * db.meta.num_blocks_allocated) node.pointers } ∧
      db2.store.get node.offset = some (.internalData node'.keys node'.pointers) ∧
      node'.pointers.length = node'.keys.length + 1 ∧
      db2.meta = { db.meta with
        num_blocks_allocated := db.meta.num_blocks_allocated + 1 } ∧
      (∀ o, o ≠ node.offset → o ≠ co →
        o ≠ db.block_size * db.meta.num_blocks_allocated →
        db2.store.get o = db.store.get o) ∧
      (∀ f, Page.load co db2 = .ok pl ∧ WFb (f + 1) co db2 = true ∧
        subOffsets (f + 1) co db2 = [co]) ∧
      (∀ f, Page.load (db.block_size * db.meta.num_blocks_allocated) db2 = .ok pr ∧
        WFb (f + 1) (db.block_size * db.meta.num_blocks_allocated) db2 = true ∧
        subOffsets (f + 1) (db.block_size * db.meta.num_blocks_allocated) db2 =
          [db.block_size * db.meta.num_blocks_allocated]) := by
  have hcofresh : co ≠ db.block_size * db.meta.num_blocks_allocated :=
    Nat.ne_of_lt hcolt
  have hnodefresh : node.offset ≠ db.block_size * db.meta.num_blocks_allocated :=
    Nat.ne_of_lt hnodelt
  obtain ⟨lastE, rkeys, _, hpl, hpr, hrk, hnd, hstore, ⟨b2, hb2⟩, ⟨b3, hb3⟩, hframe,
    hmeta, harity⟩ :=
    split_child_leaf_spec g node i db co es blob pl pr node' db2
      hptr hld hsort hcofresh hnodeco hnodefresh hrun
  have hlimle := limit_le_of_meta db2 db hmeta
  refine ⟨lastE, hnd, hstore, harity, hmeta, hframe, ?_, ?_⟩
  · intro f
    refine ⟨?_, ?_, subOffsets_of_leaf f co db2 _ b2 hb2⟩
    · unfold Page.load
      rw [hb2, hpl]
    · unfold WFb
      rw [hb2]
      simp only [Bool.and_eq_true, decide_eq_true_eq]
      exact ⟨lt_of_lt_of_le hcolt hlimle, leafSorted_take co co _ es hsort⟩
  · intro f
    refine ⟨?_, ?_, subOffsets_of_leaf f _ db2 _ b3 hb3⟩
    · unfold Page.load
      rw [hb3, hpr]
    · unfold WFb
      rw [hb3]
      simp only [Bool.and_eq_true, decide_eq_true_eq]
      constructor
      · calc db.block_size * db.meta.num_blocks_allocated
            < db.block_size * db.meta.num_blocks_allocated + db.block_size := by
              have hbs : 0 < db.block_size := Nat.pos_pow_of_pos _ (by omega)
              omega
          _ ≤ db2.block_size * db2.meta.num_blocks_allocated := by
              rw [db_block_size_of_meta db2 db hmeta, hmeta]
              show db.block_size * db.meta.num_blocks_allocated + db.block_size ≤
                db.block_size * (db.meta.num_blocks_allocated + 1)
              rw [Nat.mul_succ]
      · show (entryKeys rkeys).Sorted (· < ·)
        rw [hrk]
        exact leafSorted_drop co co _ es hsort

theorem fresh_lt_of_meta (db2 db : DB)
    (hm : db2.meta = { db.meta with
      num_blocks_allocated := db.meta.num_blocks_allocated + 1 }) :
    db.block_size * db.meta.num_blocks_allocated <
      db2.block_size * db2.meta.num_blocks_allocated := by
  rw [db_block_size_of_meta db2 db hm, hm]
  show db.block_size * db.meta.num_blocks_allocated <
    db.block_size * (db.meta.num_blocks_allocated + 1)
  have hbs : 0 < db.block_size := Nat.pos_pow_of_pos _ (by omega)
  rw [Nat.mul_succ]
  omega

theorem flatten_map_take_drop {α β : Type} (f : α → List β) (l : List α) (n : Nat) :
    (l.map f).flatten = ((l.take n).map f).flatten ++ ((l.drop n).map f).flatten := by
  rw [← List.flatten_append, ← List.map_append, List.take_append_drop]

/-- After splitting an internal child, both halves are loadable, well formed,
duplicate-free subtrees in the post-split database, with page offsets drawn
from the original child subtree plus the one fresh block. -/
theorem split_child_internal_ready (g f : Nat) (node : InternalPage) (i : Nat) (db : DB)
    (co : Nat) (cks cps : List Nat)
    (pl pr : Page) (node' : InternalPage) (db2 : DB)
    (hptr : node.pointers.get? i = some co)
    (hld : db.store.get co = some (.internalData cks cps))
    (hwfco : WFb (f + 1) co db = true)
    (hndco : (subOffsets (f + 1) co db).Nodup)
    (hnodelt : node.offset < db.block_size * db.meta.num_blocks_allocated)
    (hnodeco : node.offset ≠ co)
    (hoffnotin : node.offset ∉ subOffsets (f + 1) co db)
    (hrun : BTree.btree_split_child g node i db = .ok (pl, pr, node', db2)) :
    ∃ sep : Nat,
      node' = { node with keys := listInsertAt i sep node.keys, pointers := listInsertAt (i + 1) (db.block_size * db.meta.num_blocks_allocated) node.pointers } ∧
      db2.store.get node.offset = some (.internalData node'.keys node'.pointers) ∧
      node'.pointers.length = node'.keys.length + 1 ∧
      db2.meta = { db.meta with
        num_blocks_allocated := db.meta.num_blocks_allocated + 1 } ∧
      (∀ o, o ≠ node.offset → o ≠ co →
        o ≠ db.block_size * db.meta.num_blocks_allocated →
        db2.store.get o = db.store.get o) ∧
      (Page.load co db2 = .ok pl ∧ WFb (f + 1) co db2 = true ∧
        (subOffsets (f + 1) co db2).Nodup ∧
        (∀ x ∈ subOffsets (f + 1) co db2, x ∈ subOffsets (f + 1) co db)) ∧
      (Page.load (db.block_size * db.meta.num_blocks_allocated) db2 = .ok pr ∧
        WFb (f + 1) (db.block_size * db.meta.num_blocks_allocated) db2 = true ∧
        (subOffsets (f + 1) (db.block_size * db.meta.num_blocks_allocated) db2).Nodup ∧
        (∀ x ∈ subOffsets (f + 1) (db.block_size * db.meta.num_blocks_allocated) db2,
          x = db.block_size * db.meta.num_blocks_allocated ∨
          x ∈ subOffsets (f + 1) co db)) ∧
      subOffsets (f + 1) co db2 =
        co :: ((cps.take (cks.length / 2)).map fun o => subOffsets f o db).flatten ∧
      subOffsets (f + 1) (db.block_size * db.meta.num_blocks_allocated) db2 =
        (db.block_size * db.meta.num_blocks_allocated) ::
          ((cps.drop (cks.length / 2)).map fun o => subOffsets f o db).flatten ∧
      ((cps.map fun o => subOffsets f o db).flatten).Nodup ∧
      co ∉ ((cps.map fun o => subOffsets f o db).flatten) := by
  obtain ⟨hcolt, harc, hchw⟩ := WFb_succ_internal f co db cks cps hwfco hld
  obtain ⟨hconotin, hchnd⟩ := nodup_subOffsets_internal f co db cks cps hld hndco
  have hcofresh : co ≠ db.block_size * db.meta.num_blocks_allocated :=
    Nat.ne_of_lt hcolt
  have hnodefresh : node.offset ≠ db.block_size * db.meta.num_blocks_allocated :=
    Nat.ne_of_lt hnodelt
  obtain ⟨sep, _, hpl, hpr, hnd, hstore, hstL, hstR, hframe, hmeta, harity, harL, harR⟩ :=
    split_child_internal_spec g node i db co cks cps pl pr node' db2
      hptr hld hcofresh hnodeco hnodefresh hrun
  have hlimle := limit_le_of_meta db2 db hmeta
  have hfreshlt := fresh_lt_of_meta db2 db hmeta
  -- the pages of every child subtree are untouched by the split
  have hchfix : ∀ c ∈ cps, ∀ x ∈ subOffsets f c db, db2.store.get x = db.store.get x := by
    intro c hc x hx
    have hxmem : x ∈ (cps.map fun o => subOffsets f o db).flatten :=
      List.mem_flatten.mpr ⟨subOffsets f c db, List.mem_map.mpr ⟨c, hc, rfl⟩, hx⟩
    have hxin : x ∈ subOffsets (f + 1) co db :=
      child_subOffsets_subset f co db cks cps c hld hc x hx
    refine hframe x ?_ ?_ ?_
    · intro hcontra
      exact hoffnotin (hcontra ▸ hxin)
    · intro hcontra
      exact hconotin (hcontra ▸ hxmem)
    · exact Nat.ne_of_lt (subOffsets_lt_of_WFb f c db (hchw c hc) x hx)
  have hsubeq : ∀ c ∈ cps, subOffsets f c db2 = subOffsets f c db := by
    intro c hc
    exact subOffsets_congr f c db db2 (hchfix c hc)
  have hwf2 : ∀ c ∈ cps, WFb f c db2 = true := by
    intro c hc
    exact WFb_congr f c db db2 (hchfix c hc) hlimle (hchw c hc)
  have hmapL : (cps.take (cks.length / 2)).map (fun o => subOffsets f o db2) =
      (cps.take (cks.length / 2)).map (fun o => subOffsets f o db) := by
    apply List.map_congr_left
    intro c hc
    exact hsubeq c (List.take_subset _ _ hc)
  have hmapR : (cps.drop (cks.length / 2)).map (fun o => subOffsets f o db2) =
      (cps.drop (cks.length / 2)).map (fun o => subOffsets f o db) := by
    apply List.map_congr_left
    intro c hc
    exact hsubeq c (List.drop_subset _ _ hc)
  have hflsplit := flatten_map_take_drop (fun o => subOffsets f o db) cps (cks.length / 2)
  have hmemTake : ∀ x ∈ ((cps.take (cks.length / 2)).map fun o => subOffsets f o db).flatten,
      x ∈ (cps.map fun o => subOffsets f o db).flatten := by
    intro x hx
    rw [hflsplit]
    exact List.mem_append.mpr (Or.inl hx)
  have hmemDrop : ∀ x ∈ ((cps.drop (cks.length / 2)).map fun o => subOffsets f o db).flatten,
      x ∈ (cps.map fun o => subOffsets f o db).flatten := by
    intro x hx
    rw [hflsplit]
    exact List.mem_append.mpr (Or.inr hx)
  have hflatnodup : ((cps.map fun o => subOffsets f o db).flatten).Nodup := by
    rw [subOffsets_of_internal f co db cks cps hld, List.nodup_cons] at hndco
    exact hndco.2
  have hsubL : subOffsets (f + 1) co db2 =
      co :: ((cps.take (cks.length / 2)).map fun o => subOffsets f o db).flatten := by
    rw [subOffsets_of_internal f co db2 _ _ hstL, hmapL]
  have hsubR : subOffsets (f + 1) (db.block_size * db.meta.num_blocks_allocated) db2 =
      (db.block_size * db.meta.num_blocks_allocated) ::
        ((cps.drop (cks.length / 2)).map fun o => subOffsets f o db).flatten := by
    rw [subOffsets_of_internal f _ db2 _ _ hstR, hmapR]
  refine ⟨sep, hnd, hstore, harity, hmeta, hframe, ⟨?loadL, ?wfL, ?ndL, ?memL⟩,
    ⟨?loadR, ?wfR, ?ndR, ?memR⟩, hsubL, hsubR, hflatnodup, hconotin⟩
  case loadL =>
    unfold Page.load
    rw [hstL, hpl]
  case wfL =>
    unfold WFb
    rw [hstL]
    simp only [Bool.and_eq_true, decide_eq_true_eq, List.all_eq_true]
    exact ⟨lt_of_lt_of_le hcolt hlimle, harL,
      fun c hc => hwf2 c (List.take_subset _ _ hc)⟩
  case ndL =>
    rw [hsubL, List.nodup_cons]
    constructor
    · intro hcontra
      exact hconotin (hmemTake co hcontra)
    · rw [hflsplit] at hflatnodup
      exact hflatnodup.of_append_left
  case memL =>
    intro x hx
    rw [hsubL] at hx
    rw [subOffsets_of_internal f co db cks cps hld]
    rcases List.mem_cons.mp hx with rfl | hmem
    · exact List.mem_cons_self _ _
    · exact List.mem_cons.mpr (Or.inr (hmemTake x hmem))
  case loadR =>
    unfold Page.load
    rw [hstR, hpr]
  case wfR =>
    unfold WFb
    rw [hstR]
    simp only [Bool.and_eq_true, decide_eq_true_eq, List.all_eq_true]
    exact ⟨hfreshlt, harR, fun c hc => hwf2 c (List.drop_subset _ _ hc)⟩
  case ndR =>
    rw [hsubR, List.nodup_cons]
    constructor
    · intro hcontra
      have hmem2 : db.block_size * db.meta.num_blocks_allocated ∈
          subOffsets (f + 1) co db := by
        rw [subOffsets_of_internal f co db cks cps hld]
        exact List.mem_cons.mpr (Or.inr (hmemDrop _ hcontra))
      have hlt := subOffsets_lt_of_WFb (f + 1) co db hwfco _ hmem2
      omega
    · rw [hflsplit] at hflatnodup
      exact hflatnodup.of_append_right
  case memR =>
    intro x hx
    rw [hsubR] at hx
    rcases List.mem_cons.mp hx with rfl | hmem
    · exact Or.inl rfl
    · refine Or.inr ?_
      rw [subOffsets_of_internal f co db cks cps hld]
      exact List.mem_cons.mpr (Or.inr (hmemDrop x hmem))

theorem keyInsertIdx_le_length (ks : List Nat) (k : Nat) :
    keyInsertIdx ks k ≤ ks.length := by
  unfold keyInsertIdx
  exact List.countP_le_length _

theorem keyInsertIdx_listInsertAt (ks : List Nat) (i k sep : Nat) :
    keyInsertIdx (listInsertAt i sep ks) k =
      keyInsertIdx ks k + if sep < k then 1 else 0 := by
  unfold keyInsertIdx
  rw [countP_listInsertAt]
  by_cases h : sep < k <;> simp [h]

/-- One descent step of `lookup` at an internal page. -/
theorem lookup_step_internal (fuel off key : Nat) (db' : DB) (KS PS : List Nat)
    (target : Nat)
    (hs : db'.store.get off = some (.internalData KS PS))
    (htgt : PS.get? (keyInsertIdx KS key) = some target) :
    BTree.lookup (fuel + 1) (BTree.from_offset off) key db' =
      BTree.lookup fuel (BTree.from_offset target) key db' := by
  unfold BTree.lookup
  show (do
    let page ← Page.load off db'
    BTree.btree_search (fuel + 1) page key db') = _
  rw [page_load_internal off db' KS PS hs, bind_ok_er]
  show (match PS.get? (keyInsertIdx KS key) with
    | none => (.error .panicked : ER (Option (List Nat)))
    | some o2 => do
      let c ← Page.load o2 db'
      BTree.btree_search fuel c key db') = _
  rw [htgt]
  rfl

/-- The heart of C4's final clause: a successful `btree_insert_nonfull` on a
well-formed subtree leaves the inserted key retrievable by `lookup` from the
same root offset, touching no page outside the subtree and the freshly
allocated blocks. -/
theorem insert_nonfull_found : ∀ (fuel : Nat) (fw : Nat) (off key : Nat) (data : List Nat)
    (db db' : DB) (page : Page),
    Page.load off db = .ok page →
    WFb fw off db = true →
    (subOffsets fw off db).Nodup →
    BTree.btree_insert_nonfull fuel page key data db = .ok db' →
    BTree.lookup fuel (BTree.from_offset off) key db' = .ok (some data) ∧
    (∀ o, o < db.block_size * db.meta.num_blocks_allocated →
      o ∉ subOffsets fw off db → db'.store.get o = db.store.get o) ∧
    db'.meta.block_size_exp = db.meta.block_size_exp ∧
    db.meta.num_blocks_allocated ≤ db'.meta.num_blocks_allocated := by
  intro fuel
  induction fuel with
  | zero =>
    intro fw off key data db db' page _ _ _ hrun
    cases hrun
  | succ fuel ih =>
    intro fw off key data db db' page hload hwf hnd hrun
    cases fw with
    | zero => simp [WFb] at hwf
    | succ w =>
    cases hs : db.store.get off with
    | none =>
      unfold Page.load at hload
      rw [hs] at hload
      cases hload
    | some pd =>
      cases pd with
      | leafData es blob =>
        have hpage : page = .leaf { offset := off, keys := es } := by
          unfold Page.load at hload
          rw [hs] at hload
          exact (Except.ok.inj hload).symm
        obtain ⟨_, hsort⟩ := WFb_succ_leaf w off db es blob hwf hs
        rw [hpage] at hrun
        obtain ⟨h1, h2, h3⟩ := ins_leaf_spec fuel off key data db db' es blob hs hsort hrun
        refine ⟨h1, ?_, by rw [h3], by rw [h3]⟩
        intro o _ ho
        refine h2 o ?_
        rw [subOffsets_of_leaf w off db es blob hs] at ho
        simpa using ho
      | internalData ks ps =>
        have hpage : page = .internal { offset := off, keys := ks, pointers := ps } := by
          unfold Page.load at hload
          rw [hs] at hload
          exact (Except.ok.inj hload).symm
        obtain ⟨hofflt, harity, hchw⟩ := WFb_succ_internal w off db ks ps hwf hs
        obtain ⟨hoffnotin, hchnd⟩ := nodup_subOffsets_internal w off db ks ps hs hnd
        rw [hpage] at hrun
        unfold BTree.btree_insert_nonfull at hrun
        replace hrun : (match ps.get? (keyInsertIdx ks key) with
          | none => (.error .panicked : ER DB)
          | some co => do
            let child ← Page.load co db
            if child.can_accommodate data.length db.block_size then
              BTree.btree_insert_nonfull fuel child key data db
            else do
              let r ← BTree.btree_split_child fuel
                { offset := off, keys := ks, pointers := ps } (keyInsertIdx ks key) db
              match r.2.2.1.keys.get? (keyInsertIdx ks key) with
              | none => .error .panicked
              | some sep =>
                BTree.btree_insert_nonfull fuel
                  (if sep < key then r.2.1 else r.1) key data r.2.2.2) = .ok db' := hrun
        cases hco : ps.get? (keyInsertIdx ks key) with
        | none =>
          rw [hco] at hrun
          cases hrun
        | some co =>
          rw [hco] at hrun
          simp only [] at hrun
          have hcomem : co ∈ ps := List.get?_mem hco
          have hwfc : WFb w co db = true := hchw co hcomem
          have hndc : (subOffsets w co db).Nodup := hchnd co hcomem
          cases w with
          | zero => simp [WFb] at hwfc
          | succ v =>
            have hcoself : co ∈ subOffsets (v + 1) co db := self_mem_subOffsets v co db
            have hoffnotco : off ∉ subOffsets (v + 1) co db := by
              intro hcontra
              exact hoffnotin
                (List.mem_flatten.mpr ⟨_, List.mem_map.mpr ⟨co, hcomem, rfl⟩, hcontra⟩)
            have hoffco : off ≠ co := fun hc => hoffnotco (hc ▸ hcoself)
            have hchsub : ∀ x ∈ subOffsets (v + 1) co db,
                x ∈ subOffsets (v + 1 + 1) off db :=
              child_subOffsets_subset (v + 1) off db ks ps co hs hcomem
            have hi_le : keyInsertIdx ks key ≤ ks.length := keyInsertIdx_le_length ks key
            cases hcs : db.store.get co with
            | none =>
              unfold WFb at hwfc
              rw [hcs] at hwfc
              simp at hwfc
            | some cpd =>
              cases cpd with
              | leafData ces cblob =>
                rw [page_load_leaf co db ces cblob hcs, bind_ok_er] at hrun
                obtain ⟨hcolt, hcsort⟩ := WFb_succ_leaf v co db ces cblob hwfc hcs
                by_cases hacc : (Page.leaf { offset := co, keys := ces }).can_accommodate
                    data.length db.block_size = true
                · rw [if_pos hacc] at hrun
                  obtain ⟨ihl, ihf, ihm1, ihm2⟩ := ih (v + 1) co key data db db'
                    (.leaf { offset := co, keys := ces })
                    (by unfold Page.load; rw [hcs]) hwfc hndc hrun
                  refine ⟨?_, ?_, ihm1, ihm2⟩
                  · have hsoff' : db'.store.get off = some (.internalData ks ps) := by
                      rw [ihf off hofflt hoffnotco]
                      exact hs
                    rw [lookup_step_internal fuel off key db' ks ps co hsoff' hco]
                    exact ihl
                  · intro o holt honot
                    exact ihf o holt (fun hx => honot (hchsub o hx))
                · rw [if_neg hacc] at hrun
                  cases hsc : BTree.btree_split_child fuel
                      { offset := off, keys := ks, pointers := ps }
                      (keyInsertIdx ks key) db with
                  | error e =>
                    rw [hsc] at hrun
                    cases hrun
                  | ok r4 =>
                    obtain ⟨plc, r5⟩ := r4
                    obtain ⟨prc, r6⟩ := r5
                    obtain ⟨nodeU, db2⟩ := r6
                    rw [hsc, bind_ok_er] at hrun
                    simp only [] at hrun
                    obtain ⟨lastE, hndU, hstU, harU, hmeta2, hframe2, hreadyL, hreadyR⟩ :=
                      split_child_leaf_ready fuel
                        { offset := off, keys := ks, pointers := ps }
                        (keyInsertIdx ks key) db co ces cblob plc prc nodeU db2
                        hco hcs hcsort hcolt hofflt hoffco hsc
                    have hsepval : nodeU.keys.get? (keyInsertIdx ks key) =
                        some lastE.key := by
                      rw [hndU]
                      show (listInsertAt (keyInsertIdx ks key) lastE.key ks).get?
                        (keyInsertIdx ks key) = _
                      exact get?_listInsertAt_self ks _ lastE.key hi_le
                    rw [hsepval] at hrun
                    simp only [] at hrun
                    have hlim2 := limit_le_of_meta db2 db hmeta2
                    have hKS : nodeU.keys =
                        listInsertAt (keyInsertIdx ks key) lastE.key ks := by rw [hndU]
                    have hPS : nodeU.pointers = listInsertAt (keyInsertIdx ks key + 1)
                        (db.block_size * db.meta.num_blocks_allocated) ps := by rw [hndU]
                    by_cases hcmp : lastE.key < key
                    · rw [if_pos hcmp] at hrun
                      obtain ⟨hload2, hwf2, hsub2⟩ := hreadyR v
                      obtain ⟨ihl, ihf, ihm1, ihm2⟩ := ih (v + 1)
                        (db.block_size * db.meta.num_blocks_allocated) key data db2 db'
                        prc hload2 hwf2
                        (by rw [hsub2]; exact List.nodup_singleton _) hrun
                      have hsoff' : db'.store.get off =
                          some (.internalData nodeU.keys nodeU.pointers) := by
                        rw [ihf off (lt_of_lt_of_le hofflt hlim2)
                          (by rw [hsub2]; simpa using Nat.ne_of_lt hofflt)]
                        exact hstU
                      refine ⟨?_, ?_, by rw [ihm1, hmeta2], ?_⟩
                      · have hidx : keyInsertIdx nodeU.keys key =
                            keyInsertIdx ks key + 1 := by
                          rw [hKS, keyInsertIdx_listInsertAt, if_pos hcmp]
                        have htgt : nodeU.pointers.get? (keyInsertIdx nodeU.keys key) =
                            some (db.block_size * db.meta.num_blocks_allocated) := by
                          rw [hidx, hPS]
                          exact get?_listInsertAt_self ps _ _ (by rw [harity]; omega)
                        rw [lookup_step_internal fuel off key db' nodeU.keys
                          nodeU.pointers _ hsoff' htgt]
                        exact ihl
                      · intro o holt honot
                        have honoto : o ≠ off :=
                          fun hc => honot (hc ▸ self_mem_subOffsets (v + 1) off db)
                        have honotco : o ≠ co := fun hc => honot (hc ▸ hchsub co hcoself)
                        have honotfr : o ≠ db.block_size * db.meta.num_blocks_allocated :=
                          Nat.ne_of_lt holt
                        rw [ihf o (lt_of_lt_of_le holt hlim2)
                          (by rw [hsub2]; simpa using honotfr)]
                        exact hframe2 o honoto honotco honotfr
                      · calc db.meta.num_blocks_allocated
                            ≤ db.meta.num_blocks_allocated + 1 := Nat.le_succ _
                          _ = db2.meta.num_blocks_allocated := by rw [hmeta2]
                          _ ≤ db'.meta.num_blocks_allocated := ihm2
                    · rw [if_neg hcmp] at hrun
                      obtain ⟨hload2, hwf2, hsub2⟩ := hreadyL v
                      obtain ⟨ihl, ihf, ihm1, ihm2⟩ := ih (v + 1) co key data db2 db' plc
                        hload2 hwf2 (by rw [hsub2]; exact List.nodup_singleton _) hrun
                      have hsoff' : db'.store.get off =
                          some (.internalData nodeU.keys nodeU.pointers) := by
                        rw [ihf off (lt_of_lt_of_le hofflt hlim2)
                          (by rw [hsub2]; simpa using hoffco)]
                        exact hstU
                      refine ⟨?_, ?_, by rw [ihm1, hmeta2], ?_⟩
                      · have hidx : keyInsertIdx nodeU.keys key = keyInsertIdx ks key := by
                          rw [hKS, keyInsertIdx_listInsertAt, if_neg hcmp]
                          omega
                        have htgt : nodeU.pointers.get? (keyInsertIdx nodeU.keys key) =
                            some co := by
                          rw [hidx, hPS, get?_listInsertAt_lt ps _ _ _
                            (by rw [harity]; omega) (by omega)]
                          exact hco
                        rw [lookup_step_internal fuel off key db' nodeU.keys
                          nodeU.pointers _ hsoff' htgt]
                        exact ihl
                      · intro o holt honot
                        have honoto : o ≠ off :=
                          fun hc => honot (hc ▸ self_mem_subOffsets (v + 1) off db)
                        have honotco : o ≠ co := fun hc => honot (hc ▸ hchsub co hcoself)
                        have honotfr : o ≠ db.block_size * db.meta.num_blocks_allocated :=
                          Nat.ne_of_lt holt
                        rw [ihf o (lt_of_lt_of_le holt hlim2)
                          (by rw [hsub2]; simpa using honotco)]
                        exact hframe2 o honoto honotco honotfr
                      · calc db.meta.num_blocks_allocated
                            ≤ db.meta.num_blocks_allocated + 1 := Nat.le_succ _
                          _ = db2.meta.num_blocks_allocated := by rw [hmeta2]
                          _ ≤ db'.meta.num_blocks_allocated := ihm2
              | internalData cks cps =>
                rw [page_load_internal co db cks cps hcs, bind_ok_er] at hrun
                by_cases hacc : (Page.internal { offset := co, keys := cks, pointers := cps }).can_accommodate data.length db.block_size = true
                · rw [if_pos hacc] at hrun
                  obtain ⟨ihl, ihf, ihm1, ihm2⟩ := ih (v + 1) co key data db db'
                    (.internal { offset := co, keys := cks, pointers := cps })
                    (by unfold Page.load; rw [hcs]) hwfc hndc hrun
                  refine ⟨?_, ?_, ihm1, ihm2⟩
                  · have hsoff' : db'.store.get off = some (.internalData ks ps) := by
                      rw [ihf off hofflt hoffnotco]
                      exact hs
                    rw [lookup_step_internal fuel off key db' ks ps co hsoff' hco]
                    exact ihl
                  · intro o holt honot
                    exact ihf o holt (fun hx => honot (hchsub o hx))
                · rw [if_neg hacc] at hrun
                  cases hsc : BTree.btree_split_child fuel
                      { offset := off, keys := ks, pointers := ps }
                      (keyInsertIdx ks key) db with
                  | error e =>
                    rw [hsc] at hrun
                    cases hrun
                  | ok r4 =>
                    obtain ⟨plc, r5⟩ := r4
                    obtain ⟨prc, r6⟩ := r5
                    obtain ⟨nodeU, db2⟩ := r6
                    rw [hsc, bind_ok_er] at hrun
                    simp only [] at hrun
                    obtain ⟨sep0, hndU, hstU, harU, hmeta2, hframe2,
                      ⟨hloadL, hwfL, hndL, hmemL⟩, ⟨hloadR, hwfR, hndR, hmemR⟩,
                      _, _, _, _⟩ :=
                      split_child_internal_ready fuel v
                        { offset := off, keys := ks, pointers := ps }
                        (keyInsertIdx ks key) db co cks cps plc prc nodeU db2
                        hco hcs hwfc hndc hofflt hoffco hoffnotco hsc
                    have hsepval : nodeU.keys.get? (keyInsertIdx ks key) = some sep0 := by
                      rw [hndU]
                      show (listInsertAt (keyInsertIdx ks key) sep0 ks).get?
                        (keyInsertIdx ks key) = _
                      exact get?_listInsertAt_self ks _ sep0 hi_le
                    rw [hsepval] at hrun
                    simp only [] at hrun
                    have hlim2 := limit_le_of_meta db2 db hmeta2
                    have hKS : nodeU.keys =
                        listInsertAt (keyInsertIdx ks key) sep0 ks := by rw [hndU]
                    have hPS : nodeU.pointers = listInsertAt (keyInsertIdx ks key + 1)
                        (db.block_size * db.meta.num_blocks_allocated) ps := by rw [hndU]
                    by_cases hcmp : sep0 < key
                    · rw [if_pos hcmp] at hrun
                      obtain ⟨ihl, ihf, ihm1, ihm2⟩ := ih (v + 1)
                        (db.block_size * db.meta.num_blocks_allocated) key data db2 db'
                        prc hloadR hwfR hndR hrun
                      have hoffnotR : off ∉ subOffsets (v + 1)
                          (db.block_size * db.meta.num_blocks_allocated) db2 := by
                        intro hx
                        rcases hmemR off hx with hc | hc
                        · exact Nat.ne_of_lt hofflt hc
                        · exact hoffnotco hc
                      have hsoff' : db'.store.get off =
                          some (.internalData nodeU.keys nodeU.pointers) := by
                        rw [ihf off (lt_of_lt_of_le hofflt hlim2) hoffnotR]
                        exact hstU
                      refine ⟨?_, ?_, by rw [ihm1, hmeta2], ?_⟩
                      · have hidx : keyInsertIdx nodeU.keys key =
                            keyInsertIdx ks key + 1 := by
                          rw [hKS, keyInsertIdx_listInsertAt, if_pos hcmp]
                        have htgt : nodeU.pointers.get? (keyInsertIdx nodeU.keys key) =
                            some (db.block_size * db.meta.num_blocks_allocated) := by
                          rw [hidx, hPS]
                          exact get?_listInsertAt_self ps _ _ (by rw [harity]; omega)
                        rw [lookup_step_internal fuel off key db' nodeU.keys
                          nodeU.pointers _ hsoff' htgt]
                        exact ihl
                      · intro o holt honot
                        have honoto : o ≠ off :=
                          fun hc => honot (hc ▸ self_mem_subOffsets (v + 1) off db)
                        have honotco : o ∉ subOffsets (v + 1) co db :=
                          fun hx => honot (hchsub o hx)
                        have honotfr : o ≠ db.block_size * db.meta.num_blocks_allocated :=
                          Nat.ne_of_lt holt
                        have honotR : o ∉ subOffsets (v + 1)
                            (db.block_size * db.meta.num_blocks_allocated) db2 := by
                          intro hx
                          rcases hmemR o hx with hc | hc
                          · exact honotfr hc
                          · exact honotco hc
                        rw [ihf o (lt_of_lt_of_le holt hlim2) honotR]
                        exact hframe2 o honoto (fun hc => honotco (hc ▸ hcoself)) honotfr
                      · calc db.meta.num_blocks_allocated
                            ≤ db.meta.num_blocks_allocated + 1 := Nat.le_succ _
                          _ = db2.meta.num_blocks_allocated := by rw [hmeta2]
                          _ ≤ db'.meta.num_blocks_allocated := ihm2
                    · rw [if_neg hcmp] at hrun
                      obtain ⟨ihl, ihf, ihm1, ihm2⟩ := ih (v + 1) co key data db2 db' plc
                        hloadL hwfL hndL hrun
                      have hoffnotL : off ∉ subOffsets (v + 1) co db2 := by
                        intro hx
                        exact hoffnotco (hmemL off hx)
                      have hsoff' : db'.store.get off =
                          some (.internalData nodeU.keys nodeU.pointers) := by
                        rw [ihf off (lt_of_lt_of_le hofflt hlim2) hoffnotL]
                        exact hstU
                      refine ⟨?_, ?_, by rw [ihm1, hmeta2], ?_⟩
                      · have hidx : keyInsertIdx nodeU.keys key = keyInsertIdx ks key := by
                          rw [hKS, keyInsertIdx_listInsertAt, if_neg hcmp]
                          omega
                        have htgt : nodeU.pointers.get? (keyInsertIdx nodeU.keys key) =
                            some co := by
                          rw [hidx, hPS, get?_listInsertAt_lt ps _ _ _
                            (by rw [harity]; omega) (by omega)]
                          exact hco
                        rw [lookup_step_internal fuel off key db' nodeU.keys
                          nodeU.pointers _ hsoff' htgt]
                        exact ihl
                      · intro o holt honot
                        have honoto : o ≠ off :=
                          fun hc => honot (hc ▸ self_mem_subOffsets (v + 1) off db)
                        have honotco : o ∉ subOffsets (v + 1) co db :=
                          fun hx => honot (hchsub o hx)
                        have honotfr : o ≠ db.block_size * db.meta.num_blocks_allocated :=
                          Nat.ne_of_lt holt
                        have honotL : o ∉ subOffsets (v + 1) co db2 :=
                          fun hx => honotco (hmemL o hx)
                        rw [ihf o (lt_of_lt_of_le holt hlim2) honotL]
                        exact hframe2 o honoto (fun hc => honotco (hc ▸ hcoself)) honotfr
                      · calc db.meta.num_blocks_allocated
                            ≤ db.meta.num_blocks_allocated + 1 := Nat.le_succ _
                          _ = db2.meta.num_blocks_allocated := by rw [hmeta2]
                          _ ≤ db'.meta.num_blocks_allocated := ihm2

theorem internal_init_spec (db : DB) (ptr : Nat) (pg : InternalPage) (db1 : DB)
    (hrun : InternalPage.init db ptr = .ok (pg, db1)) :
    pg = { offset := db.block_size * db.meta.num_blocks_allocated, keys := [],
           pointers := [ptr] } ∧
    db1.store.get (db.block_size * db.meta.num_blocks_allocated) =
      some (.internalData [] [ptr]) ∧
    (∀ o, o ≠ db.block_size * db.meta.num_blocks_allocated →
      db1.store.get o = db.store.get o) ∧
    db1.meta = { db.meta with
      num_blocks_allocated := db.meta.num_blocks_allocated + 1 } := by
  have halloc : db.allocate_block = (db.block_size * db.meta.num_blocks_allocated,
      { db with meta := { db.meta with
          num_blocks_allocated := db.meta.num_blocks_allocated + 1 } }) := rfl
  unfold InternalPage.init at hrun
  rw [halloc] at hrun
  simp only [] at hrun
  cases hp : InternalPage.persist
      { offset := db.block_size * db.meta.num_blocks_allocated, keys := [], pointers := [ptr] }
      { db with meta := { db.meta with num_blocks_allocated := db.meta.num_blocks_allocated + 1 } } with
  | error e =>
    rw [hp] at hrun
    cases hrun
  | ok d1 =>
    rw [hp, bind_ok_er] at hrun
    replace hrun : Except.ok (ε := EngineErr)
        (({ offset := db.block_size * db.meta.num_blocks_allocated, keys := [], pointers := [ptr] } : InternalPage), d1) =
        .ok (pg, db1) := hrun
    injection hrun with h2
    have hpg : pg = { offset := db.block_size * db.meta.num_blocks_allocated, keys := [], pointers := [ptr] } := (congrArg Prod.fst h2).symm
    have hdb1 : db1 = d1 := (congrArg Prod.snd h2).symm
    obtain ⟨hd1, _⟩ := internal_persist_spec _ _ d1 hp
    refine ⟨hpg, ?_, ?_, ?_⟩
    · rw [hdb1, hd1]
      show ((db.store.put (db.block_size * db.meta.num_blocks_allocated) _).get
        (db.block_size * db.meta.num_blocks_allocated)) = _
      rw [Store.get_put_self]
    · intro o ho
      rw [hdb1, hd1]
      show ((db.store.put (db.block_size * db.meta.num_blocks_allocated) _).get o) = _
      rw [Store.get_put_ne _ _ _ _ ho]
    · rw [hdb1, hd1]

/-- `BTree::insert` on a well-formed tree: the inserted key reads back via
`lookup` from the root handle `insert` returns, whether or not the root was
split. -/
theorem insert_found (fuel fw : Nat) (t t' : BTree) (key : Nat) (data : List Nat)
    (db db' : DB)
    (hwf : WFb fw t.root db = true)
    (hnd : (subOffsets fw t.root db).Nodup)
    (hrun : BTree.insert fuel t key data db = .ok (t', db')) :
    BTree.lookup fuel (BTree.from_offset t'.root) key db' = .ok (some data) := by
  cases fw with
  | zero => simp [WFb] at hwf
  | succ w =>
  unfold BTree.insert at hrun
  cases hs : db.store.get t.root with
  | none =>
    unfold WFb at hwf
    rw [hs] at hwf
    simp at hwf
  | some pd =>
    cases pd with
    | leafData es blob =>
      rw [page_load_leaf t.root db es blob hs, bind_ok_er] at hrun
      obtain ⟨hrootlt, hsort⟩ := WFb_succ_leaf w t.root db es blob hwf hs
      have hfr1 : t.root ≠ db.block_size * db.meta.num_blocks_allocated :=
        Nat.ne_of_lt hrootlt
      by_cases hacc : (Page.leaf { offset := t.root, keys := es }).can_accommodate
          data.length db.block_size = true
      · rw [if_pos hacc] at hrun
        cases hin : BTree.btree_insert_nonfull fuel (.leaf { offset := t.root, keys := es })
            key data db with
        | error e =>
          rw [hin] at hrun
          cases hrun
        | ok dbI =>
          rw [hin, bind_ok_er] at hrun
          replace hrun : Except.ok (ε := EngineErr) (t, dbI) = .ok (t', db') := hrun
          injection hrun with h2
          have ht' : t' = t := (congrArg Prod.fst h2).symm
          have hdbI : db' = dbI := (congrArg Prod.snd h2).symm
          obtain ⟨ihl, _, _, _⟩ := insert_nonfull_found fuel (w + 1) t.root key data db dbI
            (.leaf { offset := t.root, keys := es })
            (by unfold Page.load; rw [hs]) hwf hnd hin
          rw [ht', hdbI]
          exact ihl
      · rw [if_neg hacc] at hrun
        cases hini : InternalPage.init db t.root with
        | error e =>
          rw [hini] at hrun
          cases hrun
        | ok r1 =>
          obtain ⟨pg, db1⟩ := r1
          rw [hini, bind_ok_er] at hrun
          simp only [] at hrun
          obtain ⟨hpg, hst1, hframe1, hmeta1⟩ := internal_init_spec db t.root pg db1 hini
          have hpgoff : pg.offset = db.block_size * db.meta.num_blocks_allocated := by
            rw [hpg]
          have hld1 : db1.store.get t.root = some (.leafData es blob) := by
            rw [hframe1 t.root hfr1]
            exact hs
          have hlim1 := limit_le_of_meta db1 db hmeta1
          have hfresh1 := fresh_lt_of_meta db1 db hmeta1
          cases hsc : BTree.btree_split_child fuel pg 0 db1 with
          | error e =>
            rw [hsc] at hrun
            cases hrun
          | ok r4 =>
            obtain ⟨plc, r5⟩ := r4
            obtain ⟨prc, r6⟩ := r5
            obtain ⟨nodeU, db2⟩ := r6
            rw [hsc, bind_ok_er] at hrun
            simp only [] at hrun
            have hptr0 : pg.pointers.get? 0 = some t.root := by rw [hpg]; rfl
            obtain ⟨lastE, hndU, hstU, harU, hmeta2, hframe2, hreadyL, hreadyR⟩ :=
              split_child_leaf_ready fuel pg 0 db1 t.root es blob plc prc nodeU db2
                hptr0 hld1 hsort (lt_of_lt_of_le hrootlt hlim1)
                (by rw [hpgoff]; exact hfresh1)
                (by rw [hpgoff]; exact fun hc => hfr1 hc.symm) hsc
            cases hins : BTree.btree_insert_nonfull fuel (.internal nodeU) key data db2 with
            | error e =>
              rw [hins] at hrun
              cases hrun
            | ok dbI =>
              rw [hins, bind_ok_er] at hrun
              replace hrun : Except.ok (ε := EngineErr) (({ root := pg.offset } : BTree), dbI) =
                .ok (t', db') := hrun
              injection hrun with h2
              have ht' : t' = { root := pg.offset } := (congrArg Prod.fst h2).symm
              have hdbI : db' = dbI := (congrArg Prod.snd h2).symm
              obtain ⟨hloadL, hwfL, hsubL⟩ := hreadyL 0
              obtain ⟨hloadR, hwfR, hsubR⟩ := hreadyR 0
              have hNU : nodeU = { offset := db.block_size * db.meta.num_blocks_allocated, keys := [lastE.key], pointers := [t.root, db1.block_size * db1.meta.num_blocks_allocated] } := by
                rw [hndU, hpg]
                rfl
              have hstU3 : db2.store.get (db.block_size * db.meta.num_blocks_allocated) =
                  some (.internalData [lastE.key]
                    [t.root, db1.block_size * db1.meta.num_blocks_allocated]) := by
                have h7 := hstU
                rw [hNU, hpg] at h7
                exact h7
              have hloadU : Page.load (db.block_size * db.meta.num_blocks_allocated) db2 =
                  .ok (.internal { offset := db.block_size * db.meta.num_blocks_allocated, keys := [lastE.key], pointers := [t.root, db1.block_size * db1.meta.num_blocks_allocated] }) := by
                unfold Page.load
                rw [hstU3]
              rw [hNU] at hins
              have hwfU : WFb 2 (db.block_size * db.meta.num_blocks_allocated) db2 = true := by
                unfold WFb
                rw [hstU3]
                simp only [Bool.and_eq_true, decide_eq_true_eq, List.all_eq_true]
                refine ⟨lt_of_lt_of_le hfresh1 (limit_le_of_meta db2 db1 hmeta2), rfl, ?_⟩
                intro c hc
                rcases List.mem_cons.mp hc with rfl | hc2
                · exact hwfL
                · have hc3 : c = db1.block_size * db1.meta.num_blocks_allocated := by
                    simpa using hc2
                  rw [hc3]
                  exact hwfR
              have hndU2 : (subOffsets 2
                  (db.block_size * db.meta.num_blocks_allocated) db2).Nodup := by
                rw [subOffsets_of_internal 1 _ db2 _ _ hstU3]
                simp only [List.map_cons, List.map_nil, List.flatten_cons, List.flatten_nil,
                  List.append_nil, hsubL, hsubR]
                show ([db.block_size * db.meta.num_blocks_allocated, t.root,
                  db1.block_size * db1.meta.num_blocks_allocated] : List Nat).Nodup
                simp [List.nodup_cons]
                omega
              obtain ⟨ihl, _, _, _⟩ := insert_nonfull_found fuel 2
                (db.block_size * db.meta.num_blocks_allocated) key data db2 dbI
                (.internal { offset := db.block_size * db.meta.num_blocks_allocated, keys := [lastE.key], pointers := [t.root, db1.block_size * db1.meta.num_blocks_allocated] })
                hloadU hwfU hndU2 hins
              rw [ht', hdbI]
              have hroot : ({ root := pg.offset } : BTree).root =
                  db.block_size * db.meta.num_blocks_allocated := by
                rw [hpg]
              rw [hroot]
              exact ihl
    | internalData rks rps =>
      rw [page_load_internal t.root db rks rps hs, bind_ok_er] at hrun
      obtain ⟨hrootlt, hrar, hrchw⟩ := WFb_succ_internal w t.root db rks rps hwf hs
      obtain ⟨hrnotin, hrchnd⟩ := nodup_subOffsets_internal w t.root db rks rps hs hnd
      have hfr1 : t.root ≠ db.block_size * db.meta.num_blocks_allocated :=
        Nat.ne_of_lt hrootlt
      by_cases hacc : (Page.internal { offset := t.root, keys := rks, pointers := rps }).can_accommodate data.length db.block_size = true
      · rw [if_pos hacc] at hrun
        cases hin : BTree.btree_insert_nonfull fuel
            (.internal { offset := t.root, keys := rks, pointers := rps }) key data db with
        | error e =>
          rw [hin] at hrun
          cases hrun
        | ok dbI =>
          rw [hin, bind_ok_er] at hrun
          replace hrun : Except.ok (ε := EngineErr) (t, dbI) = .ok (t', db') := hrun
          injection hrun with h2
          have ht' : t' = t := (congrArg Prod.fst h2).symm
          have hdbI : db' = dbI := (congrArg Prod.snd h2).symm
          obtain ⟨ihl, _, _, _⟩ := insert_nonfull_found fuel (w + 1) t.root key data db dbI
            (.internal { offset := t.root, keys := rks, pointers := rps })
            (by unfold Page.load; rw [hs]) hwf hnd hin
          rw [ht', hdbI]
          exact ihl
      · rw [if_neg hacc] at hrun
        cases hini : InternalPage.init db t.root with
        | error e =>
          rw [hini] at hrun
          cases hrun
        | ok r1 =>
          obtain ⟨pg, db1⟩ := r1
          rw [hini, bind_ok_er] at hrun
          simp only [] at hrun
          obtain ⟨hpg, hst1, hframe1, hmeta1⟩ := internal_init_spec db t.root pg db1 hini
          have hpgoff : pg.offset = db.block_size * db.meta.num_blocks_allocated := by
            rw [hpg]
          have hld1 : db1.store.get t.root = some (.internalData rks rps) := by
            rw [hframe1 t.root hfr1]
            exact hs
          have hlim1 := limit_le_of_meta db1 db hmeta1
          have hfresh1 := fresh_lt_of_meta db1 db hmeta1
          -- the whole old tree is untouched by the header-page allocation
          have hfix1 : ∀ x ∈ subOffsets (w + 1) t.root db,
              db1.store.get x = db.store.get x := fun x hx =>
            hframe1 x (Nat.ne_of_lt (subOffsets_lt_of_WFb (w + 1) t.root db hwf x hx))
          have hsub1 : subOffsets (w + 1) t.root db1 = subOffsets (w + 1) t.root db :=
            subOffsets_congr (w + 1) t.root db db1 hfix1
          have hwf1 : WFb (w + 1) t.root db1 = true :=
            WFb_congr (w + 1) t.root db db1 hfix1 hlim1 hwf
          have hnd1 : (subOffsets (w + 1) t.root db1).Nodup := by
            rw [hsub1]
            exact hnd
          have hnotin1 : pg.offset ∉ subOffsets (w + 1) t.root db1 := by
            rw [hsub1, hpgoff]
            intro hx
            exact absurd (subOffsets_lt_of_WFb (w + 1) t.root db hwf _ hx) (by omega)
          cases hsc : BTree.btree_split_child fuel pg 0 db1 with
          | error e =>
            rw [hsc] at hrun
            cases hrun
          | ok r4 =>
            obtain ⟨plc, r5⟩ := r4
            obtain ⟨prc, r6⟩ := r5
            obtain ⟨nodeU, db2⟩ := r6
            rw [hsc, bind_ok_er] at hrun
            simp only [] at hrun
            have hptr0 : pg.pointers.get? 0 = some t.root := by rw [hpg]; rfl
            obtain ⟨sep0, hndU, hstU, harU, hmeta2, hframe2,
              ⟨hloadL, hwfL, hndL, hmemL⟩, ⟨hloadR, hwfR, hndR, hmemR⟩,
              hsubLeq, hsubReq, hflat1, hconot1⟩ :=
              split_child_internal_ready fuel w pg 0 db1 t.root rks rps plc prc nodeU db2
                hptr0 hld1 hwf1 hnd1
                (by rw [hpgoff]; exact hfresh1)
                (by rw [hpgoff]; exact fun hc => hfr1 hc.symm)
                hnotin1 hsc
            cases hins : BTree.btree_insert_nonfull fuel (.internal nodeU) key data db2 with
            | error e =>
              rw [hins] at hrun
              cases hrun
            | ok dbI =>
              rw [hins, bind_ok_er] at hrun
              replace hrun : Except.ok (ε := EngineErr) (({ root := pg.offset } : BTree), dbI) =
                .ok (t', db') := hrun
              injection hrun with h2
              have ht' : t' = { root := pg.offset } := (congrArg Prod.fst h2).symm
              have hdbI : db' = dbI := (congrArg Prod.snd h2).symm
              have hNU : nodeU = { offset := db.block_size * db.meta.num_blocks_allocated, keys := [sep0], pointers := [t.root, db1.block_size * db1.meta.num_blocks_allocated] } := by
                rw [hndU, hpg]
                rfl
              have hstU3 : db2.store.get (db.block_size * db.meta.num_blocks_allocated) =
                  some (.internalData [sep0]
                    [t.root, db1.block_size * db1.meta.num_blocks_allocated]) := by
                have h7 := hstU
                rw [hNU, hpg] at h7
                exact h7
              have hloadU : Page.load (db.block_size * db.meta.num_blocks_allocated) db2 =
                  .ok (.internal { offset := db.block_size * db.meta.num_blocks_allocated, keys := [sep0], pointers := [t.root, db1.block_size * db1.meta.num_blocks_allocated] }) := by
                unfold Page.load
                rw [hstU3]
              rw [hNU] at hins
              have hwfU : WFb (w + 1 + 1)
                  (db.block_size * db.meta.num_blocks_allocated) db2 = true := by
                unfold WFb
                rw [hstU3]
                simp only [Bool.and_eq_true, decide_eq_true_eq, List.all_eq_true]
                refine ⟨lt_of_lt_of_le hfresh1 (limit_le_of_meta db2 db1 hmeta2), rfl, ?_⟩
                intro c hc
                rcases List.mem_cons.mp hc with rfl | hc2
                · exact hwfL
                · have hc3 : c = db1.block_size * db1.meta.num_blocks_allocated := by
                    simpa using hc2
                  rw [hc3]
                  exact hwfR
              -- transport the child subtrees of the old root back to `db`
              have hchfix : ∀ c ∈ rps, ∀ x ∈ subOffsets w c db,
                  db1.store.get x = db.store.get x := by
                intro c hc x hx
                exact hfix1 x (child_subOffsets_subset w t.root db rks rps c hs hc x hx)
              have hchsubeq : ∀ c ∈ rps, subOffsets w c db1 = subOffsets w c db := by
                intro c hc
                exact subOffsets_congr w c db db1 (hchfix c hc)
              have hmapFull : rps.map (fun o => subOffsets w o db1) =
                  rps.map (fun o => subOffsets w o db) := by
                apply List.map_congr_left
                intro c hc
                exact hchsubeq c hc
              have hmapTake : (rps.take (rks.length / 2)).map (fun o => subOffsets w o db1) =
                  (rps.take (rks.length / 2)).map (fun o => subOffsets w o db) := by
                apply List.map_congr_left
                intro c hc
                exact hchsubeq c (List.take_subset _ _ hc)
              have hmapDrop : (rps.drop (rks.length / 2)).map (fun o => subOffsets w o db1) =
                  (rps.drop (rks.length / 2)).map (fun o => subOffsets w o db) := by
                apply List.map_congr_left
                intro c hc
                exact hchsubeq c (List.drop_subset _ _ hc)
              have hflatdb : ((rps.map fun o => subOffsets w o db).flatten).Nodup := by
                rw [← hmapFull]
                exact hflat1
              have hcondb : t.root ∉ ((rps.map fun o => subOffsets w o db).flatten) := by
                rw [← hmapFull]
                exact hconot1
              have hboundAB : ∀ x ∈ ((rps.map fun o => subOffsets w o db).flatten),
                  x < db.block_size * db.meta.num_blocks_allocated := by
                intro x hx
                obtain ⟨l, hl, hxl⟩ := List.mem_flatten.mp hx
                obtain ⟨c, hc, rfl⟩ := List.mem_map.mp hl
                exact subOffsets_lt_of_WFb w c db (hrchw c hc) x hxl
              have hABsplit := flatten_map_take_drop (fun o => subOffsets w o db) rps
                (rks.length / 2)
              have hndU2 : (subOffsets (w + 1 + 1)
                  (db.block_size * db.meta.num_blocks_allocated) db2).Nodup := by
                rw [subOffsets_of_internal (w + 1) _ db2 _ _ hstU3]
                simp only [List.map_cons, List.map_nil, List.flatten_cons, List.flatten_nil,
                  List.append_nil]
                rw [hsubLeq, hsubReq, hmapTake, hmapDrop]
                rw [List.nodup_cons]
                constructor
                · intro hx
                  rcases List.mem_append.mp hx with h | h
                  · rcases List.mem_cons.mp h with h | h
                    · omega
                    · have := hboundAB _ (by rw [hABsplit]; exact List.mem_append.mpr (Or.inl h))
                      omega
                  · rcases List.mem_cons.mp h with h | h
                    · omega
                    · have := hboundAB _ (by rw [hABsplit]; exact List.mem_append.mpr (Or.inr h))
                      omega
                · rw [List.nodup_append]
                  have hsplitnd := hABsplit ▸ hflatdb
                  rw [List.nodup_append] at hsplitnd
                  obtain ⟨hA, hB, hABdisj⟩ := hsplitnd
                  refine ⟨?_, ?_, ?_⟩
                  · rw [List.nodup_cons]
                    refine ⟨?_, hA⟩
                    intro hx
                    exact hcondb (by rw [hABsplit]; exact List.mem_append.mpr (Or.inl hx))
                  · rw [List.nodup_cons]
                    refine ⟨?_, hB⟩
                    intro hx
                    have := hboundAB _ (by rw [hABsplit]; exact List.mem_append.mpr (Or.inr hx))
                    omega
                  · intro a ha hb
                    rcases List.mem_cons.mp ha with rfl | ha2
                    · rcases List.mem_cons.mp hb with hb2 | hb2
                      · omega
                      · exact hcondb
                          (by rw [hABsplit]; exact List.mem_append.mpr (Or.inr hb2))
                    · rcases List.mem_cons.mp hb with hb2 | hb2
                      · have := hboundAB _
                          (by rw [hABsplit]; exact List.mem_append.mpr (Or.inl ha2))
                        omega
                      · exact hABdisj ha2 hb2
              obtain ⟨ihl, _, _, _⟩ := insert_nonfull_found fuel (w + 1 + 1)
                (db.block_size * db.meta.num_blocks_allocated) key data db2 dbI
                (.internal { offset := db.block_size * db.meta.num_blocks_allocated, keys := [sep0], pointers := [t.root, db1.block_size * db1.meta.num_blocks_allocated] })
                hloadU hwfU hndU2 hins
              rw [ht', hdbI]
              have hroot : ({ root := pg.offset } : BTree).root =
                  db.block_size * db.meta.num_blocks_allocated := by
                rw [hpg]
              rw [hroot]
              exact ihl

theorem sorted_getLast?_max : ∀ (l : List Nat) (a : Nat), l.Sorted (· < ·) →
    l.getLast? = some a → ∀ x ∈ l, x ≤ a := by
  intro l
  induction l with
  | nil =>
    intro a _ hl
    cases hl
  | cons b rest ih =>
    intro a hs hl x hx
    cases rest with
    | nil =>
      have hb : b = a := by simpa [List.getLast?] using hl
      have hxb : x = b := by simpa using hx
      omega
    | cons c rest2 =>
      rw [List.getLast?_cons_cons] at hl
      have hrec := ih a (List.Sorted.of_cons hs) hl
      rcases List.mem_cons.mp hx with rfl | hx2
      · have hbc : x < c := (List.sorted_cons.mp hs).1 c (by simp)
        have hca : c ≤ a := hrec c (by simp)
        omega
      · exact hrec x hx2

theorem mem_of_getLastSome {α : Type} : ∀ (l : List α) (a : α),
    l.getLast? = some a → a ∈ l := by
  intro l
  induction l with
  | nil =>
    intro a h
    cases h
  | cons b rest ih =>
    intro a h
    cases rest with
    | nil =>
      have hb : b = a := by simpa [List.getLast?] using h
      simp [hb]
    | cons c r2 =>
      rw [List.getLast?_cons_cons] at h
      exact List.mem_cons.mpr (Or.inr (ih a h))

theorem keyInsertIdx_of_get? : ∀ (ks : List Nat) (i key : Nat),
    ks.Sorted (· < ·) → ks.get? i = some key → keyInsertIdx ks key = i := by
  intro ks
  induction ks with
  | nil =>
    intro i key _ h
    cases i <;> cases h
  | cons b rest ih =>
    intro i key hs h
    cases i with
    | zero =>
      have hb : b = key := by simpa using h
      unfold keyInsertIdx
      rw [List.countP_cons]
      have h0 : rest.countP (fun k => decide (k < key)) = 0 := by
        rw [List.countP_eq_zero]
        intro x hx
        have := (List.sorted_cons.mp hs).1 x hx
        simp
        omega
      simp [h0, hb]
    | succ i =>
      have hmem : key ∈ rest := List.get?_mem (by simpa using h)
      have hbk : b < key := (List.sorted_cons.mp hs).1 key hmem
      have hrec := ih i key (List.Sorted.of_cons hs) (by simpa using h)
      unfold keyInsertIdx at hrec ⊢
      rw [List.countP_cons]
      simp [hbk]
      omega

theorem getLast?_entryKeys (l : List LeafPageEntry) :
    (entryKeys l).getLast? = l.getLast?.map (·.key) := by
  simp [entryKeys, List.getLast?_map]

/-- C4: every split performed by `btree_split_child` on a leaf child installs
as the parent's separator the largest key remaining in the (truncated) left
child; `btree_search` at an internal node whose key list contains the sought
key at index `i` descends to `pointers[i]`, the left child; and with this
convention, for every key inserted through `BTree::insert` into a well-formed
tree and then looked up through the returned root handle, `lookup` finds
exactly the inserted bytes — even when the key equals a separator. -/
theorem c4_separator_and_descent_convention :
    (∀ (fuel : Nat) (node : InternalPage) (i : Nat) (db : DB) (co : Nat)
      (es : List LeafPageEntry) (blob : Blob) (pl pr : Page) (node' : InternalPage)
      (db2 : DB),
      node.pointers.get? i = some co →
      db.store.get co = some (.leafData es blob) →
      leafSorted { offset := co, keys := es } →
      co ≠ db.block_size * db.meta.num_blocks_allocated →
      node.offset ≠ co →
      node.offset ≠ db.block_size * db.meta.num_blocks_allocated →
      node.pointers.length = node.keys.length + 1 →
      BTree.btree_split_child fuel node i db = .ok (pl, pr, node', db2) →
      ∃ lastE : LeafPageEntry,
        node'.keys.get? i = some lastE.key ∧
        (∃ blob2, db2.store.get co =
          some (.leafData (es.take (es.length / 2)) blob2)) ∧
        lastE ∈ es.take (es.length / 2) ∧
        (∀ e ∈ es.take (es.length / 2), e.key ≤ lastE.key)) ∧
    (∀ (fuel : Nat) (p : InternalPage) (i key : Nat) (db : DB),
      p.keys.Sorted (· < ·) →
      p.keys.get? i = some key →
      keyInsertIdx p.keys key = i ∧
      BTree.btree_search (fuel + 1) (.internal p) key db =
        (match p.pointers.get? i with
          | none => (.error .panicked : ER (Option (List Nat)))
          | some o => do
            let c ← Page.load o db
            BTree.btree_search fuel c key db)) ∧
    (∀ (fuel fw : Nat) (t t' : BTree) (key : Nat) (data : List Nat) (db db' : DB),
      WFb fw t.root db = true →
      (subOffsets fw t.root db).Nodup →
      BTree.insert fuel t key data db = .ok (t', db') →
      BTree.lookup fuel (BTree.from_offset t'.root) key db' = .ok (some data)) := by
  refine ⟨?parta, ?partb, ?partc⟩
  case parta =>
    intro fuel node i db co es blob pl pr node' db2 hptr hld hsort hcofresh hnodeco
      hnodefresh harity hrun
    obtain ⟨lastE, rkeys, hgl, hpl, hpr, hrk, hndU, hstU, hstL, hstR, hframe, hmeta, harU⟩ :=
      split_child_leaf_spec fuel node i db co es blob pl pr node' db2
        hptr hld hsort hcofresh hnodeco hnodefresh hrun
    have hi : i < node.pointers.length := by
      by_contra hcon
      push_neg at hcon
      rw [List.get?_eq_none.mpr hcon] at hptr
      cases hptr
    have hile : i ≤ node.keys.length := by omega
    refine ⟨lastE, ?_, hstL, mem_of_getLastSome _ lastE hgl, ?_⟩
    · rw [hndU]
      show (listInsertAt i lastE.key node.keys).get? i = _
      exact get?_listInsertAt_self node.keys i lastE.key hile
    · intro e he
      have hglk : (entryKeys (es.take (es.length / 2))).getLast? = some lastE.key := by
        rw [getLast?_entryKeys, hgl]
        rfl
      exact sorted_getLast?_max (entryKeys (es.take (es.length / 2))) lastE.key
        (leafSorted_take co co _ es hsort) hglk e.key
        (List.mem_map_of_mem _ he)
  case partb =>
    intro fuel p i key db hsort hget
    have hidx := keyInsertIdx_of_get? p.keys i key hsort hget
    refine ⟨hidx, ?_⟩
    show (match p.pointers.get? (keyInsertIdx p.keys key) with
      | none => (.error .panicked : ER (Option (List Nat)))
      | some o => do
        let c ← Page.load o db
        BTree.btree_search fuel c key db) = _
    rw [hidx]
  case partc =>
    intro fuel fw t t' key data db db' hwf hnd hrun
    exact insert_found fuel fw t t' key data db db' hwf hnd hrun

/-- Does `k` lie in the half-open interval `(lo, hi]` (an absent bound is
unconstrained)?  This is the bounds discipline of the split convention:
separators equal the largest key of the left subtree, so subtree key ranges
are open below and closed above. -/
def boundsOK (lo hi : Option Nat) (k : Nat) : Bool :=
  (match lo with
    | none => true
    | some l => decide (l < k)) &&
  (match hi with
    | none => true
    | some h => decide (k ≤ h))

/-- A separator list that is strictly ascending and lies in `(lo, hi]`. -/
def chainOK : Option Nat → List Nat → Option Nat → Bool
  | _, [], _ => true
  | lo, k :: ks, hi => boundsOK lo hi k && chainOK (some k) ks hi

/-- The lower bound of the `j`-th child of an internal page with separator
list `ks`, under the page's own lower bound `lo`. -/
def lowOf (lo : Option Nat) (ks : List Nat) : Nat → Option Nat
  | 0 => lo
  | j + 1 => ks.get? j

/-- The upper bound of the `j`-th child of an internal page with separator
list `ks`, under the page's own upper bound `hi`. -/
def highOf (hi : Option Nat) (ks : List Nat) (j : Nat) : Option Nat :=
  match ks.get? j with
  | some k => some k
  | none => hi

/-- Key-order well-formedness of the subtree at `off` within `(lo, hi]`:
every leaf key lies in the interval, internal separator lists are strictly
ascending within it, and child `j` is order-well-formed between separators
`j - 1` and `j`. -/
def WFo : Nat → Nat → Option Nat → Option Nat → DB → Bool
  | 0, _, _, _, _ => false
  | fuel + 1, off, lo, hi, db =>
    match db.store.get off with
    | some (.leafData es _) => es.all fun e => boundsOK lo hi e.key
    | some (.internalData ks ps) =>
      chainOK lo ks hi &&
      (List.range ps.length).all fun j =>
        WFo fuel (ps.getD j 0) (lowOf lo ks j) (highOf hi ks j) db
    | none => false

/-- Every leaf of the subtree holds at least one slot. -/
def allLeavesNE : Nat → Nat → DB → Bool
  | 0, _, _ => false
  | fuel + 1, off, db =>
    match db.store.get off with
    | some (.leafData es _) => decide (es ≠ [])
    | some (.internalData _ ps) => ps.all fun o => allLeavesNE fuel o db
    | none => false

/-- The in-order sequence of leaf pages of the subtree, read off the store
directly. -/
def leavesPure : Nat → Nat → DB → List LeafPage
  | 0, _, _ => []
  | fuel + 1, off, db =>
    match db.store.get off with
    | some (.leafData es _) => [{ offset := off, keys := es }]
    | some (.internalData _ ps) => (ps.map fun o => leavesPure fuel o db).flatten
    | none => []

/-- The keys stored in the subtree, in leaf order. -/
def treeKeys : Nat → Nat → DB → List Nat
  | 0, _, _ => []
  | fuel + 1, off, db =>
    match db.store.get off with
    | some (.leafData es _) => entryKeys es
    | some (.internalData _ ps) => (ps.map fun o => treeKeys fuel o db).flatten
    | none => []

theorem WFo_of_leaf (fuel off : Nat) (lo hi : Option Nat) (db : DB)
    (es : List LeafPageEntry) (blob : Blob)
    (hs : db.store.get off = some (.leafData es blob)) :
    WFo (fuel + 1) off lo hi db = es.all fun e => boundsOK lo hi e.key := by
  show (match db.store.get off with
    | some (.leafData es _) => es.all fun e => boundsOK lo hi e.key
    | some (.internalData ks ps) =>
      chainOK lo ks hi &&
      (List.range ps.length).all fun j =>
        WFo fuel (ps.getD j 0) (lowOf lo ks j) (highOf hi ks j) db
    | none => false) = _
  rw [hs]

theorem WFo_of_internal (fuel off : Nat) (lo hi : Option Nat) (db : DB)
    (ks ps : List Nat)
    (hs : db.store.get off = some (.internalData ks ps)) :
    WFo (fuel + 1) off lo hi db =
      (chainOK lo ks hi &&
        (List.range ps.length).all fun j =>
          WFo fuel (ps.getD j 0) (lowOf lo ks j) (highOf hi ks j) db) := by
  show (match db.store.get off with
    | some (.leafData es _) => es.all fun e => boundsOK lo hi e.key
    | some (.internalData ks ps) =>
      chainOK lo ks hi &&
      (List.range ps.length).all fun j =>
        WFo fuel (ps.getD j 0) (lowOf lo ks j) (highOf hi ks j) db
    | none => false) = _
  rw [hs]

theorem WFo_succ_internal (fuel off : Nat) (lo hi : Option Nat) (db : DB)
    (ks ps : List Nat)
    (h : WFo (fuel + 1) off lo hi db = true)
    (hs : db.store.get off = some (.internalData ks ps)) :
    chainOK lo ks hi = true ∧
    ∀ j, j < ps.length →
      WFo fuel (ps.getD j 0) (lowOf lo ks j) (highOf hi ks j) db = true := by
  rw [WFo_of_internal fuel off lo hi db ks ps hs] at h
  simp only [Bool.and_eq_true, List.all_eq_true, List.mem_range] at h
  exact ⟨h.1, h.2⟩

theorem allLeavesNE_of_leaf (fuel off : Nat) (db : DB)
    (es : List LeafPageEntry) (blob : Blob)
    (hs : db.store.get off = some (.leafData es blob)) :
    allLeavesNE (fuel + 1) off db = decide (es ≠ []) := by
  show (match db.store.get off with
    | some (.leafData es _) => decide (es ≠ [])
    | some (.internalData _ ps) => ps.all fun o => allLeavesNE fuel o db
    | none => false) = _
  rw [hs]

theorem allLeavesNE_of_internal (fuel off : Nat) (db : DB) (ks ps : List Nat)
    (hs : db.store.get off = some (.internalData ks ps)) :
    allLeavesNE (fuel + 1) off db = ps.all fun o => allLeavesNE fuel o db := by
  show (match db.store.get off with
    | some (.leafData es _) => decide (es ≠ [])
    | some (.internalData _ ps) => ps.all fun o => allLeavesNE fuel o db
    | none => false) = _
  rw [hs]

theorem leavesPure_of_leaf (fuel off : Nat) (db : DB)
    (es : List LeafPageEntry) (blob : Blob)
    (hs : db.store.get off = some (.leafData es blob)) :
    leavesPure (fuel + 1) off db = [{ offset := off, keys := es }] := by
  show (match db.store.get off with
    | some (.leafData es _) => [({ offset := off, keys := es } : LeafPage)]
    | some (.internalData _ ps) => (ps.map fun o => leavesPure fuel o db).flatten
    | none => []) = _
  rw [hs]

theorem leavesPure_of_internal (fuel off : Nat) (db : DB) (ks ps : List Nat)
    (hs : db.store.get off = some (.internalData ks ps)) :
    leavesPure (fuel + 1) off db = (ps.map fun o => leavesPure fuel o db).flatten := by
  show (match db.store.get off with
    | some (.leafData es _) => [({ offset := off, keys := es } : LeafPage)]
    | some (.internalData _ ps) => (ps.map fun o => leavesPure fuel o db).flatten
    | none => []) = _
  rw [hs]

theorem treeKeys_of_leaf (fuel off : Nat) (db : DB)
    (es : List LeafPageEntry) (blob : Blob)
    (hs : db.store.get off = some (.leafData es blob)) :
    treeKeys (fuel + 1) off db = entryKeys es := by
  show (match db.store.get off with
    | some (.leafData es _) => entryKeys es
    | some (.internalData _ ps) => (ps.map fun o => treeKeys fuel o db).flatten
    | none => []) = _
  rw [hs]

theorem treeKeys_of_internal (fuel off : Nat) (db : DB) (ks ps : List Nat)
    (hs : db.store.get off = some (.internalData ks ps)) :
    treeKeys (fuel + 1) off db = (ps.map fun o => treeKeys fuel o db).flatten := by
  show (match db.store.get off with
    | some (.leafData es _) => entryKeys es
    | some (.internalData _ ps) => (ps.map fun o => treeKeys fuel o db).flatten
    | none => []) = _
  rw [hs]

theorem getD_mem (l : List Nat) (j : Nat) (h : j < l.length) : l.getD j 0 ∈ l := by
  induction l generalizing j with
  | nil => cases h
  | cons a l ih =>
    cases j with
    | zero => exact List.mem_cons_self _ _
    | succ j => exact List.mem_cons.mpr (Or.inr (ih j (by simpa using h)))

theorem get?_eq_getD (l : List Nat) (j : Nat) (h : j < l.length) :
    l.get? j = some (l.getD j 0) := by
  induction l generalizing j with
  | nil => cases h
  | cons a l ih =>
    cases j with
    | zero => rfl
    | succ j => exact ih j (by simpa using h)

theorem boundsOK_lo (lo hi : Option Nat) (k : Nat) (h : boundsOK lo hi k = true) :
    ∀ l, lo = some l → l < k := by
  intro l hl
  rw [hl] at h
  cases hi <;> simp [boundsOK] at h
  · exact h
  · exact h.1

theorem boundsOK_hi (lo hi : Option Nat) (k : Nat) (h : boundsOK lo hi k = true) :
    ∀ hb, hi = some hb → k ≤ hb := by
  intro hb hh
  rw [hh] at h
  cases lo <;> simp [boundsOK] at h
  · exact h
  · exact h.2

theorem boundsOK_intro (lo hi : Option Nat) (k : Nat)
    (h1 : ∀ l, lo = some l → l < k) (h2 : ∀ hb, hi = some hb → k ≤ hb) :
    boundsOK lo hi k = true := by
  cases lo with
  | none =>
    cases hi with
    | none => rfl
    | some hb => simpa [boundsOK] using h2 hb rfl
  | some l =>
    cases hi with
    | none => simpa [boundsOK] using h1 l rfl
    | some hb => simpa [boundsOK] using ⟨h1 l rfl, h2 hb rfl⟩

theorem chainOK_mem : ∀ (ks : List Nat) (lo hi : Option Nat),
    chainOK lo ks hi = true → ∀ x ∈ ks, boundsOK lo hi x = true := by
  intro ks
  induction ks with
  | nil => intro lo hi _ x hx; cases hx
  | cons k ks ih =>
    intro lo hi h x hx
    have h2 : boundsOK lo hi k = true ∧ chainOK (some k) ks hi = true := by
      simpa [chainOK, Bool.and_eq_true] using h
    rcases List.mem_cons.mp hx with rfl | hmem
    · exact h2.1
    · have hx2 := ih (some k) hi h2.2 x hmem
      refine boundsOK_intro lo hi x ?_ (boundsOK_hi _ _ _ hx2)
      intro l hl
      have hlk : l < k := boundsOK_lo lo hi k h2.1 l hl
      have hkx : k < x := boundsOK_lo (some k) hi x hx2 k rfl
      omega

theorem chainOK_sorted : ∀ (ks : List Nat) (lo hi : Option Nat),
    chainOK lo ks hi = true → ks.Sorted (· < ·) := by
  intro ks
  induction ks with
  | nil => intro lo hi _; exact List.sorted_nil
  | cons k ks ih =>
    intro lo hi h
    have h2 : boundsOK lo hi k = true ∧ chainOK (some k) ks hi = true := by
      simpa [chainOK, Bool.and_eq_true] using h
    rw [List.sorted_cons]
    refine ⟨fun b hb => ?_, ih (some k) hi h2.2⟩
    exact boundsOK_lo (some k) hi b (chainOK_mem ks (some k) hi h2.2 b hb) k rfl

theorem keyInsertIdx_spec_lt : ∀ (ks : List Nat) (key : Nat),
    ks.Sorted (· < ·) → ∀ j v, j < keyInsertIdx ks key → ks.get? j = some v →
    v < key := by
  intro ks
  induction ks with
  | nil => intro key _ j v hj hv; cases hv
  | cons k ks ih =>
    intro key hs j v hj hv
    rw [List.sorted_cons] at hs
    by_cases hk : k < key
    · cases j with
      | zero =>
        cases hv
        exact hk
      | succ j =>
        have hidx : keyInsertIdx (k :: ks) key = keyInsertIdx ks key + 1 := by
          unfold keyInsertIdx
          rw [List.countP_cons]
          simp [hk]
        exact ih key hs.2 j v (by omega) hv
    · have hidx : keyInsertIdx (k :: ks) key = 0 := by
        unfold keyInsertIdx
        rw [List.countP_cons]
        have hz : List.countP (fun x => decide (x < key)) ks = 0 := by
          rw [List.countP_eq_zero]
          intro b hb
          have := hs.1 b hb
          simp only [decide_eq_true_eq]
          omega
        simp [hk, hz]
      omega

theorem keyInsertIdx_spec_ge : ∀ (ks : List Nat) (key : Nat),
    ks.Sorted (· < ·) → ∀ j v, keyInsertIdx ks key ≤ j → ks.get? j = some v →
    key ≤ v := by
  intro ks
  induction ks with
  | nil => intro key _ j v hj hv; cases hv
  | cons k ks ih =>
    intro key hs j v hj hv
    rw [List.sorted_cons] at hs
    by_cases hk : k < key
    · have hidx : keyInsertIdx (k :: ks) key = keyInsertIdx ks key + 1 := by
        unfold keyInsertIdx
        rw [List.countP_cons]
        simp [hk]
      cases j with
      | zero => omega
      | succ j => exact ih key hs.2 j v (by omega) hv
    · cases j with
      | zero =>
        cases hv
        omega
      | succ j =>
        have hv' : ks.get? j = some v := hv
        have hmem : v ∈ ks := List.get?_mem hv'
        have := hs.1 v hmem
        omega

theorem sorted_take_last_lt_drop (l : List Nat) (n : Nat) (a : Nat)
    (hs : l.Sorted (· < ·)) (hgl : (l.take n).getLast? = some a) :
    ∀ b ∈ l.drop n, a < b := by
  intro b hb
  have hsp : ((l.take n) ++ (l.drop n)).Sorted (· < ·) := by
    rw [List.take_append_drop]
    exact hs
  rw [List.Sorted, List.pairwise_append] at hsp
  exact hsp.2.2 a (mem_of_getLastSome _ a hgl) b hb

theorem WFb_mono : ∀ (fuel off : Nat) (db : DB),
    WFb fuel off db = true → WFb (fuel + 1) off db = true := by
  intro fuel
  induction fuel with
  | zero => intro off db h; cases h
  | succ fuel ih =>
    intro off db h
    cases hs : db.store.get off with
    | none =>
      unfold WFb at h
      rw [hs] at h
      simp at h
    | some pd =>
      cases pd with
      | leafData es blob =>
        obtain ⟨h1, h2⟩ := WFb_succ_leaf fuel off db es blob h hs
        unfold WFb
        rw [hs]
        simp only [Bool.and_eq_true, decide_eq_true_eq]
        exact ⟨h1, h2⟩
      | internalData ks ps =>
        obtain ⟨h1, h2, h3⟩ := WFb_succ_internal fuel off db ks ps h hs
        unfold WFb
        rw [hs]
        simp only [Bool.and_eq_true, decide_eq_true_eq, List.all_eq_true]
        exact ⟨h1, h2, fun o ho => ih o db (h3 o ho)⟩

theorem WFo_mono : ∀ (fuel off : Nat) (lo hi : Option Nat) (db : DB),
    WFo fuel off lo hi db = true → WFo (fuel + 1) off lo hi db = true := by
  intro fuel
  induction fuel with
  | zero => intro off lo hi db h; cases h
  | succ fuel ih =>
    intro off lo hi db h
    cases hs : db.store.get off with
    | none =>
      rw [show WFo (fuel + 1) off lo hi db = false by
        show (match db.store.get off with
          | some (.leafData es _) => es.all fun e => boundsOK lo hi e.key
          | some (.internalData ks ps) =>
            chainOK lo ks hi &&
            (List.range ps.length).all fun j =>
              WFo fuel (ps.getD j 0) (lowOf lo ks j) (highOf hi ks j) db
          | none => false) = false
        rw [hs]] at h
      cases h
    | some pd =>
      cases pd with
      | leafData es blob =>
        rw [WFo_of_leaf fuel off lo hi db es blob hs] at h
        rw [WFo_of_leaf (fuel + 1) off lo hi db es blob hs]
        exact h
      | internalData ks ps =>
        obtain ⟨h1, h2⟩ := WFo_succ_internal fuel off lo hi db ks ps h hs
        rw [WFo_of_internal (fuel + 1) off lo hi db ks ps hs]
        simp only [Bool.and_eq_true, List.all_eq_true, List.mem_range]
        exact ⟨h1, fun j hj => ih (ps.getD j 0) _ _ db (h2 j hj)⟩

theorem allLeavesNE_mono : ∀ (fuel off : Nat) (db : DB),
    allLeavesNE fuel off db = true → allLeavesNE (fuel + 1) off db = true := by
  intro fuel
  induction fuel with
  | zero => intro off db h; cases h
  | succ fuel ih =>
    intro off db h
    cases hs : db.store.get off with
    | none =>
      rw [show allLeavesNE (fuel + 1) off db = false by
        show (match db.store.get off with
          | some (.leafData es _) => decide (es ≠ [])
          | some (.internalData _ ps) => ps.all fun o => allLeavesNE fuel o db
          | none => false) = false
        rw [hs]] at h
      cases h
    | some pd =>
      cases pd with
      | leafData es blob =>
        rw [allLeavesNE_of_leaf fuel off db es blob hs] at h
        rw [allLeavesNE_of_leaf (fuel + 1) off db es blob hs]
        exact h
      | internalData ks ps =>
        rw [allLeavesNE_of_internal fuel off db ks ps hs] at h
        rw [allLeavesNE_of_internal (fuel + 1) off db ks ps hs]
        simp only [List.all_eq_true] at h ⊢
        exact fun o ho => ih o db (h o ho)

theorem subOffsets_stable : ∀ (fuel off : Nat) (db : DB),
    WFb fuel off db = true → subOffsets (fuel + 1) off db = subOffsets fuel off db := by
  intro fuel
  induction fuel with
  | zero => intro off db h; cases h
  | succ fuel ih =>
    intro off db h
    cases hs : db.store.get off with
    | none =>
      unfold WFb at h
      rw [hs] at h
      simp at h
    | some pd =>
      cases pd with
      | leafData es blob =>
        rw [subOffsets_of_leaf (fuel + 1) off db es blob hs,
          subOffsets_of_leaf fuel off db es blob hs]
      | internalData ks ps =>
        obtain ⟨_, _, h3⟩ := WFb_succ_internal fuel off db ks ps h hs
        rw [subOffsets_of_internal (fuel + 1) off db ks ps hs,
          subOffsets_of_internal fuel off db ks ps hs]
        congr 1
        apply congrArg
        apply List.map_congr_left
        intro c hc
        exact ih c db (h3 c hc)

theorem WFo_congr : ∀ (fuel off : Nat) (lo hi : Option Nat) (db db2 : DB),
    (∀ o ∈ subOffsets fuel off db, db2.store.get o = db.store.get o) →
    WFo fuel off lo hi db = true → WFo fuel off lo hi db2 = true := by
  intro fuel
  induction fuel with
  | zero => intro off lo hi db db2 _ h; cases h
  | succ fuel ih =>
    intro off lo hi db db2 h hwo
    have hself : db2.store.get off = db.store.get off :=
      h off (self_mem_subOffsets fuel off db)
    cases hs : db.store.get off with
    | none =>
      rw [show WFo (fuel + 1) off lo hi db = false by
        show (match db.store.get off with
          | some (.leafData es _) => es.all fun e => boundsOK lo hi e.key
          | some (.internalData ks ps) =>
            chainOK lo ks hi &&
            (List.range ps.length).all fun j =>
              WFo fuel (ps.getD j 0) (lowOf lo ks j) (highOf hi ks j) db
          | none => false) = false
        rw [hs]] at hwo
      cases hwo
    | some pd =>
      cases pd with
      | leafData es blob =>
        rw [WFo_of_leaf fuel off lo hi db es blob hs] at hwo
        rw [WFo_of_leaf fuel off lo hi db2 es blob (hself.trans hs)]
        exact hwo
      | internalData ks ps =>
        obtain ⟨h1, h2⟩ := WFo_succ_internal fuel off lo hi db ks ps hwo hs
        rw [WFo_of_internal fuel off lo hi db2 ks ps (hself.trans hs)]
        simp only [Bool.and_eq_true, List.all_eq_true, List.mem_range]
        refine ⟨h1, fun j hj => ?_⟩
        refine ih (ps.getD j 0) _ _ db db2 (fun o ho => ?_) (h2 j hj)
        exact h o (child_subOffsets_subset fuel off db ks ps (ps.getD j 0) hs
          (getD_mem ps j hj) o ho)

theorem allLeavesNE_congr : ∀ (fuel off : Nat) (db db2 : DB),
    (∀ o ∈ subOffsets fuel off db, db2.store.get o = db.store.get o) →
    allLeavesNE fuel off db = true → allLeavesNE fuel off db2 = true := by
  intro fuel
  induction fuel with
  | zero => intro off db db2 _ h; cases h
  | succ fuel ih =>
    intro off db db2 h hne
    have hself : db2.store.get off = db.store.get off :=
      h off (self_mem_subOffsets fuel off db)
    cases hs : db.store.get off with
    | none =>
      rw [show allLeavesNE (fuel + 1) off db = false by
        show (match db.store.get off with
          | some (.leafData es _) => decide (es ≠ [])
          | some (.internalData _ ps) => ps.all fun o => allLeavesNE fuel o db
          | none => false) = false
        rw [hs]] at hne
      cases hne
    | some pd =>
      cases pd with
      | leafData es blob =>
        rw [allLeavesNE_of_leaf fuel off db es blob hs] at hne
        rw [allLeavesNE_of_leaf fuel off db2 es blob (hself.trans hs)]
        exact hne
      | internalData ks ps =>
        rw [allLeavesNE_of_internal fuel off db ks ps hs] at hne
        rw [allLeavesNE_of_internal fuel off db2 ks ps (hself.trans hs)]
        simp only [List.all_eq_true] at hne ⊢
        intro o ho
        refine ih o db db2 (fun x hx => ?_) (hne o ho)
        exact h x (child_subOffsets_subset fuel off db ks ps o hs ho x hx)

theorem treeKeys_congr : ∀ (fuel off : Nat) (db db2 : DB),
    (∀ o ∈ subOffsets fuel off db, db2.store.get o = db.store.get o) →
    treeKeys fuel off db2 = treeKeys fuel off db := by
  intro fuel
  induction fuel with
  | zero => intro off db db2 _; rfl
  | succ fuel ih =>
    intro off db db2 h
    have hself : db2.store.get off = db.store.get off :=
      h off (self_mem_subOffsets fuel off db)
    cases hs : db.store.get off with
    | none =>
      show (match db2.store.get off with
        | some (.leafData es _) => entryKeys es
        | some (.internalData _ ps) => (ps.map fun o => treeKeys fuel o db2).flatten
        | none => []) =
        (match db.store.get off with
        | some (.leafData es _) => entryKeys es
        | some (.internalData _ ps) => (ps.map fun o => treeKeys fuel o db).flatten
        | none => [])
      rw [hself, hs]
    | some pd =>
      cases pd with
      | leafData es blob =>
        rw [treeKeys_of_leaf fuel off db es blob hs,
          treeKeys_of_leaf fuel off db2 es blob (hself.trans hs)]
      | internalData ks ps =>
        rw [treeKeys_of_internal fuel off db ks ps hs,
          treeKeys_of_internal fuel off db2 ks ps (hself.trans hs)]
        congr 1
        apply List.map_congr_left
        intro c hc
        exact ih c db db2 (fun o ho =>
          h o (child_subOffsets_subset fuel off db ks ps c hs hc o ho))

theorem lowOf_cons_succ (lo : Option Nat) (k : Nat) (ks : List Nat) (j : Nat) :
    lowOf lo (k :: ks) (j + 1) = lowOf (some k) ks j := by
  cases j <;> rfl

theorem highOf_cons_succ (hi : Option Nat) (k : Nat) (ks : List Nat) (j : Nat) :
    highOf hi (k :: ks) (j + 1) = highOf hi ks j := rfl

/-- In-order concatenation of order-bounded children is sorted and bounded. -/
theorem flatten_children_sorted (w : Nat) (db : DB) :
    ∀ (ks ps : List Nat) (lo hi : Option Nat),
    ps.length = ks.length + 1 →
    chainOK lo ks hi = true →
    (∀ j, j < ps.length → (treeKeys w (ps.getD j 0) db).Sorted (· < ·) ∧
      (∀ k ∈ treeKeys w (ps.getD j 0) db,
        boundsOK (lowOf lo ks j) (highOf hi ks j) k = true)) →
    ((ps.map fun o => treeKeys w o db).flatten).Sorted (· < ·) ∧
    (∀ k ∈ (ps.map fun o => treeKeys w o db).flatten, boundsOK lo hi k = true) := by
  intro ks
  induction ks with
  | nil =>
    intro ps lo hi har hch hj
    cases ps with
    | nil => cases har
    | cons p ps2 =>
      cases ps2 with
      | cons q ps3 => simp at har
      | nil =>
        obtain ⟨hs0, hb0⟩ := hj 0 (by simp)
        rw [List.map_cons, List.map_nil, List.flatten_cons, List.flatten_nil,
          List.append_nil]
        exact ⟨hs0, fun k hk => hb0 k hk⟩
  | cons key0 ks ih =>
    intro ps lo hi har hch hj
    cases ps with
    | nil => cases har
    | cons p ps2 =>
      have har2 : ps2.length = ks.length + 1 := by simpa using har
      have hch2 : boundsOK lo hi key0 = true ∧ chainOK (some key0) ks hi = true := by
        simpa [chainOK, Bool.and_eq_true] using hch
      obtain ⟨hs0, hb0⟩ := hj 0 (by simp)
      have hrest := ih ps2 (some key0) hi har2 hch2.2 (fun j hjlt => by
        have h2 := hj (j + 1) (by simpa using Nat.succ_lt_succ hjlt)
        rw [lowOf_cons_succ, highOf_cons_succ] at h2
        exact h2)
      rw [List.map_cons, List.flatten_cons]
      have hcross : ∀ a ∈ treeKeys w ((p :: ps2).getD 0 0) db,
          ∀ b ∈ (ps2.map fun o => treeKeys w o db).flatten, a < b := by
        intro a ha b hb
        have hahi : a ≤ key0 := boundsOK_hi _ _ _ (hb0 a ha) key0 rfl
        have hblo : key0 < b := boundsOK_lo _ _ _ (hrest.2 b hb) key0 rfl
        omega
      constructor
      · rw [List.Sorted, List.pairwise_append]
        exact ⟨hs0, hrest.1, hcross⟩
      · intro k hk
        rcases List.mem_append.mp hk with hkA | hkB
        · refine boundsOK_intro lo hi k (boundsOK_lo _ _ _ (hb0 k hkA)) ?_
          intro hb hhb
          have h1 : k ≤ key0 := boundsOK_hi _ _ _ (hb0 k hkA) key0 rfl
          have h2 : key0 ≤ hb := boundsOK_hi _ _ _ hch2.1 hb hhb
          omega
        · refine boundsOK_intro lo hi k ?_ (boundsOK_hi _ _ _ (hrest.2 k hkB))
          intro l hl
          have h1 : key0 < k := boundsOK_lo _ _ _ (hrest.2 k hkB) key0 rfl
          have h2 : l < key0 := boundsOK_lo _ _ _ hch2.1 l hl
          omega

/-- The stored keys of an order-well-formed subtree are strictly ascending
and lie inside the subtree's interval. -/
theorem treeKeys_sorted_bounds : ∀ (fw off : Nat) (lo hi : Option Nat) (db : DB),
    WFb fw off db = true → WFo fw off lo hi db = true →
    (treeKeys fw off db).Sorted (· < ·) ∧
    ∀ k ∈ treeKeys fw off db, boundsOK lo hi k = true := by
  intro fw
  induction fw with
  | zero => intro off lo hi db h _; cases h
  | succ w ih =>
    intro off lo hi db hwf hwo
    cases hs : db.store.get off with
    | none =>
      unfold WFb at hwf
      rw [hs] at hwf
      simp at hwf
    | some pd =>
      cases pd with
      | leafData es blob =>
        obtain ⟨_, hsort⟩ := WFb_succ_leaf w off db es blob hwf hs
        rw [WFo_of_leaf w off lo hi db es blob hs] at hwo
        rw [treeKeys_of_leaf w off db es blob hs]
        refine ⟨hsort, fun k hk => ?_⟩
        obtain ⟨e, he, rfl⟩ := List.mem_map.mp hk
        rw [List.all_eq_true] at hwo
        exact hwo e he
      | internalData ks ps =>
        obtain ⟨_, harity, hchw⟩ := WFb_succ_internal w off db ks ps hwf hs
        obtain ⟨hchain, hkids⟩ := WFo_succ_internal w off lo hi db ks ps hwo hs
        rw [treeKeys_of_internal w off db ks ps hs]
        refine flatten_children_sorted w db ks ps lo hi harity hchain ?_
        intro j hj
        exact ih (ps.getD j 0) (lowOf lo ks j) (highOf hi ks j) db
          (hchw _ (getD_mem ps j hj)) (hkids j hj)

/-- `leavesOf` succeeds on a well-formed subtree with any fuel at least the
tree depth, returning the in-order leaf sequence. -/
theorem leavesOf_ok : ∀ (fw : Nat) (g off : Nat) (db : DB),
    WFb fw off db = true → fw ≤ g →
    leavesOf g off db = .ok (leavesPure fw off db) := by
  intro fw
  induction fw with
  | zero => intro g off db h _; cases h
  | succ w ih =>
    intro g off db hwf hg
    cases g with
    | zero => omega
    | succ g =>
      unfold leavesOf
      cases hs : db.store.get off with
      | none =>
        unfold WFb at hwf
        rw [hs] at hwf
        simp at hwf
      | some pd =>
        cases pd with
        | leafData es blob =>
          rw [page_load_leaf off db es blob hs, bind_ok_er]
          rw [leavesPure_of_leaf w off db es blob hs]
        | internalData ks ps =>
          obtain ⟨_, _, hchw⟩ := WFb_succ_internal w off db ks ps hwf hs
          rw [page_load_internal off db ks ps hs, bind_ok_er]
          show (do
            let ls ← ps.mapM (fun o => leavesOf g o db)
            pure ls.flatten : ER (List LeafPage)) = _
          rw [mapM_ok ps (fun o => leavesOf g o db) (fun o => leavesPure w o db)
            (fun o ho => ih g o db (hchw o ho) (by omega)), bind_ok_er]
          rw [leavesPure_of_internal w off db ks ps hs]
          rfl

theorem flatten_ne_nil_of_mem {α : Type} (L : List (List α)) (l : List α)
    (hl : l ∈ L) (hne : l ≠ []) : L.flatten ≠ [] := by
  intro hc
  exact hne (List.flatten_eq_nil_iff.mp hc l hl)

/-- A well-formed subtree has at least one leaf. -/
theorem leavesPure_ne_nil : ∀ (fw off : Nat) (db : DB),
    WFb fw off db = true → leavesPure fw off db ≠ [] := by
  intro fw
  induction fw with
  | zero => intro off db h; cases h
  | succ w ih =>
    intro off db hwf
    cases hs : db.store.get off with
    | none =>
      unfold WFb at hwf
      rw [hs] at hwf
      simp at hwf
    | some pd =>
      cases pd with
      | leafData es blob =>
        rw [leavesPure_of_leaf w off db es blob hs]
        simp
      | internalData ks ps =>
        obtain ⟨_, harity, hchw⟩ := WFb_succ_internal w off db ks ps hwf hs
        rw [leavesPure_of_internal w off db ks ps hs]
        have hlen : 0 < ps.length := by omega
        have hmem : ps.getD 0 0 ∈ ps := getD_mem ps 0 hlen
        refine flatten_ne_nil_of_mem _ (leavesPure w (ps.getD 0 0) db) ?_
          (ih _ db (hchw _ hmem))
        exact List.mem_map.mpr ⟨ps.getD 0 0, hmem, rfl⟩

/-- Under `allLeavesNE`, every in-order leaf has a nonempty directory. -/
theorem leavesPure_NE : ∀ (fw off : Nat) (db : DB),
    WFb fw off db = true → allLeavesNE fw off db = true →
    ∀ l ∈ leavesPure fw off db, l.keys ≠ [] := by
  intro fw
  induction fw with
  | zero => intro off db h _; cases h
  | succ w ih =>
    intro off db hwf hne l hl
    cases hs : db.store.get off with
    | none =>
      unfold WFb at hwf
      rw [hs] at hwf
      simp at hwf
    | some pd =>
      cases pd with
      | leafData es blob =>
        rw [leavesPure_of_leaf w off db es blob hs] at hl
        rw [allLeavesNE_of_leaf w off db es blob hs] at hne
        have hl2 : l = { offset := off, keys := es } := by simpa using hl
        rw [hl2]
        simpa using hne
      | internalData ks ps =>
        obtain ⟨_, _, hchw⟩ := WFb_succ_internal w off db ks ps hwf hs
        rw [leavesPure_of_internal w off db ks ps hs] at hl
        rw [allLeavesNE_of_internal w off db ks ps hs] at hne
        rw [List.all_eq_true] at hne
        obtain ⟨sub, hsub, hlsub⟩ := List.mem_flatten.mp hl
        obtain ⟨c, hc, rfl⟩ := List.mem_map.mp hsub
        exact ih c db (hchw c hc) (hne c hc) l hlsub

theorem flatten_map_flatten {α β : Type} (g : α → List β) (L : List (List α)) :
    (L.flatten.map g).flatten = (L.map fun l => (l.map g).flatten).flatten := by
  induction L with
  | nil => rfl
  | cons l L ih =>
    rw [List.flatten_cons, List.map_append, List.flatten_append, ih,
      List.map_cons, List.flatten_cons]

/-- The stored keys are the concatenation of the leaf directories in leaf
order. -/
theorem treeKeys_eq_leaves : ∀ (fw off : Nat) (db : DB),
    ((leavesPure fw off db).map fun l => entryKeys l.keys).flatten =
      treeKeys fw off db := by
  intro fw
  induction fw with
  | zero => intro off db; rfl
  | succ w ih =>
    intro off db
    cases hs : db.store.get off with
    | none =>
      rw [show leavesPure (w + 1) off db = [] by
        show (match db.store.get off with
          | some (.leafData es _) => [({ offset := off, keys := es } : LeafPage)]
          | some (.internalData _ ps) => (ps.map fun o => leavesPure w o db).flatten
          | none => []) = []
        rw [hs]]
      rw [show treeKeys (w + 1) off db = [] by
        show (match db.store.get off with
          | some (.leafData es _) => entryKeys es
          | some (.internalData _ ps) => (ps.map fun o => treeKeys w o db).flatten
          | none => []) = []
        rw [hs]]
      rfl
    | some pd =>
      cases pd with
      | leafData es blob =>
        rw [leavesPure_of_leaf w off db es blob hs, treeKeys_of_leaf w off db es blob hs]
        simp
      | internalData ks ps =>
        rw [leavesPure_of_internal w off db ks ps hs,
          treeKeys_of_internal w off db ks ps hs]
        rw [flatten_map_flatten]
        rw [List.map_map]
        congr 1
        apply List.map_congr_left
        intro c _
        exact ih c db

/-- Running the key iterator over the remaining slots of the current leaf
and the in-order tail of (nonempty) leaves yields exactly the remaining
directory keys, given enough fuel. -/
theorem keyIterRun_ok : ∀ (g : Nat) (cur : LeafPage) (rest : List LeafPage) (pos : Nat),
    pos ≤ cur.keys.length →
    (∀ l ∈ rest, l.keys ≠ []) →
    (cur.keys.length - pos) + ((rest.map fun l => l.keys.length).sum) + 1 ≤ g →
    keyIterRun g cur rest pos =
      .ok ((entryKeys cur.keys).drop pos ++
        (rest.map fun l => entryKeys l.keys).flatten) := by
  intro g
  induction g with
  | zero => intro cur rest pos _ _ hg; omega
  | succ g ih =>
    intro cur rest pos hpos hne hg
    unfold keyIterRun
    by_cases hend : pos = cur.keys.length
    · rw [if_pos hend]
      cases rest with
      | nil =>
        have hdrop : (entryKeys cur.keys).drop pos = [] := by
          rw [hend, show cur.keys.length = (entryKeys cur.keys).length by
            simp [entryKeys]]
          exact List.drop_length _
        rw [hdrop]
        rfl
      | cons next rest2 =>
        have hnenext : next.keys ≠ [] := hne next (List.mem_cons_self _ _)
        cases hnk : next.keys with
        | nil => exact absurd hnk hnenext
        | cons e es2 =>
          show (match next.keys.get? 0 with
            | none => (.error .panicked : ER (List Nat))
            | some e2 => do
              let ks ← keyIterRun g next rest2 1
              .ok (e2.key :: ks)) = _
          rw [hnk]
          show (do
            let ks ← keyIterRun g next rest2 1
            .ok (e.key :: ks) : ER (List Nat)) = _
          have hrec := ih next rest2 1
            (by rw [hnk]; exact Nat.succ_le_succ (Nat.zero_le _))
            (fun l hl => hne l (List.mem_cons.mpr (Or.inr hl)))
            (by
              have h2 : next.keys.length = es2.length + 1 := by rw [hnk]; rfl
              simp only [List.map_cons, List.sum_cons] at hg ⊢
              omega)
          rw [hrec, bind_ok_er]
          have hdrop1 : (entryKeys next.keys).drop 1 = entryKeys es2 := by
            rw [hnk]
            rfl
          rw [hdrop1]
          have hdrop : (entryKeys cur.keys).drop pos = [] := by
            rw [hend, show cur.keys.length = (entryKeys cur.keys).length by
              simp [entryKeys]]
            exact List.drop_length _
          rw [hdrop, List.nil_append, List.map_cons, List.flatten_cons]
          rw [show entryKeys next.keys = e.key :: entryKeys es2 by rw [hnk]; rfl]
          rw [List.cons_append]
    · rw [if_neg hend]
      have hlt : pos < cur.keys.length := by omega
      cases hgp : cur.keys.get? pos with
      | none =>
        rw [List.get?_eq_none] at hgp
        omega
      | some e =>
        show (do
          let ks ← keyIterRun g cur rest (pos + 1)
          .ok (e.key :: ks) : ER (List Nat)) = _
        have hrec := ih cur rest (pos + 1) (by omega) hne (by omega)
        rw [hrec, bind_ok_er]
        have hkey : (entryKeys cur.keys).get? pos = some e.key := by
          show (cur.keys.map (·.key)).get? pos = _
          rw [List.get?_map, hgp]
          rfl
        have hlen : pos < (entryKeys cur.keys).length := by
          simpa [entryKeys] using hlt
        have hdrop : (entryKeys cur.keys).drop pos =
            e.key :: (entryKeys cur.keys).drop (pos + 1) := by
          rw [List.drop_eq_getElem_cons hlen]
          congr 1
          rw [List.getElem_eq_iff, ← List.get?_eq_getElem?]
          exact hkey
        rw [hdrop, List.cons_append]

/-- `BTree::keys` on a well-formed, ordered tree whose non-root leaves are
nonempty: the iterator succeeds and yields exactly the stored keys, in leaf
order, strictly ascending. -/
theorem keys_of_WF (fw off : Nat) (db : DB) (g : Nat)
    (hwf : WFb fw off db = true)
    (hwo : WFo fw off none none db = true)
    (hne : (∃ es blob, db.store.get off = some (.leafData es blob)) ∨
      allLeavesNE fw off db = true)
    (hg1 : fw ≤ g)
    (hg2 : (treeKeys fw off db).length + 1 ≤ g) :
    BTree.keys g { root := off } db = .ok (treeKeys fw off db) ∧
    (treeKeys fw off db).Sorted (· < ·) := by
  refine ⟨?_, (treeKeys_sorted_bounds fw off none none db hwf hwo).1⟩
  unfold BTree.keys
  show (do
    let ls ← leavesOf g off db
    match ls with
    | [] => .error .panicked
    | first :: rest => keyIterRun g first rest 0) = _
  rw [leavesOf_ok fw g off db hwf hg1, bind_ok_er]
  cases hL : leavesPure fw off db with
  | nil => exact absurd hL (leavesPure_ne_nil fw off db hwf)
  | cons first rest =>
    have hNErest : ∀ l ∈ rest, l.keys ≠ [] := by
      rcases hne with ⟨es, blob, hs⟩ | hThem
      · cases fw with
        | zero => simp [WFb] at hwf
        | succ w =>
          have hcomb : ({ offset := off, keys := es } : LeafPage) :: [] = first :: rest := by
            rw [← leavesPure_of_leaf w off db es blob hs]
            exact hL
          injection hcomb with h1 h2
          rw [← h2]
          intro l hl
          cases hl
      · intro l hl
        refine leavesPure_NE fw off db hwf hThem l ?_
        rw [hL]
        exact List.mem_cons.mpr (Or.inr hl)
    have htot : first.keys.length + ((rest.map fun l => l.keys.length).sum) =
        (treeKeys fw off db).length := by
      rw [← treeKeys_eq_leaves fw off db, hL]
      rw [List.map_cons, List.flatten_cons, List.length_append, List.length_flatten]
      rw [List.map_map]
      congr 1
      · simp [entryKeys]
      · congr 1
        apply List.map_congr_left
        intro l _
        simp [entryKeys, Function.comp]
    show keyIterRun g first rest 0 = _
    rw [keyIterRun_ok g first rest 0 (by omega) hNErest (by omega)]
    rw [← treeKeys_eq_leaves fw off db, hL]
    rw [List.map_cons, List.flatten_cons]
    rfl

theorem get?_listInsertAt_gt {α : Type} (l : List α) (i j : Nat) (a : α)
    (hj : i < j) : (listInsertAt i a l).get? j = l.get? (j - 1) := by
  induction l generalizing i j with
  | nil =>
    cases j with
    | zero => omega
    | succ j2 =>
      cases i with
      | zero => rfl
      | succ i2 => rfl
  | cons b l ih =>
    cases i with
    | zero =>
      cases j with
      | zero => omega
      | succ j => rfl
    | succ i =>
      cases j with
      | zero => omega
      | succ j =>
        show (listInsertAt i a l).get? j = (b :: l).get? (j + 1 - 1)
        cases j with
        | zero => omega
        | succ j2 =>
          rw [ih i (j2 + 1) (by omega)]
          rfl

theorem limit_le_of_mono (db db2 : DB)
    (h1 : db2.meta.block_size_exp = db.meta.block_size_exp)
    (h2 : db.meta.num_blocks_allocated ≤ db2.meta.num_blocks_allocated) :
    db.block_size * db.meta.num_blocks_allocated ≤
      db2.block_size * db2.meta.num_blocks_allocated := by
  show 2 ^ db.meta.block_size_exp * _ ≤ 2 ^ db2.meta.block_size_exp * _
  rw [h1]
  exact Nat.mul_le_mul_left _ h2

theorem chainOK_front : ∀ (ks : List Nat) (lo hi : Option Nat) (n : Nat),
    chainOK lo ks hi = true → chainOK lo (ks.take n) hi = true := by
  intro ks
  induction ks with
  | nil => intro lo hi n _; rw [List.take_nil]; rfl
  | cons k ks ih =>
    intro lo hi n h
    have h2 : boundsOK lo hi k = true ∧ chainOK (some k) ks hi = true := by
      simpa [chainOK, Bool.and_eq_true] using h
    cases n with
    | zero => rfl
    | succ n =>
      rw [List.take_succ_cons]
      show (boundsOK lo hi k && chainOK (some k) (ks.take n) hi) = true
      rw [Bool.and_eq_true]
      exact ⟨h2.1, ih (some k) hi n h2.2⟩

theorem chainOK_dropLast_last : ∀ (ks : List Nat) (lo hi : Option Nat) (a : Nat),
    chainOK lo ks hi = true → ks.getLast? = some a →
    chainOK lo ks.dropLast (some a) = true := by
  intro ks
  induction ks with
  | nil => intro lo hi a _ hgl; cases hgl
  | cons k ks ih =>
    intro lo hi a h hgl
    have h2 : boundsOK lo hi k = true ∧ chainOK (some k) ks hi = true := by
      simpa [chainOK, Bool.and_eq_true] using h
    cases ks with
    | nil =>
      have ha : a = k := by
        have : (([k] : List Nat)).getLast? = some k := rfl
        rw [this] at hgl
        exact (Option.some.inj hgl).symm
      rw [ha]
      rfl
    | cons k2 ks2 =>
      have hgl2 : (k2 :: ks2).getLast? = some a := by
        rw [← hgl]
        rfl
      have hrec := ih (some k) hi a h2.2 hgl2
      show chainOK lo (k :: (k2 :: ks2).dropLast) (some a) = true
      show (boundsOK lo (some a) k && chainOK (some k) ((k2 :: ks2).dropLast) (some a)) = true
      rw [Bool.and_eq_true]
      refine ⟨?_, hrec⟩
      refine boundsOK_intro lo (some a) k (boundsOK_lo lo hi k h2.1) ?_
      intro hb hhb
      have hba : a = hb := Option.some.inj hhb
      have hamem : a ∈ k2 :: ks2 := mem_of_getLastSome _ a hgl2
      have hka : k < a := boundsOK_lo (some k) hi a
        (chainOK_mem _ (some k) hi h2.2 a hamem) k rfl
      omega

theorem chainOK_suffix : ∀ (ks : List Nat) (lo hi : Option Nat) (n : Nat) (a : Nat),
    chainOK lo ks hi = true → (ks.take n).getLast? = some a →
    chainOK (some a) (ks.drop n) hi = true := by
  intro ks
  induction ks with
  | nil =>
    intro lo hi n a _ hgl
    rw [List.take_nil] at hgl
    cases hgl
  | cons k ks ih =>
    intro lo hi n a h hgl
    have h2 : boundsOK lo hi k = true ∧ chainOK (some k) ks hi = true := by
      simpa [chainOK, Bool.and_eq_true] using h
    cases n with
    | zero =>
      rw [List.take_zero] at hgl
      cases hgl
    | succ n =>
      rw [List.take_succ_cons] at hgl
      cases n with
      | zero =>
        rw [List.take_zero] at hgl
        have hak : a = k := by
          have h3 : (([k] : List Nat)).getLast? = some k := rfl
          rw [h3] at hgl
          exact (Option.some.inj hgl).symm
        rw [hak]
        show chainOK (some k) (ks.drop 0) hi = true
        rw [List.drop_zero]
        exact h2.2
      | succ m =>
        cases ks with
        | nil =>
          rw [List.take_nil] at hgl
          have hak : a = k := by
            have h3 : (([k] : List Nat)).getLast? = some k := rfl
            rw [h3] at hgl
            exact (Option.some.inj hgl).symm
          show chainOK (some a) (([] : List Nat).drop (m + 1)) hi = true
          rw [List.drop_nil]
          rfl
        | cons x xs =>
          rw [List.take_succ_cons, List.getLast?_cons_cons] at hgl
          have hgl2 : ((x :: xs).take (m + 1)).getLast? = some a := by
            rw [List.take_succ_cons]
            exact hgl
          show chainOK (some a) ((x :: xs).drop (m + 1)) hi = true
          exact ih (some k) hi (m + 1) a h2.2 hgl2

theorem chainOK_insert : ∀ (ks : List Nat) (lo hi : Option Nat) (i sep : Nat),
    chainOK lo ks hi = true →
    i ≤ ks.length →
    (∀ l, lowOf lo ks i = some l → l < sep) →
    (∀ h, hi = some h → sep ≤ h) →
    (∀ v, ks.get? i = some v → sep < v) →
    chainOK lo (listInsertAt i sep ks) hi = true := by
  intro ks
  induction ks with
  | nil =>
    intro lo hi i sep _ hile h1 h2 _
    have hi0 : i = 0 := by simpa using hile
    subst hi0
    show (boundsOK lo hi sep && true) = true
    rw [Bool.and_eq_true]
    exact ⟨boundsOK_intro lo hi sep (fun l hl => h1 l hl) h2, rfl⟩
  | cons k ks2 ih =>
    intro lo hi i sep hch hile h1 h2 h5
    have hc2 : boundsOK lo hi k = true ∧ chainOK (some k) ks2 hi = true := by
      simpa [chainOK, Bool.and_eq_true] using hch
    cases i with
    | zero =>
      show (boundsOK lo hi sep && chainOK (some sep) (k :: ks2) hi) = true
      rw [Bool.and_eq_true]
      constructor
      · exact boundsOK_intro lo hi sep (fun l hl => h1 l hl) h2
      · show (boundsOK (some sep) hi k && chainOK (some k) ks2 hi) = true
        rw [Bool.and_eq_true]
        refine ⟨?_, hc2.2⟩
        refine boundsOK_intro (some sep) hi k ?_ (boundsOK_hi lo hi k hc2.1)
        intro l hl
        have hls : l = sep := (Option.some.inj hl).symm
        rw [hls]
        exact h5 k rfl
    | succ j =>
      show (boundsOK lo hi k && chainOK (some k) (listInsertAt j sep ks2) hi) = true
      rw [Bool.and_eq_true]
      refine ⟨hc2.1, ?_⟩
      refine ih (some k) hi j sep hc2.2 (by simpa using hile) ?_ h2 ?_
      · intro l hl
        refine h1 l ?_
        rw [lowOf_cons_succ]
        exact hl
      · intro v hv
        exact h5 v hv

theorem keyInsertIdx_boundsOK (ks : List Nat) (lo hi : Option Nat) (key : Nat)
    (hchain : chainOK lo ks hi = true) (hkey : boundsOK lo hi key = true) :
    boundsOK (lowOf lo ks (keyInsertIdx ks key))
      (highOf hi ks (keyInsertIdx ks key)) key = true := by
  have hsort := chainOK_sorted ks lo hi hchain
  refine boundsOK_intro _ _ _ ?_ ?_
  · intro l hl
    cases hidx : keyInsertIdx ks key with
    | zero =>
      rw [hidx] at hl
      exact boundsOK_lo lo hi key hkey l hl
    | succ j =>
      rw [hidx] at hl
      exact keyInsertIdx_spec_lt ks key hsort j l (by omega) hl
  · intro h hh
    unfold highOf at hh
    cases hgv : ks.get? (keyInsertIdx ks key) with
    | some v =>
      rw [hgv] at hh
      have hvk := keyInsertIdx_spec_ge ks key hsort _ v (le_refl _) hgv
      have hvh : v = h := Option.some.inj hh
      omega
    | none =>
      rw [hgv] at hh
      exact boundsOK_hi lo hi key hkey h hh

theorem lowOf_ins_le (lo : Option Nat) (ks : List Nat) (i sep j : Nat)
    (hile : i ≤ ks.length) (hj : j ≤ i) :
    lowOf lo (listInsertAt i sep ks) j = lowOf lo ks j := by
  cases j with
  | zero => rfl
  | succ j2 =>
    show (listInsertAt i sep ks).get? j2 = ks.get? j2
    exact get?_listInsertAt_lt ks i j2 sep hile (by omega)

theorem highOf_ins_lt (hi : Option Nat) (ks : List Nat) (i sep j : Nat)
    (hile : i ≤ ks.length) (hj : j < i) :
    highOf hi (listInsertAt i sep ks) j = highOf hi ks j := by
  unfold highOf
  rw [get?_listInsertAt_lt ks i j sep hile hj]

theorem highOf_ins_self (hi : Option Nat) (ks : List Nat) (i sep : Nat)
    (hile : i ≤ ks.length) :
    highOf hi (listInsertAt i sep ks) i = some sep := by
  unfold highOf
  rw [get?_listInsertAt_self ks i sep hile]

theorem lowOf_ins_succ_self (lo : Option Nat) (ks : List Nat) (i sep : Nat)
    (hile : i ≤ ks.length) :
    lowOf lo (listInsertAt i sep ks) (i + 1) = some sep := by
  show (listInsertAt i sep ks).get? i = some sep
  exact get?_listInsertAt_self ks i sep hile

theorem highOf_ins_gt (hi : Option Nat) (ks : List Nat) (i sep j : Nat)
    (hj : i < j) :
    highOf hi (listInsertAt i sep ks) j = highOf hi ks (j - 1) := by
  unfold highOf
  rw [get?_listInsertAt_gt ks i j sep hj]

theorem lowOf_ins_gt (lo : Option Nat) (ks : List Nat) (i sep j : Nat)
    (hj : i + 1 < j) :
    lowOf lo (listInsertAt i sep ks) j = lowOf lo ks (j - 1) := by
  cases j with
  | zero => omega
  | succ j2 =>
    show (listInsertAt i sep ks).get? j2 = lowOf lo ks (j2 + 1 - 1)
    rw [get?_listInsertAt_gt ks i j2 sep (by omega)]
    cases j2 with
    | zero => omega
    | succ j3 => rfl

theorem disjoint_of_flatten_nodup {α : Type} : ∀ (L : List (List α)) (j1 j2 : Nat)
    (l1 l2 : List α), L.get? j1 = some l1 → L.get? j2 = some l2 → j1 ≠ j2 →
    L.flatten.Nodup → ∀ x, x ∈ l1 → x ∈ l2 → False := by
  intro L
  induction L with
  | nil =>
    intro j1 j2 l1 l2 h1 h2 _ _ x _ _
    cases h1
  | cons l L ih =>
    intro j1 j2 l1 l2 h1 h2 hne hnd x hx1 hx2
    rw [List.flatten_cons, List.nodup_append] at hnd
    cases j1 with
    | zero =>
      have hl1 : l1 = l := (Option.some.inj h1).symm
      cases j2 with
      | zero => exact hne rfl
      | succ j2b =>
        have hl2 : L.get? j2b = some l2 := h2
        have hx2f : x ∈ L.flatten :=
          List.mem_flatten.mpr ⟨l2, List.get?_mem hl2, hx2⟩
        exact hnd.2.2 (hl1 ▸ hx1) hx2f
    | succ j1b =>
      cases j2 with
      | zero =>
        have hl2 : l2 = l := (Option.some.inj h2).symm
        have hx1f : x ∈ L.flatten :=
          List.mem_flatten.mpr ⟨l1, List.get?_mem h1, hx1⟩
        exact hnd.2.2 (hl2 ▸ hx2) hx1f
      | succ j2b =>
        exact ih j1b j2b l1 l2 h1 h2 (by omega) hnd.2.1 x hx1 hx2

theorem nodup_flatten_of_parts {α : Type} : ∀ (L : List (List α)),
    (∀ l ∈ L, l.Nodup) →
    (∀ j1 j2 l1 l2, L.get? j1 = some l1 → L.get? j2 = some l2 → j1 ≠ j2 →
      ∀ x, x ∈ l1 → x ∈ l2 → False) →
    L.flatten.Nodup := by
  intro L
  induction L with
  | nil => intro _ _; exact List.nodup_nil
  | cons l L ih =>
    intro hall hdis
    rw [List.flatten_cons, List.nodup_append]
    refine ⟨hall l (List.mem_cons_self _ _),
      ih (fun l2 hl2 => hall l2 (List.mem_cons.mpr (Or.inr hl2)))
        (fun j1 j2 l1 l2 h1 h2 hne => hdis (j1 + 1) (j2 + 1) l1 l2 h1 h2 (by omega)), ?_⟩
    intro x hx hxf
    obtain ⟨sub, hsub, hxsub⟩ := List.mem_flatten.mp hxf
    obtain ⟨j, hj⟩ := List.mem_iff_get?.mp hsub
    exact hdis 0 (j + 1) l sub rfl hj (by omega) x hx hxsub

theorem mem_flatten_index {α : Type} (L : List (List α)) (x : α)
    (hx : x ∈ L.flatten) : ∃ j l, L.get? j = some l ∧ x ∈ l := by
  obtain ⟨sub, hsub, hxsub⟩ := List.mem_flatten.mp hx
  obtain ⟨j, hj⟩ := List.mem_iff_get?.mp hsub
  exact ⟨j, sub, hj, hxsub⟩

theorem get?_map_getD {β : Type} (ps : List Nat) (F : Nat → β) (j : Nat)
    (hj : j < ps.length) :
    (ps.map F).get? j = some (F (ps.getD j 0)) := by
  rw [List.get?_map, get?_eq_getD ps j hj]
  rfl

theorem get?_some_lt {α : Type} (l : List α) (i : Nat) (a : α)
    (h : l.get? i = some a) : i < l.length := by
  by_contra hc
  push_neg at hc
  rw [List.get?_eq_none.mpr hc] at h
  cases h

theorem getD_of_get? (l : List Nat) (i : Nat) (a : Nat) (h : l.get? i = some a) :
    l.getD i 0 = a := by
  have h2 := get?_eq_getD l i (get?_some_lt l i a h)
  rw [h2] at h
  exact Option.some.inj h

/-- After a leaf split, both halves are order-well-formed around the
separator (the largest key kept on the left), nonempty, and the separator
with a strictly larger right-half key both lie in the child's interval. -/
theorem split_leaf_owf (f : Nat) (co fresh : Nat) (es rkeys : List LeafPageEntry)
    (lastE : LeafPageEntry) (LO HI : Option Nat) (db2 : DB) (blob2 blob3 : Blob)
    (hsort : leafSorted { offset := co, keys := es })
    (hbnd : ∀ e ∈ es, boundsOK LO HI e.key = true)
    (hgl : (es.take (es.length / 2)).getLast? = some lastE)
    (hrk : entryKeys rkeys = entryKeys (es.drop (es.length / 2)))
    (hstL : db2.store.get co = some (.leafData (es.take (es.length / 2)) blob2))
    (hstR : db2.store.get fresh = some (.leafData rkeys blob3)) :
    WFo (f + 1) co LO (some lastE.key) db2 = true ∧
    WFo (f + 1) fresh (some lastE.key) HI db2 = true ∧
    boundsOK LO HI lastE.key = true ∧
    (∃ b, b ∈ entryKeys (es.drop (es.length / 2)) ∧ lastE.key < b ∧
      boundsOK LO HI b = true) ∧
    allLeavesNE (f + 1) co db2 = true ∧
    allLeavesNE (f + 1) fresh db2 = true := by
  have htne : es.take (es.length / 2) ≠ [] := by
    intro hc
    rw [hc] at hgl
    cases hgl
  have hlenpos : 0 < es.length := by
    rcases Nat.eq_zero_or_pos es.length with h0 | hpos
    · exfalso
      have : es = [] := List.length_eq_zero.mp h0
      rw [this] at htne
      exact htne (List.take_nil)
    · exact hpos
  have hnlt : es.length / 2 < es.length := Nat.div_lt_self hlenpos (by omega)
  have hglE : ((entryKeys es).take (es.length / 2)).getLast? = some lastE.key := by
    rw [show (entryKeys es).take (es.length / 2) =
      entryKeys (es.take (es.length / 2)) by
        show (es.map (·.key)).take _ = (es.take _).map (·.key)
        rw [List.map_take]]
    rw [getLast?_entryKeys, hgl]
    rfl
  have hmax : ∀ x ∈ entryKeys (es.take (es.length / 2)), x ≤ lastE.key := by
    intro x hx
    refine sorted_getLast?_max (entryKeys (es.take (es.length / 2))) lastE.key
      (leafSorted_take co co _ es hsort) ?_ x hx
    rw [getLast?_entryKeys, hgl]
    rfl
  have hgtdrop : ∀ b ∈ entryKeys (es.drop (es.length / 2)), lastE.key < b := by
    intro b hb
    refine sorted_take_last_lt_drop (entryKeys es) (es.length / 2) lastE.key hsort
      hglE b ?_
    rw [show (entryKeys es).drop (es.length / 2) =
      entryKeys (es.drop (es.length / 2)) by
        show (es.map (·.key)).drop _ = (es.drop _).map (·.key)
        rw [List.map_drop]]
    exact hb
  have hdrop0 : ∃ e0, (es.drop (es.length / 2)).get? 0 = some e0 := by
    cases hd : (es.drop (es.length / 2)).get? 0 with
    | none =>
      exfalso
      rw [List.get?_eq_none] at hd
      rw [List.length_drop] at hd
      omega
    | some e0 => exact ⟨e0, rfl⟩
  obtain ⟨e0, he0⟩ := hdrop0
  have he0mem : e0 ∈ es.drop (es.length / 2) := List.get?_mem he0
  refine ⟨?_, ?_, ?_, ?_, ?_, ?_⟩
  · rw [WFo_of_leaf f co LO (some lastE.key) db2 _ blob2 hstL]
    rw [List.all_eq_true]
    intro e he
    refine boundsOK_intro LO (some lastE.key) e.key ?_ ?_
    · exact boundsOK_lo LO HI e.key (hbnd e (List.take_subset _ _ he))
    · intro hb hhb
      have hba : lastE.key = hb := Option.some.inj hhb
      have := hmax e.key (List.mem_map_of_mem _ he)
      omega
  · rw [WFo_of_leaf f fresh (some lastE.key) HI db2 _ blob3 hstR]
    rw [List.all_eq_true]
    intro e he
    have hkeymem : e.key ∈ entryKeys (es.drop (es.length / 2)) := by
      rw [← hrk]
      exact List.mem_map_of_mem _ he
    obtain ⟨e2, he2, he2key⟩ := List.mem_map.mp hkeymem
    refine boundsOK_intro (some lastE.key) HI e.key ?_ ?_
    · intro l hl
      have hll : lastE.key = l := Option.some.inj hl
      have := hgtdrop e.key hkeymem
      omega
    · rw [← he2key]
      exact boundsOK_hi LO HI e2.key (hbnd e2 (List.drop_subset _ _ he2))
  · have hmem : lastE ∈ es := List.take_subset _ _ (mem_of_getLastSome _ lastE hgl)
    exact hbnd lastE hmem
  · refine ⟨e0.key, List.mem_map_of_mem _ he0mem, hgtdrop e0.key
      (List.mem_map_of_mem _ he0mem), ?_⟩
    exact hbnd e0 (List.drop_subset _ _ he0mem)
  · rw [allLeavesNE_of_leaf f co db2 _ blob2 hstL]
    simpa using htne
  · rw [allLeavesNE_of_leaf f fresh db2 _ blob3 hstR]
    simp only [decide_eq_true_eq]
    intro hc
    rw [hc] at hrk
    have : e0.key ∈ entryKeys (es.drop (es.length / 2)) := List.mem_map_of_mem _ he0mem
    rw [← hrk] at this
    cases this

theorem lowOf_pos (lo : Option Nat) (ks : List Nat) (j : Nat) (hj : 1 ≤ j) :
    lowOf lo ks j = ks.get? (j - 1) := by
  cases j with
  | zero => omega
  | succ m => rfl

/-- After an internal split, both halves are order-well-formed around the
popped separator, their leaves stay nonempty, and the separator together
with a strictly larger residual key lie in the child's interval. -/
theorem split_internal_owf (f : Nat) (co fresh : Nat) (cks cps : List Nat)
    (sep : Nat) (LO HI : Option Nat) (db db2 : DB)
    (hld : db.store.get co = some (.internalData cks cps))
    (hwfco : WFb (f + 1) co db = true)
    (hwoc : WFo (f + 1) co LO HI db = true)
    (hnec : allLeavesNE (f + 1) co db = true)
    (hgl : (cks.take (cks.length / 2)).getLast? = some sep)
    (hstL : db2.store.get co = some (.internalData
      ((cks.take (cks.length / 2)).dropLast) (cps.take (cks.length / 2))))
    (hstR : db2.store.get fresh = some (.internalData
      (cks.drop (cks.length / 2)) (cps.drop (cks.length / 2))))
    (hchfix : ∀ c ∈ cps, ∀ x ∈ subOffsets f c db, db2.store.get x = db.store.get x) :
    WFo (f + 1) co LO (some sep) db2 = true ∧
    WFo (f + 1) fresh (some sep) HI db2 = true ∧
    boundsOK LO HI sep = true ∧
    (∃ b, sep < b ∧ boundsOK LO HI b = true) ∧
    allLeavesNE (f + 1) co db2 = true ∧
    allLeavesNE (f + 1) fresh db2 = true := by
  obtain ⟨_, harc, hchw⟩ := WFb_succ_internal f co db cks cps hwfco hld
  obtain ⟨hchain, hkids⟩ := WFo_succ_internal f co LO HI db cks cps hwoc hld
  have hnech : ∀ c ∈ cps, allLeavesNE f c db = true := by
    rw [allLeavesNE_of_internal f co db cks cps hld, List.all_eq_true] at hnec
    exact hnec
  have htne : cks.take (cks.length / 2) ≠ [] := by
    intro hc
    rw [hc] at hgl
    cases hgl
  have hlenpos : 0 < cks.length := by
    rcases Nat.eq_zero_or_pos cks.length with h0 | hpos
    · exfalso
      rw [List.length_eq_zero.mp h0] at htne
      exact htne List.take_nil
    · exact hpos
  have hpos : 1 ≤ cks.length / 2 := by
    rcases Nat.eq_zero_or_pos (cks.length / 2) with h0 | hp
    · exfalso
      rw [h0] at htne
      exact htne (List.take_zero cks)
    · exact hp
  have hnlt : cks.length / 2 < cks.length := Nat.div_lt_self hlenpos (by omega)
  have hlentakeK : (cks.take (cks.length / 2)).length = cks.length / 2 := by
    rw [List.length_take]
    omega
  have hsep : cks.get? (cks.length / 2 - 1) = some sep := by
    have h1 : (cks.take (cks.length / 2)).getLast? =
        (cks.take (cks.length / 2)).get? ((cks.take (cks.length / 2)).length - 1) := by
      rw [List.get?_eq_getElem?, List.getLast?_eq_getElem?]
    rw [h1, hlentakeK, List.get?_take (by omega)] at hgl
    exact hgl
  have hlentakeP : (cps.take (cks.length / 2)).length = cks.length / 2 := by
    rw [List.length_take]
    omega
  have hlendropP : (cps.drop (cks.length / 2)).length = cps.length - cks.length / 2 :=
    List.length_drop _ _
  have hdl : ((cks.take (cks.length / 2)).dropLast).length = cks.length / 2 - 1 := by
    rw [List.length_dropLast, hlentakeK]
  have hdlget : ∀ m, m < cks.length / 2 - 1 →
      ((cks.take (cks.length / 2)).dropLast).get? m = cks.get? m := by
    intro m hm
    rw [List.get?_eq_getElem?, List.getElem?_dropLast, hlentakeK]
    rw [if_pos hm]
    rw [← List.get?_eq_getElem?, List.get?_take (by omega)]
  have hdlnone : ∀ m, cks.length / 2 - 1 ≤ m →
      ((cks.take (cks.length / 2)).dropLast).get? m = none := by
    intro m hm
    apply List.get?_eq_none.mpr
    rw [hdl]
    exact hm
  have hsepmem : sep ∈ cks :=
    List.take_subset _ _ (mem_of_getLastSome _ sep hgl)
  have hbwit : ∃ b, cks.get? (cks.length / 2) = some b := by
    cases hx : cks.get? (cks.length / 2) with
    | none =>
      exfalso
      rw [List.get?_eq_none] at hx
      omega
    | some b => exact ⟨b, rfl⟩
  obtain ⟨b0, hb0⟩ := hbwit
  have hb0mem : b0 ∈ cks := List.get?_mem hb0
  have hb0drop : b0 ∈ cks.drop (cks.length / 2) := by
    have h2 : (cks.drop (cks.length / 2)).get? 0 = some b0 := by
      rw [List.get?_drop]
      rw [Nat.add_zero]
      exact hb0
    exact List.get?_mem h2
  refine ⟨?_, ?_, chainOK_mem cks LO HI hchain sep hsepmem, ?_, ?_, ?_⟩
  · rw [WFo_of_internal f co LO (some sep) db2 _ _ hstL]
    rw [Bool.and_eq_true]
    constructor
    · exact chainOK_dropLast_last _ LO HI sep (chainOK_front cks LO HI _ hchain) hgl
    · rw [List.all_eq_true]
      intro j hj
      rw [List.mem_range, hlentakeP] at hj
      have hjcps : j < cps.length := by omega
      have hcg : (cps.take (cks.length / 2)).getD j 0 = cps.getD j 0 := by
        apply getD_of_get?
        rw [List.get?_take hj]
        exact get?_eq_getD cps j hjcps
      rw [hcg]
      have hlow : lowOf LO ((cks.take (cks.length / 2)).dropLast) j = lowOf LO cks j := by
        cases j with
        | zero => rfl
        | succ m =>
          show ((cks.take (cks.length / 2)).dropLast).get? m = cks.get? m
          exact hdlget m (by omega)
      have hhigh : highOf (some sep) ((cks.take (cks.length / 2)).dropLast) j =
          highOf HI cks j := by
        by_cases hjlast : j < cks.length / 2 - 1
        · unfold highOf
          rw [hdlget j hjlast]
          cases hv : cks.get? j with
          | none =>
            exfalso
            rw [List.get?_eq_none] at hv
            omega
          | some v => rfl
        · have hje : j = cks.length / 2 - 1 := by omega
          unfold highOf
          rw [hdlnone j (by omega), hje, hsep]
      rw [hlow, hhigh]
      refine WFo_congr f (cps.getD j 0) _ _ db db2 ?_ (hkids j hjcps)
      intro o ho
      exact hchfix (cps.getD j 0) (getD_mem cps j hjcps) o ho
  · rw [WFo_of_internal f fresh (some sep) HI db2 _ _ hstR]
    rw [Bool.and_eq_true]
    constructor
    · exact chainOK_suffix cks LO HI _ sep hchain hgl
    · rw [List.all_eq_true]
      intro j hj
      rw [List.mem_range, hlendropP] at hj
      have hjcps : cks.length / 2 + j < cps.length := by omega
      have hcg : (cps.drop (cks.length / 2)).getD j 0 =
          cps.getD (cks.length / 2 + j) 0 := by
        apply getD_of_get?
        rw [List.get?_drop]
        exact get?_eq_getD cps _ hjcps
      rw [hcg]
      have hlow : lowOf (some sep) (cks.drop (cks.length / 2)) j =
          lowOf LO cks (cks.length / 2 + j) := by
        cases j with
        | zero =>
          rw [Nat.add_zero, lowOf_pos LO cks _ hpos]
          exact hsep.symm
        | succ m =>
          rw [lowOf_pos LO cks _ (by omega)]
          show (cks.drop (cks.length / 2)).get? m = _
          rw [List.get?_drop]
          rw [show cks.length / 2 + (m + 1) - 1 = cks.length / 2 + m by omega]
      have hhigh : highOf HI (cks.drop (cks.length / 2)) j =
          highOf HI cks (cks.length / 2 + j) := by
        unfold highOf
        rw [List.get?_drop]
      rw [hlow, hhigh]
      refine WFo_congr f _ _ _ db db2 ?_ (hkids (cks.length / 2 + j) hjcps)
      intro o ho
      exact hchfix _ (getD_mem cps _ hjcps) o ho
  · refine ⟨b0, ?_, chainOK_mem cks LO HI hchain b0 hb0mem⟩
    exact sorted_take_last_lt_drop cks (cks.length / 2) sep
      (chainOK_sorted cks LO HI hchain) hgl b0 hb0drop
  · rw [allLeavesNE_of_internal f co db2 _ _ hstL, List.all_eq_true]
    intro c hc
    have hcm : c ∈ cps := List.take_subset _ _ hc
    exact allLeavesNE_congr f c db db2 (hchfix c hcm) (hnech c hcm)
  · rw [allLeavesNE_of_internal f fresh db2 _ _ hstR, List.all_eq_true]
    intro c hc
    have hcm : c ∈ cps := List.drop_subset _ _ hc
    exact allLeavesNE_congr f c db db2 (hchfix c hcm) (hnech c hcm)

/-- The leaf case of `btree_insert_nonfull`, with the resulting directory
spelled out: the key column gains `key` at its sorted position. -/
theorem ins_leaf_inv (fuel : Nat) (off key : Nat) (data : List Nat) (db db' : DB)
    (es : List LeafPageEntry) (blob : Blob)
    (hs : db.store.get off = some (.leafData es blob))
    (hsort : leafSorted { offset := off, keys := es })
    (hrun : BTree.btree_insert_nonfull (fuel + 1) (.leaf { offset := off, keys := es })
      key data db = .ok db') :
    (∃ es2 blob2, db'.store.get off = some (.leafData es2 blob2) ∧
      leafSorted { offset := off, keys := es2 } ∧
      entryKeys es2 =
        ((entryKeys es).filter (fun x => decide (x < key))) ++
          key :: ((entryKeys es).filter (fun x => decide (key < x)))) ∧
    (∀ o, o ≠ off → db'.store.get o = db.store.get o) ∧
    db'.meta = db.meta := by
  rw [insert_nonfull_leaf] at hrun
  cases hup : LeafPage.upsert_value fuel { offset := off, keys := es } key data db with
  | error e =>
    rw [hup] at hrun
    cases hrun
  | ok r =>
    rw [hup] at hrun
    replace hrun : Except.ok (ε := EngineErr) r.2 = .ok db' := hrun
    have hdb' : db' = r.2 := (Except.ok.inj hrun).symm
    have hout := (upsert_defrag_spec fuel).1 { offset := off, keys := es } key data db
      r.1 r.2 es blob hs hsort hup
    obtain ⟨ho1, ho2, ho3, ho4, ho5, ho6, _, _⟩ := hout
    obtain ⟨blob2, hleaf2⟩ := ho5
    refine ⟨⟨r.1.keys, blob2, ?_, ?_, ho2⟩, ?_, ?_⟩
    · rw [hdb']
      exact hleaf2
    · show (entryKeys r.1.keys).Sorted (· < ·)
      exact ho3
    · intro o ho
      rw [hdb']
      exact ho6 o ho
    · rw [hdb']
      exact ho4

/-- What a successful `btree_insert_nonfull` preserves about the subtree at
`off`: structural and order well-formedness, duplicate-free page offsets that
are either old or freshly allocated, nonempty leaves, and a frame over all
pages outside the subtree. -/
def InsOut (fw off : Nat) (lo hi : Option Nat) (db db' : DB) : Prop :=
  WFb fw off db' = true ∧
  WFo fw off lo hi db' = true ∧
  (subOffsets fw off db').Nodup ∧
  (∀ x ∈ subOffsets fw off db', x ∈ subOffsets fw off db ∨
    db.block_size * db.meta.num_blocks_allocated ≤ x) ∧
  allLeavesNE fw off db' = true ∧
  (∀ o, o < db.block_size * db.meta.num_blocks_allocated →
    o ∉ subOffsets fw off db → db'.store.get o = db.store.get o) ∧
  db'.meta.block_size_exp = db.meta.block_size_exp ∧
  db.meta.num_blocks_allocated ≤ db'.meta.num_blocks_allocated

/-- Shift the base point of `InsOut` across a prior database transition whose
changed pages all lie inside the subtree or above the old allocation limit. -/
theorem insOut_compose (fw off : Nat) (lo hi : Option Nat) (db db2 db' : DB)
    (hmem2 : ∀ x ∈ subOffsets fw off db2, x ∈ subOffsets fw off db ∨
      db.block_size * db.meta.num_blocks_allocated ≤ x)
    (hframe2 : ∀ o, o < db.block_size * db.meta.num_blocks_allocated →
      o ∉ subOffsets fw off db → db2.store.get o = db.store.get o)
    (hexp2 : db2.meta.block_size_exp = db.meta.block_size_exp)
    (hnum2 : db.meta.num_blocks_allocated ≤ db2.meta.num_blocks_allocated)
    (hout : InsOut fw off lo hi db2 db') :
    InsOut fw off lo hi db db' := by
  obtain ⟨oWFb, oWFo, oNd, oMem, oNE, oFrame, oExp, oNum⟩ := hout
  have hlim : db.block_size * db.meta.num_blocks_allocated ≤
      db2.block_size * db2.meta.num_blocks_allocated :=
    limit_le_of_mono db db2 hexp2 hnum2
  refine ⟨oWFb, oWFo, oNd, ?_, oNE, ?_, ?_, ?_⟩
  · intro x hx
    rcases oMem x hx with h2 | h2
    · exact hmem2 x h2
    · exact Or.inr (le_trans hlim h2)
  · intro o holt honot
    have honot2 : o ∉ subOffsets fw off db2 := by
      intro hc
      rcases hmem2 o hc with h2 | h2
      · exact honot h2
      · omega
    rw [oFrame o (lt_of_lt_of_le holt hlim) honot2]
    exact hframe2 o holt honot
  · rw [oExp, hexp2]
  · exact le_trans hnum2 oNum

/-- Reassemble the parent's invariants after an insert descended into child
`t`: the parent page and every sibling subtree are untouched, and the
descended child satisfies `InsOut`. -/
theorem parent_step (v off : Nat) (lo hi : Option Nat) (ks ps : List Nat) (t : Nat)
    (dbM db' : DB)
    (hsM : dbM.store.get off = some (.internalData ks ps))
    (hofflt : off < dbM.block_size * dbM.meta.num_blocks_allocated)
    (harity : ps.length = ks.length + 1)
    (hchain : chainOK lo ks hi = true)
    (ht : t < ps.length)
    (hchwM : ∀ o ∈ ps, WFb (v + 1) o dbM = true)
    (hkidsM : ∀ j, j < ps.length →
      WFo (v + 1) (ps.getD j 0) (lowOf lo ks j) (highOf hi ks j) dbM = true)
    (hneM : ∀ o ∈ ps, allLeavesNE (v + 1) o dbM = true)
    (hndM : (subOffsets (v + 1 + 1) off dbM).Nodup)
    (hout : InsOut (v + 1) (ps.getD t 0) (lowOf lo ks t) (highOf hi ks t) dbM db') :
    InsOut (v + 1 + 1) off lo hi dbM db' := by
  obtain ⟨oWFb, oWFo, oNd, oMem, oNE, oFrame, oExp, oNum⟩ := hout
  have hlim : dbM.block_size * dbM.meta.num_blocks_allocated ≤
      db'.block_size * db'.meta.num_blocks_allocated :=
    limit_le_of_mono dbM db' oExp oNum
  have htgtmem : ps.getD t 0 ∈ ps := getD_mem ps t ht
  obtain ⟨hoffnotin, hchnd⟩ := nodup_subOffsets_internal (v + 1) off dbM ks ps hsM hndM
  have hflat_nd : ((ps.map fun o => subOffsets (v + 1) o dbM).flatten).Nodup := by
    rw [subOffsets_of_internal (v + 1) off dbM ks ps hsM, List.nodup_cons] at hndM
    exact hndM.2
  have hpartM : ∀ j, j < ps.length →
      (ps.map fun o => subOffsets (v + 1) o dbM).get? j =
        some (subOffsets (v + 1) (ps.getD j 0) dbM) :=
    fun j hj => get?_map_getD ps _ j hj
  have hsubT : ∀ x ∈ subOffsets (v + 1) (ps.getD t 0) dbM,
      x ∈ subOffsets (v + 1 + 1) off dbM :=
    child_subOffsets_subset (v + 1) off dbM ks ps _ hsM htgtmem
  have hfixIdx : ∀ j, j < ps.length → j ≠ t →
      ∀ x ∈ subOffsets (v + 1) (ps.getD j 0) dbM,
        db'.store.get x = dbM.store.get x := by
    intro j hj hjt x hx
    have hxlt : x < dbM.block_size * dbM.meta.num_blocks_allocated :=
      subOffsets_lt_of_WFb (v + 1) _ dbM (hchwM _ (getD_mem ps j hj)) x hx
    have hxnot : x ∉ subOffsets (v + 1) (ps.getD t 0) dbM := by
      intro hc
      exact disjoint_of_flatten_nodup _ j t _ _ (hpartM j hj) (hpartM t ht) hjt
        hflat_nd x hx hc
    exact oFrame x hxlt hxnot
  have hfixVal : ∀ o ∈ ps, o ≠ ps.getD t 0 →
      ∀ x ∈ subOffsets (v + 1) o dbM, db'.store.get x = dbM.store.get x := by
    intro o ho hone x hx
    obtain ⟨j, hj⟩ := List.mem_iff_get?.mp ho
    have hjlt : j < ps.length := get?_some_lt ps j o hj
    have hgd : ps.getD j 0 = o := getD_of_get? ps j o hj
    have hjt : j ≠ t := by
      intro hc
      rw [hc] at hgd
      exact hone hgd.symm
    rw [← hgd] at hx
    exact hfixIdx j hjlt hjt x hx
  have hoffnotT : off ∉ subOffsets (v + 1) (ps.getD t 0) dbM := by
    intro hc
    exact hoffnotin (List.mem_flatten.mpr
      ⟨_, List.mem_map.mpr ⟨_, htgtmem, rfl⟩, hc⟩)
  have hsM' : db'.store.get off = some (.internalData ks ps) := by
    rw [oFrame off hofflt hoffnotT]
    exact hsM
  have hsubeqIdx : ∀ j, j < ps.length → j ≠ t →
      subOffsets (v + 1) (ps.getD j 0) db' = subOffsets (v + 1) (ps.getD j 0) dbM :=
    fun j hj hjt => subOffsets_congr (v + 1) _ dbM db' (hfixIdx j hj hjt)
  have hpart' : ∀ j, j < ps.length →
      (ps.map fun o => subOffsets (v + 1) o db').get? j =
        some (subOffsets (v + 1) (ps.getD j 0) db') :=
    fun j hj => get?_map_getD ps _ j hj
  refine ⟨?_, ?_, ?_, ?_, ?_, ?_, oExp, oNum⟩
  · unfold WFb
    rw [hsM']
    simp only [Bool.and_eq_true, decide_eq_true_eq, List.all_eq_true]
    refine ⟨lt_of_lt_of_le hofflt hlim, harity, ?_⟩
    intro o ho
    by_cases hot : o = ps.getD t 0
    · rw [hot]
      exact oWFb
    · exact WFb_congr (v + 1) o dbM db' (hfixVal o ho hot) hlim (hchwM o ho)
  · rw [WFo_of_internal (v + 1) off lo hi db' ks ps hsM']
    simp only [Bool.and_eq_true, List.all_eq_true, List.mem_range]
    refine ⟨hchain, ?_⟩
    intro j hj
    by_cases hjt : j = t
    · rw [hjt]
      exact oWFo
    · exact WFo_congr (v + 1) _ _ _ dbM db' (hfixIdx j hj hjt) (hkidsM j hj)
  · rw [subOffsets_of_internal (v + 1) off db' ks ps hsM', List.nodup_cons]
    constructor
    · intro hc
      obtain ⟨j, l, hjl, hxl⟩ := mem_flatten_index _ off hc
      have hjlt : j < ps.length := by
        have := get?_some_lt _ j l hjl
        simpa using this
      have hleq : l = subOffsets (v + 1) (ps.getD j 0) db' := by
        have h2 := hpart' j hjlt
        rw [hjl] at h2
        exact Option.some.inj h2
      · rw [hleq] at hxl
        by_cases hjt : j = t
        · rw [hjt] at hxl
          rcases oMem off hxl with h3 | h3
          · exact hoffnotT h3
          · omega
        · rw [hsubeqIdx j hjlt hjt] at hxl
          exact hoffnotin (List.mem_flatten.mpr
            ⟨_, List.mem_map.mpr ⟨_, getD_mem ps j hjlt, rfl⟩, hxl⟩)
    · refine nodup_flatten_of_parts _ ?_ ?_
      · intro l hl
        obtain ⟨o, ho, rfl⟩ := List.mem_map.mp hl
        by_cases hot : o = ps.getD t 0
        · rw [hot]
          exact oNd
        · rw [subOffsets_congr (v + 1) o dbM db' (hfixVal o ho hot)]
          obtain ⟨j, hj⟩ := List.mem_iff_get?.mp ho
          have hjlt : j < ps.length := get?_some_lt ps j o hj
          have hgd : ps.getD j 0 = o := getD_of_get? ps j o hj
          exact hchnd o ho
      · intro j1 j2 l1 l2 h1 h2 hne x hx1 hx2
        have hj1 : j1 < ps.length := by
          have := get?_some_lt _ j1 l1 h1
          simpa using this
        have hj2 : j2 < ps.length := by
          have := get?_some_lt _ j2 l2 h2
          simpa using this
        have hl1 : l1 = subOffsets (v + 1) (ps.getD j1 0) db' := by
          have h3 := hpart' j1 hj1
          rw [h1] at h3
          exact Option.some.inj h3
        have hl2 : l2 = subOffsets (v + 1) (ps.getD j2 0) db' := by
          have h3 := hpart' j2 hj2
          rw [h2] at h3
          exact Option.some.inj h3
        rw [hl1] at hx1
        rw [hl2] at hx2
        by_cases h1t : j1 = t
        · have h2t : j2 ≠ t := by omega
          rw [hsubeqIdx j2 hj2 h2t] at hx2
          rw [h1t] at hx1
          rcases oMem x hx1 with h3 | h3
          · exact disjoint_of_flatten_nodup _ t j2 _ _ (hpartM t ht) (hpartM j2 hj2)
              (by omega) hflat_nd x h3 hx2
          · have := subOffsets_lt_of_WFb (v + 1) _ dbM
              (hchwM _ (getD_mem ps j2 hj2)) x hx2
            omega
        · by_cases h2t : j2 = t
          · rw [hsubeqIdx j1 hj1 h1t] at hx1
            rw [h2t] at hx2
            rcases oMem x hx2 with h3 | h3
            · exact disjoint_of_flatten_nodup _ j1 t _ _ (hpartM j1 hj1) (hpartM t ht)
                h1t hflat_nd x hx1 h3
            · have := subOffsets_lt_of_WFb (v + 1) _ dbM
                (hchwM _ (getD_mem ps j1 hj1)) x hx1
              omega
          · rw [hsubeqIdx j1 hj1 h1t] at hx1
            rw [hsubeqIdx j2 hj2 h2t] at hx2
            exact disjoint_of_flatten_nodup _ j1 j2 _ _ (hpartM j1 hj1) (hpartM j2 hj2)
              hne hflat_nd x hx1 hx2
  · intro x hx
    rw [subOffsets_of_internal (v + 1) off db' ks ps hsM'] at hx
    rcases List.mem_cons.mp hx with rfl | hmem
    · exact Or.inl (self_mem_subOffsets (v + 1) x dbM)
    · obtain ⟨j, l, hjl, hxl⟩ := mem_flatten_index _ x hmem
      have hjlt : j < ps.length := by
        have := get?_some_lt _ j l hjl
        simpa using this
      have hleq : l = subOffsets (v + 1) (ps.getD j 0) db' := by
        have h2 := hpart' j hjlt
        rw [hjl] at h2
        exact Option.some.inj h2
      rw [hleq] at hxl
      by_cases hjt : j = t
      · rw [hjt] at hxl
        rcases oMem x hxl with h3 | h3
        · exact Or.inl (hsubT x h3)
        · exact Or.inr h3
      · rw [hsubeqIdx j hjlt hjt] at hxl
        refine Or.inl (child_subOffsets_subset (v + 1) off dbM ks ps _ hsM
          (getD_mem ps j hjlt) x hxl)
  · rw [allLeavesNE_of_internal (v + 1) off db' ks ps hsM', List.all_eq_true]
    intro o ho
    by_cases hot : o = ps.getD t 0
    · rw [hot]
      exact oNE
    · exact allLeavesNE_congr (v + 1) o dbM db' (hfixVal o ho hot) (hneM o ho)
  · intro o2 holt honot
    refine oFrame o2 holt ?_
    intro hc
    exact honot (hsubT o2 hc)

/-- After `btree_split_child` replaced child `i` of the node at `off` by two
halves around `sep` (left at the old child offset `co`, right at the fresh
block `fresh`), the updated node satisfies every hypothesis of `parent_step`
in the post-split database, so an `InsOut` for the descended child lifts to
the node, relative to the pre-split database. -/
theorem split_step (v off : Nat) (lo hi : Option Nat) (ks ps : List Nat) (i : Nat)
    (co fresh sep : Nat) (KS PS : List Nat) (db db2 : DB)
    (hs : db.store.get off = some (.internalData ks ps))
    (hofflt : off < db.block_size * db.meta.num_blocks_allocated)
    (harity : ps.length = ks.length + 1)
    (hchain : chainOK lo ks hi = true)
    (hchw : ∀ o ∈ ps, WFb (v + 1) o db = true)
    (hkids : ∀ j, j < ps.length →
      WFo (v + 1) (ps.getD j 0) (lowOf lo ks j) (highOf hi ks j) db = true)
    (hnech : ∀ o ∈ ps, allLeavesNE (v + 1) o db = true)
    (hnd : (subOffsets (v + 1 + 1) off db).Nodup)
    (hco : ps.get? i = some co)
    (hfresh : fresh = db.block_size * db.meta.num_blocks_allocated)
    (hKS : KS = listInsertAt i sep ks)
    (hPS : PS = listInsertAt (i + 1) fresh ps)
    (hsM2 : db2.store.get off = some (.internalData KS PS))
    (hmeta2 : db2.meta = { db.meta with
      num_blocks_allocated := db.meta.num_blocks_allocated + 1 })
    (hframe2 : ∀ o, o ≠ off → o ≠ co → o ≠ fresh →
      db2.store.get o = db.store.get o)
    (hwfL : WFb (v + 1) co db2 = true)
    (hwfR : WFb (v + 1) fresh db2 = true)
    (hndL : (subOffsets (v + 1) co db2).Nodup)
    (hndR : (subOffsets (v + 1) fresh db2).Nodup)
    (hmemL : ∀ x ∈ subOffsets (v + 1) co db2, x ∈ subOffsets (v + 1) co db)
    (hmemR : ∀ x ∈ subOffsets (v + 1) fresh db2,
      x = fresh ∨ x ∈ subOffsets (v + 1) co db)
    (hdisjLR : ∀ x, x ∈ subOffsets (v + 1) co db2 →
      x ∈ subOffsets (v + 1) fresh db2 → False)
    (hwoL : WFo (v + 1) co (lowOf lo ks i) (some sep) db2 = true)
    (hwoR : WFo (v + 1) fresh (some sep) (highOf hi ks i) db2 = true)
    (hneL : allLeavesNE (v + 1) co db2 = true)
    (hneR : allLeavesNE (v + 1) fresh db2 = true)
    (hsepbnd : boundsOK (lowOf lo ks i) (highOf hi ks i) sep = true)
    (hsepnext : ∀ vv, ks.get? i = some vv → sep < vv) :
    ∀ (t : Nat) (db' : DB), t < PS.length →
    InsOut (v + 1) (PS.getD t 0) (lowOf lo KS t) (highOf hi KS t) db2 db' →
    InsOut (v + 1 + 1) off lo hi db db' := by
  intro t db' htlt hout
  have hilt : i < ps.length := get?_some_lt ps i co hco
  have hgdco : ps.getD i 0 = co := getD_of_get? ps i co hco
  have hile : i ≤ ks.length := by omega
  have hi1le : i + 1 ≤ ps.length := by omega
  obtain ⟨hoffnotin, hchnd⟩ := nodup_subOffsets_internal (v + 1) off db ks ps hs hnd
  have hflat_nd : ((ps.map fun o => subOffsets (v + 1) o db).flatten).Nodup := by
    rw [subOffsets_of_internal (v + 1) off db ks ps hs, List.nodup_cons] at hnd
    exact hnd.2
  have hpartM : ∀ j, j < ps.length →
      (ps.map fun o => subOffsets (v + 1) o db).get? j =
        some (subOffsets (v + 1) (ps.getD j 0) db) :=
    fun j hj => get?_map_getD ps _ j hj
  have hcomem : co ∈ ps := List.get?_mem hco
  have hcolt : co < db.block_size * db.meta.num_blocks_allocated :=
    subOffsets_lt_of_WFb (v + 1) co db (hchw co hcomem) co (self_mem_subOffsets v co db)
  have hofffr : off ≠ fresh := by omega
  have hcofr : co ≠ fresh := by omega
  have hoffnotco : off ∉ subOffsets (v + 1) co db := by
    intro hc
    exact hoffnotin (List.mem_flatten.mpr ⟨_, List.mem_map.mpr ⟨co, hcomem, rfl⟩, hc⟩)
  have hoffco : off ≠ co := by
    intro hc
    exact hoffnotco (hc ▸ self_mem_subOffsets v co db)
  have hlim2 : db.block_size * db.meta.num_blocks_allocated ≤
      db2.block_size * db2.meta.num_blocks_allocated := limit_le_of_meta db2 db hmeta2
  have hexp2 : db2.meta.block_size_exp = db.meta.block_size_exp := by rw [hmeta2]
  have hnum2 : db.meta.num_blocks_allocated ≤ db2.meta.num_blocks_allocated := by
    rw [hmeta2]
    exact Nat.le_succ _
  have hofflt2 : off < db2.block_size * db2.meta.num_blocks_allocated :=
    lt_of_lt_of_le hofflt hlim2
  have hPSlen : PS.length = ps.length + 1 := by
    rw [hPS]
    exact length_listInsertAt ps _ _
  have hKSlen : KS.length = ks.length + 1 := by
    rw [hKS]
    exact length_listInsertAt ks _ _
  have harity2 : PS.length = KS.length + 1 := by omega
  have hfixIdx : ∀ j, j < ps.length → j ≠ i →
      ∀ x ∈ subOffsets (v + 1) (ps.getD j 0) db,
        db2.store.get x = db.store.get x := by
    intro j hj hjt x hx
    have hxlt : x < db.block_size * db.meta.num_blocks_allocated :=
      subOffsets_lt_of_WFb (v + 1) _ db (hchw _ (getD_mem ps j hj)) x hx
    refine hframe2 x ?_ ?_ (by omega)
    · intro hc
      rw [hc] at hx
      exact hoffnotin (List.mem_flatten.mpr
        ⟨_, List.mem_map.mpr ⟨_, getD_mem ps j hj, rfl⟩, hx⟩)
    · intro hc
      refine disjoint_of_flatten_nodup _ j i _ _ (hpartM j hj) (hpartM i hilt) hjt
        hflat_nd x hx ?_
      rw [hgdco, ← hc]
      exact self_mem_subOffsets v x db
  have hsubeqIdx : ∀ j, j < ps.length → j ≠ i →
      subOffsets (v + 1) (ps.getD j 0) db2 = subOffsets (v + 1) (ps.getD j 0) db :=
    fun j hj hjt => subOffsets_congr (v + 1) _ db db2 (hfixIdx j hj hjt)
  have hPSlow : ∀ j, j ≤ i → PS.getD j 0 = ps.getD j 0 := by
    intro j hj
    apply getD_of_get?
    rw [hPS, get?_listInsertAt_lt ps (i + 1) j _ hi1le (by omega)]
    exact get?_eq_getD ps j (by omega)
  have hPSt : PS.getD (i + 1) 0 = fresh := by
    apply getD_of_get?
    rw [hPS]
    exact get?_listInsertAt_self ps (i + 1) _ hi1le
  have hPShigh : ∀ j, i + 1 < j → j < PS.length → PS.getD j 0 = ps.getD (j - 1) 0 := by
    intro j h1 h2
    apply getD_of_get?
    rw [hPS, get?_listInsertAt_gt ps (i + 1) j _ h1]
    exact get?_eq_getD ps (j - 1) (by omega)
  have hKlow_le : ∀ j, j ≤ i → lowOf lo KS j = lowOf lo ks j := by
    intro j hj
    rw [hKS]
    exact lowOf_ins_le lo ks i sep j hile hj
  have hKhigh_lt : ∀ j, j < i → highOf hi KS j = highOf hi ks j := by
    intro j hj
    rw [hKS]
    exact highOf_ins_lt hi ks i sep j hile hj
  have hKhigh_i : highOf hi KS i = some sep := by
    rw [hKS]
    exact highOf_ins_self hi ks i sep hile
  have hKlow_i1 : lowOf lo KS (i + 1) = some sep := by
    rw [hKS]
    exact lowOf_ins_succ_self lo ks i sep hile
  have hKhigh_gt : ∀ j, i < j → highOf hi KS j = highOf hi ks (j - 1) := by
    intro j hj
    rw [hKS]
    exact highOf_ins_gt hi ks i sep j hj
  have hKlow_gt : ∀ j, i + 1 < j → lowOf lo KS j = lowOf lo ks (j - 1) := by
    intro j hj
    rw [hKS]
    exact lowOf_ins_gt lo ks i sep j hj
  have hchain2 : chainOK lo KS hi = true := by
    rw [hKS]
    refine chainOK_insert ks lo hi i sep hchain hile
      (boundsOK_lo _ _ _ hsepbnd) ?_ hsepnext
    intro hval hhi
    cases hgv : ks.get? i with
    | some vv =>
      have hs2 := hsepnext vv hgv
      have hvmem : vv ∈ ks := List.get?_mem hgv
      have hvh : vv ≤ hval :=
        boundsOK_hi lo hi vv (chainOK_mem ks lo hi hchain vv hvmem) hval hhi
      omega
    | none =>
      have hhv : highOf hi ks i = hi := by
        unfold highOf
        rw [hgv]
      refine boundsOK_hi _ _ _ hsepbnd hval ?_
      rw [hhv]
      exact hhi
  have hchwM2 : ∀ o ∈ PS, WFb (v + 1) o db2 = true := by
    intro o ho
    rw [hPS, mem_listInsertAt] at ho
    rcases ho with rfl | ho2
    · exact hwfR
    · by_cases hoc : o = co
      · rw [hoc]
        exact hwfL
      · obtain ⟨j, hj⟩ := List.mem_iff_get?.mp ho2
        have hjlt : j < ps.length := get?_some_lt ps j o hj
        have hgd : ps.getD j 0 = o := getD_of_get? ps j o hj
        have hjne : j ≠ i := by
          intro hc
          rw [hc, hgdco] at hgd
          exact hoc hgd.symm
        rw [← hgd]
        exact WFb_congr (v + 1) _ db db2 (hfixIdx j hjlt hjne) hlim2
          (hchw _ (getD_mem ps j hjlt))
  have hkidsM2 : ∀ j, j < PS.length →
      WFo (v + 1) (PS.getD j 0) (lowOf lo KS j) (highOf hi KS j) db2 = true := by
    intro j hj
    rcases Nat.lt_trichotomy j i with hlt | heq | hgt
    · rw [hPSlow j (by omega), hKlow_le j (by omega), hKhigh_lt j hlt]
      exact WFo_congr (v + 1) _ _ _ db db2 (hfixIdx j (by omega) (by omega))
        (hkids j (by omega))
    · rw [heq, hPSlow i (le_refl i), hgdco, hKlow_le i (le_refl i), hKhigh_i]
      exact hwoL
    · by_cases hj1 : j = i + 1
      · rw [hj1, hPSt, hKlow_i1, hKhigh_gt (i + 1) (by omega),
          show i + 1 - 1 = i by omega]
        exact hwoR
      · have hjm : j - 1 < ps.length := by omega
        rw [hPShigh j (by omega) hj, hKlow_gt j (by omega), hKhigh_gt j (by omega)]
        exact WFo_congr (v + 1) _ _ _ db db2 (hfixIdx (j - 1) hjm (by omega))
          (hkids (j - 1) hjm)
  have hneM2 : ∀ o ∈ PS, allLeavesNE (v + 1) o db2 = true := by
    intro o ho
    rw [hPS, mem_listInsertAt] at ho
    rcases ho with rfl | ho2
    · exact hneR
    · by_cases hoc : o = co
      · rw [hoc]
        exact hneL
      · obtain ⟨j, hj⟩ := List.mem_iff_get?.mp ho2
        have hjlt : j < ps.length := get?_some_lt ps j o hj
        have hgd : ps.getD j 0 = o := getD_of_get? ps j o hj
        have hjne : j ≠ i := by
          intro hc
          rw [hc, hgdco] at hgd
          exact hoc hgd.symm
        rw [← hgd]
        exact allLeavesNE_congr (v + 1) _ db db2 (hfixIdx j hjlt hjne)
          (hnech _ (getD_mem ps j hjlt))
  have hpart2 : ∀ j, j < PS.length →
      (PS.map fun o => subOffsets (v + 1) o db2).get? j =
        some (subOffsets (v + 1) (PS.getD j 0) db2) :=
    fun j hj => get?_map_getD PS _ j hj
  have hclass : ∀ j, j < PS.length → ∀ y ∈ subOffsets (v + 1) (PS.getD j 0) db2,
      (j = i + 1 ∧ y = fresh) ∨
      ((if j ≤ i then j else j - 1) < ps.length ∧
        y ∈ subOffsets (v + 1) (ps.getD (if j ≤ i then j else j - 1) 0) db) := by
    intro j hj y hy
    rcases Nat.lt_trichotomy j i with hlt | heq | hgt
    · rw [hPSlow j (by omega), hsubeqIdx j (by omega) (by omega)] at hy
      rw [if_pos (by omega : j ≤ i)]
      exact Or.inr ⟨by omega, hy⟩
    · rw [heq, hPSlow i (le_refl i), hgdco] at hy
      have hif : (if j ≤ i then j else j - 1) = i := by
        rw [if_pos (by omega : j ≤ i)]
        omega
      rw [hif, hgdco]
      exact Or.inr ⟨by omega, hmemL y hy⟩
    · by_cases hj1 : j = i + 1
      · rw [hj1, hPSt] at hy
        rcases hmemR y hy with h3 | h3
        · exact Or.inl ⟨hj1, h3⟩
        · have hif : (if j ≤ i then j else j - 1) = i := by
            rw [if_neg (by omega)]
            omega
          rw [hif, hgdco]
          exact Or.inr ⟨by omega, h3⟩
      · rw [hPShigh j (by omega) hj, hsubeqIdx (j - 1) (by omega) (by omega)] at hy
        have hif : (if j ≤ i then j else j - 1) = j - 1 := by
          rw [if_neg (by omega)]
        rw [hif]
        exact Or.inr ⟨by omega, hy⟩
  have hndM2 : (subOffsets (v + 1 + 1) off db2).Nodup := by
    rw [subOffsets_of_internal (v + 1) off db2 KS PS hsM2, List.nodup_cons]
    constructor
    · intro hc
      obtain ⟨j, l, hjl, hxl⟩ := mem_flatten_index _ off hc
      have hjlt : j < PS.length := by
        have := get?_some_lt _ j l hjl
        simpa using this
      have hleq : l = subOffsets (v + 1) (PS.getD j 0) db2 := by
        have h2 := hpart2 j hjlt
        rw [hjl] at h2
        exact Option.some.inj h2
      rw [hleq] at hxl
      rcases hclass j hjlt off hxl with ⟨_, hfr⟩ | ⟨hb, hold⟩
      · omega
      · exact hoffnotin (List.mem_flatten.mpr
          ⟨_, List.mem_map.mpr ⟨_, getD_mem ps _ hb, rfl⟩, hold⟩)
    · refine nodup_flatten_of_parts _ ?_ ?_
      · intro l hl
        obtain ⟨o, ho, rfl⟩ := List.mem_map.mp hl
        rw [hPS, mem_listInsertAt] at ho
        rcases ho with rfl | ho2
        · exact hndR
        · by_cases hoc : o = co
          · rw [hoc]
            exact hndL
          · obtain ⟨j, hj⟩ := List.mem_iff_get?.mp ho2
            have hjlt : j < ps.length := get?_some_lt ps j o hj
            have hgd : ps.getD j 0 = o := getD_of_get? ps j o hj
            have hjne : j ≠ i := by
              intro hc
              rw [hc, hgdco] at hgd
              exact hoc hgd.symm
            have hsub := hsubeqIdx j hjlt hjne
            rw [hgd] at hsub
            rw [hsub]
            exact hchnd o ho2
      · intro j1 j2 l1 l2 h1 h2 hne12 x hx1 hx2
        have hj1 : j1 < PS.length := by
          have := get?_some_lt _ j1 l1 h1
          simpa using this
        have hj2 : j2 < PS.length := by
          have := get?_some_lt _ j2 l2 h2
          simpa using this
        have hl1 : l1 = subOffsets (v + 1) (PS.getD j1 0) db2 := by
          have h3 := hpart2 j1 hj1
          rw [h1] at h3
          exact Option.some.inj h3
        have hl2 : l2 = subOffsets (v + 1) (PS.getD j2 0) db2 := by
          have h3 := hpart2 j2 hj2
          rw [h2] at h3
          exact Option.some.inj h3
        rw [hl1] at hx1
        rw [hl2] at hx2
        by_cases hpairA : j1 = i ∧ j2 = i + 1
        · obtain ⟨e1, e2⟩ := hpairA
          rw [e1, hPSlow i (le_refl i), hgdco] at hx1
          rw [e2, hPSt] at hx2
          exact hdisjLR x hx1 hx2
        · by_cases hpairB : j1 = i + 1 ∧ j2 = i
          · obtain ⟨e1, e2⟩ := hpairB
            rw [e2, hPSlow i (le_refl i), hgdco] at hx2
            rw [e1, hPSt] at hx1
            exact hdisjLR x hx2 hx1
          · rcases hclass j1 hj1 x hx1 with ⟨e1, rfl⟩ | ⟨hb1, hc1⟩
            · rcases hclass j2 hj2 _ hx2 with ⟨e2, hfr2⟩ | ⟨hb2, hc2⟩
              · omega
              · have := subOffsets_lt_of_WFb (v + 1) _ db
                  (hchw _ (getD_mem ps _ hb2)) _ hc2
                omega
            · rcases hclass j2 hj2 x hx2 with ⟨e2, rfl⟩ | ⟨hb2, hc2⟩
              · have := subOffsets_lt_of_WFb (v + 1) _ db
                  (hchw _ (getD_mem ps _ hb1)) _ hc1
                omega
              · refine disjoint_of_flatten_nodup _ _ _ _ _ (hpartM _ hb1) (hpartM _ hb2)
                  ?_ hflat_nd x hc1 hc2
                have hp1 : j1 = i → j2 ≠ i + 1 := fun ha2 hb2 => hpairA ⟨ha2, hb2⟩
                have hp2 : j1 = i + 1 → j2 ≠ i := fun ha2 hb2 => hpairB ⟨ha2, hb2⟩
                by_cases ha : j1 ≤ i <;> by_cases hb : j2 ≤ i <;>
                  simp only [ha, hb, if_true, if_false] <;> omega
  have hstep := parent_step v off lo hi KS PS t db2 db' hsM2 hofflt2 harity2 hchain2
    htlt hchwM2 hkidsM2 hneM2 hndM2 hout
  refine insOut_compose (v + 1 + 1) off lo hi db db2 db' ?_ ?_ hexp2 hnum2 hstep
  · intro x hx
    rw [subOffsets_of_internal (v + 1) off db2 KS PS hsM2] at hx
    rcases List.mem_cons.mp hx with rfl | hmem
    · exact Or.inl (self_mem_subOffsets (v + 1) x db)
    · obtain ⟨j, l, hjl, hxl⟩ := mem_flatten_index _ x hmem
      have hjlt : j < PS.length := by
        have := get?_some_lt _ j l hjl
        simpa using this
      have hleq : l = subOffsets (v + 1) (PS.getD j 0) db2 := by
        have h2 := hpart2 j hjlt
        rw [hjl] at h2
        exact Option.some.inj h2
      rw [hleq] at hxl
      rcases hclass j hjlt x hxl with ⟨_, rfl⟩ | ⟨hb, hold⟩
      · exact Or.inr (by omega)
      · exact Or.inl (child_subOffsets_subset (v + 1) off db ks ps _ hs
          (getD_mem ps _ hb) x hold)
  · intro o holt honot
    refine hframe2 o ?_ ?_ (by omega)
    · intro hc
      rw [hc] at honot
      exact honot (self_mem_subOffsets (v + 1) off db)
    · intro hc
      rw [hc] at honot
      exact honot (child_subOffsets_subset (v + 1) off db ks ps co hs hcomem co
        (self_mem_subOffsets v co db))

/-- A successful `btree_insert_nonfull` on a structurally and order
well-formed subtree whose key lies in the subtree's interval preserves every
invariant: the subtree stays well formed and ordered, its page offsets stay
duplicate-free (old pages or freshly allocated ones), its leaves stay
nonempty, and no page outside the subtree changes. -/
theorem insert_nonfull_inv : ∀ (fuel fw off key : Nat) (data : List Nat)
    (db db' : DB) (page : Page) (lo hi : Option Nat),
    Page.load off db = .ok page →
    WFb fw off db = true →
    (subOffsets fw off db).Nodup →
    WFo fw off lo hi db = true →
    boundsOK lo hi key = true →
    ((∃ es blob, db.store.get off = some (.leafData es blob)) ∨
      allLeavesNE fw off db = true) →
    BTree.btree_insert_nonfull fuel page key data db = .ok db' →
    InsOut fw off lo hi db db' := by
  intro fuel
  induction fuel with
  | zero =>
    intro fw off key data db db' page lo hi _ _ _ _ _ _ hrun
    cases hrun
  | succ fuel ih =>
    intro fw off key data db db' page lo hi hload hwf hnd hwo hkey hne hrun
    cases fw with
    | zero => simp [WFb] at hwf
    | succ w =>
    cases hs : db.store.get off with
    | none =>
      unfold Page.load at hload
      rw [hs] at hload
      cases hload
    | some pd =>
      cases pd with
      | leafData es blob =>
        have hpage : page = .leaf { offset := off, keys := es } := by
          unfold Page.load at hload
          rw [hs] at hload
          exact (Except.ok.inj hload).symm
        obtain ⟨hofflt, hsort⟩ := WFb_succ_leaf w off db es blob hwf hs
        rw [WFo_of_leaf w off lo hi db es blob hs, List.all_eq_true] at hwo
        rw [hpage] at hrun
        obtain ⟨⟨es2, blob2, hst2, hsort2, hkeys2⟩, hframe2, hmeta2⟩ :=
          ins_leaf_inv fuel off key data db db' es blob hs hsort hrun
        have hsub2 : subOffsets (w + 1) off db' = [off] :=
          subOffsets_of_leaf w off db' es2 blob2 hst2
        have hsub1 : subOffsets (w + 1) off db = [off] :=
          subOffsets_of_leaf w off db es blob hs
        have hlimeq : db'.block_size * db'.meta.num_blocks_allocated =
            db.block_size * db.meta.num_blocks_allocated := by
          show 2 ^ db'.meta.block_size_exp * _ = 2 ^ db.meta.block_size_exp * _
          rw [hmeta2]
        have hbndkeys : ∀ x ∈ entryKeys es2, boundsOK lo hi x = true := by
          intro x hx
          rw [hkeys2] at hx
          rcases List.mem_append.mp hx with hxl | hxr
          · have h2 := List.mem_filter.mp hxl
            obtain ⟨e, he, heq⟩ := List.mem_map.mp h2.1
            rw [← heq]
            exact hwo e he
          · rcases List.mem_cons.mp hxr with rfl | hxr2
            · exact hkey
            · have h2 := List.mem_filter.mp hxr2
              obtain ⟨e, he, heq⟩ := List.mem_map.mp h2.1
              rw [← heq]
              exact hwo e he
        refine ⟨?_, ?_, ?_, ?_, ?_, ?_, by rw [hmeta2], by rw [hmeta2]⟩
        · unfold WFb
          rw [hst2]
          simp only [Bool.and_eq_true, decide_eq_true_eq]
          exact ⟨by rw [hlimeq] at *; exact hofflt, hsort2⟩
        · rw [WFo_of_leaf w off lo hi db' es2 blob2 hst2, List.all_eq_true]
          intro e he
          exact hbndkeys e.key (List.mem_map_of_mem _ he)
        · rw [hsub2]
          exact List.nodup_singleton off
        · rw [hsub2]
          intro x hx
          have hx2 : x = off := by simpa using hx
          rw [hx2, hsub1]
          exact Or.inl (List.mem_singleton.mpr rfl)
        · rw [allLeavesNE_of_leaf w off db' es2 blob2 hst2]
          simp only [decide_eq_true_eq]
          intro hc
          have h2 : key ∈ entryKeys es2 := by
            rw [hkeys2]
            exact List.mem_append.mpr (Or.inr (List.mem_cons_self _ _))
          rw [hc] at h2
          cases h2
        · intro o holt honot
          refine hframe2 o ?_
          rw [hsub1] at honot
          simpa using honot
      | internalData ks ps =>
        have hpage : page = .internal { offset := off, keys := ks, pointers := ps } := by
          unfold Page.load at hload
          rw [hs] at hload
          exact (Except.ok.inj hload).symm
        obtain ⟨hofflt, harity, hchw⟩ := WFb_succ_internal w off db ks ps hwf hs
        obtain ⟨hoffnotin, hchnd⟩ := nodup_subOffsets_internal w off db ks ps hs hnd
        obtain ⟨hchain, hkids⟩ := WFo_succ_internal w off lo hi db ks ps hwo hs
        have hneI : allLeavesNE (w + 1) off db = true := by
          rcases hne with ⟨es0, blob0, hconf⟩ | hok
          · rw [hs] at hconf
            exact PageData.noConfusion (Option.some.inj hconf)
          · exact hok
        have hnech : ∀ o ∈ ps, allLeavesNE w o db = true := by
          rw [allLeavesNE_of_internal w off db ks ps hs, List.all_eq_true] at hneI
          exact hneI
        rw [hpage] at hrun
        unfold BTree.btree_insert_nonfull at hrun
        replace hrun : (match ps.get? (keyInsertIdx ks key) with
          | none => (.error .panicked : ER DB)
          | some co => do
            let child ← Page.load co db
            if child.can_accommodate data.length db.block_size then
              BTree.btree_insert_nonfull fuel child key data db
            else do
              let r ← BTree.btree_split_child fuel
                { offset := off, keys := ks, pointers := ps } (keyInsertIdx ks key) db
              match r.2.2.1.keys.get? (keyInsertIdx ks key) with
              | none => .error .panicked
              | some sep =>
                BTree.btree_insert_nonfull fuel
                  (if sep < key then r.2.1 else r.1) key data r.2.2.2) = .ok db' := hrun
        cases hco : ps.get? (keyInsertIdx ks key) with
        | none =>
          rw [hco] at hrun
          cases hrun
        | some co =>
          rw [hco] at hrun
          simp only [] at hrun
          have hcomem : co ∈ ps := List.get?_mem hco
          have hilt : keyInsertIdx ks key < ps.length := get?_some_lt ps _ co hco
          have hgdco : ps.getD (keyInsertIdx ks key) 0 = co := getD_of_get? ps _ co hco
          have hwfc : WFb w co db = true := hchw co hcomem
          have hndc : (subOffsets w co db).Nodup := hchnd co hcomem
          have hkb : boundsOK (lowOf lo ks (keyInsertIdx ks key))
              (highOf hi ks (keyInsertIdx ks key)) key = true :=
            keyInsertIdx_boundsOK ks lo hi key hchain hkey
          have hwoc : WFo w co (lowOf lo ks (keyInsertIdx ks key))
              (highOf hi ks (keyInsertIdx ks key)) db = true := by
            have h2 := hkids (keyInsertIdx ks key) hilt
            rw [hgdco] at h2
            exact h2
          have hnec : allLeavesNE w co db = true := hnech co hcomem
          cases w with
          | zero => simp [WFb] at hwfc
          | succ v =>
            have hi_le : keyInsertIdx ks key ≤ ks.length := keyInsertIdx_le_length ks key
            have hcoself : co ∈ subOffsets (v + 1) co db := self_mem_subOffsets v co db
            have hoffnotco : off ∉ subOffsets (v + 1) co db := by
              intro hcontra
              exact hoffnotin
                (List.mem_flatten.mpr ⟨_, List.mem_map.mpr ⟨co, hcomem, rfl⟩, hcontra⟩)
            have hoffco : off ≠ co := fun hc => hoffnotco (hc ▸ hcoself)
            have hcolt : co < db.block_size * db.meta.num_blocks_allocated :=
              subOffsets_lt_of_WFb (v + 1) co db hwfc co hcoself
            cases hcs : db.store.get co with
            | none =>
              unfold WFb at hwfc
              rw [hcs] at hwfc
              simp at hwfc
            | some cpd =>
              cases cpd with
              | leafData ces cblob =>
                rw [page_load_leaf co db ces cblob hcs, bind_ok_er] at hrun
                obtain ⟨_, hcsort⟩ := WFb_succ_leaf v co db ces cblob hwfc hcs
                by_cases hacc : (Page.leaf { offset := co, keys := ces }).can_accommodate
                    data.length db.block_size = true
                · rw [if_pos hacc] at hrun
                  have hout := ih (v + 1) co key data db db'
                    (.leaf { offset := co, keys := ces })
                    (lowOf lo ks (keyInsertIdx ks key))
                    (highOf hi ks (keyInsertIdx ks key))
                    (by unfold Page.load; rw [hcs]) hwfc hndc hwoc hkb
                    (Or.inl ⟨ces, cblob, hcs⟩) hrun
                  rw [← hgdco] at hout
                  exact parent_step v off lo hi ks ps (keyInsertIdx ks key) db db'
                    hs hofflt harity hchain hilt hchw hkids hnech hnd hout
                · rw [if_neg hacc] at hrun
                  cases hsc : BTree.btree_split_child fuel
                      { offset := off, keys := ks, pointers := ps }
                      (keyInsertIdx ks key) db with
                  | error e =>
                    rw [hsc] at hrun
                    cases hrun
                  | ok r4 =>
                    obtain ⟨plc, r5⟩ := r4
                    obtain ⟨prc, r6⟩ := r5
                    obtain ⟨nodeU, db2⟩ := r6
                    rw [hsc, bind_ok_er] at hrun
                    simp only [] at hrun
                    obtain ⟨lastE, rkeys, hgl, hpl, hpr, hrk, hndU, hstU,
                      ⟨blob2, hb2⟩, ⟨blob3, hb3⟩, hframe2, hmeta2, harU⟩ :=
                      split_child_leaf_spec fuel
                        { offset := off, keys := ks, pointers := ps }
                        (keyInsertIdx ks key) db co ces cblob plc prc nodeU db2
                        hco hcs hcsort (by omega) hoffco (Nat.ne_of_lt hofflt) hsc
                    have hlim2 := limit_le_of_meta db2 db hmeta2
                    have hKSeq : nodeU.keys =
                        listInsertAt (keyInsertIdx ks key) lastE.key ks := by rw [hndU]
                    have hPSeq : nodeU.pointers = listInsertAt (keyInsertIdx ks key + 1)
                        (db.block_size * db.meta.num_blocks_allocated) ps := by rw [hndU]
                    have hsepval : nodeU.keys.get? (keyInsertIdx ks key) =
                        some lastE.key := by
                      rw [hKSeq]
                      exact get?_listInsertAt_self ks _ lastE.key hi_le
                    rw [hsepval] at hrun
                    simp only [] at hrun
                    rw [WFo_of_leaf v co _ _ db ces cblob hcs, List.all_eq_true] at hwoc
                    obtain ⟨hwoL, hwoR, hsepbnd, ⟨bw, hbwmem, hbwgt, hbwbnd⟩, hneL, hneR⟩ :=
                      split_leaf_owf v co (db.block_size * db.meta.num_blocks_allocated)
                        ces rkeys lastE (lowOf lo ks (keyInsertIdx ks key))
                        (highOf hi ks (keyInsertIdx ks key)) db2 blob2 blob3
                        hcsort hwoc hgl hrk hb2 hb3
                    have hsepnext : ∀ vv, ks.get? (keyInsertIdx ks key) = some vv →
                        lastE.key < vv := by
                      intro vv hvv
                      have hhv : highOf hi ks (keyInsertIdx ks key) = some vv := by
                        unfold highOf
                        rw [hvv]
                      have := boundsOK_hi _ _ _ hbwbnd vv hhv
                      omega
                    have hwfL : WFb (v + 1) co db2 = true := by
                      unfold WFb
                      rw [hb2]
                      simp only [Bool.and_eq_true, decide_eq_true_eq]
                      exact ⟨lt_of_lt_of_le hcolt hlim2, leafSorted_take co co _ ces hcsort⟩
                    have hwfR : WFb (v + 1)
                        (db.block_size * db.meta.num_blocks_allocated) db2 = true := by
                      unfold WFb
                      rw [hb3]
                      simp only [Bool.and_eq_true, decide_eq_true_eq]
                      refine ⟨fresh_lt_of_meta db2 db hmeta2, ?_⟩
                      show (entryKeys rkeys).Sorted (· < ·)
                      rw [hrk]
                      exact leafSorted_drop co co _ ces hcsort
                    have hsubL : subOffsets (v + 1) co db2 = [co] :=
                      subOffsets_of_leaf v co db2 _ blob2 hb2
                    have hsubR : subOffsets (v + 1)
                        (db.block_size * db.meta.num_blocks_allocated) db2 =
                        [db.block_size * db.meta.num_blocks_allocated] :=
                      subOffsets_of_leaf v _ db2 _ blob3 hb3
                    have hstep := split_step v off lo hi ks ps (keyInsertIdx ks key)
                      co (db.block_size * db.meta.num_blocks_allocated) lastE.key
                      nodeU.keys nodeU.pointers db db2
                      hs hofflt harity hchain hchw hkids hnech hnd hco rfl hKSeq hPSeq
                      (by
                        show db2.store.get off = _
                        have h2 := hstU
                        exact h2)
                      hmeta2 hframe2 hwfL hwfR
                      (by rw [hsubL]; exact List.nodup_singleton _)
                      (by rw [hsubR]; exact List.nodup_singleton _)
                      (by
                        rw [hsubL]
                        intro x hx
                        have hx2 : x = co := by simpa using hx
                        rw [hx2]
                        exact hcoself)
                      (by
                        rw [hsubR]
                        intro x hx
                        have hx2 : x = db.block_size * db.meta.num_blocks_allocated := by
                          simpa using hx
                        exact Or.inl hx2)
                      (by
                        intro x hx1 hx2
                        rw [hsubL] at hx1
                        rw [hsubR] at hx2
                        have e1 : x = co := by simpa using hx1
                        have e2 : x = db.block_size * db.meta.num_blocks_allocated := by
                          simpa using hx2
                        omega)
                      hwoL hwoR hneL hneR hsepbnd hsepnext
                    have hPSlen : nodeU.pointers.length = ps.length + 1 := by
                      rw [hPSeq]
                      exact length_listInsertAt ps _ _
                    by_cases hcmp : lastE.key < key
                    · rw [if_pos hcmp] at hrun
                      have hloadR : Page.load
                          (db.block_size * db.meta.num_blocks_allocated) db2 = .ok prc := by
                        unfold Page.load
                        rw [hb3, hpr]
                      have hkbR : boundsOK (some lastE.key)
                          (highOf hi ks (keyInsertIdx ks key)) key = true := by
                        refine boundsOK_intro _ _ _ ?_ (boundsOK_hi _ _ _ hkb)
                        intro l hl
                        have : lastE.key = l := Option.some.inj hl
                        omega
                      have hout := ih (v + 1)
                        (db.block_size * db.meta.num_blocks_allocated) key data db2 db'
                        prc (some lastE.key) (highOf hi ks (keyInsertIdx ks key))
                        hloadR hwfR (by rw [hsubR]; exact List.nodup_singleton _)
                        hwoR hkbR (Or.inr hneR) hrun
                      have e1 : nodeU.pointers.getD (keyInsertIdx ks key + 1) 0 =
                          db.block_size * db.meta.num_blocks_allocated := by
                        apply getD_of_get?
                        rw [hPSeq]
                        exact get?_listInsertAt_self ps _ _ (by omega)
                      have e2 : lowOf lo nodeU.keys (keyInsertIdx ks key + 1) =
                          some lastE.key := by
                        rw [hKSeq]
                        exact lowOf_ins_succ_self lo ks _ _ hi_le
                      have e3 : highOf hi nodeU.keys (keyInsertIdx ks key + 1) =
                          highOf hi ks (keyInsertIdx ks key) := by
                        rw [hKSeq, highOf_ins_gt hi ks _ _ _ (by omega)]
                        rw [show keyInsertIdx ks key + 1 - 1 = keyInsertIdx ks key
                          by omega]
                      rw [← e1, ← e2, ← e3] at hout
                      exact hstep (keyInsertIdx ks key + 1) db' (by omega) hout
                    · rw [if_neg hcmp] at hrun
                      have hloadL : Page.load co db2 = .ok plc := by
                        unfold Page.load
                        rw [hb2, hpl]
                      have hkbL : boundsOK (lowOf lo ks (keyInsertIdx ks key))
                          (some lastE.key) key = true := by
                        refine boundsOK_intro _ _ _ (boundsOK_lo _ _ _ hkb) ?_
                        intro hb hhb
                        have : lastE.key = hb := Option.some.inj hhb
                        omega
                      have hout := ih (v + 1) co key data db2 db'
                        plc (lowOf lo ks (keyInsertIdx ks key)) (some lastE.key)
                        hloadL hwfL (by rw [hsubL]; exact List.nodup_singleton _)
                        hwoL hkbL (Or.inr hneL) hrun
                      have e1 : nodeU.pointers.getD (keyInsertIdx ks key) 0 = co := by
                        apply getD_of_get?
                        rw [hPSeq, get?_listInsertAt_lt ps _ _ _ (by omega) (by omega)]
                        exact hco
                      have e2 : lowOf lo nodeU.keys (keyInsertIdx ks key) =
                          lowOf lo ks (keyInsertIdx ks key) := by
                        rw [hKSeq]
                        exact lowOf_ins_le lo ks _ _ _ hi_le (le_refl _)
                      have e3 : highOf hi nodeU.keys (keyInsertIdx ks key) =
                          some lastE.key := by
                        rw [hKSeq]
                        exact highOf_ins_self hi ks _ _ hi_le
                      rw [← e1, ← e2, ← e3] at hout
                      exact hstep (keyInsertIdx ks key) db' (by omega) hout
              | internalData cks cps =>
                rw [page_load_internal co db cks cps hcs, bind_ok_er] at hrun
                by_cases hacc : (Page.internal { offset := co, keys := cks, pointers := cps }).can_accommodate data.length db.block_size = true
                · rw [if_pos hacc] at hrun
                  have hout := ih (v + 1) co key data db db'
                    (.internal { offset := co, keys := cks, pointers := cps })
                    (lowOf lo ks (keyInsertIdx ks key))
                    (highOf hi ks (keyInsertIdx ks key))
                    (by unfold Page.load; rw [hcs]) hwfc hndc hwoc hkb
                    (Or.inr hnec) hrun
                  rw [← hgdco] at hout
                  exact parent_step v off lo hi ks ps (keyInsertIdx ks key) db db'
                    hs hofflt harity hchain hilt hchw hkids hnech hnd hout
                · rw [if_neg hacc] at hrun
                  cases hsc : BTree.btree_split_child fuel
                      { offset := off, keys := ks, pointers := ps }
                      (keyInsertIdx ks key) db with
                  | error e =>
                    rw [hsc] at hrun
                    cases hrun
                  | ok r4 =>
                    obtain ⟨plc, r5⟩ := r4
                    obtain ⟨prc, r6⟩ := r5
                    obtain ⟨nodeU, db2⟩ := r6
                    rw [hsc, bind_ok_er] at hrun
                    simp only [] at hrun
                    obtain ⟨sep0, hgl, hpl, hpr, hndU, hstU, hstL, hstR,
                      hframe2, hmeta2, harU, harL, harR⟩ :=
                      split_child_internal_spec fuel
                        { offset := off, keys := ks, pointers := ps }
                        (keyInsertIdx ks key) db co cks cps plc prc nodeU db2
                        hco hcs (by omega) hoffco (Nat.ne_of_lt hofflt) hsc
                    obtain ⟨sepR, hndUR, hstUR, harUR, hmeta2R, hframe2R,
                      ⟨hloadL, hwfL, hndL, hmemL⟩, ⟨hloadR, hwfR, hndR, hmemR⟩,
                      hsubLeq, hsubReq, hflatnd, hconot⟩ :=
                      split_child_internal_ready fuel v
                        { offset := off, keys := ks, pointers := ps }
                        (keyInsertIdx ks key) db co cks cps plc prc nodeU db2
                        hco hcs hwfc hndc hofflt hoffco hoffnotco hsc
                    have hlim2 := limit_le_of_meta db2 db hmeta2
                    have hKSeq : nodeU.keys =
                        listInsertAt (keyInsertIdx ks key) sep0 ks := by rw [hndU]
                    have hPSeq : nodeU.pointers = listInsertAt (keyInsertIdx ks key + 1)
                        (db.block_size * db.meta.num_blocks_allocated) ps := by rw [hndU]
                    have hsepval : nodeU.keys.get? (keyInsertIdx ks key) = some sep0 := by
                      rw [hKSeq]
                      exact get?_listInsertAt_self ks _ sep0 hi_le
                    rw [hsepval] at hrun
                    simp only [] at hrun
                    have hchfix : ∀ c ∈ cps, ∀ x ∈ subOffsets v c db,
                        db2.store.get x = db.store.get x := by
                      intro c hc x hx
                      obtain ⟨_, harc, hchwc⟩ := WFb_succ_internal v co db cks cps hwfc hcs
                      obtain ⟨hconotin2, _⟩ :=
                        nodup_subOffsets_internal v co db cks cps hcs hndc
                      have hxmem : x ∈ (cps.map fun o => subOffsets v o db).flatten :=
                        List.mem_flatten.mpr ⟨_, List.mem_map.mpr ⟨c, hc, rfl⟩, hx⟩
                      have hxin : x ∈ subOffsets (v + 1) co db :=
                        child_subOffsets_subset v co db cks cps c hcs hc x hx
                      refine hframe2 x ?_ ?_ ?_
                      · intro hcx
                        rw [hcx] at hxin
                        exact hoffnotco hxin
                      · intro hcx
                        rw [hcx] at hxmem
                        exact hconotin2 hxmem
                      · exact Nat.ne_of_lt (subOffsets_lt_of_WFb v c db (hchwc c hc) x hx)
                    rw [WFo_of_internal v co _ _ db cks cps hcs] at hwoc
                    have hwoc2 : WFo (v + 1) co (lowOf lo ks (keyInsertIdx ks key))
                        (highOf hi ks (keyInsertIdx ks key)) db = true := by
                      rw [WFo_of_internal v co _ _ db cks cps hcs]
                      exact hwoc
                    obtain ⟨hwoL, hwoR, hsepbnd, ⟨bw, hbwgt, hbwbnd⟩, hneL, hneR⟩ :=
                      split_internal_owf v co
                        (db.block_size * db.meta.num_blocks_allocated) cks cps sep0
                        (lowOf lo ks (keyInsertIdx ks key))
                        (highOf hi ks (keyInsertIdx ks key)) db db2
                        hcs hwfc hwoc2 hnec hgl hstL hstR hchfix
                    have hsepnext : ∀ vv, ks.get? (keyInsertIdx ks key) = some vv →
                        sep0 < vv := by
                      intro vv hvv
                      have hhv : highOf hi ks (keyInsertIdx ks key) = some vv := by
                        unfold highOf
                        rw [hvv]
                      have := boundsOK_hi _ _ _ hbwbnd vv hhv
                      omega
                    have hdisjLR : ∀ x, x ∈ subOffsets (v + 1) co db2 →
                        x ∈ subOffsets (v + 1)
                          (db.block_size * db.meta.num_blocks_allocated) db2 → False := by
                      intro x hx1 hx2
                      rw [hsubLeq] at hx1
                      rw [hsubReq] at hx2
                      have hflsplit := flatten_map_take_drop
                        (fun o => subOffsets v o db) cps (cks.length / 2)
                      rcases List.mem_cons.mp hx1 with rfl | hm1
                      · rcases List.mem_cons.mp hx2 with he | hm2
                        · omega
                        · refine hconot ?_
                          rw [hflsplit]
                          exact List.mem_append.mpr (Or.inr hm2)
                      · rcases List.mem_cons.mp hx2 with he2 | hm2
                        · have hxin : x ∈ subOffsets (v + 1) co db := by
                            rw [subOffsets_of_internal v co db cks cps hcs]
                            refine List.mem_cons.mpr (Or.inr ?_)
                            rw [hflsplit]
                            exact List.mem_append.mpr (Or.inl hm1)
                          have := subOffsets_lt_of_WFb (v + 1) co db hwfc x hxin
                          omega
                        · have hnd2 := hflatnd
                          rw [hflsplit, List.nodup_append] at hnd2
                          exact hnd2.2.2 hm1 hm2
                    have hstep := split_step v off lo hi ks ps (keyInsertIdx ks key)
                      co (db.block_size * db.meta.num_blocks_allocated) sep0
                      nodeU.keys nodeU.pointers db db2
                      hs hofflt harity hchain hchw hkids hnech hnd hco rfl hKSeq hPSeq
                      hstUR hmeta2 hframe2 hwfL hwfR hndL hndR hmemL
                      (fun x hx => hmemR x hx) hdisjLR hwoL hwoR hneL hneR hsepbnd
                      hsepnext
                    have hPSlen : nodeU.pointers.length = ps.length + 1 := by
                      rw [hPSeq]
                      exact length_listInsertAt ps _ _
                    by_cases hcmp : sep0 < key
                    · rw [if_pos hcmp] at hrun
                      have hkbR : boundsOK (some sep0)
                          (highOf hi ks (keyInsertIdx ks key)) key = true := by
                        refine boundsOK_intro _ _ _ ?_ (boundsOK_hi _ _ _ hkb)
                        intro l hl
                        have : sep0 = l := Option.some.inj hl
                        omega
                      have hout := ih (v + 1)
                        (db.block_size * db.meta.num_blocks_allocated) key data db2 db'
                        prc (some sep0) (highOf hi ks (keyInsertIdx ks key))
                        hloadR hwfR hndR hwoR hkbR (Or.inr hneR) hrun
                      have e1 : nodeU.pointers.getD (keyInsertIdx ks key + 1) 0 =
                          db.block_size * db.meta.num_blocks_allocated := by
                        apply getD_of_get?
                        rw [hPSeq]
                        exact get?_listInsertAt_self ps _ _ (by omega)
                      have e2 : lowOf lo nodeU.keys (keyInsertIdx ks key + 1) =
                          some sep0 := by
                        rw [hKSeq]
                        exact lowOf_ins_succ_self lo ks _ _ hi_le
                      have e3 : highOf hi nodeU.keys (keyInsertIdx ks key + 1) =
                          highOf hi ks (keyInsertIdx ks key) := by
                        rw [hKSeq, highOf_ins_gt hi ks _ _ _ (by omega)]
                        rw [show keyInsertIdx ks key + 1 - 1 = keyInsertIdx ks key
                          by omega]
                      rw [← e1, ← e2, ← e3] at hout
                      exact hstep (keyInsertIdx ks key + 1) db' (by omega) hout
                    · rw [if_neg hcmp] at hrun
                      have hkbL : boundsOK (lowOf lo ks (keyInsertIdx ks key))
                          (some sep0) key = true := by
                        refine boundsOK_intro _ _ _ (boundsOK_lo _ _ _ hkb) ?_
                        intro hb hhb
                        have : sep0 = hb := Option.some.inj hhb
                        omega
                      have hout := ih (v + 1) co key data db2 db'
                        plc (lowOf lo ks (keyInsertIdx ks key)) (some sep0)
                        hloadL hwfL hndL hwoL hkbL (Or.inr hneL) hrun
                      have e1 : nodeU.pointers.getD (keyInsertIdx ks key) 0 = co := by
                        apply getD_of_get?
                        rw [hPSeq, get?_listInsertAt_lt ps _ _ _ (by omega) (by omega)]
                        exact hco
                      have e2 : lowOf lo nodeU.keys (keyInsertIdx ks key) =
                          lowOf lo ks (keyInsertIdx ks key) := by
                        rw [hKSeq]
                        exact lowOf_ins_le lo ks _ _ _ hi_le (le_refl _)
                      have e3 : highOf hi nodeU.keys (keyInsertIdx ks key) =
                          some sep0 := by
                        rw [hKSeq]
                        exact highOf_ins_self hi ks _ _ hi_le
                      rw [← e1, ← e2, ← e3] at hout
                      exact hstep (keyInsertIdx ks key) db' (by omega) hout

/-- A successful `BTree::insert` on a well-formed, ordered, duplicate-free
tree with nonempty leaves returns a root handle under which the tree is again
well formed, ordered, duplicate-free, and has nonempty leaves — including
across the root-split path that deepens the tree by one level. -/
theorem insert_inv (fuel fw key : Nat) (data : List Nat) (t t' : BTree)
    (db db' : DB)
    (hwf : WFb fw t.root db = true)
    (hnd : (subOffsets fw t.root db).Nodup)
    (hwo : WFo fw t.root none none db = true)
    (hne : (∃ es blob, db.store.get t.root = some (.leafData es blob)) ∨
      allLeavesNE fw t.root db = true)
    (hrun : BTree.insert fuel t key data db = .ok (t', db')) :
    ∃ fw', WFb fw' t'.root db' = true ∧
      (subOffsets fw' t'.root db').Nodup ∧
      WFo fw' t'.root none none db' = true ∧
      allLeavesNE fw' t'.root db' = true := by
  cases fw with
  | zero => simp [WFb] at hwf
  | succ w =>
  unfold BTree.insert at hrun
  cases hs : db.store.get t.root with
  | none =>
    unfold WFb at hwf
    rw [hs] at hwf
    simp at hwf
  | some pd =>
    cases pd with
    | leafData es blob =>
      rw [page_load_leaf t.root db es blob hs, bind_ok_er] at hrun
      obtain ⟨hrootlt, hsort⟩ := WFb_succ_leaf w t.root db es blob hwf hs
      have hfr1 : t.root ≠ db.block_size * db.meta.num_blocks_allocated :=
        Nat.ne_of_lt hrootlt
      by_cases hacc : (Page.leaf { offset := t.root, keys := es }).can_accommodate
          data.length db.block_size = true
      · rw [if_pos hacc] at hrun
        cases hin : BTree.btree_insert_nonfull fuel (.leaf { offset := t.root, keys := es })
            key data db with
        | error e =>
          rw [hin] at hrun
          cases hrun
        | ok dbI =>
          rw [hin, bind_ok_er] at hrun
          replace hrun : Except.ok (ε := EngineErr) (t, dbI) = .ok (t', db') := hrun
          injection hrun with h2
          have ht' : t' = t := (congrArg Prod.fst h2).symm
          have hdbI : db' = dbI := (congrArg Prod.snd h2).symm
          obtain ⟨hwf', hwo', hnd', _, hne', _, _, _⟩ :=
            insert_nonfull_inv fuel (w + 1) t.root key data db dbI
              (.leaf { offset := t.root, keys := es }) none none
              (by unfold Page.load; rw [hs]) hwf hnd hwo rfl
              (Or.inl ⟨es, blob, hs⟩) hin
          rw [ht', hdbI]
          exact ⟨w + 1, hwf', hnd', hwo', hne'⟩
      · rw [if_neg hacc] at hrun
        have hesne : es ≠ [] := fun hc => hacc (by rw [hc]; rfl)
        cases hini : InternalPage.init db t.root with
        | error e =>
          rw [hini] at hrun
          cases hrun
        | ok r1 =>
          obtain ⟨pg, db1⟩ := r1
          rw [hini, bind_ok_er] at hrun
          simp only [] at hrun
          obtain ⟨hpg, hst1, hframe1, hmeta1⟩ := internal_init_spec db t.root pg db1 hini
          have hpgoff : pg.offset = db.block_size * db.meta.num_blocks_allocated := by
            rw [hpg]
          have hld1 : db1.store.get t.root = some (.leafData es blob) := by
            rw [hframe1 t.root hfr1]
            exact hs
          have hlim1 := limit_le_of_meta db1 db hmeta1
          have hfresh1 := fresh_lt_of_meta db1 db hmeta1
          have hfix1 : ∀ x ∈ subOffsets (w + 1) t.root db,
              db1.store.get x = db.store.get x := fun x hx =>
            hframe1 x (Nat.ne_of_lt (subOffsets_lt_of_WFb (w + 1) t.root db hwf x hx))
          have hsub1 : subOffsets (w + 1) t.root db1 = subOffsets (w + 1) t.root db :=
            subOffsets_congr (w + 1) t.root db db1 hfix1
          have hwf1 : WFb (w + 1) t.root db1 = true :=
            WFb_congr (w + 1) t.root db db1 hfix1 hlim1 hwf
          have hnd1 : (subOffsets (w + 1) t.root db1).Nodup := by
            rw [hsub1]
            exact hnd
          have hwo1 : WFo (w + 1) t.root none none db1 = true := by
            rw [WFo_of_leaf w t.root none none db1 es blob hld1]
            apply List.all_eq_true.mpr
            intro e _
            rfl
          have hne1 : allLeavesNE (w + 1) t.root db1 = true := by
            rw [allLeavesNE_of_leaf w t.root db1 es blob hld1]
            exact decide_eq_true hesne
          cases hsc : BTree.btree_split_child fuel pg 0 db1 with
          | error e =>
            rw [hsc] at hrun
            cases hrun
          | ok r4 =>
            obtain ⟨plc, r5⟩ := r4
            obtain ⟨prc, r6⟩ := r5
            obtain ⟨nodeU, db2⟩ := r6
            rw [hsc, bind_ok_er] at hrun
            simp only [] at hrun
            have hptr0 : pg.pointers.get? 0 = some t.root := by rw [hpg]; rfl
            obtain ⟨lastE, rkeys, hgl, hpl, hpr, hrk, hndU, hstU,
              ⟨blob2, hb2⟩, ⟨blob3, hb3⟩, hframe2, hmeta2, harU⟩ :=
              split_child_leaf_spec fuel pg 0 db1 t.root es blob plc prc nodeU db2
                hptr0 hld1 hsort (Nat.ne_of_lt (lt_of_lt_of_le hrootlt hlim1))
                (by rw [hpgoff]; exact fun hc => hfr1 hc.symm)
                (by rw [hpgoff]; exact Nat.ne_of_lt hfresh1) hsc
            cases hins : BTree.btree_insert_nonfull fuel (.internal nodeU) key data db2 with
            | error e =>
              rw [hins] at hrun
              cases hrun
            | ok dbI =>
              rw [hins, bind_ok_er] at hrun
              replace hrun : Except.ok (ε := EngineErr) (({ root := pg.offset } : BTree), dbI) =
                .ok (t', db') := hrun
              injection hrun with h2
              have ht' : t' = { root := pg.offset } := (congrArg Prod.fst h2).symm
              have hdbI : db' = dbI := (congrArg Prod.snd h2).symm
              have hNU : nodeU = { offset := db.block_size * db.meta.num_blocks_allocated, keys := [lastE.key], pointers := [t.root, db1.block_size * db1.meta.num_blocks_allocated] } := by
                rw [hndU, hpg]
                rfl
              have hstU3 : db2.store.get (db.block_size * db.meta.num_blocks_allocated) =
                  some (.internalData [lastE.key]
                    [t.root, db1.block_size * db1.meta.num_blocks_allocated]) := by
                have h7 := hstU
                rw [hNU, hpg] at h7
                exact h7
              rw [hNU] at hins
              obtain ⟨hwoL, hwoR, hsepbnd, ⟨bw, hbwmem, hbwgt, hbwbnd⟩, hneL, hneR⟩ :=
                split_leaf_owf w t.root (db1.block_size * db1.meta.num_blocks_allocated)
                  es rkeys lastE none none db2 blob2 blob3
                  hsort (fun e _ => rfl) hgl hrk hb2 hb3
              have hwfL2 : WFb (w + 1) t.root db2 = true := by
                unfold WFb
                rw [hb2]
                simp only [Bool.and_eq_true, decide_eq_true_eq]
                refine ⟨?_, leafSorted_take t.root t.root _ es hsort⟩
                calc t.root < db.block_size * db.meta.num_blocks_allocated := hrootlt
                  _ ≤ db1.block_size * db1.meta.num_blocks_allocated := hlim1
                  _ ≤ db2.block_size * db2.meta.num_blocks_allocated :=
                    limit_le_of_meta db2 db1 hmeta2
              have hwfR2 : WFb (w + 1)
                  (db1.block_size * db1.meta.num_blocks_allocated) db2 = true := by
                unfold WFb
                rw [hb3]
                simp only [Bool.and_eq_true, decide_eq_true_eq]
                refine ⟨fresh_lt_of_meta db2 db1 hmeta2, ?_⟩
                show (entryKeys rkeys).Sorted (· < ·)
                rw [hrk]
                exact leafSorted_drop t.root t.root _ es hsort
              have hsubL : subOffsets (w + 1) t.root db2 = [t.root] :=
                subOffsets_of_leaf w t.root db2 _ blob2 hb2
              have hsubR : subOffsets (w + 1)
                  (db1.block_size * db1.meta.num_blocks_allocated) db2 =
                  [db1.block_size * db1.meta.num_blocks_allocated] :=
                subOffsets_of_leaf w _ db2 _ blob3 hb3
              have hnd2 : (subOffsets (w + 1 + 1)
                  (db.block_size * db.meta.num_blocks_allocated) db1).Nodup := by
                rw [subOffsets_of_internal (w + 1) _ db1 [] [t.root] hst1]
                simp only [List.map_cons, List.map_nil, List.flatten_cons, List.flatten_nil,
                  List.append_nil]
                rw [List.nodup_cons, hsub1]
                refine ⟨?_, hnd⟩
                intro hx
                exact absurd (subOffsets_lt_of_WFb (w + 1) t.root db hwf _ hx) (by omega)
              have hstep := split_step w (db.block_size * db.meta.num_blocks_allocated)
                none none [] [t.root] 0 t.root
                (db1.block_size * db1.meta.num_blocks_allocated) lastE.key
                [lastE.key] [t.root, db1.block_size * db1.meta.num_blocks_allocated]
                db1 db2 hst1 hfresh1 rfl rfl
                (by
                  intro o ho
                  have ho2 : o = t.root := by simpa using ho
                  rw [ho2]
                  exact hwf1)
                (by
                  intro j hj
                  have hj2 : j < 1 := by simpa using hj
                  have hj0 : j = 0 := by omega
                  rw [hj0]
                  exact hwo1)
                (by
                  intro o ho
                  have ho2 : o = t.root := by simpa using ho
                  rw [ho2]
                  exact hne1)
                hnd2 rfl rfl rfl rfl hstU3 hmeta2
                (by
                  intro o h1 h2 h3
                  refine hframe2 o ?_ h2 h3
                  rw [hpgoff]
                  exact h1)
                hwfL2 hwfR2
                (by rw [hsubL]; exact List.nodup_singleton _)
                (by rw [hsubR]; exact List.nodup_singleton _)
                (by
                  rw [hsubL]
                  intro x hx
                  have hx2 : x = t.root := by simpa using hx
                  rw [hx2]
                  exact self_mem_subOffsets w t.root db1)
                (by
                  rw [hsubR]
                  intro x hx
                  have hx2 : x = db1.block_size * db1.meta.num_blocks_allocated := by
                    simpa using hx
                  exact Or.inl hx2)
                (by
                  intro x hx1 hx2
                  rw [hsubL] at hx1
                  rw [hsubR] at hx2
                  have e1 : x = t.root := by simpa using hx1
                  have e2 : x = db1.block_size * db1.meta.num_blocks_allocated := by
                    simpa using hx2
                  have : t.root < db1.block_size * db1.meta.num_blocks_allocated :=
                    lt_of_lt_of_le hrootlt hlim1
                  omega)
                hwoL hwoR hneL hneR hsepbnd
                (by
                  intro vv hvv
                  simp at hvv)
              have hout0 : InsOut (w + 1) t.root none (some lastE.key) db2 db2 :=
                ⟨hwfL2, hwoL, by rw [hsubL]; exact List.nodup_singleton _,
                  fun x hx => Or.inl hx, hneL, fun o _ _ => rfl, rfl, Nat.le_refl _⟩
              have hinv2 := hstep 0 db2 (by simp) hout0
              obtain ⟨hwfU, hwoU, hndU2, _, hneU, _, _, _⟩ := hinv2
              have hloadU : Page.load (db.block_size * db.meta.num_blocks_allocated) db2 =
                  .ok (.internal { offset := db.block_size * db.meta.num_blocks_allocated, keys := [lastE.key], pointers := [t.root, db1.block_size * db1.meta.num_blocks_allocated] }) := by
                unfold Page.load
                rw [hstU3]
              obtain ⟨hwf', hwo', hnd', _, hne', _, _, _⟩ :=
                insert_nonfull_inv fuel (w + 1 + 1)
                  (db.block_size * db.meta.num_blocks_allocated) key data db2 dbI
                  (.internal { offset := db.block_size * db.meta.num_blocks_allocated, keys := [lastE.key], pointers := [t.root, db1.block_size * db1.meta.num_blocks_allocated] })
                  none none hloadU hwfU hndU2 hwoU rfl (Or.inr hneU) hins
              rw [ht', hdbI]
              have hroot : ({ root := pg.offset } : BTree).root =
                  db.block_size * db.meta.num_blocks_allocated := by
                rw [hpg]
              rw [hroot]
              exact ⟨w + 1 + 1, hwf', hnd', hwo', hne'⟩
    | internalData rks rps =>
      rw [page_load_internal t.root db rks rps hs, bind_ok_er] at hrun
      obtain ⟨hrootlt, hrar, hrchw⟩ := WFb_succ_internal w t.root db rks rps hwf hs
      obtain ⟨hrnotin, hrchnd⟩ := nodup_subOffsets_internal w t.root db rks rps hs hnd
      have hfr1 : t.root ≠ db.block_size * db.meta.num_blocks_allocated :=
        Nat.ne_of_lt hrootlt
      have hneR0 : allLeavesNE (w + 1) t.root db = true := by
        rcases hne with ⟨es0, blob0, hconf⟩ | hok
        · rw [hs] at hconf
          exact PageData.noConfusion (Option.some.inj hconf)
        · exact hok
      by_cases hacc : (Page.internal { offset := t.root, keys := rks, pointers := rps }).can_accommodate data.length db.block_size = true
      · rw [if_pos hacc] at hrun
        cases hin : BTree.btree_insert_nonfull fuel
            (.internal { offset := t.root, keys := rks, pointers := rps }) key data db with
        | error e =>
          rw [hin] at hrun
          cases hrun
        | ok dbI =>
          rw [hin, bind_ok_er] at hrun
          replace hrun : Except.ok (ε := EngineErr) (t, dbI) = .ok (t', db') := hrun
          injection hrun with h2
          have ht' : t' = t := (congrArg Prod.fst h2).symm
          have hdbI : db' = dbI := (congrArg Prod.snd h2).symm
          obtain ⟨hwf', hwo', hnd', _, hne', _, _, _⟩ :=
            insert_nonfull_inv fuel (w + 1) t.root key data db dbI
              (.internal { offset := t.root, keys := rks, pointers := rps }) none none
              (by unfold Page.load; rw [hs]) hwf hnd hwo rfl (Or.inr hneR0) hin
          rw [ht', hdbI]
          exact ⟨w + 1, hwf', hnd', hwo', hne'⟩
      · rw [if_neg hacc] at hrun
        cases hini : InternalPage.init db t.root with
        | error e =>
          rw [hini] at hrun
          cases hrun
        | ok r1 =>
          obtain ⟨pg, db1⟩ := r1
          rw [hini, bind_ok_er] at hrun
          simp only [] at hrun
          obtain ⟨hpg, hst1, hframe1, hmeta1⟩ := internal_init_spec db t.root pg db1 hini
          have hpgoff : pg.offset = db.block_size * db.meta.num_blocks_allocated := by
            rw [hpg]
          have hld1 : db1.store.get t.root = some (.internalData rks rps) := by
            rw [hframe1 t.root hfr1]
            exact hs
          have hlim1 := limit_le_of_meta db1 db hmeta1
          have hfresh1 := fresh_lt_of_meta db1 db hmeta1
          have hfix1 : ∀ x ∈ subOffsets (w + 1) t.root db,
              db1.store.get x = db.store.get x := fun x hx =>
            hframe1 x (Nat.ne_of_lt (subOffsets_lt_of_WFb (w + 1) t.root db hwf x hx))
          have hsub1 : subOffsets (w + 1) t.root db1 = subOffsets (w + 1) t.root db :=
            subOffsets_congr (w + 1) t.root db db1 hfix1
          have hwf1 : WFb (w + 1) t.root db1 = true :=
            WFb_congr (w + 1) t.root db db1 hfix1 hlim1 hwf
          have hnd1 : (subOffsets (w + 1) t.root db1).Nodup := by
            rw [hsub1]
            exact hnd
          have hwo1 : WFo (w + 1) t.root none none db1 = true :=
            WFo_congr (w + 1) t.root none none db db1 hfix1 hwo
          have hne1 : allLeavesNE (w + 1) t.root db1 = true :=
            allLeavesNE_congr (w + 1) t.root db db1 hfix1 hneR0
          have hnotin1 : pg.offset ∉ subOffsets (w + 1) t.root db1 := by
            rw [hsub1, hpgoff]
            intro hx
            exact absurd (subOffsets_lt_of_WFb (w + 1) t.root db hwf _ hx) (by omega)
          cases hsc : BTree.btree_split_child fuel pg 0 db1 with
          | error e =>
            rw [hsc] at hrun
            cases hrun
          | ok r4 =>
            obtain ⟨plc, r5⟩ := r4
            obtain ⟨prc, r6⟩ := r5
            obtain ⟨nodeU, db2⟩ := r6
            rw [hsc, bind_ok_er] at hrun
            simp only [] at hrun
            have hptr0 : pg.pointers.get? 0 = some t.root := by rw [hpg]; rfl
            obtain ⟨sep0, hglS, hplS, hprS, hndUS, hstUS, hstLS, hstRS,
              hframe2S, hmeta2S, harUS, harLS, harRS⟩ :=
              split_child_internal_spec fuel pg 0 db1 t.root rks rps plc prc nodeU db2
                hptr0 hld1 (Nat.ne_of_lt (lt_of_lt_of_le hrootlt hlim1))
                (by rw [hpgoff]; exact fun hc => hfr1 hc.symm)
                (by rw [hpgoff]; exact Nat.ne_of_lt hfresh1) hsc
            obtain ⟨sepR, hndU, hstU, harU, hmeta2, hframe2,
              ⟨hloadL, hwfL, hndL, hmemL⟩, ⟨hloadR, hwfR, hndR, hmemR⟩,
              hsubLeq, hsubReq, hflat1, hconot1⟩ :=
              split_child_internal_ready fuel w pg 0 db1 t.root rks rps plc prc nodeU db2
                hptr0 hld1 hwf1 hnd1
                (by rw [hpgoff]; exact hfresh1)
                (by rw [hpgoff]; exact fun hc => hfr1 hc.symm)
                hnotin1 hsc
            cases hins : BTree.btree_insert_nonfull fuel (.internal nodeU) key data db2 with
            | error e =>
              rw [hins] at hrun
              cases hrun
            | ok dbI =>
              rw [hins, bind_ok_er] at hrun
              replace hrun : Except.ok (ε := EngineErr) (({ root := pg.offset } : BTree), dbI) =
                .ok (t', db') := hrun
              injection hrun with h2
              have ht' : t' = { root := pg.offset } := (congrArg Prod.fst h2).symm
              have hdbI : db' = dbI := (congrArg Prod.snd h2).symm
              have hNU : nodeU = { offset := db.block_size * db.meta.num_blocks_allocated, keys := [sep0], pointers := [t.root, db1.block_size * db1.meta.num_blocks_allocated] } := by
                rw [hndUS, hpg]
                rfl
              have hstU3 : db2.store.get (db.block_size * db.meta.num_blocks_allocated) =
                  some (.internalData [sep0]
                    [t.root, db1.block_size * db1.meta.num_blocks_allocated]) := by
                have h7 := hstUS
                rw [hNU, hpg] at h7
                exact h7
              rw [hNU] at hins
              have hchfix1 : ∀ c ∈ rps, ∀ x ∈ subOffsets w c db1,
                  db2.store.get x = db1.store.get x := by
                intro c hc x hx
                have hchsub : subOffsets w c db1 = subOffsets w c db :=
                  subOffsets_congr w c db db1 (fun y hy =>
                    hfix1 y (child_subOffsets_subset w t.root db rks rps c hs hc y hy))
                rw [hchsub] at hx
                have hxin : x ∈ subOffsets (w + 1) t.root db :=
                  child_subOffsets_subset w t.root db rks rps c hs hc x hx
                have hxlt := subOffsets_lt_of_WFb (w + 1) t.root db hwf x hxin
                refine hframe2S x ?_ ?_ ?_
                · rw [hpgoff]
                  omega
                · intro hcx
                  rw [hcx] at hx
                  refine hrnotin ?_
                  exact List.mem_flatten.mpr ⟨_, List.mem_map.mpr ⟨c, hc, rfl⟩, hx⟩
                · intro hcx
                  rw [hcx] at hxlt
                  omega
              obtain ⟨hwoL, hwoR, hsepbnd, ⟨bw, hbwgt, hbwbnd⟩, hneL, hneR⟩ :=
                split_internal_owf w t.root
                  (db1.block_size * db1.meta.num_blocks_allocated) rks rps sep0
                  none none db1 db2
                  hld1 hwf1 hwo1 hne1 hglS hstLS hstRS hchfix1
              have hnd2 : (subOffsets (w + 1 + 1)
                  (db.block_size * db.meta.num_blocks_allocated) db1).Nodup := by
                rw [subOffsets_of_internal (w + 1) _ db1 [] [t.root] hst1]
                simp only [List.map_cons, List.map_nil, List.flatten_cons, List.flatten_nil,
                  List.append_nil]
                rw [List.nodup_cons, hsub1]
                refine ⟨?_, hnd⟩
                intro hx
                exact absurd (subOffsets_lt_of_WFb (w + 1) t.root db hwf _ hx) (by omega)
              have hdisjLR : ∀ x, x ∈ subOffsets (w + 1) t.root db2 →
                  x ∈ subOffsets (w + 1)
                    (db1.block_size * db1.meta.num_blocks_allocated) db2 → False := by
                intro x hx1 hx2
                rw [hsubLeq] at hx1
                rw [hsubReq] at hx2
                have hflsplit := flatten_map_take_drop
                  (fun o => subOffsets w o db1) rps (rks.length / 2)
                have hrootlt1 : t.root < db1.block_size * db1.meta.num_blocks_allocated :=
                  lt_of_lt_of_le hrootlt hlim1
                rcases List.mem_cons.mp hx1 with rfl | hm1
                · rcases List.mem_cons.mp hx2 with he | hm2
                  · omega
                  · refine hconot1 ?_
                    rw [hflsplit]
                    exact List.mem_append.mpr (Or.inr hm2)
                · rcases List.mem_cons.mp hx2 with he2 | hm2
                  · have hxin : x ∈ subOffsets (w + 1) t.root db1 := by
                      rw [subOffsets_of_internal w t.root db1 rks rps hld1]
                      refine List.mem_cons.mpr (Or.inr ?_)
                      rw [hflsplit]
                      exact List.mem_append.mpr (Or.inl hm1)
                    have := subOffsets_lt_of_WFb (w + 1) t.root db1 hwf1 x hxin
                    omega
                  · have hnd3 := hflat1
                    rw [hflsplit, List.nodup_append] at hnd3
                    exact hnd3.2.2 hm1 hm2
              have hstep := split_step w (db.block_size * db.meta.num_blocks_allocated)
                none none [] [t.root] 0 t.root
                (db1.block_size * db1.meta.num_blocks_allocated) sep0
                [sep0] [t.root, db1.block_size * db1.meta.num_blocks_allocated]
                db1 db2 hst1 hfresh1 rfl rfl
                (by
                  intro o ho
                  have ho2 : o = t.root := by simpa using ho
                  rw [ho2]
                  exact hwf1)
                (by
                  intro j hj
                  have hj2 : j < 1 := by simpa using hj
                  have hj0 : j = 0 := by omega
                  rw [hj0]
                  exact hwo1)
                (by
                  intro o ho
                  have ho2 : o = t.root := by simpa using ho
                  rw [ho2]
                  exact hne1)
                hnd2 rfl rfl rfl rfl hstU3 hmeta2
                (by
                  intro o h1 h2 h3
                  refine hframe2 o ?_ h2 h3
                  rw [hpgoff]
                  exact h1)
                hwfL hwfR hndL hndR hmemL hmemR hdisjLR
                hwoL hwoR hneL hneR hsepbnd
                (by
                  intro vv hvv
                  simp at hvv)
              have hout0 : InsOut (w + 1) t.root none (some sep0) db2 db2 :=
                ⟨hwfL, hwoL, hndL, fun x hx => Or.inl hx, hneL,
                  fun o _ _ => rfl, rfl, Nat.le_refl _⟩
              have hinv2 := hstep 0 db2 (by simp) hout0
              obtain ⟨hwfU, hwoU, hndU2, _, hneU, _, _, _⟩ := hinv2
              have hloadU : Page.load (db.block_size * db.meta.num_blocks_allocated) db2 =
                  .ok (.internal { offset := db.block_size * db.meta.num_blocks_allocated, keys := [sep0], pointers := [t.root, db1.block_size * db1.meta.num_blocks_allocated] }) := by
                unfold Page.load
                rw [hstU3]
              obtain ⟨hwf', hwo', hnd', _, hne', _, _, _⟩ :=
                insert_nonfull_inv fuel (w + 1 + 1)
                  (db.block_size * db.meta.num_blocks_allocated) key data db2 dbI
                  (.internal { offset := db.block_size * db.meta.num_blocks_allocated, keys := [sep0], pointers := [t.root, db1.block_size * db1.meta.num_blocks_allocated] })
                  none none hloadU hwfU hndU2 hwoU rfl (Or.inr hneU) hins
              rw [ht', hdbI]
              have hroot : ({ root := pg.offset } : BTree).root =
                  db.block_size * db.meta.num_blocks_allocated := by
                rw [hpg]
              rw [hroot]
              exact ⟨w + 1 + 1, hwf', hnd', hwo', hne'⟩

/-- A sequence of inserts executed in order: each element carries the key,
the payload bytes and the fuel given to `BTree::insert` for that call. -/
def insertRun : List (Nat × List Nat × Nat) → BTree → DB → ER (BTree × DB)
  | [], t, db => .ok (t, db)
  | (key, data, fuel) :: ops, t, db => do
    let (t2, db2) ← BTree.insert fuel t key data db
    insertRun ops t2 db2

/-- The freshly initialized tree is well formed, ordered and duplicate-free,
and its root is a (still empty) leaf page. -/
theorem btree_init_inv (db0 : DB) :
    WFb 1 (BTree.init db0).1.root (BTree.init db0).2 = true ∧
    (subOffsets 1 (BTree.init db0).1.root (BTree.init db0).2).Nodup ∧
    WFo 1 (BTree.init db0).1.root none none (BTree.init db0).2 = true ∧
    (∃ es blob, (BTree.init db0).2.store.get (BTree.init db0).1.root =
      some (.leafData es blob)) := by
  have e1 : BTree.init db0 =
      ({ root := db0.block_size * db0.meta.num_blocks_allocated },
        { db0 with
          meta := { db0.meta with
            num_blocks_allocated := db0.meta.num_blocks_allocated + 1 },
          store := db0.store.put (db0.block_size * db0.meta.num_blocks_allocated)
            (.leafData [] []) }) := rfl
  rw [e1]
  simp only []
  have hst : (({ db0 with
      meta := { db0.meta with
        num_blocks_allocated := db0.meta.num_blocks_allocated + 1 },
      store := db0.store.put (db0.block_size * db0.meta.num_blocks_allocated)
        (.leafData [] []) } : DB)).store.get
        (db0.block_size * db0.meta.num_blocks_allocated) =
      some (.leafData [] []) := Store.get_put_self _ _ _
  have hlt : db0.block_size * db0.meta.num_blocks_allocated <
      db0.block_size * (db0.meta.num_blocks_allocated + 1) := by
    have hbs : 0 < db0.block_size := Nat.pos_pow_of_pos _ (by omega)
    have h2 : db0.block_size * (db0.meta.num_blocks_allocated + 1) =
        db0.block_size * db0.meta.num_blocks_allocated + db0.block_size := by ring
    omega
  refine ⟨?_, ?_, ?_, [], [], hst⟩
  · unfold WFb
    rw [hst]
    simp only [Bool.and_eq_true, decide_eq_true_eq]
    exact ⟨hlt, by simp [leafSorted, entryKeys]⟩
  · rw [subOffsets_of_leaf 0 _ _ [] [] hst]
    exact List.nodup_singleton _
  · rw [WFo_of_leaf 0 _ none none _ [] [] hst]
    rfl

/-- The well-formedness bundle is preserved along any successful sequence of
inserts. -/
theorem insertRun_inv : ∀ (ops : List (Nat × List Nat × Nat)) (fw : Nat)
    (t t' : BTree) (db db' : DB),
    WFb fw t.root db = true →
    (subOffsets fw t.root db).Nodup →
    WFo fw t.root none none db = true →
    ((∃ es blob, db.store.get t.root = some (.leafData es blob)) ∨
      allLeavesNE fw t.root db = true) →
    insertRun ops t db = .ok (t', db') →
    ∃ fw', WFb fw' t'.root db' = true ∧
      (subOffsets fw' t'.root db').Nodup ∧
      WFo fw' t'.root none none db' = true ∧
      ((∃ es blob, db'.store.get t'.root = some (.leafData es blob)) ∨
        allLeavesNE fw' t'.root db' = true) := by
  intro ops
  induction ops with
  | nil =>
    intro fw t t' db db' hwf hnd hwo hne hrun
    unfold insertRun at hrun
    replace hrun : Except.ok (ε := EngineErr) (t, db) = .ok (t', db') := hrun
    injection hrun with h2
    have ht' : t' = t := (congrArg Prod.fst h2).symm
    have hdb' : db' = db := (congrArg Prod.snd h2).symm
    rw [ht', hdb']
    exact ⟨fw, hwf, hnd, hwo, hne⟩
  | cons op ops ih =>
    intro fw t t' db db' hwf hnd hwo hne hrun
    obtain ⟨key, rop⟩ := op
    obtain ⟨data, fuel⟩ := rop
    unfold insertRun at hrun
    cases hin : BTree.insert fuel t key data db with
    | error e =>
      rw [hin] at hrun
      cases hrun
    | ok r =>
      obtain ⟨t2, db2⟩ := r
      rw [hin, bind_ok_er] at hrun
      simp only [] at hrun
      obtain ⟨fw2, hwf2, hnd2, hwo2, hne2⟩ :=
        insert_inv fuel fw key data t t2 db db2 hwf hnd hwo hne hin
      exact ih fw2 t2 t' db2 db' hwf2 hnd2 hwo2 (Or.inr hne2) hrun

/-- C9: for every tree state reachable by a sequence of inserts from a fresh
tree, the `keys()` iterator (given enough fuel) succeeds and yields exactly
the in-order concatenation of the leaf directories — visiting each leaf's
slots in order and advancing to the next leaf when one is exhausted — and the
resulting key list is strictly ascending, hence lists every stored key
exactly once with no duplicates. -/
theorem c9_keys_iterator_sorted_unique (ops : List (Nat × List Nat × Nat))
    (db0 : DB) (t' : BTree) (db2 : DB)
    (hrun : insertRun ops (BTree.init db0).1 (BTree.init db0).2 = .ok (t', db2)) :
    ∃ fw,
      treeKeys fw t'.root db2 =
        ((leavesPure fw t'.root db2).map fun l => entryKeys l.keys).flatten ∧
      (treeKeys fw t'.root db2).Sorted (· < ·) ∧
      (treeKeys fw t'.root db2).Nodup ∧
      ∀ g, fw ≤ g → (treeKeys fw t'.root db2).length + 1 ≤ g →
        BTree.keys g { root := t'.root } db2 = .ok (treeKeys fw t'.root db2) := by
  obtain ⟨hwf0, hnd0, hwo0, hne0⟩ := btree_init_inv db0
  obtain ⟨fw, hwf, hnd, hwo, hne⟩ := insertRun_inv ops 1 (BTree.init db0).1 t'
    (BTree.init db0).2 db2 hwf0 hnd0 hwo0 (Or.inl hne0) hrun
  have hsorted : (treeKeys fw t'.root db2).Sorted (· < ·) :=
    (keys_of_WF fw t'.root db2 (fw + (treeKeys fw t'.root db2).length + 1)
      hwf hwo hne (by omega) (by omega)).2
  refine ⟨fw, (treeKeys_eq_leaves fw t'.root db2).symm, hsorted, hsorted.nodup, ?_⟩
  intro g hg1 hg2
  exact (keys_of_WF fw t'.root db2 g hwf hwo hne hg1 hg2).1

/-- Four one-byte inserts on 128-byte pages: the fourth one splits the root
leaf, so the final state exercises the iterator across two leaves under an
internal root. -/
def c9wOps : List (Nat × List Nat × Nat) :=
  [(1, [7], 10), (2, [7], 10), (3, [7], 10), (4, [7], 10)]

/-- The tree handle and database produced by running `c9wOps` on a freshly
initialized tree over `db7`. -/
def c9wRes : BTree × DB :=
  (insertRun c9wOps (BTree.init db7).1 (BTree.init db7).2).toOption.getD
    ({ root := 0 }, db7)

/-- A parent holding only the three-slot leaf of `dbThreeSlots` as child 0,
placed away from both the leaf (256) and the next fresh block (512). -/
def c4wNode : InternalPage := { offset := 768, keys := [], pointers := [256] }

/-- The run of `btree_split_child` on that parent: the three-slot leaf splits,
and the separator installed at `keys[0]` is key 1, the largest (and only) key
remaining on the truncated left leaf. -/
def c4wSplit : Page × Page × InternalPage × DB :=
  (BTree.btree_split_child 10 c4wNode 0 dbThreeSlots).toOption.getD
    (.leaf { offset := 0, keys := [] }, .leaf { offset := 0, keys := [] },
      { offset := 0, keys := [], pointers := [] }, dbThreeSlots)

/-- A run of `BTree::insert` that forces a root split: a 120-byte value does
not fit the three-slot 256-byte root leaf, so the root becomes internal (at
offset 512) over the two leaf halves before the insert descends. -/
def c4wRes : BTree × DB :=
  (BTree.insert 10 { root := 256 } 4 (List.replicate 120 7) dbThreeSlots).toOption.getD
    ({ root := 0 }, dbThreeSlots)

set_option maxRecDepth 40000 in
theorem c4_separator_and_descent_convention_witness :
    (∃ lastE : LeafPageEntry,
      c4wSplit.2.2.1.keys.get? 0 = some lastE.key ∧
      (∃ blob2, c4wSplit.2.2.2.store.get 256 =
        some (.leafData [{ key := 1, offset := 226, value_len := 10 }] blob2)) ∧
      lastE ∈ [({ key := 1, offset := 226, value_len := 10 } : LeafPageEntry)] ∧
      (∀ e ∈ [({ key := 1, offset := 226, value_len := 10 } : LeafPageEntry)],
        e.key ≤ lastE.key)) ∧
    (keyInsertIdx [5, 9] 9 = 1 ∧
      BTree.btree_search 4 (.internal { offset := 256, keys := [5, 9], pointers := [10, 20, 30] })
          9 dbThreeSlots =
        (match ([10, 20, 30] : List Nat).get? 1 with
          | none => (.error .panicked : ER (Option (List Nat)))
          | some o => do
            let c ← Page.load o dbThreeSlots
            BTree.btree_search 3 c 9 dbThreeSlots)) ∧
    BTree.lookup 10 (BTree.from_offset c4wRes.1.root) 4 c4wRes.2 =
      .ok (some (List.replicate 120 7)) := by
  obtain ⟨ha, hb, hc⟩ := c4_separator_and_descent_convention
  refine ⟨?_, ?_, ?_⟩
  · exact ha 10 c4wNode 0 dbThreeSlots 256
      [{ key := 1, offset := 226, value_len := 10 },
        { key := 2, offset := 216, value_len := 10 },
        { key := 3, offset := 206, value_len := 10 }] [] c4wSplit.1 c4wSplit.2.1
      c4wSplit.2.2.1 c4wSplit.2.2.2 rfl rfl (by decide) (by decide) (by decide) (by decide)
      rfl rfl
  · exact hb 3 { offset := 256, keys := [5, 9], pointers := [10, 20, 30] } 1 9 dbThreeSlots
      (by decide) rfl
  · exact hc 10 1 { root := 256 } c4wRes.1 4 (List.replicate 120 7) dbThreeSlots c4wRes.2
      (by decide) (by decide) rfl


set_option maxRecDepth 100000 in
/-- The C9 theorem instantiated on the concrete four-insert run over `db7`:
the fourth insert splits the root leaf, so the final tree has an internal
root over two leaves. -/
theorem c9_keys_iterator_sorted_unique_witness :
    ∃ fw,
      treeKeys fw c9wRes.1.root c9wRes.2 =
        ((leavesPure fw c9wRes.1.root c9wRes.2).map fun l => entryKeys l.keys).flatten ∧
      (treeKeys fw c9wRes.1.root c9wRes.2).Sorted (· < ·) ∧
      (treeKeys fw c9wRes.1.root c9wRes.2).Nodup ∧
      ∀ g, fw ≤ g → (treeKeys fw c9wRes.1.root c9wRes.2).length + 1 ≤ g →
        BTree.keys g { root := c9wRes.1.root } c9wRes.2 =
          .ok (treeKeys fw c9wRes.1.root c9wRes.2) :=
  c9_keys_iterator_sorted_unique c9wOps db7 c9wRes.1 c9wRes.2 (by decide)

end TreeData
